import Mathlib

/-!
# autofs request broker and automountd map tree

A shallow embedding of

* `sys/fs/autofs/autofs.c`: the queue of mount-trigger requests shared by the
  kernel and the automount daemon (`autofs_ioctl_request`, `autofs_ioctl_done`);
* `usr.sbin/automountd/common.c`: the tree of map nodes, the path functions
  on it and the map parser.

C strings are lists of characters (the terminating NUL is not stored).
Pointers into a `TAILQ` are positions in a list; `NULL` is `none`.
-/

namespace Autofs

/-- A NUL-terminated C string, without its terminator. -/
abbrev cstring := List Char

/-! ## Part 1: the request queue of `autofs.c` -/

/-- Value of `ESRCH` in `sys/errno.h`. -/
def ESRCH : Int := 3

/-- The fields of `struct autofs_request` that `autofs.c` reads and writes.
The queue linkage `ar_next` is the position of the request in the list
`sc_requests`. -/
structure autofs_request where
  ar_id : Int
  ar_done : Bool
  ar_in_progress : Bool
  ar_from : cstring
  ar_mountpoint : cstring
  ar_path : cstring
  ar_options : cstring
deriving DecidableEq, Repr

/-- The record `struct autofs_daemon_request` of `autofs_ioctl.h`. -/
structure autofs_daemon_request where
  adr_id : Int
  adr_from : cstring
  adr_prefix : cstring
  adr_mountpoint : cstring
  adr_key : cstring
  adr_path : cstring
  adr_options : cstring
deriving DecidableEq, Repr

/-- The record `struct autofs_daemon_done` of `autofs_ioctl.h`. -/
structure autofs_daemon_done where
  add_id : Int
deriving DecidableEq, Repr

/-- The libc routine `strlcpy(dst, src, size)`: the new contents of `dst`.
At most `size - 1` characters of `src` are copied; with `size = 0` nothing
is written. -/
def strlcpy (dst src : cstring) (size : Nat) : cstring :=
  if size = 0 then dst else src.take (size - 1)

/-- A request whose strings fit the `char [MAXPATHLEN]` buffers that hold
them. -/
def request_fits (MAXPATHLEN : Nat) (ar : autofs_request) : Prop :=
  ar.ar_from.length < MAXPATHLEN ∧ ar.ar_mountpoint.length < MAXPATHLEN ∧
  ar.ar_path.length < MAXPATHLEN ∧ ar.ar_options.length < MAXPATHLEN

instance (M : Nat) (ar : autofs_request) : Decidable (request_fits M ar) := by
  unfold request_fits; infer_instance

/-- The scan `TAILQ_FOREACH(ar, &sc->sc_requests, ar_next)` of
`autofs_ioctl_request`: requests that are done or in progress are skipped
(`continue`), the first other one ends the scan (`break`).  The result is the
final value of `ar`: the position of that request, or `none` for `NULL`. -/
def request_scan : List autofs_request → Option Nat
  | [] => none
  | ar :: rest =>
    if ar.ar_done then (request_scan rest).map (· + 1)
    else if ar.ar_in_progress then (request_scan rest).map (· + 1)
    else some 0

/-- One return of `cv_wait_sig(&sc->sc_cv, &sc->sc_lock)`: the value it
returns and the queue as the other threads left it when the lock is held
again. -/
structure cv_wakeup where
  error : Int
  sc_requests : List autofs_request
deriving DecidableEq, Repr

/-- What a call of `autofs_ioctl_request` leaves behind: its return value, the
caller's `adr`, the queue, the final value of the local `ar`, and the
wake-ups that the call did not consume. -/
structure request_result where
  error : Int
  adr : autofs_daemon_request
  sc_requests : List autofs_request
  ar : Option Nat
  pending : List cv_wakeup
deriving DecidableEq, Repr

/-- The end of `autofs_ioctl_request`, reached when the scan left `ar` at
position `i`: the request is marked in progress, the lock released, its id and
strings copied to `adr`, and 0 returned.  `wakeups` are the wake-ups not
consumed. -/
def request_claim (MAXPATHLEN : Nat) (adr : autofs_daemon_request)
    (q : List autofs_request) (i : Nat) (wakeups : List cv_wakeup) : Option request_result :=
  match q[i]? with
  | none => none
  | some ar =>
    some { error := 0
           adr := { adr with
             adr_id := ar.ar_id
             adr_from := strlcpy adr.adr_from ar.ar_from MAXPATHLEN
             adr_mountpoint := strlcpy adr.adr_mountpoint ar.ar_mountpoint MAXPATHLEN
             adr_path := strlcpy adr.adr_path ar.ar_path MAXPATHLEN
             adr_options := strlcpy adr.adr_options ar.ar_options MAXPATHLEN }
           sc_requests := q.modify (fun r => { r with ar_in_progress := true }) i
           ar := some i
           pending := wakeups }

/-- The function `autofs_ioctl_request`.  The second argument lists the future
returns of `cv_wait_sig`; the result is `none` when the call is still asleep
after the last of them. -/
def autofs_ioctl_request (MAXPATHLEN : Nat) (adr : autofs_daemon_request) :
    List autofs_request → List cv_wakeup → Option request_result
  | q, [] =>
    match request_scan q with
    | some i => request_claim MAXPATHLEN adr q i []
    | none => none
  | q, w :: rest =>
    match request_scan q with
    | some i => request_claim MAXPATHLEN adr q i (w :: rest)
    | none =>
      if w.error ≠ 0 then
        some { error := w.error, adr := adr, sc_requests := w.sc_requests,
               ar := none, pending := rest }
      else autofs_ioctl_request MAXPATHLEN adr w.sc_requests rest

/-- The scan `TAILQ_FOREACH` of `autofs_ioctl_done`: the position of the first
request whose `ar_id` is `id`, or `none` for `NULL`. -/
def done_scan (id : Int) : List autofs_request → Option Nat
  | [] => none
  | ar :: rest => if ar.ar_id = id then some 0 else (done_scan id rest).map (· + 1)

/-- What a call of `autofs_ioctl_done` leaves behind: its return value, the
queue, and whether `cv_signal(&sc->sc_cv)` was called. -/
structure done_result where
  error : Int
  sc_requests : List autofs_request
  cv_signalled : Bool
deriving DecidableEq, Repr

/-- The function `autofs_ioctl_done`. -/
def autofs_ioctl_done (q : List autofs_request) (add : autofs_daemon_done) : done_result :=
  match done_scan add.add_id q with
  | none => { error := ESRCH, sc_requests := q, cv_signalled := false }
  | some i =>
    { error := 0
      sc_requests := q.modify (fun ar => { ar with ar_done := true, ar_in_progress := false }) i
      cv_signalled := true }

/-- Modelled from the spec: the enqueue of a fresh mount-trigger request by the
trigger collaborator, which is not part of `autofs.c`.  The request goes to
the tail of the queue with both flags clear. -/
def request_enqueue (q : List autofs_request) (id : Int)
    (frm mountpoint path options : cstring) : List autofs_request :=
  q ++ [{ ar_id := id, ar_done := false, ar_in_progress := false, ar_from := frm,
          ar_mountpoint := mountpoint, ar_path := path, ar_options := options }]

/-- The operations on the queue, each performed with `sc_lock` held.
`claim_next adr signals` is a call of `autofs_ioctl_request` placed in the
sequence where its last scan takes place; `signals` are the values returned by
its calls of `cv_wait_sig` while no other operation runs. -/
inductive broker_op where
  | claim_next (adr : autofs_daemon_request) (signals : List Int)
  | complete (add : autofs_daemon_done)
  | enqueue (id : Int) (frm mountpoint path options : cstring)
deriving DecidableEq, Repr

/-- A successful return of `autofs_ioctl_request`: the queue the call scanned,
the request it returned (the local `ar`) and the record handed to the daemon. -/
structure claim_event where
  before : List autofs_request
  ar : Nat
  adr : autofs_daemon_request
deriving DecidableEq, Repr

/-- The effect of one operation on the queue, with the successful claim it
makes, if any. -/
def broker_step (MAXPATHLEN : Nat) (q : List autofs_request) :
    broker_op → Option claim_event × List autofs_request
  | .claim_next adr signals =>
    match autofs_ioctl_request MAXPATHLEN adr q
        (signals.map fun e => { error := e, sc_requests := q }) with
    | none => (none, q)
    | some res =>
      match res.error, res.ar with
      | 0, some i => (some { before := q, ar := i, adr := res.adr }, res.sc_requests)
      | _, _ => (none, res.sc_requests)
  | .complete add => (none, (autofs_ioctl_done q add).sc_requests)
  | .enqueue id frm mountpoint path options =>
    (none, request_enqueue q id frm mountpoint path options)

/-- A sequence of operations run from queue `q`: the successful claims in the
order they were made, and the final queue. -/
def broker_run (MAXPATHLEN : Nat) :
    List broker_op → List autofs_request → List claim_event × List autofs_request
  | [], q => ([], q)
  | op :: ops, q =>
    let r := broker_step MAXPATHLEN q op
    let rest := broker_run MAXPATHLEN ops r.2
    (r.1.toList ++ rest.1, rest.2)

/-- The operation is not an enqueue. -/
def broker_op.keeps_queue : broker_op → Bool
  | .enqueue .. => false
  | _ => true

/-- A queue of four requests: one done, one in progress, two waiting. -/
def example_requests : List autofs_request :=
  [ { ar_id := 5, ar_done := true, ar_in_progress := false, ar_from := "/net".toList,
      ar_mountpoint := "/net".toList, ar_path := "/a".toList, ar_options := [] },
    { ar_id := 6, ar_done := false, ar_in_progress := true, ar_from := "/net".toList,
      ar_mountpoint := "/net".toList, ar_path := "/b".toList, ar_options := [] },
    { ar_id := 7, ar_done := false, ar_in_progress := false, ar_from := "/home".toList,
      ar_mountpoint := "/home".toList, ar_path := "/c".toList, ar_options := "ro".toList },
    { ar_id := 8, ar_done := false, ar_in_progress := false, ar_from := "/home".toList,
      ar_mountpoint := "/home".toList, ar_path := "/d".toList, ar_options := [] } ]

/-- The queue `example_requests` once its two waiting requests are in progress. -/
def example_busy_requests : List autofs_request :=
  example_requests.map fun r => { r with ar_in_progress := !r.ar_done }

/-- An `adr` record with every field empty. -/
def example_adr : autofs_daemon_request :=
  { adr_id := 0, adr_from := [], adr_prefix := [], adr_mountpoint := [], adr_key := [],
    adr_path := [], adr_options := [] }

/-! ## Part 2: the map tree of `common.c`

The nodes live in a heap, a list of `struct node`; a pointer to a node is its
position in the heap.  The `TAILQ` of children of a node is the list
`n_children` of the pointers to them, in queue order. -/

/-- The record `struct node`.  Every node this file creates has a key, so
`n_key` is a string; `n_options` and `n_location` may be `NULL`. -/
structure node where
  n_key : cstring
  n_options : Option cstring
  n_location : Option cstring
  n_config_file : cstring
  n_config_line : Int
  n_parent : Option Nat
  n_children : List Nat
deriving DecidableEq, Repr

/-- The memory holding the nodes. -/
abbrev node_heap := List node

/-- The function `separated_concat`. -/
def separated_concat (s1 s2 : cstring) (separator : Char) : cstring :=
  if s1 = [] ∨ s2 = [] ∨ s1.getLast? = some separator ∨ s2.head? = some separator then
    s1 ++ s2
  else
    s1 ++ separator :: s2

/-- The function `node_new_root`: the heap with the new root, and the pointer
to it. -/
def node_new_root (h : node_heap) : node_heap × Nat :=
  (h ++ [{ n_key := ['/'], n_options := none, n_location := none, n_config_file := [],
           n_config_line := 0, n_parent := none, n_children := [] }], h.length)

/-- The function `node_new`: the heap with the new node, which is put at the
tail of the children of `parent`, and the pointer to it. -/
def node_new (h : node_heap) (parent : Nat) (key : cstring) (options location : Option cstring)
    (config_file : cstring) (config_line : Int) : node_heap × Nat :=
  let n : node :=
    { n_key := key, n_options := options, n_location := location,
      n_config_file := config_file, n_config_line := config_line,
      n_parent := some parent, n_children := [] }
  ((h ++ [n]).modify (fun p => { p with n_children := p.n_children ++ [h.length] }) parent,
   h.length)

/-- The step "strip trailing slash" of `node_mountpoint_x`.  On the empty
string the source reads `path[len - 1]` outside the string: no result. -/
def strip_trailing_slash (path : cstring) : Option cstring :=
  if path = [] then none
  else if path.getLast? = some '/' then some path.dropLast
  else some path

/-- The function `node_mountpoint_x`.  The first argument bounds the number of
calls; the result is `none` when it is used up, when a pointer leaves the heap
or when the source reads outside a string. -/
def node_mountpoint_x (h : node_heap) : Nat → Nat → cstring → Option cstring
  | 0, _, _ => none
  | fuel + 1, n, x =>
    match h[n]? with
    | none => none
    | some nd =>
      match nd.n_parent with
      | none => some x
      | some p =>
        match h[p]? with
        | none => none
        | some pn =>
          if pn.n_parent = none ∧ nd.n_key = ['/', '-'] ∧ x ≠ [] then some x
          else
            match strip_trailing_slash (separated_concat nd.n_key x '/') with
            | none => none
            | some path => node_mountpoint_x h fuel p path

/-- The function `node_mountpoint`. -/
def node_mountpoint (h : node_heap) (fuel : Nat) (n : Nat) : Option cstring :=
  node_mountpoint_x h fuel n []

/-- The function `node_is_direct_map`.  The first argument bounds the number
of iterations of the loop; the result is `none` when it is used up, when a
pointer leaves the heap or when `assert(n->n_parent != NULL)` fails. -/
def node_is_direct_map (h : node_heap) : Nat → Nat → Option Bool
  | 0, _ => none
  | fuel + 1, n =>
    match h[n]? with
    | none => none
    | some nd =>
      match nd.n_parent with
      | none => none
      | some p =>
        match h[p]? with
        | none => none
        | some pn =>
          if pn.n_parent = none then some (decide (nd.n_key = ['/', '-']))
          else node_is_direct_map h fuel p

/-- The loop `TAILQ_FOREACH(n, &root->n_children, n_next)` of `node_find`: the
first non-`NULL` result of `find` on a child, `NULL` when there is none. -/
def node_find_children (find : Nat → Option (Option Nat)) : List Nat → Option (Option Nat)
  | [] => some none
  | n :: rest =>
    match find n with
    | none => none
    | some (some n2) => some (some n2)
    | some none => node_find_children find rest

/-- The function `node_find`.  `mfuel` bounds the calls of `node_mountpoint_x`,
the next argument the depth of the recursion; the result is `none` when a
bound is used up or `node_mountpoint` has no result, `some none` for `NULL`. -/
def node_find (h : node_heap) (mfuel : Nat) : Nat → Nat → cstring → Option (Option Nat)
  | 0, _, _ => none
  | fuel + 1, root, mountpoint =>
    match h[root]? with
    | none => none
    | some nd =>
      if nd.n_key = ['*'] then some (some root)
      else
        match node_mountpoint h mfuel root with
        | none => none
        | some tmp =>
          if tmp = mountpoint then some (some root)
          else node_find_children (fun n => node_find h mfuel fuel n mountpoint) nd.n_children

/-- `key_chain h n ks`: following `n_parent` from node `n` reaches a node
without parent (the root), and `ks` are the keys met on the way, the root's
own key left out, listed from the child of the root down to `n`. -/
inductive key_chain (h : node_heap) : Nat → List cstring → Prop where
  | root (n : Nat) (nd : node) : h[n]? = some nd → nd.n_parent = none → key_chain h n []
  | step (n p : Nat) (nd : node) (ks : List cstring) :
      h[n]? = some nd → nd.n_parent = some p → key_chain h p ks →
      key_chain h n (ks ++ [nd.n_key])

/-- The keys `k1 .. kn` joined by single `/` characters. -/
def join_keys : List cstring → cstring
  | [] => []
  | [k] => k
  | k :: rest => k ++ '/' :: join_keys rest

/-- `subtree_depth h n d`: the subtree below node `n` is in the heap and has at
most `d` levels. -/
inductive subtree_depth (h : node_heap) : Nat → Nat → Prop where
  | mk (n d : Nat) (nd : node) : h[n]? = some nd →
      (∀ c ∈ nd.n_children, subtree_depth h c d) → subtree_depth h n (d + 1)

/-- The nodes of the subtree rooted at `n` in depth-first pre-order, children
in list order, down to `depth` levels. -/
def preorder (h : node_heap) : Nat → Nat → List Nat
  | 0, _ => []
  | depth + 1, n =>
    match h[n]? with
    | none => []
    | some nd => n :: nd.n_children.flatMap (preorder h depth)

/-- The test `node_find` makes on a node: its key is `*`, or its mountpoint is
the one looked for. -/
def node_matches (h : node_heap) (mfuel : Nat) (mountpoint : cstring) (n : Nat) : Bool :=
  match h[n]? with
  | none => false
  | some nd => nd.n_key = ['*'] || node_mountpoint h mfuel n = some mountpoint

/-! ### The map parser

The scanner is not part of `common.c`.  A call of `yylex()` returns 0 at the
end of the input, `NEWLINE`, or the code of a word, and leaves the word in
`yytext` and the current line number in `lineno`. -/

/-- One return of `yylex()` before the end of the input: whether the code is
`NEWLINE`, and the values of `yytext` and `lineno` after the call. -/
structure lexeme where
  newline : Bool
  yytext : cstring
  lineno : Int
deriving DecidableEq, Repr

/-- The fatal error raised by `log_errx(1, "... in %s, line %d", map, lineno)`. -/
structure parse_error where
  message : String
  file : cstring
  line : Int
deriving DecidableEq, Repr

/-- The local variables `key`, `options`, `mountpoint`, `options2` and
`location` of `parse_map_yyin`; `none` is `NULL`. -/
structure map_vars where
  key : Option cstring
  options : Option cstring
  mountpoint : Option cstring
  options2 : Option cstring
  location : Option cstring
deriving DecidableEq, Repr

/-- The outer loop of `parse_map_yyin` when `yylex()` returns 0. -/
def parse_map_eof (map : cstring) (lineno : Int) (v : map_vars) (h : node_heap) :
    Except parse_error node_heap :=
  if v.key ≠ none ∨ v.options ≠ none then
    .error { message := "truncated entry", file := map, line := lineno }
  else .ok h

/-- The body of the inner loop of `parse_map_yyin` down to the label `again`,
for the word `yytext`: the word is taken as mountpoint, as options or as
location, and a location adds a child to `node`. -/
def parse_map_word (map : cstring) (node : Nat) (yytext : cstring) (lineno : Int)
    (v : map_vars) (h : node_heap) : Except parse_error (map_vars × node_heap) :=
  if yytext.head? = some '/' then
    if v.mountpoint ≠ none then
      .error { message := "duplicated mountpoint", file := map, line := lineno }
    else if v.options2 ≠ none ∨ v.location ≠ none then
      .error { message := "mountpoint out of order", file := map, line := lineno }
    else .ok ({ v with mountpoint := some yytext }, h)
  else if yytext.head? = some '-' then
    if v.options2 ≠ none then
      .error { message := "duplicated options", file := map, line := lineno }
    else if v.location ≠ none then
      .error { message := "options out of order", file := map, line := lineno }
    else .ok ({ v with options2 := some yytext }, h)
  else if v.location ≠ none then
    .error { message := "too many arguments", file := map, line := lineno }
  else
    .ok ({ v with mountpoint := none, options2 := none, location := none },
      (node_new h node (v.mountpoint.getD ['/']) (some (v.options2.getD [])) (some yytext)
        map lineno).1)

/-- The test made in the inner loop when `yylex()` returns 0 or `NEWLINE`. -/
def parse_map_pending (v : map_vars) : Bool :=
  v.mountpoint ≠ none ∨ v.options2 ≠ none ∨ v.location ≠ none

mutual

/-- The outer loop of `parse_map_yyin`, at the call of `yylex()` that opens an
iteration.  `lineno` is the value of the global before the call. -/
def parse_map_outer (map : cstring) (parent : Nat) :
    List lexeme → Int → map_vars → node_heap → Except parse_error node_heap
  | [], lineno, v, h => parse_map_eof map lineno v h
  | t :: ts, _, v, h =>
    if t.newline then
      if v.key ≠ none ∨ v.options ≠ none then
        .error { message := "truncated entry", file := map, line := t.lineno }
      else parse_map_outer map parent ts t.lineno { v with key := none, options := none } h
    else
      match v.key with
      | none =>
        if t.yytext.head? = some '+' then
          parse_map_outer map parent ts t.lineno { v with key := none, options := none }
            (node_new h parent t.yytext none none map t.lineno).1
        else parse_map_outer map parent ts t.lineno { v with key := some t.yytext } h
      | some key =>
        if t.yytext.head? = some '-' then
          if v.options ≠ none then
            .error { message := "duplicated options", file := map, line := t.lineno }
          else parse_map_outer map parent ts t.lineno { v with options := some t.yytext } h
        else
          parse_map_inner map parent (node_new h parent key v.options none map t.lineno).2
            t.yytext ts t.lineno { v with key := none, options := none }
            (node_new h parent key v.options none map t.lineno).1

/-- The inner loop of `parse_map_yyin`, at the head of an iteration: `node` is
the first-level node, `yytext` the word to look at, `lineno` the current
line.  When `yylex()` returns 0 the loop is left and the outer loop calls
`yylex()` once more, which returns 0 again. -/
def parse_map_inner (map : cstring) (parent : Nat) (node : Nat) (yytext : cstring) :
    List lexeme → Int → map_vars → node_heap → Except parse_error node_heap
  | [], lineno, v, h =>
    match parse_map_word map node yytext lineno v h with
    | .error e => .error e
    | .ok (v2, h2) =>
      if parse_map_pending v2 then
        .error { message := "truncated entry", file := map, line := lineno }
      else parse_map_eof map lineno v2 h2
  | t :: ts, lineno, v, h =>
    match parse_map_word map node yytext lineno v h with
    | .error e => .error e
    | .ok (v2, h2) =>
      if t.newline then
        if parse_map_pending v2 then
          .error { message := "truncated entry", file := map, line := t.lineno }
        else parse_map_outer map parent ts t.lineno v2 h2
      else parse_map_inner map parent node t.yytext ts t.lineno v2 h2

end

/-- The function `parse_map_yyin`, run on the lexemes that `yylex()` will
return, from line number `lineno`. -/
def parse_map_yyin (h : node_heap) (parent : Nat) (map : cstring) (lineno : Int)
    (input : List lexeme) : Except parse_error node_heap :=
  parse_map_outer map parent input lineno
    { key := none, options := none, mountpoint := none, options2 := none, location := none } h

/-- A word returned by `yylex()` on line `lineno`. -/
def lex_word (text : String) (lineno : Int) : lexeme :=
  { newline := false, yytext := text.toList, lineno := lineno }

/-- The end of line `lineno - 1` as returned by `yylex()`. -/
def lex_newline (lineno : Int) : lexeme :=
  { newline := true, yytext := ['\n'], lineno := lineno }

/-- The code of `parse_map_yyin` from the label `again` on: the next call of
`yylex()`, the test for the end of the entry, and the rest of the parse.  The
variables `key` and `options` are `NULL` here. -/
def parse_map_again (map : cstring) (parent : Nat) (node : Nat) :
    List lexeme → Int → map_vars → node_heap → Except parse_error node_heap
  | [], lineno, v, h =>
    if parse_map_pending v then
      .error { message := "truncated entry", file := map, line := lineno }
    else parse_map_eof map lineno v h
  | t :: ts, _, v, h =>
    if t.newline then
      if parse_map_pending v then
        .error { message := "truncated entry", file := map, line := t.lineno }
      else parse_map_outer map parent ts t.lineno v h
    else parse_map_inner map parent node t.yytext ts t.lineno v h

/-- The error a parse ended with, if it did. -/
def failure_of (r : Except parse_error node_heap) : Option parse_error :=
  match r with
  | .ok _ => none
  | .error e => some e

/-- The test `s[0] == c` on a C string. -/
def starts_with (c : Char) (s : cstring) : Bool :=
  s.head? == some c

/-- A word of a map entry, with the line number `yylex()` reports for it. -/
structure map_word where
  text : cstring
  lineno : Int
deriving DecidableEq, Repr

/-- The lexeme of a word. -/
def map_word.lexeme (w : map_word) : lexeme :=
  { newline := false, yytext := w.text, lineno := w.lineno }

/-- A group `[/mountpoint] [-options2] location` of a map entry. -/
structure map_triple where
  mountpoint : Option map_word
  options2 : Option map_word
  location : map_word
deriving DecidableEq, Repr

/-- A map entry `key [-options] t1 .. tn` as the grammar writes it. -/
structure map_entry where
  key : map_word
  options : Option map_word
  triples : List map_triple
deriving DecidableEq, Repr

/-- The lexemes of a group, in the order written. -/
def map_triple.lexemes (t : map_triple) : List lexeme :=
  (t.mountpoint.toList ++ t.options2.toList ++ [t.location]).map map_word.lexeme

/-- The lexemes of an entry, in the order written. -/
def map_entry.lexemes (e : map_entry) : List lexeme :=
  (e.key :: e.options.toList).map map_word.lexeme ++ e.triples.flatMap map_triple.lexemes

/-- The group is as the grammar says: a mountpoint begins with `/`, options
with `-`, the location with neither. -/
def map_triple.shaped (t : map_triple) : Bool :=
  t.mountpoint.all (fun m => starts_with '/' m.text) &&
  t.options2.all (fun o => starts_with '-' o.text) &&
  !starts_with '/' t.location.text && !starts_with '-' t.location.text

/-- The entry is as the grammar says: the key does not begin with `+`, the
options begin with `-`, and at least one group follows, each as the grammar
says. -/
def map_entry.shaped (e : map_entry) : Bool :=
  !starts_with '+' e.key.text &&
  e.options.all (fun o => starts_with '-' o.text) &&
  !e.triples.isEmpty && e.triples.all map_triple.shaped

/-- The first group of the entry does not begin with options: it has a
mountpoint, or consists of a location only. -/
def map_entry.first_group_plain (e : map_entry) : Bool :=
  match e.triples with
  | [] => true
  | t :: _ => t.mountpoint.isSome || t.options2.isNone

/-- The line number of the first word of a group. -/
def map_triple.first_line (t : map_triple) : Int :=
  match t.mountpoint, t.options2 with
  | some m, _ => m.lineno
  | none, some o => o.lineno
  | none, none => t.location.lineno

/-- The line number of the first word after the key and options of an entry. -/
def map_entry.first_line (e : map_entry) : Int :=
  match e.triples with
  | [] => e.key.lineno
  | t :: _ => t.first_line

/-- The line number of the last word of a list of groups, `line` when the list
is empty. -/
def last_line (line : Int) (ts : List map_triple) : Int :=
  ts.foldl (fun _ t => t.location.lineno) line

/-- The second-level node of a group, child of `parent`: its key is the
mountpoint, `/` when there is none; its options are the options2, the empty
string when there are none; its location is the location. -/
def map_triple.node (map : cstring) (parent : Nat) (t : map_triple) : node :=
  { n_key := (t.mountpoint.map map_word.text).getD ['/']
    n_options := some ((t.options2.map map_word.text).getD [])
    n_location := some t.location.text
    n_config_file := map
    n_config_line := t.location.lineno
    n_parent := some parent
    n_children := [] }

/-- The heap `h` with one more child at the tail of the children of `parent`:
a first-level node with the given key and options, no location, and one child
for each group, in order.  The new nodes take the next free places of the
heap. -/
def map_entry_heap (h : node_heap) (parent : Nat) (map key : cstring)
    (options : Option cstring) (line : Int) (triples : List map_triple) : node_heap :=
  h.modify (fun p => { p with n_children := p.n_children ++ [h.length] }) parent ++
    ({ n_key := key, n_options := options, n_location := none, n_config_file := map,
       n_config_line := line, n_parent := some parent,
       n_children := (List.range triples.length).map (fun i => h.length + 1 + i) } : node) ::
    triples.map (map_triple.node map h.length)

/-- The heap `h` with the nodes of the entry `e` added below `parent`. -/
def entry_heap (h : node_heap) (parent : Nat) (map : cstring) (e : map_entry) : node_heap :=
  map_entry_heap h parent map e.key.text (e.options.map map_word.text) e.first_line e.triples

/-- The entry `docs -ro -rw server:/x`: options, then a group made of options2
and a location. -/
def example_entry_options2 : map_entry :=
  { key := { text := "docs".toList, lineno := 1 }
    options := some { text := "-ro".toList, lineno := 1 }
    triples := [{ mountpoint := none, options2 := some { text := "-rw".toList, lineno := 1 },
                  location := { text := "server:/x".toList, lineno := 1 } }] }

/-- The entry `docs -ro server:/export/docs`. -/
def example_entry_docs : map_entry :=
  { key := { text := "docs".toList, lineno := 1 }
    options := some { text := "-ro".toList, lineno := 1 }
    triples := [{ mountpoint := none, options2 := none,
                  location := { text := "server:/export/docs".toList, lineno := 1 } }] }

/-- What `node_mountpoint_x` computes, read off the keys met from the node up
to the child of the root: the same tests and string operations, without the
heap. -/
def mountpoint_of_keys : List cstring → cstring → Option cstring
  | [], x => some x
  | k :: up, x =>
    if up = [] ∧ k = ['/', '-'] ∧ x ≠ [] then some x
    else
      match strip_trailing_slash (separated_concat k x '/') with
      | none => none
      | some path => mountpoint_of_keys up path

/-- The keys met when following `n_parent` from node `n` up to the root, listed
from the child of the root down to `n`; `none` when the root is not reached
within `fuel` steps. -/
def node_keys (h : node_heap) : Nat → Nat → Option (List cstring)
  | 0, _ => none
  | fuel + 1, n =>
    match h[n]? with
    | none => none
    | some nd =>
      match nd.n_parent with
      | none => some []
      | some p => (node_keys h fuel p).map (· ++ [nd.n_key])

/-- Whether the subtree below node `n` is in the heap and has at most `d`
levels. -/
def subtree_within (h : node_heap) : Nat → Nat → Bool
  | 0, _ => false
  | d + 1, n =>
    match h[n]? with
    | none => false
    | some nd => nd.n_children.all (subtree_within h d)

/-- The heap an `Except` value holds, empty for an error. -/
def heap_of (r : Except parse_error node_heap) : node_heap :=
  match r with
  | .ok h => h
  | .error _ => []

/-- The tree of a master entry `/home auto_home` whose map holds the lines
`docs -ro server:/export/docs` and `src /a hostA:/a /b hostB:/b`: the root is
node 0, `/home` node 1, `docs` node 2 with child 3, `src` node 4 with
children 5 and 6. -/
def example_home_heap : node_heap :=
  heap_of (parse_map_yyin
    (node_new (node_new_root []).1 0 "/home".toList none (some "auto_home".toList)
      "auto_master".toList 1).1
    1 "auto_home".toList 1
    [lex_word "docs" 1, lex_word "-ro" 1, lex_word "server:/export/docs" 1, lex_newline 2,
     lex_word "src" 2, lex_word "/a" 2, lex_word "hostA:/a" 2, lex_word "/b" 2,
     lex_word "hostB:/b" 2, lex_newline 3])

/-- The tree of a master entry for the direct map `auto_direct`, whose key is
a slash and a dash, with the map line `/ server:/export`: the root is node 0,
the master entry node 1, the map entry with key `/` node 2 and its child
node 3. -/
def example_direct_heap : node_heap :=
  heap_of (parse_map_yyin
    (node_new (node_new_root []).1 0 ['/', '-'] none (some "auto_direct".toList)
      "auto_master".toList 1).1
    1 "auto_direct".toList 1
    [lex_word "/" 1, lex_word "server:/export" 1, lex_newline 2])

/-- The map line `/ server:/export` parsed right under the root: the root is
node 0, the map entry with key `/` node 1 and its child node 2. -/
def example_flat_heap : node_heap :=
  heap_of (parse_map_yyin (node_new_root []).1 0 "auto_direct".toList 1
    [lex_word "/" 1, lex_word "server:/export" 1, lex_newline 2])

/-- The words of a map entry that are read but not yet used when a line stops
short: a mountpoint and/or options2 without the location that should
follow. -/
structure map_dangling where
  mountpoint : Option map_word
  options2 : Option map_word
deriving DecidableEq, Repr

/-- The lexemes of the pending words, in the order written. -/
def map_dangling.lexemes (p : map_dangling) : List lexeme :=
  (p.mountpoint.toList ++ p.options2.toList).map map_word.lexeme

/-- The pending words are as the grammar says: the mountpoint begins with `/`,
the options2 with `-`. -/
def map_dangling.shaped (p : map_dangling) : Bool :=
  p.mountpoint.all (fun m => starts_with '/' m.text) &&
  p.options2.all (fun o => starts_with '-' o.text)

/-- The line number of the last pending word, `line` when there is none. -/
def map_dangling.last_line (p : map_dangling) (line : Int) : Int :=
  match p.options2, p.mountpoint with
  | some o, _ => o.lineno
  | none, some m => m.lineno
  | none, none => line

/-- The local variables `mountpoint`, `map` and `options` of
`parse_master_yyin`; `none` is `NULL`. -/
structure master_vars where
  mountpoint : Option cstring
  map : Option cstring
  options : Option cstring
deriving DecidableEq, Repr

/-- The loop of `parse_master_yyin`, at the call of `yylex()` that opens an
iteration.  `lineno` is the value of the global before the call. -/
def parse_master_loop (master : cstring) (root : Nat) :
    List lexeme → Int → master_vars → node_heap → Except parse_error node_heap
  | [], lineno, v, h =>
    match v.mountpoint with
    | some mountpoint => .ok (node_new h root mountpoint v.options v.map master lineno).1
    | none => .ok h
  | t :: ts, _, v, h =>
    if t.newline then
      match v.mountpoint with
      | some mountpoint =>
        parse_master_loop master root ts t.lineno
          { mountpoint := none, map := none, options := none }
          (node_new h root mountpoint v.options v.map master t.lineno).1
      | none =>
        parse_master_loop master root ts t.lineno
          { mountpoint := none, map := none, options := none } h
    else if v.mountpoint = none then
      parse_master_loop master root ts t.lineno { v with mountpoint := some t.yytext } h
    else if v.map = none then
      parse_master_loop master root ts t.lineno { v with map := some t.yytext } h
    else if v.options = none then
      parse_master_loop master root ts t.lineno { v with options := some t.yytext } h
    else
      .error { message := "too many arguments", file := master, line := t.lineno }

/-- The function `parse_master_yyin`, run on the lexemes that `yylex()` will
return, from line number `lineno`. -/
def parse_master_yyin (h : node_heap) (root : Nat) (master : cstring) (lineno : Int)
    (input : List lexeme) : Except parse_error node_heap :=
  parse_master_loop master root input lineno
    { mountpoint := none, map := none, options := none } h

/-- A line of the master file that `NEWLINE` ends: its words, and the text and
line number that `yylex()` reports for the `NEWLINE`. -/
structure master_line where
  words : List map_word
  newline_text : cstring
  lineno : Int
deriving DecidableEq, Repr

/-- The lexemes of a line, the `NEWLINE` included. -/
def master_line.lexemes (l : master_line) : List lexeme :=
  l.words.map map_word.lexeme ++
    [{ newline := true, yytext := l.newline_text, lineno := l.lineno }]

/-- The lexemes of a master file: its lines, then the words of a last line
that no `NEWLINE` ends. -/
def master_lexemes (lines : List master_line) (last : List map_word) : List lexeme :=
  lines.flatMap master_line.lexemes ++ last.map map_word.lexeme

/-- What a line of one to three words adds to the tree: a child of `root`
with the first word as key, the second as location and the third as options,
the missing ones absent; an empty line adds nothing. -/
def master_add (master : cstring) (root : Nat) (h : node_heap) (words : List map_word)
    (lineno : Int) : node_heap :=
  match words with
  | [] => h
  | w :: _ =>
    (node_new h root w.text (words[2]?.map map_word.text) (words[1]?.map map_word.text)
      master lineno).1

/-- The line number after the words of a line are read, from `lineno`. -/
def words_line (lineno : Int) (words : List map_word) : Int :=
  (words.getLast?.map map_word.lineno).getD lineno

/-- The master grammar, line by line: a line with a fourth word is a "too many
arguments" error at that word; otherwise the line adds its node and the next
line is read; the last line adds its node too. -/
def master_result (master : cstring) (root : Nat) :
    List master_line → List map_word → Int → node_heap → Except parse_error node_heap
  | [], last, lineno, h =>
    match last[3]? with
    | some w => .error { message := "too many arguments", file := master, line := w.lineno }
    | none => .ok (master_add master root h last (words_line lineno last))
  | l :: ls, last, _, h =>
    match l.words[3]? with
    | some w => .error { message := "too many arguments", file := master, line := w.lineno }
    | none => master_result master root ls last l.lineno (master_add master root h l.words l.lineno)

/-- The master file with the one line `/home auto_home -nosuid`. -/
def example_master_lines : List master_line :=
  [{ words := [{ text := "/home".toList, lineno := 1 }, { text := "auto_home".toList, lineno := 1 },
               { text := "-nosuid".toList, lineno := 1 }],
     newline_text := ['\n'], lineno := 2 }]

/-- Whether the string has two consecutive `/` characters somewhere. -/
def has_double_slash : cstring → Bool
  | a :: b :: rest => (a == '/' && b == '/') || has_double_slash (b :: rest)
  | _ => false

/-- The string has no two consecutive `/` characters. -/
def no_double_slash (s : cstring) : Prop :=
  has_double_slash s = false

instance (s : cstring) : Decidable (no_double_slash s) := by
  unfold no_double_slash; infer_instance

/-- The tree of a master entry `/home auto_home` whose map holds the line
`dir/ /sub server:/x`: the root is node 0, `/home` node 1, `dir/` node 2 and
`/sub` node 3. -/
def example_slash_heap : node_heap :=
  heap_of (parse_map_yyin
    (node_new (node_new_root []).1 0 "/home".toList none (some "auto_home".toList)
      "auto_master".toList 1).1
    1 "auto_home".toList 1
    [lex_word "dir/" 1, lex_word "/sub" 1, lex_word "server:/x" 1, lex_newline 2])

/-! ## Part 3: the device of `autofs.c` and the daemon's process -/

/-- Value of `EBUSY` in `sys/errno.h`. -/
def EBUSY : Int := 16

/-- A pointer `struct proc *`: `NULL`, or a process with its `p_pid` and its
parent pointer `p_pptr`. -/
inductive proc_ptr where
  | NULL
  | proc (p_pid : Int) (p_pptr : proc_ptr)
deriving DecidableEq, Repr

/-- The field `td_proc` of `struct thread`. -/
structure thread where
  td_proc : proc_ptr
deriving DecidableEq, Repr

/-- The fields `sc_dev_opened` and `sc_dev_pid` of `struct autofs_softc`. -/
structure autofs_softc where
  sc_dev_opened : Bool
  sc_dev_pid : Int
deriving DecidableEq, Repr

/-- The loop `for (; p != NULL; p = p->p_pptr)` of `autofs_ignore_thread`. -/
def autofs_ignore_walk (sc : autofs_softc) : proc_ptr → Bool
  | .NULL => false
  | .proc p_pid p_pptr => if p_pid = sc.sc_dev_pid then true else autofs_ignore_walk sc p_pptr

/-- The function `autofs_ignore_thread`. -/
def autofs_ignore_thread (sc : autofs_softc) (td : thread) : Bool :=
  if sc.sc_dev_opened = false then false else autofs_ignore_walk sc td.td_proc

/-- The pids of a process and of its ancestors, up to the root of the process
tree. -/
def proc_pids : proc_ptr → List Int
  | .NULL => []
  | .proc p_pid p_pptr => p_pid :: proc_pids p_pptr

/-- The function `autofs_open`: the value returned and the new state of the
device; `none` when `td->td_proc` is `NULL`. -/
def autofs_open (sc : autofs_softc) (td : thread) : Option (Int × autofs_softc) :=
  if sc.sc_dev_opened then some (EBUSY, sc)
  else
    match td.td_proc with
    | .NULL => none
    | .proc p_pid _ => some (0, { sc with sc_dev_pid := p_pid, sc_dev_opened := true })

/-- The function `autofs_close`: the value returned and the new state of the
device; `none` when `KASSERT(sc->sc_dev_opened)` fails. -/
def autofs_close (sc : autofs_softc) : Option (Int × autofs_softc) :=
  if sc.sc_dev_opened then some (0, { sc with sc_dev_opened := false })
  else none

/-- A call on the device. -/
inductive dev_op where
  | dev_open (td : thread)
  | dev_close
deriving DecidableEq, Repr

/-- A sequence of calls run from state `sc` with `outstanding` opens not yet
closed: the final state and the number of opens then outstanding (a successful
open adds one, a close takes one away); `none` when a call has no result. -/
def dev_run : List dev_op → autofs_softc → Nat → Option (autofs_softc × Nat)
  | [], sc, outstanding => some (sc, outstanding)
  | .dev_open td :: ops, sc, outstanding =>
    match autofs_open sc td with
    | none => none
    | some (error, sc2) =>
      dev_run ops sc2 (if error = 0 then outstanding + 1 else outstanding)
  | .dev_close :: ops, sc, outstanding =>
    match autofs_close sc with
    | none => none
    | some (_, sc2) => dev_run ops sc2 (outstanding - 1)

/-- The daemon, pid 100, child of `init`, pid 1. -/
def example_daemon : proc_ptr := .proc 100 (.proc 1 .NULL)

/-- A thread of a process, pid 321, that the daemon's child, pid 200,
started. -/
def example_thread : thread := { td_proc := .proc 321 (.proc 200 example_daemon) }

/-! ### Changes to the tree: `node_move_after` and `node_delete` -/

/-- The field `n_parent` of node `n`, `none` also when `n` is not in the
heap. -/
def node_parent (h : node_heap) (n : Nat) : Option Nat :=
  match h[n]? with
  | none => none
  | some nd => nd.n_parent

/-- The queue `n_children` of node `n`, empty when `n` is not in the heap. -/
def node_children (h : node_heap) (n : Nat) : List Nat :=
  match h[n]? with
  | none => []
  | some nd => nd.n_children

/-- The queue after `TAILQ_REMOVE(head, elm, n_next)`. -/
def tailq_remove (l : List Nat) (elm : Nat) : List Nat :=
  l.erase elm

/-- The queue after `TAILQ_INSERT_AFTER(head, listelm, elm, n_next)`. -/
def tailq_insert_after : List Nat → Nat → Nat → List Nat
  | [], _, _ => []
  | a :: rest, listelm, elm =>
    if a = listelm then a :: elm :: rest else a :: tailq_insert_after rest listelm elm

/-- The function `node_move_after`; `none` when it follows a `NULL` or a
pointer that is not in the heap. -/
def node_move_after (h : node_heap) (n previous : Nat) : Option node_heap :=
  match h[n]? with
  | none => none
  | some nd =>
    match nd.n_parent with
    | none => none
    | some pn =>
      if h.length ≤ pn then none
      else
        let h1 := h.modify (fun p => { p with n_children := tailq_remove p.n_children n }) pn
        match h1[previous]? with
        | none => none
        | some pv =>
          let h2 := h1.modify (fun x => { x with n_parent := pv.n_parent }) n
          match pv.n_parent with
          | none => none
          | some pp =>
            if h2.length ≤ pp then none
            else
              some (h2.modify
                (fun p => { p with n_children := tailq_insert_after p.n_children previous n })
                pp)

/-- The memory of the nodes together with the pointers that `free` released.
A freed node keeps its place in the heap, and `node_new` never hands out a
freed place again. -/
structure node_store where
  heap : node_heap
  freed : List Nat
deriving DecidableEq, Repr

/-- The loop `TAILQ_FOREACH_SAFE(n2, &n->n_children, n_next, tmp)` of
`node_delete`, over the children as they were queued when the loop began. -/
def node_delete_children (delete : node_store → Nat → Option node_store) :
    List Nat → node_store → Option node_store
  | [], s => some s
  | n2 :: tmp, s =>
    match delete s n2 with
    | none => none
    | some s2 => node_delete_children delete tmp s2

/-- The function `node_delete`.  The first argument bounds the depth of the
recursion; the result is `none` when it is used up, or when the node or its
parent is not in the heap or was freed before. -/
def node_delete : Nat → node_store → Nat → Option node_store
  | 0, _, _ => none
  | fuel + 1, s, n =>
    if n ∈ s.freed then none
    else
      match node_delete_children (node_delete fuel) (node_children s.heap n) s with
      | none => none
      | some s1 =>
        match s1.heap[n]? with
        | none => none
        | some nd =>
          match nd.n_parent with
          | none => some { heap := s1.heap, freed := n :: s1.freed }
          | some p =>
            if p ∈ s1.freed ∨ s1.heap.length ≤ p then none
            else
              some { heap := s1.heap.modify
                       (fun pn => { pn with n_children := tailq_remove pn.n_children n }) p
                     freed := n :: s1.freed }

/-- Node `n` is in the heap and was not freed. -/
def node_live (s : node_store) (n : Nat) : Prop :=
  n < s.heap.length ∧ n ∉ s.freed

instance (s : node_store) (n : Nat) : Decidable (node_live s n) := by
  unfold node_live; infer_instance

/-- The tree is well formed: every node with a parent occurs exactly once in
the queue of children of that parent and in no other queue of children; a node
without parent occurs in no queue of children; and the pointers held by the
nodes, and the freed ones, point into the heap, those held to nodes not yet
freed. -/
def tree_wf (s : node_store) : Prop :=
  (∀ m ∈ s.freed, m < s.heap.length) ∧
  (∀ n, node_live s n → ∀ p, node_parent s.heap n = some p →
    node_live s p ∧ (node_children s.heap p).count n = 1 ∧
    ∀ q, node_live s q → q ≠ p → n ∉ node_children s.heap q) ∧
  (∀ n, node_live s n → node_parent s.heap n = none →
    ∀ q, node_live s q → n ∉ node_children s.heap q) ∧
  (∀ q, node_live s q → ∀ c ∈ node_children s.heap q, node_live s c)

/-- `node_under h a m`: following `n_parent` from node `m` passes through node
`a`, so `m` is `a` or lies in the subtree of `a`. -/
inductive node_under (h : node_heap) (a : Nat) : Nat → Prop where
  | self : node_under h a a
  | step (m p : Nat) : node_parent h m = some p → node_under h a p → node_under h a m

/-- Store `t` comes from store `s` by freeing nodes and taking pointers out of
queues of children: no node was added, no pointer freed in `s` is in use
again, no field other than `n_children` changed, and no queue gained a
pointer. -/
def heap_shrunk (s t : node_store) : Prop :=
  t.heap.length = s.heap.length ∧
  (∀ m ∈ s.freed, m ∈ t.freed) ∧
  (∀ (m : Nat) (nd : node), s.heap[m]? = some nd →
    ∃ nd2 : node, t.heap[m]? = some nd2 ∧ { nd2 with n_children := nd.n_children } = nd) ∧
  (∀ m, ∀ c ∈ node_children t.heap m, c ∈ node_children s.heap m)

/-- What `node_delete` of node `n` in store `s` leaves in store `t`: a well
formed tree again; the pointers freed are `n` and pointers to nodes under `n`;
and a node that is not freed keeps its children, `n` apart. -/
def node_delete_post (s : node_store) (n : Nat) (t : node_store) : Prop :=
  heap_shrunk s t ∧ tree_wf t ∧ n ∈ t.freed ∧
  (∀ m ∈ t.freed, m ∈ s.freed ∨ node_under s.heap n m) ∧
  (∀ m, m ∉ t.freed → node_children t.heap m = (node_children s.heap m).erase n)

/-- Decides `tree_wf`: the pointers to check are those into the heap. -/
def tree_wf_check (s : node_store) : Bool :=
  decide ((∀ m ∈ s.freed, m < s.heap.length) ∧
    (∀ n < s.heap.length, n ∉ s.freed → ∀ p ∈ node_parent s.heap n,
      node_live s p ∧ (node_children s.heap p).count n = 1) ∧
    (∀ q < s.heap.length, q ∉ s.freed → ∀ c ∈ node_children s.heap q,
      node_live s c ∧ node_parent s.heap c = some q))

/-- The tree of `example_home_heap`, nothing freed. -/
def example_home_store : node_store :=
  { heap := example_home_heap, freed := [] }

/-! ### Include expansion -/

/-- The function `node_is_include`; the key of a node of this file is never
`NULL`. -/
def node_is_include (n : node) : Bool :=
  n.n_key.head? = some '+'

/-- What `node_expand_includes` asks of the system: the constant
`AUTO_INCLUDE_PATH`, the return of `access(AUTO_INCLUDE_PATH, F_OK)`, and for a
command given to `popen` either `none`, when `popen` returns `NULL`, or the
lexemes that `yylex()` returns on the output of the command together with the
return of `pclose`. -/
structure include_env where
  AUTO_INCLUDE_PATH : cstring
  access : Int
  popen : cstring → Option (List lexeme × Int)

/-- How `node_expand_includes` ends when it does not return: one of its calls
of `log_errx(1, ...)` and `log_err(1, ...)`, a fatal error of the parser, or,
for `undefined`, the use of a pointer that is `NULL`, freed or not in the
heap. -/
inductive expand_error where
  | not_configured
  | popen_failed (command : cstring)
  | parse (e : parse_error)
  | pclose_failed (command : cstring)
  | undefined
deriving DecidableEq, Repr

/-- The body of the loop of `node_expand_includes` for a node with key `key`,
from `asprintf` to the test of the return of `pclose`: the heap with the
temporary root, which is the first new node, and the entries parsed under
it. -/
def node_expand_includes_parse (env : include_env) (is_master : Bool) (h : node_heap)
    (key : cstring) : Except expand_error node_heap :=
  let command := env.AUTO_INCLUDE_PATH ++ ' ' :: key.tail
  if env.access ≠ 0 then .error .not_configured
  else
    match env.popen command with
    | none => .error (.popen_failed command)
    | some (input, status) =>
      match (if is_master then
          parse_master_yyin (node_new_root h).1 (node_new_root h).2 command 0 input
        else parse_map_yyin (node_new_root h).1 (node_new_root h).2 command 0 input) with
      | .error e => .error (.parse e)
      | .ok h2 => if status ≠ 0 then .error (.pclose_failed command) else .ok h2

/-- The loop `TAILQ_FOREACH_REVERSE_SAFE(n2, &tmproot->n_children, ...)` of
`node_expand_includes`, which calls `node_move_after(n2, n)`; the list holds
the children of `tmproot` from the last to the first. -/
def node_move_children_after (n : Nat) : List Nat → node_heap → Option node_heap
  | [], h => some h
  | n2 :: tmp2, h =>
    match node_move_after h n2 n with
    | none => none
    | some h2 => node_move_children_after n tmp2 h2

/-- The body of the loop of `node_expand_includes` for the child `n`.  The
argument `dfuel` bounds the recursion of `node_delete`. -/
def node_expand_includes_body (env : include_env) (is_master : Bool) (dfuel : Nat)
    (s : node_store) (n : Nat) : Except expand_error node_store :=
  match s.heap[n]? with
  | none => .error .undefined
  | some nd =>
    if n ∈ s.freed then .error .undefined
    else if node_is_include nd = false then .ok s
    else
      match node_expand_includes_parse env is_master s.heap nd.n_key with
      | .error e => .error e
      | .ok h2 =>
        match node_move_children_after n (node_children h2 (node_new_root s.heap).2).reverse
            h2 with
        | none => .error .undefined
        | some h3 =>
          match node_delete dfuel { heap := h3, freed := s.freed } n with
          | none => .error .undefined
          | some s4 =>
            match node_delete dfuel s4 (node_new_root s.heap).2 with
            | none => .error .undefined
            | some s5 => .ok s5

/-- The loop `TAILQ_FOREACH_SAFE(n, &root->n_children, n_next, tmp)` of
`node_expand_includes`, over the children of `root` as they were queued when
the loop began: `tmp` is read before the body runs, and the body puts the new
nodes before it. -/
def node_expand_includes_loop (env : include_env) (is_master : Bool) (dfuel : Nat) :
    List Nat → node_store → Except expand_error node_store
  | [], s => .ok s
  | n :: tmp, s =>
    match node_expand_includes_body env is_master dfuel s n with
    | .error e => .error e
    | .ok s2 => node_expand_includes_loop env is_master dfuel tmp s2

/-- The function `node_expand_includes`. -/
def node_expand_includes (env : include_env) (is_master : Bool) (dfuel : Nat)
    (s : node_store) (root : Nat) : Except expand_error node_store :=
  if root ∈ s.freed then .error .undefined
  else node_expand_includes_loop env is_master dfuel (node_children s.heap root) s

/-- `heap_grown base h h2`: heap `h2` comes from heap `h` by calls of
`node_new` whose parent is node `base` or a node made after it. -/
inductive heap_grown (base : Nat) (h : node_heap) : node_heap → Prop where
  | refl : heap_grown base h h
  | step (h2 : node_heap) (parent : Nat) (key : cstring) (options location : Option cstring)
      (file : cstring) (line : Int) :
      heap_grown base h h2 → base ≤ parent → parent < h2.length →
      heap_grown base h (node_new h2 parent key options location file line).1

/-- `node_reach h a m`: node `m` is `a` or is reached from `a` through queues
of children. -/
inductive node_reach (h : node_heap) (a : Nat) : Nat → Prop where
  | self : node_reach h a a
  | step (m c : Nat) : node_reach h a m → c ∈ node_children h m → node_reach h a c

/-- Nodes `a` and `b` are the same entry: they agree on every field except
`n_parent` and `n_children`. -/
def node_same_entry (a b : node) : Prop :=
  a.n_key = b.n_key ∧ a.n_options = b.n_options ∧ a.n_location = b.n_location ∧
  a.n_config_file = b.n_config_file ∧ a.n_config_line = b.n_config_line

/-- What the body of the loop of `node_expand_includes` leaves, in store
`t2`, of the store `t` it found, for the include marker `n` under `root`,
where `h2` is the heap after the parse and the temporary root is the first new
node: the tree is well formed; the marker and the temporary root are freed;
a node parsed at the top level is a new node, is not freed, has `root` as
parent, and keeps its entry and its children; and a node of `t` other than
`root` and outside the subtree of the marker is as it was. -/
def node_expand_includes_post (root n : Nat) (h2 : node_heap) (t t2 : node_store) : Prop :=
  tree_wf t2 ∧ node_live t2 root ∧
  n ∈ t2.freed ∧ t.heap.length ∈ t2.freed ∧ (∀ m ∈ t.freed, m ∈ t2.freed) ∧
  (∀ x ∈ node_children h2 t.heap.length, t.heap.length < x ∧ node_live t2 x ∧
    node_parent t2.heap x = some root ∧ node_children t2.heap x = node_children h2 x ∧
    ∃ nd nd2 : node, h2[x]? = some nd ∧ t2.heap[x]? = some nd2 ∧ node_same_entry nd2 nd) ∧
  (∀ m, node_live t m → m ≠ root → ¬ node_under t.heap n m →
    t2.heap[m]? = t.heap[m]? ∧ node_live t2 m)

/-- What stands in the queue of `root`, in store `s2`, for the child `c` that
`root` had in store `s`.  A child that is no include marker stands for itself,
unchanged.  An include marker is freed, as is the temporary root, and its
place is taken by the children that the parse of the output of its command
put under the temporary root, which was the first new node of a heap `h`; they
are new nodes, not freed, with `root` as parent, and keep the entry and the
children the parse gave them. -/
def node_expand_includes_piece (env : include_env) (is_master : Bool) (root : Nat)
    (s s2 : node_store) (c : Nat) (piece : List Nat) : Prop :=
  ∃ nd : node, s.heap[c]? = some nd ∧
    (node_is_include nd = false →
      piece = [c] ∧ node_live s2 c ∧ s2.heap[c]? = s.heap[c]? ∧
        node_parent s2.heap c = some root) ∧
    (node_is_include nd = true →
      c ∈ s2.freed ∧
      ∃ h h2 : node_heap, s.heap.length ≤ h.length ∧
        node_expand_includes_parse env is_master h nd.n_key = .ok h2 ∧
        h.length ∈ s2.freed ∧ piece = node_children h2 h.length ∧
        ∀ x ∈ piece, s.heap.length ≤ x ∧ node_live s2 x ∧
          node_parent s2.heap x = some root ∧ node_children s2.heap x = node_children h2 x ∧
          ∃ ndx nd2 : node, h2[x]? = some ndx ∧ s2.heap[x]? = some nd2 ∧
            node_same_entry nd2 ndx)

/-- The store a run of `node_expand_includes` ended with, if it returned. -/
def store_of (r : Except expand_error node_store) : Option node_store :=
  match r with
  | .ok s => some s
  | .error _ => none

/-- The keys of the children of `root`, in queue order. -/
def node_child_keys (s : node_store) (root : Nat) : List cstring :=
  (node_children s.heap root).filterMap (fun c => s.heap[c]?.map (·.n_key))

/-- The tree of a master file with the lines `A mapA`, `+inc` and `B mapB`:
the root is node 0 and its children are the nodes 1, 2 and 3. -/
def example_include_store : node_store :=
  { heap := heap_of (parse_master_yyin (node_new_root []).1 0 "auto_master".toList 0
      [lex_word "A" 1, lex_word "mapA" 1, lex_newline 2, lex_word "+inc" 2, lex_newline 3,
       lex_word "B" 3, lex_word "mapB" 3, lex_newline 4])
    freed := [] }

/-- A system in which the command for `+inc` prints the lines `X mapX` and
`Y mapY` and exits with 0, and no other command can be run. -/
def example_include_env : include_env :=
  { AUTO_INCLUDE_PATH := "/etc/autofs/include".toList
    access := 0
    popen := fun command =>
      if command = "/etc/autofs/include inc".toList then
        some ([lex_word "X" 1, lex_word "mapX" 1, lex_newline 2, lex_word "Y" 2,
          lex_word "mapY" 2, lex_newline 3], 0)
      else none }

/-! ### The pending words of the inner loop -/

mutual

/-- The values that the variables `mountpoint`, `options2` and `location` (with
`key` and `options`) have at the head of each iteration of the inner loop of
`parse_map_yyin`, in the order the iterations are reached, for the run of the
outer loop that `parse_map_outer` makes from the same arguments. -/
def parse_map_outer_heads (map : cstring) (parent : Nat) :
    List lexeme → Int → map_vars → node_heap → List map_vars
  | [], _, _, _ => []
  | t :: ts, _, v, h =>
    if t.newline then
      if v.key ≠ none ∨ v.options ≠ none then []
      else parse_map_outer_heads map parent ts t.lineno { v with key := none, options := none } h
    else
      match v.key with
      | none =>
        if t.yytext.head? = some '+' then
          parse_map_outer_heads map parent ts t.lineno { v with key := none, options := none }
            (node_new h parent t.yytext none none map t.lineno).1
        else parse_map_outer_heads map parent ts t.lineno { v with key := some t.yytext } h
      | some key =>
        if t.yytext.head? = some '-' then
          if v.options ≠ none then []
          else parse_map_outer_heads map parent ts t.lineno { v with options := some t.yytext } h
        else
          parse_map_inner_heads map parent (node_new h parent key v.options none map t.lineno).2
            t.yytext ts t.lineno { v with key := none, options := none }
            (node_new h parent key v.options none map t.lineno).1

/-- The same for the run of the inner loop that `parse_map_inner` makes; the
first value is that of the iteration at hand. -/
def parse_map_inner_heads (map : cstring) (parent : Nat) (node : Nat) (yytext : cstring) :
    List lexeme → Int → map_vars → node_heap → List map_vars
  | [], _, v, _ => [v]
  | t :: ts, lineno, v, h =>
    v ::
      match parse_map_word map node yytext lineno v h with
      | .error _ => []
      | .ok (v2, h2) =>
        if t.newline then
          if parse_map_pending v2 then []
          else parse_map_outer_heads map parent ts t.lineno v2 h2
        else parse_map_inner_heads map parent node t.yytext ts t.lineno v2 h2

end

/-- The entry `key l1 .. ln`: a key followed by locations only. -/
def locations_entry (key : map_word) (locs : List map_word) : map_entry :=
  { key := key
    options := none
    triples := locs.map (fun w => { mountpoint := none, options2 := none, location := w }) }

/-- The child of the entry `docs` in `example_home_heap`, node 3: the location
`server:/export/docs` with the mountpoint `/` that `parse_map_yyin` gives to a
location without mountpoint. -/
def example_default_node : node :=
  { n_key := ['/'], n_options := some [], n_location := some "server:/export/docs".toList,
    n_config_file := "auto_home".toList, n_config_line := 1, n_parent := some 2,
    n_children := [] }

/-! ### Loading maps: `parse_map`, `node_expand_maps`, `node_expand_defined`, `parse_master` -/

/-- What `parse_map` and `parse_master` ask of the system: what
`node_expand_includes` asks, whose `popen` also runs executable maps; the
constants `AUTO_SPECIAL_PREFIX` and `AUTO_MAP_PREFIX`; the return of
`access(path, F_OK)`; the result of `file_is_executable(path)`, `none` when
`stat` fails; the lexemes that `yylex()` returns on the file that `fopen`
opens, `none` when `fopen` returns `NULL`; and the function `defined_expand`
of `defined.c`, taken as a function from strings to strings. -/
structure map_env where
  includes : include_env
  AUTO_SPECIAL_PREFIX : cstring
  AUTO_MAP_PREFIX : cstring
  access : cstring → Int
  file_is_executable : cstring → Option Bool
  fopen : cstring → Option (List lexeme)
  defined_expand : cstring → cstring

/-- How `parse_map` and `parse_master` end when they do not return: one of the
fatal errors of `node_expand_includes`, of the parser or of `parse_map`, a
failed `assert`, or, for `undefined`, the use of a pointer that is `NULL`,
freed or not in the heap, or a bound on the recursion that is used up. -/
inductive map_error where
  | expand (e : expand_error)
  | parse (e : parse_error)
  | not_configured
  | cannot_stat (path : cstring)
  | unable_to_execute (path : cstring)
  | unable_to_open (path : cstring)
  | execution_failed (map : cstring)
  | assertion
  | undefined
deriving DecidableEq, Repr

/-- The function `node_expand_defined` on the children `n` of `root` that are
still to visit: `defined_expand` is applied to the location of `n`, when it has
one, and then the function itself to `n`. -/
def node_expand_defined_children (defined_expand : cstring → cstring)
    (expand : node_heap → Nat → Option node_heap) : List Nat → node_heap → Option node_heap
  | [], h => some h
  | n :: rest, h =>
    match h[n]? with
    | none => none
    | some _ =>
      match expand
          (h.modify (fun x => { x with n_location := x.n_location.map defined_expand }) n)
          n with
      | none => none
      | some h2 => node_expand_defined_children defined_expand expand rest h2

/-- The function `node_expand_defined`.  The first argument bounds the depth of
the recursion; the result is `none` when it is used up or a node is not in the
heap. -/
def node_expand_defined (defined_expand : cstring → cstring) :
    Nat → node_heap → Nat → Option node_heap
  | 0, _, _ => none
  | fuel + 1, h, root =>
    match h[root]? with
    | none => none
    | some rd =>
      node_expand_defined_children defined_expand
        (node_expand_defined defined_expand fuel) rd.n_children h

/-- The choice of `path` and the first value of `executable` in `parse_map`. -/
def parse_map_path (env : map_env) (map : cstring) : Except map_error (cstring × Bool) :=
  if map.head? = some '-' then
    .ok (env.AUTO_SPECIAL_PREFIX ++ "/special_".toList ++ map.tail, true)
  else if map.head? = some '/' then .ok (map, false)
  else if env.access (env.AUTO_MAP_PREFIX ++ '/' :: map) ≠ 0 then
    if env.includes.access ≠ 0 then .error .not_configured
    else .ok (env.includes.AUTO_INCLUDE_PATH ++ ' ' :: map, true)
  else .ok (env.AUTO_MAP_PREFIX ++ '/' :: map, false)

/-- The function `parse_map` down to the `pclose` or `fclose` of the map: the
heap after `parse_map_yyin(parent, map)`. -/
def parse_map_read (env : map_env) (h : node_heap) (parent : Nat) (map : cstring) :
    Except map_error node_heap :=
  if map = [] then .error .assertion
  else
    match parse_map_path env map with
    | .error e => .error e
    | .ok (path, executable) =>
      match (if executable then some true else env.file_is_executable path) with
      | none => .error (.cannot_stat path)
      | some true =>
        match env.includes.popen path with
        | none => .error (.unable_to_execute path)
        | some (input, status) =>
          match parse_map_yyin h parent map 1 input with
          | .error e => .error (.parse e)
          | .ok h2 => if status ≠ 0 then .error (.execution_failed map) else .ok h2
      | some false =>
        match env.fopen path with
        | none => .error (.unable_to_open path)
        | some input =>
          match parse_map_yyin h parent map 1 input with
          | .error e => .error (.parse e)
          | .ok h2 => .ok h2

/-- The loop `TAILQ_FOREACH_SAFE(n2, &n->n_children, n_next, tmp)` of
`node_expand_maps`, over the children of `n` as they were queued when the loop
began; `parse` is `parse_map`, and `ifuel` bounds the loop of
`node_is_direct_map`. -/
def node_expand_maps_loop (parse : node_store → Nat → cstring → Except map_error node_store)
    (ifuel : Nat) (indirect : Bool) : List Nat → node_store → Except map_error node_store
  | [], s => .ok s
  | n2 :: tmp, s =>
    if n2 ∈ s.freed then .error .undefined
    else
      match node_is_direct_map s.heap ifuel n2 with
      | none => .error .undefined
      | some direct =>
        if direct = indirect then node_expand_maps_loop parse ifuel indirect tmp s
        else
          match s.heap[n2]? with
          | none => .error .undefined
          | some nd =>
            match nd.n_location with
            | none => node_expand_maps_loop parse ifuel indirect tmp s
            | some location =>
              match parse s n2 location with
              | .error e => .error e
              | .ok s2 => node_expand_maps_loop parse ifuel indirect tmp s2

/-- The function `parse_map`.  The arguments `dfuel`, `ifuel` and `efuel`
bound the recursion of `node_delete`, the loop of `node_is_direct_map` and the
recursion of `node_expand_defined`; the next argument bounds the nesting of
`parse_map` in `node_expand_maps`. -/
def parse_map (env : map_env) (dfuel ifuel efuel : Nat) :
    Nat → node_store → Nat → cstring → Except map_error node_store
  | 0, _, _, _ => .error .undefined
  | fuel + 1, s, parent, map =>
    match parse_map_read env s.heap parent map with
    | .error e => .error e
    | .ok h1 =>
      match node_expand_includes env.includes false dfuel { heap := h1, freed := s.freed }
          parent with
      | .error e => .error (.expand e)
      | .ok s2 =>
        match node_expand_maps_loop (parse_map env dfuel ifuel efuel fuel) ifuel false
            (node_children s2.heap parent) s2 with
        | .error e => .error e
        | .ok s3 =>
          match node_expand_defined env.defined_expand efuel s3.heap parent with
          | none => .error .undefined
          | some h4 => .ok { heap := h4, freed := s3.freed }

/-- The function `node_expand_maps`. -/
def node_expand_maps (env : map_env) (dfuel ifuel efuel fuel : Nat) (s : node_store) (n : Nat)
    (indirect : Bool) : Except map_error node_store :=
  if n ∈ s.freed then .error .undefined
  else
    node_expand_maps_loop (parse_map env dfuel ifuel efuel fuel) ifuel indirect
      (node_children s.heap n) s

/-- The function `node_expand_direct_maps`. -/
def node_expand_direct_maps (env : map_env) (dfuel ifuel efuel fuel : Nat) (s : node_store)
    (n : Nat) : Except map_error node_store :=
  node_expand_maps env dfuel ifuel efuel fuel s n false

/-- The function `parse_master`. -/
def parse_master (env : map_env) (dfuel ifuel efuel fuel : Nat) (s : node_store) (root : Nat)
    (master : cstring) : Except map_error node_store :=
  match env.fopen master with
  | none => .error (.unable_to_open master)
  | some input =>
    match parse_master_yyin s.heap root master 0 input with
    | .error e => .error (.parse e)
    | .ok h1 =>
      match node_expand_includes env.includes true dfuel { heap := h1, freed := s.freed }
          root with
      | .error e => .error (.expand e)
      | .ok s2 =>
        match node_expand_direct_maps env dfuel ifuel efuel fuel s2 root with
        | .error e => .error e
        | .ok s3 =>
          match node_expand_defined env.defined_expand efuel s3.heap root with
          | none => .error .undefined
          | some h4 => .ok { heap := h4, freed := s3.freed }

/-- The store a run of `parse_master` or `parse_map` ended with, if it
returned. -/
def loaded_store (r : Except map_error node_store) : Option node_store :=
  match r with
  | .ok s => some s
  | .error _ => none

/-- A system with the master file `/etc/auto_master`, of two lines: the
direct map `auto_direct`, whose key is a slash and a dash, and
`/home auto_home`; and with the map `/etc/auto_direct`, of the line
`k /a hostA:/a /b hostB:/b`.  Here `defined_expand` appends a `!`, so that one
sees how often it was applied. -/
def example_map_env : map_env :=
  { includes := example_include_env
    AUTO_SPECIAL_PREFIX := "/etc/autofs".toList
    AUTO_MAP_PREFIX := "/etc".toList
    access := fun path => if path = "/etc/auto_direct".toList then 0 else -1
    file_is_executable := fun _ => some false
    fopen := fun path =>
      if path = "/etc/auto_master".toList then
        some [lex_word "/-" 1, lex_word "auto_direct" 1, lex_newline 2,
              lex_word "/home" 2, lex_word "auto_home" 2, lex_newline 3]
      else if path = "/etc/auto_direct".toList then
        some [lex_word "k" 1, lex_word "/a" 1, lex_word "hostA:/a" 1, lex_word "/b" 1,
              lex_word "hostB:/b" 1, lex_newline 2]
      else none
    defined_expand := fun s => s ++ ['!'] }

/-- The field `n_location` of node `n`, `none` also when `n` is not in the
heap. -/
def node_location (h : node_heap) (n : Nat) : Option cstring :=
  match h[n]? with
  | none => none
  | some nd => nd.n_location

/-- Heap `h2` is heap `h` with other locations: the same nodes, equal in
every field except `n_location`. -/
def heap_relocated (h h2 : node_heap) : Prop :=
  h2.length = h.length ∧
  ∀ (m : Nat) (nd : node), h[m]? = some nd →
    ∃ nd2 : node, h2[m]? = some nd2 ∧ { nd2 with n_location := nd.n_location } = nd

/-- `map_grown flat base len h h2`: heap `h2` comes from heap `h` by calls of
`node_new` as a parse makes them: the parent is node `base`, or, when `flat`
is false, a node at or after place `len` that has `base` as parent, and when
`flat` is false a node made under `base` has no location. -/
inductive map_grown (flat : Bool) (base len : Nat) (h : node_heap) : node_heap → Prop where
  | refl : map_grown flat base len h h
  | first (h2 : node_heap) (key : cstring) (options location : Option cstring)
      (file : cstring) (line : Int) :
      map_grown flat base len h h2 → (flat = false → location = none) →
      map_grown flat base len h (node_new h2 base key options location file line).1
  | second (h2 : node_heap) (node : Nat) (key : cstring) (options location : Option cstring)
      (file : cstring) (line : Int) :
      map_grown flat base len h h2 → flat = false → len ≤ node → node < h2.length →
      node_parent h2 node = some base →
      map_grown flat base len h (node_new h2 node key options location file line).1

/-- Heap `h2` keeps the nodes of heap `h`: each is still there and differs at
most in its queue of children. -/
def heap_kept (h h2 : node_heap) : Prop :=
  ∀ (m : Nat) (nd : node), h[m]? = some nd →
    ∃ nd2 : node, h2[m]? = some nd2 ∧ { nd2 with n_children := nd.n_children } = nd

/-- The store that `parse_master` leaves for the system `example_map_env`,
from a tree that is a lone root. -/
def example_master_store : node_store :=
  (loaded_store (parse_master example_map_env 2 2 4 2
    { heap := (node_new_root []).1, freed := [] } 0 "/etc/auto_master".toList)).getD
    { heap := [], freed := [] }

/-- What stands in the queue of `root`, in store `s2`, for the child `c` that
`root` had in store `s`.  A child that is no include marker stands for itself,
unchanged.  For an include marker, `access` returned 0, `popen` of the command
`AUTO_INCLUDE_PATH`, a blank and the key without its `+` gave the lexemes
`input`, and `pclose` returned 0; the marker is freed, as is the temporary
root, which was the first new node of a heap `h`; and the place of the marker
is taken by the children that `parse_master_yyin`, or `parse_map_yyin`, run on
`input`, put under the temporary root, in the order the parse made them: they
are new nodes, not freed, with `root` as parent, and keep the entry and the
children the parse gave them. -/
def node_expand_includes_splice (env : include_env) (is_master : Bool) (root : Nat)
    (s s2 : node_store) (c : Nat) (piece : List Nat) : Prop :=
  ∃ nd : node, s.heap[c]? = some nd ∧
    (node_is_include nd = false →
      piece = [c] ∧ node_live s2 c ∧ s2.heap[c]? = s.heap[c]? ∧
        node_parent s2.heap c = some root) ∧
    (node_is_include nd = true →
      c ∈ s2.freed ∧
      ∃ (h h2 : node_heap) (input : List lexeme), s.heap.length ≤ h.length ∧
        env.access = 0 ∧
        env.popen (env.AUTO_INCLUDE_PATH ++ ' ' :: nd.n_key.tail) = some (input, 0) ∧
        (if is_master then
            parse_master_yyin (node_new_root h).1 h.length
              (env.AUTO_INCLUDE_PATH ++ ' ' :: nd.n_key.tail) 0 input
          else
            parse_map_yyin (node_new_root h).1 h.length
              (env.AUTO_INCLUDE_PATH ++ ' ' :: nd.n_key.tail) 0 input) = .ok h2 ∧
        h.length ∈ s2.freed ∧ piece = node_children h2 h.length ∧
        ∀ x ∈ piece, s.heap.length ≤ x ∧ node_live s2 x ∧
          node_parent s2.heap x = some root ∧ node_children s2.heap x = node_children h2 x ∧
          ∃ ndx nd2 : node, h2[x]? = some ndx ∧ s2.heap[x]? = some nd2 ∧
            node_same_entry nd2 ndx)

/-- How the step of `node_expand_includes` for a marker with key `key`, met
when the heap is `h`, ends with the fatal error `e`: `access` did not return 0;
or `popen` of the command returned `NULL`; or the parse of the lexemes read
from the command, under the temporary root, ended with a fatal error; or the
parse ended well and `pclose` did not return 0. -/
def node_expand_includes_failure (env : include_env) (is_master : Bool) (h : node_heap)
    (key : cstring) (e : expand_error) : Prop :=
  (env.access ≠ 0 ∧ e = .not_configured) ∨
  (env.access = 0 ∧ env.popen (env.AUTO_INCLUDE_PATH ++ ' ' :: key.tail) = none ∧
    e = .popen_failed (env.AUTO_INCLUDE_PATH ++ ' ' :: key.tail)) ∨
  (env.access = 0 ∧ ∃ (input : List lexeme) (status : Int),
    env.popen (env.AUTO_INCLUDE_PATH ++ ' ' :: key.tail) = some (input, status) ∧
    ((∃ pe : parse_error,
        (if is_master then
            parse_master_yyin (node_new_root h).1 h.length
              (env.AUTO_INCLUDE_PATH ++ ' ' :: key.tail) 0 input
          else
            parse_map_yyin (node_new_root h).1 h.length
              (env.AUTO_INCLUDE_PATH ++ ' ' :: key.tail) 0 input) = .error pe ∧
        e = .parse pe) ∨
     (∃ h2 : node_heap,
        (if is_master then
            parse_master_yyin (node_new_root h).1 h.length
              (env.AUTO_INCLUDE_PATH ++ ' ' :: key.tail) 0 input
          else
            parse_map_yyin (node_new_root h).1 h.length
              (env.AUTO_INCLUDE_PATH ++ ' ' :: key.tail) 0 input) = .ok h2 ∧
        status ≠ 0 ∧ e = .pclose_failed (env.AUTO_INCLUDE_PATH ++ ' ' :: key.tail))))

/-- The store that `node_expand_includes` leaves of `example_include_store`
for the system `example_include_env`. -/
def example_include_result : node_store :=
  (store_of (node_expand_includes example_include_env true 1 example_include_store 0)).getD
    { heap := [], freed := [] }

/-- `new_top c len0 h p`: node `p` is `c`, or is a node at or after place
`len0` of heap `h` that has no parent (a temporary root). -/
def new_top (c len0 : Nat) (h : node_heap) (p : Nat) : Prop :=
  p = c ∨ (len0 ≤ p ∧ p < h.length ∧ node_parent h p = none)

/-- `new_level c len0 h m`: node `m` has no parent, or its parent is `c` or a
temporary root, or its parent is a node at or after place `len0` whose parent
is `c` or a temporary root. -/
def new_level (c len0 : Nat) (h : node_heap) (m : Nat) : Prop :=
  node_parent h m = none ∨
  (∃ p, node_parent h m = some p ∧ new_top c len0 h p) ∨
  (∃ p p2, node_parent h m = some p ∧ len0 ≤ p ∧ node_parent h p = some p2 ∧
    new_top c len0 h p2)

/-- Every node of heap `h` at or after place `len0` is at most two levels
below `c` or below a temporary root. -/
def new_levels (c len0 : Nat) (h : node_heap) : Prop :=
  ∀ m, len0 ≤ m → m < h.length → new_level c len0 h m

/-- `map_file_read env map h parent h1`: what `parse_map` does for the map
`map` down to the end of `parse_map_yyin`: it chose the file `path`, read the
lexemes `input` from it, through `popen`, with `pclose` returning 0, when the
map is executable and through `fopen` otherwise, and `parse_map_yyin`, run on
`input` from line 1, made of heap `h` the heap `h1`. -/
def map_file_read (env : map_env) (map : cstring) (h : node_heap) (parent : Nat)
    (h1 : node_heap) : Prop :=
  ∃ (path : cstring) (executable : Bool) (input : List lexeme),
    parse_map_path env map = .ok (path, executable) ∧
    (((executable = true ∨ env.file_is_executable path = some true) ∧
        env.includes.popen path = some (input, 0)) ∨
      (executable = false ∧ env.file_is_executable path = some false ∧
        env.fopen path = some input)) ∧
    parse_map_yyin h parent map 1 input = .ok h1

/-- `direct_map_loaded env dfuel ifuel efuel fuel c location f u`: the map
named `location` was loaded under node `c` by a call `parse_map(c, location)`,
made in a store `t` in which `location` was the location of `c`.  The call
read the lexemes of the file of the map and `parse_map_yyin` made of them the
heap `h1`, as `map_file_read` says.  Store `s1` is the tree of that call after
the expansion of the includes of the map, before its pass
`node_expand_defined`; no child of `c` has a location there, so that the call
loads no further map; and a node
that the parse made and the expansion did not free is below `c` in `s1`, with
the location the parse gave it.  Every node below `c` in `s1` is, in store
`u`, alive and below `c`, and its location in `u` is `f` applied to the
location it had in `s1`. -/
def direct_map_loaded (env : map_env) (dfuel ifuel efuel fuel : Nat) (c : Nat)
    (location : cstring) (f : cstring → cstring) (u : node_store) : Prop :=
  ∃ (t t2 s1 : node_store) (h1 : node_heap),
    node_location t.heap c = some location ∧
    parse_map env dfuel ifuel efuel fuel t c location = .ok t2 ∧
    map_file_read env location t.heap c h1 ∧
    node_expand_includes env.includes false dfuel ⟨h1, t.freed⟩ c = .ok s1 ∧
    (∀ x ∈ node_children s1.heap c, node_location s1.heap x = none) ∧
    (∀ x, t.heap.length ≤ x → x < h1.length → x ∉ s1.freed →
      node_live s1 x ∧ node_under s1.heap c x ∧ x ≠ c ∧
      node_location s1.heap x = node_location h1 x) ∧
    node_expand_defined env.defined_expand efuel s1.heap c = some t2.heap ∧
    ∀ x, node_live s1 x → node_under s1.heap c x → x ≠ c →
      node_live u x ∧ node_under u.heap c x ∧
      node_location u.heap x = (node_location s1.heap x).map f

/-! ## Theorems, part 1: the request queue -/

theorem request_scan_some {q : List autofs_request} {i : Nat} (h : request_scan q = some i) :
    ∃ ar, q[i]? = some ar ∧ ar.ar_done = false ∧ ar.ar_in_progress = false ∧
      ∀ j, j < i → ∀ r, q[j]? = some r → r.ar_done = true ∨ r.ar_in_progress = true := by
  induction q generalizing i with
  | nil => simp [request_scan] at h
  | cons a rest ih =>
    unfold request_scan at h
    by_cases hd : a.ar_done = true
    · rw [if_pos hd] at h
      obtain ⟨k, hk, rfl⟩ := Option.map_eq_some'.mp h
      obtain ⟨ar, h1, h2, h3, h4⟩ := ih hk
      refine ⟨ar, by simpa using h1, h2, h3, ?_⟩
      intro j hj r hr
      cases j with
      | zero => simp at hr; subst hr; exact Or.inl hd
      | succ j => exact h4 j (by omega) r (by simpa using hr)
    · by_cases hp : a.ar_in_progress = true
      · rw [if_neg hd, if_pos hp] at h
        obtain ⟨k, hk, rfl⟩ := Option.map_eq_some'.mp h
        obtain ⟨ar, h1, h2, h3, h4⟩ := ih hk
        refine ⟨ar, by simpa using h1, h2, h3, ?_⟩
        intro j hj r hr
        cases j with
        | zero => simp at hr; subst hr; exact Or.inr hp
        | succ j => exact h4 j (by omega) r (by simpa using hr)
      · rw [if_neg hd, if_neg hp] at h
        simp at h
        subst h
        exact ⟨a, by simp, by simpa using hd, by simpa using hp, by intro j hj; omega⟩

theorem request_scan_none {q : List autofs_request} :
    request_scan q = none ↔ ∀ r ∈ q, r.ar_done = true ∨ r.ar_in_progress = true := by
  induction q with
  | nil => simp [request_scan]
  | cons a rest ih =>
    unfold request_scan
    by_cases hd : a.ar_done = true
    · simp [hd, ih]
    · by_cases hp : a.ar_in_progress = true
      · simp [hd, hp, ih]
      · simp [hd, hp]

theorem done_scan_some {id : Int} {q : List autofs_request} {i : Nat}
    (h : done_scan id q = some i) :
    ∃ ar, q[i]? = some ar ∧ ar.ar_id = id ∧
      ∀ j, j < i → ∀ r, q[j]? = some r → r.ar_id ≠ id := by
  induction q generalizing i with
  | nil => simp [done_scan] at h
  | cons a rest ih =>
    unfold done_scan at h
    by_cases hid : a.ar_id = id
    · rw [if_pos hid] at h
      simp at h
      subst h
      exact ⟨a, by simp, hid, by intro j hj; omega⟩
    · rw [if_neg hid] at h
      obtain ⟨k, hk, rfl⟩ := Option.map_eq_some'.mp h
      obtain ⟨ar, h1, h2, h3⟩ := ih hk
      refine ⟨ar, by simpa using h1, h2, ?_⟩
      intro j hj r hr
      cases j with
      | zero => simp at hr; subst hr; exact hid
      | succ j => exact h3 j (by omega) r (by simpa using hr)

theorem done_scan_none {id : Int} {q : List autofs_request} :
    done_scan id q = none ↔ ∀ r ∈ q, r.ar_id ≠ id := by
  induction q with
  | nil => simp [done_scan]
  | cons a rest ih =>
    unfold done_scan
    by_cases hid : a.ar_id = id
    · simp [hid]
    · simp [hid, ih]

theorem strlcpy_fits (dst src : cstring) (size : Nat) (h : src.length < size) :
    strlcpy dst src size = src := by
  unfold strlcpy
  have h0 : size ≠ 0 := by omega
  simp only [h0, if_false]
  exact List.take_of_length_le (by omega)

theorem request_scan_of_eligible {q : List autofs_request}
    (hex : ∃ r ∈ q, r.ar_done = false ∧ r.ar_in_progress = false) :
    ∃ i, request_scan q = some i := by
  cases h : request_scan q with
  | some i => exact ⟨i, rfl⟩
  | none =>
    obtain ⟨r, hr, hd, hp⟩ := hex
    rcases request_scan_none.mp h r hr with h1 | h1
    · rw [hd] at h1; cases h1
    · rw [hp] at h1; cases h1

/-- C1: when the queue, whose strings fit their `MAXPATHLEN` buffers, holds a
request that is neither done nor in progress, `autofs_ioctl_request` returns 0
without consuming a wake-up, hands out the id and the from, mountpoint, path
and options strings of the first such request in queue order (every request
before it is done or in progress), sets `ar_in_progress` on that request only
and leaves the other requests, their order and the length of the queue as
they were. -/
theorem autofs_ioctl_request_claims_first_eligible (MAXPATHLEN : Nat)
    (adr : autofs_daemon_request) (q : List autofs_request) (wakeups : List cv_wakeup)
    (hfit : ∀ r ∈ q, request_fits MAXPATHLEN r)
    (hex : ∃ r ∈ q, r.ar_done = false ∧ r.ar_in_progress = false) :
    ∃ (i : Nat) (ar : autofs_request) (res : request_result),
      q[i]? = some ar ∧ ar.ar_done = false ∧ ar.ar_in_progress = false ∧
      (∀ j, j < i → ∀ r, q[j]? = some r → r.ar_done = true ∨ r.ar_in_progress = true) ∧
      autofs_ioctl_request MAXPATHLEN adr q wakeups = some res ∧
      res.error = 0 ∧ res.pending = wakeups ∧ res.ar = some i ∧
      res.adr.adr_id = ar.ar_id ∧ res.adr.adr_from = ar.ar_from ∧
      res.adr.adr_mountpoint = ar.ar_mountpoint ∧ res.adr.adr_path = ar.ar_path ∧
      res.adr.adr_options = ar.ar_options ∧
      res.adr.adr_prefix = adr.adr_prefix ∧ res.adr.adr_key = adr.adr_key ∧
      res.sc_requests.length = q.length ∧
      res.sc_requests[i]? = some { ar with ar_in_progress := true } ∧
      ∀ j, j ≠ i → res.sc_requests[j]? = q[j]? := by
  obtain ⟨i, hi⟩ := request_scan_of_eligible hex
  obtain ⟨ar, hget, hd, hp, hbefore⟩ := request_scan_some hi
  obtain ⟨f1, f2, f3, f4⟩ := hfit ar (List.getElem?_mem hget)
  have hres : autofs_ioctl_request MAXPATHLEN adr q wakeups =
      request_claim MAXPATHLEN adr q i wakeups := by
    cases wakeups <;> simp only [autofs_ioctl_request, hi]
  rw [hres]
  simp only [request_claim, hget]
  refine ⟨i, ar, _, hget, hd, hp, hbefore, rfl, rfl, rfl, rfl, rfl, ?_, ?_, ?_, ?_, rfl, rfl,
    ?_, ?_, ?_⟩
  · exact strlcpy_fits _ _ _ f1
  · exact strlcpy_fits _ _ _ f2
  · exact strlcpy_fits _ _ _ f3
  · exact strlcpy_fits _ _ _ f4
  · simp
  · simp [hget]
  · intro j hj
    exact List.getElem?_modify_ne _ _ (Ne.symm hj)

/-- C2: `autofs_ioctl_done` returns `ESRCH` and leaves the queue as it was
exactly when no queued request has the given id; otherwise it returns 0, sets
`ar_done` and clears `ar_in_progress` on the first queued request with that
id, whatever its flags were, and leaves the other requests and the order of
the queue as they were. -/
theorem autofs_ioctl_done_spec (q : List autofs_request) (add : autofs_daemon_done) :
    (((autofs_ioctl_done q add).error = ESRCH ∧ (autofs_ioctl_done q add).sc_requests = q)
        ↔ ∀ r ∈ q, r.ar_id ≠ add.add_id) ∧
    ((∃ r ∈ q, r.ar_id = add.add_id) →
      ∃ (i : Nat) (ar : autofs_request), q[i]? = some ar ∧ ar.ar_id = add.add_id ∧
        (∀ j, j < i → ∀ r, q[j]? = some r → r.ar_id ≠ add.add_id) ∧
        (autofs_ioctl_done q add).error = 0 ∧
        (autofs_ioctl_done q add).sc_requests.length = q.length ∧
        (autofs_ioctl_done q add).sc_requests[i]? =
          some { ar with ar_done := true, ar_in_progress := false } ∧
        ∀ j, j ≠ i → (autofs_ioctl_done q add).sc_requests[j]? = q[j]?) := by
  cases h : done_scan add.add_id q with
  | none =>
    have hall := done_scan_none.mp h
    refine ⟨?_, ?_⟩
    · simp only [autofs_ioctl_done, h]
      exact ⟨fun _ => hall, fun _ => by simp⟩
    · rintro ⟨r, hr, hid⟩
      exact absurd hid (hall r hr)
  | some i =>
    obtain ⟨ar, hget, hid, hbefore⟩ := done_scan_some h
    refine ⟨?_, ?_⟩
    · simp only [autofs_ioctl_done, h]
      constructor
      · rintro ⟨he, _⟩
        simp [ESRCH] at he
      · intro hall
        exact absurd hid (hall ar (List.getElem?_mem hget))
    · intro _
      refine ⟨i, ar, hget, hid, hbefore, ?_, ?_, ?_, ?_⟩
      · simp only [autofs_ioctl_done, h]
      · simp only [autofs_ioctl_done, h]; simp
      · simp only [autofs_ioctl_done, h]; simp [hget]
      · intro j hj
        simp only [autofs_ioctl_done, h]
        exact List.getElem?_modify_ne _ _ (Ne.symm hj)

theorem autofs_ioctl_request_error_inv (MAXPATHLEN : Nat) (adr : autofs_daemon_request)
    (wakeups : List cv_wakeup) :
    ∀ (q : List autofs_request) (res : request_result),
      autofs_ioctl_request MAXPATHLEN adr q wakeups = some res → res.error ≠ 0 →
      ∃ (consumed : List cv_wakeup) (w : cv_wakeup),
        wakeups = consumed ++ w :: res.pending ∧ (∀ c ∈ consumed, c.error = 0) ∧
        w.error = res.error ∧ res.sc_requests = w.sc_requests ∧ res.adr = adr ∧
        res.ar = none ∧
        ∀ s ∈ q :: consumed.map (fun c => c.sc_requests),
          ∀ r ∈ s, r.ar_done = true ∨ r.ar_in_progress = true := by
  induction wakeups with
  | nil =>
    intro q res h hne
    cases hs : request_scan q with
    | none => simp [autofs_ioctl_request, hs] at h
    | some i =>
      simp only [autofs_ioctl_request, hs, request_claim] at h
      cases hg : q[i]? with
      | none => simp [hg] at h
      | some ar =>
        simp only [hg, Option.some.injEq] at h
        subst h
        exact absurd rfl hne
  | cons w rest ih =>
    intro q res h hne
    cases hs : request_scan q with
    | some i =>
      simp only [autofs_ioctl_request, hs, request_claim] at h
      cases hg : q[i]? with
      | none => simp [hg] at h
      | some ar =>
        simp only [hg, Option.some.injEq] at h
        subst h
        exact absurd rfl hne
    | none =>
      simp only [autofs_ioctl_request, hs] at h
      have hq := request_scan_none.mp hs
      by_cases he : w.error = 0
      · simp only [he, ne_eq, not_true_eq_false, if_false] at h
        obtain ⟨consumed, w2, h1, h2, h3, h4, h5, h6, h7⟩ := ih w.sc_requests res h hne
        refine ⟨w :: consumed, w2, by simp [h1], ?_, h3, h4, h5, h6, ?_⟩
        · intro c hc
          rcases List.mem_cons.mp hc with rfl | hc
          · exact he
          · exact h2 c hc
        · intro s hs2
          rcases List.mem_cons.mp hs2 with rfl | hs2
          · exact hq
          · exact h7 s (by simpa using hs2)
      · simp only [ne_eq, he, not_false_eq_true, if_true, Option.some.injEq] at h
        subst h
        exact ⟨[], w, rfl, by simp, rfl, rfl, rfl, rfl, by simpa using hq⟩

/-- C5: when no queued request is eligible and the wait is interrupted
(`cv_wait_sig` returns a non-zero error), `autofs_ioctl_request` returns that
error and writes nothing: `adr` is untouched and the queue is the one found
at wake-up, hence the one before the call when no other thread changed it.
Conversely a non-zero return comes only from an interrupted wait that
followed scans which found every request done or in progress. -/
theorem autofs_ioctl_request_interrupted (MAXPATHLEN : Nat) (adr : autofs_daemon_request)
    (q : List autofs_request) (w : cv_wakeup) (rest : List cv_wakeup)
    (hnone : ∀ r ∈ q, r.ar_done = true ∨ r.ar_in_progress = true)
    (herr : w.error ≠ 0) :
    autofs_ioctl_request MAXPATHLEN adr q (w :: rest) =
        some { error := w.error, adr := adr, sc_requests := w.sc_requests,
               ar := none, pending := rest } ∧
    (w.sc_requests = q →
      (autofs_ioctl_request MAXPATHLEN adr q (w :: rest)).map (fun res => res.sc_requests)
        = some q) ∧
    ∀ (q2 : List autofs_request) (wakeups : List cv_wakeup) (res : request_result),
      autofs_ioctl_request MAXPATHLEN adr q2 wakeups = some res → res.error ≠ 0 →
      ∃ (consumed : List cv_wakeup) (w2 : cv_wakeup),
        wakeups = consumed ++ w2 :: res.pending ∧ (∀ c ∈ consumed, c.error = 0) ∧
        w2.error = res.error ∧ res.sc_requests = w2.sc_requests ∧ res.adr = adr ∧
        res.ar = none ∧
        ∀ s ∈ q2 :: consumed.map (fun c => c.sc_requests),
          ∀ r ∈ s, r.ar_done = true ∨ r.ar_in_progress = true := by
  have h1 : autofs_ioctl_request MAXPATHLEN adr q (w :: rest) =
      some { error := w.error, adr := adr, sc_requests := w.sc_requests,
             ar := none, pending := rest } := by
    simp only [autofs_ioctl_request, request_scan_none.mpr hnone, ne_eq, herr,
      not_false_eq_true, if_true]
  refine ⟨h1, ?_, ?_⟩
  · intro hq
    rw [h1]
    simp [hq]
  · intro q2 wakeups res h hne
    exact autofs_ioctl_request_error_inv MAXPATHLEN adr wakeups q2 res h hne

theorem autofs_ioctl_request_asleep (MAXPATHLEN : Nat) (adr : autofs_daemon_request)
    (q : List autofs_request) (hs : request_scan q = none) (signals : List Int) :
    ∀ res, autofs_ioctl_request MAXPATHLEN adr q
        (signals.map fun e => { error := e, sc_requests := q }) = some res →
      res.error ≠ 0 ∧ res.sc_requests = q ∧ res.ar = none := by
  induction signals with
  | nil => intro res h; simp [autofs_ioctl_request, hs] at h
  | cons e rest ih =>
    intro res h
    simp only [List.map_cons, autofs_ioctl_request, hs] at h
    by_cases he : e = 0
    · simp only [he, ne_eq, not_true_eq_false, if_false] at h
      exact ih res h
    · simp only [ne_eq, he, not_false_eq_true, if_true, Option.some.injEq] at h
      subst h
      exact ⟨he, rfl, rfl⟩

theorem broker_step_claim_none (MAXPATHLEN : Nat) (adr : autofs_daemon_request)
    (q : List autofs_request) (signals : List Int) (hs : request_scan q = none) :
    broker_step MAXPATHLEN q (.claim_next adr signals) = (none, q) := by
  simp only [broker_step]
  cases h : autofs_ioctl_request MAXPATHLEN adr q
      (signals.map fun e => { error := e, sc_requests := q }) with
  | none => rfl
  | some res =>
    obtain ⟨h1, h2, h3⟩ := autofs_ioctl_request_asleep MAXPATHLEN adr q hs signals res h
    simp only
    rw [h3, h2]
    split
    · rename_i heq
      cases heq
    · rfl

theorem broker_step_claim_some (MAXPATHLEN : Nat) (adr : autofs_daemon_request)
    (q : List autofs_request) (signals : List Int) (i : Nat) (hs : request_scan q = some i) :
    ∃ adr2, broker_step MAXPATHLEN q (.claim_next adr signals) =
      (some { before := q, ar := i, adr := adr2 },
       q.modify (fun r => { r with ar_in_progress := true }) i) := by
  obtain ⟨ar, hget, -⟩ := request_scan_some hs
  have hres : autofs_ioctl_request MAXPATHLEN adr q
      (signals.map fun e => { error := e, sc_requests := q }) =
      request_claim MAXPATHLEN adr q i
        (signals.map fun e => { error := e, sc_requests := q }) := by
    cases signals <;> simp only [List.map_nil, List.map_cons, autofs_ioctl_request, hs]
  simp only [broker_step, hres, request_claim, hget]
  exact ⟨_, rfl⟩

theorem done_scan_modify (id : Int) (f : autofs_request → autofs_request)
    (hf : ∀ r, (f r).ar_id = r.ar_id) :
    ∀ (q : List autofs_request) (j : Nat), done_scan id (q.modify f j) = done_scan id q := by
  intro q
  induction q with
  | nil => intro j; cases j <;> rfl
  | cons a rest ih =>
    intro j
    cases j with
    | zero => simp [List.modify, done_scan, hf]
    | succ j =>
      show done_scan id (a :: rest.modify f j) = done_scan id (a :: rest)
      rw [done_scan, done_scan, ih j]

theorem done_scan_append (id : Int) (x : autofs_request) :
    ∀ (q : List autofs_request) (i : Nat), done_scan id q = some i →
      done_scan id (q ++ [x]) = some i := by
  intro q
  induction q with
  | nil => intro i h; simp [done_scan] at h
  | cons a rest ih =>
    intro i h
    simp only [List.cons_append, done_scan] at h ⊢
    by_cases hid : a.ar_id = id
    · simpa [hid] using h
    · rw [if_neg hid] at h ⊢
      obtain ⟨k, hk, rfl⟩ := Option.map_eq_some'.mp h
      simp [ih k hk]

theorem modify_fixed {α : Type} (f : α → α) (l : List α) (i : Nat) (a : α)
    (hget : l[i]? = some a) (hf : f a = a) : l.modify f i = l := by
  apply List.ext_getElem?
  intro j
  rw [List.getElem?_modify]
  by_cases hij : i = j
  · subst hij
    simp [hget, hf]
  · simp [hij]

theorem broker_step_keeps_busy (MAXPATHLEN : Nat) (q : List autofs_request) (op : broker_op)
    (i : Nat) (hb : ∃ r, q[i]? = some r ∧ (r.ar_done = true ∨ r.ar_in_progress = true)) :
    ∃ r, (broker_step MAXPATHLEN q op).2[i]? = some r ∧
      (r.ar_done = true ∨ r.ar_in_progress = true) := by
  obtain ⟨r, hr, hflag⟩ := hb
  cases op with
  | claim_next adr signals =>
    cases hs : request_scan q with
    | none => rw [broker_step_claim_none MAXPATHLEN adr q signals hs]; exact ⟨r, hr, hflag⟩
    | some k =>
      obtain ⟨adr2, h2⟩ := broker_step_claim_some MAXPATHLEN adr q signals k hs
      rw [h2]
      simp only [List.getElem?_modify, hr, Option.map_eq_map, Option.map_some']
      refine ⟨_, rfl, ?_⟩
      split
      · exact Or.inr rfl
      · exact hflag
  | complete add =>
    simp only [broker_step, autofs_ioctl_done]
    cases hs : done_scan add.add_id q with
    | none => exact ⟨r, hr, hflag⟩
    | some k =>
      simp only [List.getElem?_modify, hr, Option.map_eq_map, Option.map_some']
      refine ⟨_, rfl, ?_⟩
      split
      · exact Or.inl rfl
      · exact hflag
  | enqueue id frm mountpoint path options =>
    simp only [broker_step, request_enqueue]
    refine ⟨r, ?_, hflag⟩
    have hlt : i < q.length := by
      rcases Nat.lt_or_ge i q.length with h | h
      · exact h
      · rw [List.getElem?_eq_none h] at hr; cases hr
    rw [List.getElem?_append_left hlt]
    exact hr

theorem broker_step_event (MAXPATHLEN : Nat) (q : List autofs_request) (op : broker_op)
    (e : claim_event) (he : (broker_step MAXPATHLEN q op).1 = some e) :
    e.before = q ∧
    (∃ r, q[e.ar]? = some r ∧ r.ar_done = false ∧ r.ar_in_progress = false) ∧
    ∃ r, (broker_step MAXPATHLEN q op).2[e.ar]? = some r ∧
      (r.ar_done = true ∨ r.ar_in_progress = true) := by
  cases op with
  | claim_next adr signals =>
    cases hs : request_scan q with
    | none => rw [broker_step_claim_none MAXPATHLEN adr q signals hs] at he; cases he
    | some k =>
      obtain ⟨adr2, h2⟩ := broker_step_claim_some MAXPATHLEN adr q signals k hs
      obtain ⟨ar, hget, hd, hp, -⟩ := request_scan_some hs
      rw [h2] at he ⊢
      simp only [Option.some.injEq] at he
      subst he
      refine ⟨rfl, ⟨ar, hget, hd, hp⟩, ?_⟩
      simp only [List.getElem?_modify_eq, hget, Option.map_eq_map, Option.map_some']
      exact ⟨_, rfl, Or.inr rfl⟩
  | complete add => simp [broker_step] at he
  | enqueue id frm mountpoint path options => simp [broker_step] at he

theorem broker_run_avoids_busy (MAXPATHLEN : Nat) (ops : List broker_op) :
    ∀ (q : List autofs_request) (i : Nat),
      (∃ r, q[i]? = some r ∧ (r.ar_done = true ∨ r.ar_in_progress = true)) →
      ∀ e ∈ (broker_run MAXPATHLEN ops q).1, e.ar ≠ i := by
  induction ops with
  | nil => intro q i _ e he; simp [broker_run] at he
  | cons op ops ih =>
    intro q i hb e he
    simp only [broker_run, List.mem_append, Option.mem_toList, Option.mem_def] at he
    rcases he with he | he
    · obtain ⟨-, ⟨r, hr, hd, hp⟩, -⟩ := broker_step_event MAXPATHLEN q op e he
      intro heq
      obtain ⟨r2, hr2, hflag⟩ := hb
      rw [heq, hr2] at hr
      cases hr
      rcases hflag with h | h
      · rw [hd] at h; cases h
      · rw [hp] at h; cases h
    · exact ih _ i (broker_step_keeps_busy MAXPATHLEN q op i hb) e he

/-- C3: in every sequence of claims, completions and enqueues of fresh
requests, run from any queue, each request returned by `autofs_ioctl_request`
had both flags clear in the queue that the call scanned, and no two successful
calls return the same request. -/
theorem claim_next_returns_each_request_once (MAXPATHLEN : Nat) (ops : List broker_op) :
    ∀ q : List autofs_request,
      (∀ e ∈ (broker_run MAXPATHLEN ops q).1,
        ∃ r, e.before[e.ar]? = some r ∧ r.ar_done = false ∧ r.ar_in_progress = false) ∧
      ((broker_run MAXPATHLEN ops q).1.map fun e => e.ar).Nodup := by
  induction ops with
  | nil => intro q; simp [broker_run]
  | cons op ops ih =>
    intro q
    obtain ⟨ih1, ih2⟩ := ih (broker_step MAXPATHLEN q op).2
    constructor
    · intro e he
      simp only [broker_run, List.mem_append, Option.mem_toList, Option.mem_def] at he
      rcases he with he | he
      · obtain ⟨hq, hel, -⟩ := broker_step_event MAXPATHLEN q op e he
        rw [hq]
        exact hel
      · exact ih1 e he
    · simp only [broker_run, List.map_append]
      cases hstep : (broker_step MAXPATHLEN q op).1 with
      | none => simpa using ih2
      | some e =>
        obtain ⟨-, -, hb⟩ := broker_step_event MAXPATHLEN q op e hstep
        simp only [Option.toList_some, List.map_cons, List.map_nil, List.singleton_append,
          List.nodup_cons]
        refine ⟨?_, ih2⟩
        intro hmem
        obtain ⟨e2, he2, heq⟩ := List.mem_map.mp hmem
        exact broker_run_avoids_busy MAXPATHLEN ops _ e.ar hb e2 he2 heq

theorem broker_step_keeps_completed (MAXPATHLEN : Nat) (id : Int) (q : List autofs_request)
    (op : broker_op)
    (h : ∃ i r, done_scan id q = some i ∧ q[i]? = some r ∧ r.ar_done = true ∧
      r.ar_in_progress = false) :
    ∃ i r, done_scan id (broker_step MAXPATHLEN q op).2 = some i ∧
      (broker_step MAXPATHLEN q op).2[i]? = some r ∧ r.ar_done = true ∧
      r.ar_in_progress = false := by
  obtain ⟨i, r, hs, hr, hd, hp⟩ := h
  cases op with
  | claim_next adr signals =>
    cases hsc : request_scan q with
    | none =>
      rw [broker_step_claim_none MAXPATHLEN adr q signals hsc]
      exact ⟨i, r, hs, hr, hd, hp⟩
    | some k =>
      obtain ⟨adr2, h2⟩ := broker_step_claim_some MAXPATHLEN adr q signals k hsc
      obtain ⟨ar, hget, hd2, -, -⟩ := request_scan_some hsc
      have hki : k ≠ i := by
        intro hki
        rw [hki, hr] at hget
        cases hget
        rw [hd] at hd2
        cases hd2
      rw [h2]
      refine ⟨i, r, ?_, ?_, hd, hp⟩
      · exact (done_scan_modify id (fun r => { r with ar_in_progress := true })
          (fun _ => rfl) q k).trans hs
      · simp only
        rw [List.getElem?_modify_ne _ _ hki]
        exact hr
  | complete add =>
    simp only [broker_step, autofs_ioctl_done]
    cases hsc : done_scan add.add_id q with
    | none => exact ⟨i, r, hs, hr, hd, hp⟩
    | some k =>
      simp only
      rw [done_scan_modify id (fun ar => { ar with ar_done := true, ar_in_progress := false })
        (fun _ => rfl)]
      by_cases hki : k = i
      · refine ⟨i, { r with ar_done := true, ar_in_progress := false }, hs, ?_, rfl, rfl⟩
        rw [hki, List.getElem?_modify_eq, hr]
        rfl
      · refine ⟨i, r, hs, ?_, hd, hp⟩
        rw [List.getElem?_modify_ne _ _ hki]
        exact hr
  | enqueue id2 frm mountpoint path options =>
    simp only [broker_step, request_enqueue]
    refine ⟨i, r, done_scan_append id _ q i hs, ?_, hd, hp⟩
    have hlt : i < q.length := by
      rcases Nat.lt_or_ge i q.length with h | h
      · exact h
      · rw [List.getElem?_eq_none h] at hr; cases hr
    rw [List.getElem?_append_left hlt]
    exact hr

theorem broker_run_keeps_completed (MAXPATHLEN : Nat) (id : Int) (ops : List broker_op) :
    ∀ q : List autofs_request,
      (∃ i r, done_scan id q = some i ∧ q[i]? = some r ∧ r.ar_done = true ∧
        r.ar_in_progress = false) →
      ∃ i r, done_scan id (broker_run MAXPATHLEN ops q).2 = some i ∧
        (broker_run MAXPATHLEN ops q).2[i]? = some r ∧ r.ar_done = true ∧
        r.ar_in_progress = false := by
  induction ops with
  | nil => intro q h; exact h
  | cons op ops ih =>
    intro q h
    simp only [broker_run]
    exact ih _ (broker_step_keeps_completed MAXPATHLEN id q op h)

theorem completed_request_fixed (r : autofs_request) (hd : r.ar_done = true)
    (hp : r.ar_in_progress = false) :
    { r with ar_done := true, ar_in_progress := false } = r := by
  cases r
  simp_all

theorem autofs_ioctl_done_of_completed (q : List autofs_request) (add : autofs_daemon_done)
    (h : ∃ i r, done_scan add.add_id q = some i ∧ q[i]? = some r ∧ r.ar_done = true ∧
      r.ar_in_progress = false) :
    (autofs_ioctl_done q add).error = 0 ∧ (autofs_ioctl_done q add).sc_requests = q := by
  obtain ⟨i, r, hs, hr, hd, hp⟩ := h
  simp only [autofs_ioctl_done, hs, true_and]
  exact modify_fixed (fun ar => { ar with ar_done := true, ar_in_progress := false }) _ i r hr
    (completed_request_fixed r hd hp)

/-- C4, as amended: once `autofs_ioctl_done` has succeeded for an id, a second
call for that id succeeds again and changes nothing, whatever claims,
completions and enqueues were made in between: the completed request is still
the first one queued with that id. -/
theorem autofs_ioctl_done_again_succeeds (MAXPATHLEN : Nat) (q : List autofs_request)
    (add : autofs_daemon_done) (ops : List broker_op)
    (h1 : (autofs_ioctl_done q add).error = 0) :
    (autofs_ioctl_done
        (broker_run MAXPATHLEN ops (autofs_ioctl_done q add).sc_requests).2 add).error = 0 ∧
    (autofs_ioctl_done
        (broker_run MAXPATHLEN ops (autofs_ioctl_done q add).sc_requests).2 add).sc_requests =
      (broker_run MAXPATHLEN ops (autofs_ioctl_done q add).sc_requests).2 := by
  have hinit : ∃ i r, done_scan add.add_id (autofs_ioctl_done q add).sc_requests = some i ∧
      (autofs_ioctl_done q add).sc_requests[i]? = some r ∧ r.ar_done = true ∧
      r.ar_in_progress = false := by
    cases hs : done_scan add.add_id q with
    | none => simp [autofs_ioctl_done, hs, ESRCH] at h1
    | some i =>
      obtain ⟨ar, hget, -, -⟩ := done_scan_some hs
      simp only [autofs_ioctl_done, hs]
      refine ⟨i, { ar with ar_done := true, ar_in_progress := false }, ?_, ?_, rfl, rfl⟩
      · exact (done_scan_modify add.add_id
          (fun ar => { ar with ar_done := true, ar_in_progress := false })
          (fun _ => rfl) q i).trans hs
      · rw [List.getElem?_modify_eq, hget]
        rfl
  exact autofs_ioctl_done_of_completed _ add
    (broker_run_keeps_completed MAXPATHLEN add.add_id ops _ hinit)

/-- C4, counterexample: on `example_requests` the call `autofs_ioctl_done(7)`
succeeds, only a claim and a completion follow, and a second
`autofs_ioctl_done(7)` does not return `ESRCH`. -/
theorem autofs_ioctl_done_twice_counterexample :
    (autofs_ioctl_done example_requests { add_id := 7 }).error = 0 ∧
    (∀ op ∈ [broker_op.claim_next example_adr [], broker_op.complete { add_id := 6 }],
      op.keeps_queue = true) ∧
    (autofs_ioctl_done
      (broker_run 1024 [broker_op.claim_next example_adr [], broker_op.complete { add_id := 6 }]
        (autofs_ioctl_done example_requests { add_id := 7 }).sc_requests).2
      { add_id := 7 }).error ≠ ESRCH := by
  decide

/-- Witness of C4 as amended, on `example_requests` and id 7. -/
theorem autofs_ioctl_done_again_succeeds_witness :
    (autofs_ioctl_done example_requests { add_id := 7 }).error = 0 ∧
    (autofs_ioctl_done
        (broker_run 1024 [broker_op.claim_next example_adr [], broker_op.complete { add_id := 6 }]
          (autofs_ioctl_done example_requests { add_id := 7 }).sc_requests).2
        { add_id := 7 }).error = 0 ∧
    (autofs_ioctl_done
        (broker_run 1024 [broker_op.claim_next example_adr [], broker_op.complete { add_id := 6 }]
          (autofs_ioctl_done example_requests { add_id := 7 }).sc_requests).2
        { add_id := 7 }).sc_requests =
      (broker_run 1024 [broker_op.claim_next example_adr [], broker_op.complete { add_id := 6 }]
        (autofs_ioctl_done example_requests { add_id := 7 }).sc_requests).2 :=
  ⟨by decide, autofs_ioctl_done_again_succeeds 1024 example_requests { add_id := 7 }
    [broker_op.claim_next example_adr [], broker_op.complete { add_id := 6 }] (by decide)⟩

/-- Witness of C1, on `example_requests`: the request at position 2 (id 7)
is claimed. -/
theorem autofs_ioctl_request_claims_first_eligible_witness :
    (∀ r ∈ example_requests, request_fits 1024 r) ∧
    (∃ r ∈ example_requests, r.ar_done = false ∧ r.ar_in_progress = false) ∧
    ∃ (i : Nat) (ar : autofs_request) (res : request_result),
      example_requests[i]? = some ar ∧ ar.ar_done = false ∧ ar.ar_in_progress = false ∧
      (∀ j, j < i → ∀ r, example_requests[j]? = some r →
        r.ar_done = true ∨ r.ar_in_progress = true) ∧
      autofs_ioctl_request 1024 example_adr example_requests [] = some res ∧
      res.error = 0 ∧ res.pending = [] ∧ res.ar = some i ∧
      res.adr.adr_id = ar.ar_id ∧ res.adr.adr_from = ar.ar_from ∧
      res.adr.adr_mountpoint = ar.ar_mountpoint ∧ res.adr.adr_path = ar.ar_path ∧
      res.adr.adr_options = ar.ar_options ∧
      res.adr.adr_prefix = example_adr.adr_prefix ∧ res.adr.adr_key = example_adr.adr_key ∧
      res.sc_requests.length = example_requests.length ∧
      res.sc_requests[i]? = some { ar with ar_in_progress := true } ∧
      ∀ j, j ≠ i → res.sc_requests[j]? = example_requests[j]? :=
  ⟨by decide, by decide,
    autofs_ioctl_request_claims_first_eligible 1024 example_adr example_requests []
      (by decide) (by decide)⟩

/-- Witness of C5, on `example_busy_requests` with a wait interrupted by error 4
(`EINTR`). -/
theorem autofs_ioctl_request_interrupted_witness :
    (∀ r ∈ example_busy_requests, r.ar_done = true ∨ r.ar_in_progress = true) ∧
    autofs_ioctl_request 1024 example_adr example_busy_requests
        [{ error := 4, sc_requests := example_busy_requests }] =
      some { error := 4, adr := example_adr, sc_requests := example_busy_requests,
             ar := none, pending := [] } :=
  ⟨by decide,
    (autofs_ioctl_request_interrupted 1024 example_adr example_busy_requests
      { error := 4, sc_requests := example_busy_requests } [] (by decide) (by decide)).1⟩

/-! ## Theorems, part 2: the map tree -/

theorem key_chain_parent_none {h : node_heap} {n : Nat} {ks : List cstring} {nd : node}
    (hc : key_chain h n ks) (hn : h[n]? = some nd) : nd.n_parent = none ↔ ks = [] := by
  cases hc with
  | root n nd2 hn2 hp2 =>
    rw [hn] at hn2
    cases hn2
    simp [hp2]
  | step n p nd2 ks2 hn2 hp2 hc2 =>
    rw [hn] at hn2
    cases hn2
    simp [hp2]

theorem key_chain_node {h : node_heap} {n : Nat} {ks : List cstring}
    (hc : key_chain h n ks) : ∃ nd, h[n]? = some nd := by
  cases hc with
  | root n nd hn _ => exact ⟨nd, hn⟩
  | step n p nd ks2 hn _ _ => exact ⟨nd, hn⟩

theorem key_chain_parent {h : node_heap} {n p : Nat} {ks : List cstring} {nd : node}
    (hc : key_chain h n ks) (hn : h[n]? = some nd) (hp : nd.n_parent = some p) :
    ∃ ks2, key_chain h p ks2 ∧ ks = ks2 ++ [nd.n_key] := by
  cases hc with
  | root n nd2 hn2 hp2 =>
    rw [hn] at hn2
    cases hn2
    rw [hp] at hp2
    cases hp2
  | step n p2 nd2 ks2 hn2 hp2 hc2 =>
    rw [hn] at hn2
    cases hn2
    rw [hp] at hp2
    cases hp2
    exact ⟨ks2, hc2, rfl⟩

theorem node_mountpoint_x_of_keys {h : node_heap} {n : Nat} {ks : List cstring}
    (hc : key_chain h n ks) :
    ∀ (fuel : Nat) (x : cstring), ks.length < fuel →
      node_mountpoint_x h fuel n x = mountpoint_of_keys ks.reverse x := by
  induction hc with
  | root n nd hn hp =>
    intro fuel x hf
    cases fuel with
    | zero => omega
    | succ f => simp [node_mountpoint_x, hn, hp, mountpoint_of_keys]
  | step n p nd ks hn hp hc ih =>
    intro fuel x hf
    cases fuel with
    | zero => omega
    | succ f =>
      obtain ⟨pn, hpn⟩ := key_chain_node hc
      have hroot := key_chain_parent_none hc hpn
      simp only [List.length_append, List.length_singleton] at hf
      simp only [node_mountpoint_x, hn, hp, hpn, List.reverse_append, List.reverse_cons,
        List.reverse_nil, List.nil_append, List.singleton_append, mountpoint_of_keys, hroot,
        List.reverse_eq_nil_iff]
      split
      · rfl
      · cases strip_trailing_slash (separated_concat nd.n_key x '/') with
        | none => rfl
        | some path => exact ih f path (by omega)

theorem join_keys_cons (k : cstring) (rest : List cstring) (h : rest ≠ []) :
    join_keys (k :: rest) = k ++ '/' :: join_keys rest := by
  cases rest with
  | nil => exact absurd rfl h
  | cons a r => rfl

theorem join_keys_append_pair (ks : List cstring) (k x : cstring) :
    join_keys (ks ++ [k ++ '/' :: x]) = join_keys (ks ++ [k, x]) := by
  induction ks with
  | nil => simp [join_keys]
  | cons a r ih =>
    rw [List.cons_append, List.cons_append, join_keys_cons _ _ (by simp),
      join_keys_cons _ _ (by simp), ih]

theorem mountpoint_of_keys_join :
    ∀ (up : List cstring) (x : cstring),
      (∀ k ∈ up, k ≠ [] ∧ k.getLast? ≠ some '/') →
      (∀ k ∈ up.reverse.tail, k.head? ≠ some '/') →
      up.reverse.head? ≠ some ['/', '-'] →
      (x = [] ∨ (x.head? ≠ some '/' ∧ x.getLast? ≠ some '/')) →
      mountpoint_of_keys up x =
        some (join_keys (up.reverse ++ (if x = [] then [] else [x]))) := by
  intro up
  induction up with
  | nil =>
    intro x _ _ _ _
    by_cases hx : x = []
    · simp [mountpoint_of_keys, hx, join_keys]
    · simp [mountpoint_of_keys, hx, join_keys]
  | cons k up ih =>
    intro x hne htail hfirst hx
    obtain ⟨hk, hklast⟩ := hne k (List.mem_cons_self _ _)
    have hguard : ¬ (up = [] ∧ k = ['/', '-'] ∧ x ≠ []) := by
      rintro ⟨hup, hk2, -⟩
      subst hup
      simp [hk2] at hfirst
    have hcat : separated_concat k x '/' = if x = [] then k else k ++ '/' :: x := by
      unfold separated_concat
      by_cases hx0 : x = []
      · simp [hx0]
      · rcases hx with hx | ⟨hx1, -⟩
        · exact absurd hx hx0
        · simp [hk, hx0, hklast, hx1]
    have hstrip : strip_trailing_slash (separated_concat k x '/') =
        some (if x = [] then k else k ++ '/' :: x) := by
      rw [hcat]
      unfold strip_trailing_slash
      by_cases hx0 : x = []
      · simp [hx0, hk, hklast]
      · rcases hx with hx | ⟨-, hx2⟩
        · exact absurd hx hx0
        · have hl : (k ++ '/' :: x).getLast? = x.getLast? := by
            rw [List.getLast?_append]
            cases hxl : (('/' :: x).getLast?) with
            | none => simp at hxl
            | some c =>
              rw [List.getLast?_cons] at hxl
              cases hxx : x.getLast? with
              | none => exact absurd (List.getLast?_eq_none_iff.mp hxx) hx0
              | some d =>
                rw [hxx] at hxl
                simp only [Option.getD_some, Option.some.injEq] at hxl
                subst hxl
                rfl
          simp [hx0, hl, hx2]
    simp only [mountpoint_of_keys, hguard, if_false, hstrip]
    cases up with
    | nil =>
      by_cases hx0 : x = []
      · simp [mountpoint_of_keys, hx0, join_keys]
      · simp [mountpoint_of_keys, hx0, join_keys]
    | cons k2 up2 =>
      have hrev : (k :: k2 :: up2).reverse = (k2 :: up2).reverse ++ [k] := by simp
      have hrne : (k2 :: up2).reverse ≠ [] := by simp
      rw [hrev, List.tail_append_of_ne_nil hrne] at htail
      rw [hrev, List.head?_append_of_ne_nil _ hrne] at hfirst
      have hkhead : k.head? ≠ some '/' := htail k (by simp)
      have hc_ne : (if x = [] then k else k ++ '/' :: x) ≠ [] := by
        by_cases hx0 : x = []
        · simpa [hx0] using hk
        · simp [hx0]
      have hc_inv : (if x = [] then k else k ++ '/' :: x).head? ≠ some '/' ∧
          (if x = [] then k else k ++ '/' :: x).getLast? ≠ some '/' := by
        have := hstrip
        unfold strip_trailing_slash at this
        rw [hcat] at this
        constructor
        · by_cases hx0 : x = []
          · simpa [hx0] using hkhead
          · simp only [hx0, if_false]
            cases k with
            | nil => exact absurd rfl hk
            | cons c r => simpa using hkhead
        · intro hlast
          simp only [hc_ne, if_false, hlast, if_true, Option.some.injEq] at this
          have hlen := congrArg List.length this
          simp only [List.length_dropLast] at hlen
          have : 0 < (if x = [] then k else k ++ '/' :: x).length :=
            List.length_pos.mpr hc_ne
          omega
      rw [ih _ (fun k3 hk3 => hne k3 (List.mem_cons_of_mem _ hk3))
        (fun k3 hk3 => htail k3 (List.mem_append_left _ hk3)) hfirst (Or.inr hc_inv)]
      simp only [hc_ne, if_false]
      by_cases hx0 : x = []
      · simp [hx0]
      · simp only [hx0, if_false, hrev]
        rw [join_keys_append_pair]
        simp

/-- C6: for a node whose keys from the child of the root down to itself are
`k1 .. kn`, all non-empty, none ending with a slash, `k2 .. kn` not beginning
with a slash and `k1` not the direct map key (a slash and a dash),
`node_mountpoint` returns `k1`, a slash, `k2` and so on up to `kn`; the
root's own key is left out, and for the root the result is the empty string. -/
theorem node_mountpoint_joins_keys (h : node_heap) (n : Nat) (ks : List cstring) (fuel : Nat)
    (hchain : key_chain h n ks) (hfuel : ks.length < fuel)
    (hne : ∀ k ∈ ks, k ≠ [] ∧ k.getLast? ≠ some '/')
    (htail : ∀ k ∈ ks.tail, k.head? ≠ some '/')
    (hfirst : ks.head? ≠ some ['/', '-']) :
    node_mountpoint h fuel n = some (join_keys ks) ∧
    (ks = [] → node_mountpoint h fuel n = some []) := by
  have hmain : node_mountpoint h fuel n = some (join_keys ks) := by
    unfold node_mountpoint
    rw [node_mountpoint_x_of_keys hchain fuel [] hfuel,
      mountpoint_of_keys_join ks.reverse [] (by simpa using hne) (by simpa using htail)
        (by simpa using hfirst) (Or.inl rfl)]
    simp
  refine ⟨hmain, ?_⟩
  intro hks
  rw [hmain, hks]
  rfl

theorem node_is_direct_map_of_keys {h : node_heap} {n : Nat} {ks : List cstring}
    (hc : key_chain h n ks) :
    ks ≠ [] → ∀ fuel : Nat, ks.length ≤ fuel →
      node_is_direct_map h fuel n = some (decide (ks.head? = some ['/', '-'])) := by
  induction hc with
  | root n nd hn hp => intro hne; exact absurd rfl hne
  | step n p nd ks hn hp hc ih =>
    intro _ fuel hf
    simp only [List.length_append, List.length_singleton] at hf
    cases fuel with
    | zero => omega
    | succ f =>
      obtain ⟨pn, hpn⟩ := key_chain_node hc
      have hroot := key_chain_parent_none hc hpn
      simp only [node_is_direct_map, hn, hp, hpn]
      by_cases hks : ks = []
      · subst hks
        simp [hroot.mpr rfl]
      · have hpar : ¬ pn.n_parent = none := fun hcon => hks (hroot.mp hcon)
        simp only [hpar, if_false]
        rw [ih hks f (by omega), List.head?_append_of_ne_nil _ hks]

/-- C9: for a node below the root, with keys `ks` from the child of the root
down to itself, `node_is_direct_map` returns a result once the bound reaches
the length of `ks`, and the result is true exactly when the first key, that
of the top-level ancestor, is the direct map key.  A node whose parent is not
the root is classified as its parent is. -/
theorem node_is_direct_map_spec (h : node_heap) (n : Nat) (ks : List cstring) (fuel : Nat)
    (hchain : key_chain h n ks) (hne : ks ≠ []) (hfuel : ks.length ≤ fuel) :
    node_is_direct_map h fuel n = some (decide (ks.head? = some ['/', '-'])) ∧
    ∀ (nd pn : node) (p fuel2 : Nat), h[n]? = some nd → nd.n_parent = some p →
      h[p]? = some pn → pn.n_parent ≠ none → ks.length - 1 ≤ fuel2 →
      node_is_direct_map h fuel2 p = node_is_direct_map h fuel n := by
  have hmain := node_is_direct_map_of_keys hchain hne fuel hfuel
  refine ⟨hmain, ?_⟩
  intro nd pn p fuel2 hn hp hpn hpar hf2
  obtain ⟨ks2, hc2, hks⟩ := key_chain_parent hchain hn hp
  have hks2 : ks2 ≠ [] := fun hcon => hpar ((key_chain_parent_none hc2 hpn).mpr hcon)
  have hlen : ks2.length ≤ fuel2 := by
    rw [hks] at hf2
    simpa using hf2
  rw [hmain, node_is_direct_map_of_keys hc2 hks2 fuel2 hlen, hks,
    List.head?_append_of_ne_nil _ hks2]

theorem node_find_children_spec (h : node_heap) (mfuel fuel : Nat) (mountpoint : cstring) :
    ∀ cs : List Nat,
      (∀ c ∈ cs, node_find h mfuel fuel c mountpoint =
        some ((preorder h fuel c).find? (node_matches h mfuel mountpoint))) →
      node_find_children (fun n => node_find h mfuel fuel n mountpoint) cs =
        some ((cs.flatMap (preorder h fuel)).find? (node_matches h mfuel mountpoint)) := by
  intro cs
  induction cs with
  | nil => intro _; rfl
  | cons c rest ih =>
    intro hcs
    have hc := hcs c (List.mem_cons_self _ _)
    have hrest := ih (fun c2 hc2 => hcs c2 (List.mem_cons_of_mem _ hc2))
    simp only [node_find_children, hc, List.flatMap_cons, List.find?_append]
    cases hfind : (preorder h fuel c).find? (node_matches h mfuel mountpoint) with
    | some n2 => simp
    | none => simpa using hrest

theorem node_find_preorder (h : node_heap) (mfuel : Nat) (mountpoint : cstring) :
    ∀ (fuel root : Nat), subtree_depth h root fuel →
      (∀ p ∈ preorder h fuel root, (node_mountpoint h mfuel p).isSome = true) →
      node_find h mfuel fuel root mountpoint =
        some ((preorder h fuel root).find? (node_matches h mfuel mountpoint)) := by
  intro fuel
  induction fuel with
  | zero => intro root hd; cases hd
  | succ f ih =>
    intro root hd hdef
    cases hd with
    | mk _ _ nd hn hkids =>
      have hpre : preorder h (f + 1) root = root :: nd.n_children.flatMap (preorder h f) := by
        simp [preorder, hn]
      rw [hpre] at hdef ⊢
      by_cases hstar : nd.n_key = ['*']
      · have hm : node_matches h mfuel mountpoint root = true := by
          simp [node_matches, hn, hstar]
        simp [node_find, hn, hstar, hm]
      · have hroot := hdef root (List.mem_cons_self _ _)
        obtain ⟨tmp, htmp⟩ := Option.isSome_iff_exists.mp hroot
        by_cases heq : tmp = mountpoint
        · have hm : node_matches h mfuel mountpoint root = true := by
            simp [node_matches, hn, htmp, heq]
          simp [node_find, hn, hstar, htmp, heq, hm]
        · have hm : node_matches h mfuel mountpoint root = false := by
            simp [node_matches, hn, hstar, htmp, heq]
          have hkids2 := node_find_children_spec h mfuel f mountpoint nd.n_children
            (fun c hc => ih c (hkids c hc) (fun p hp =>
              hdef p (List.mem_cons_of_mem _ (List.mem_flatMap.mpr ⟨c, hc, hp⟩))))
          simp only [node_find, hn, hstar, if_false, htmp, heq]
          rw [hkids2, List.find?_cons_of_neg _ (by simp [hm])]

/-- C8: on a subtree of at most `fuel` levels in which every node has a
mountpoint, `node_find` returns the first node in depth-first pre-order whose
key is `*` or whose `node_mountpoint` is the mountpoint looked for; the result
is `NULL` exactly when no node of the subtree passes that test, and a node
returned passes it. -/
theorem node_find_spec (h : node_heap) (mfuel fuel root : Nat) (mountpoint : cstring)
    (hdepth : subtree_depth h root fuel)
    (hdef : ∀ p ∈ preorder h fuel root, (node_mountpoint h mfuel p).isSome = true) :
    node_find h mfuel fuel root mountpoint =
      some ((preorder h fuel root).find? (node_matches h mfuel mountpoint)) ∧
    (node_find h mfuel fuel root mountpoint = some none ↔
      ∀ p ∈ preorder h fuel root, ∀ nd, h[p]? = some nd →
        nd.n_key ≠ ['*'] ∧ node_mountpoint h mfuel p ≠ some mountpoint) ∧
    (∀ n, node_find h mfuel fuel root mountpoint = some (some n) →
      n ∈ preorder h fuel root ∧ ∃ nd, h[n]? = some nd ∧
        (nd.n_key = ['*'] ∨ node_mountpoint h mfuel n = some mountpoint)) := by
  have hmain := node_find_preorder h mfuel mountpoint fuel root hdepth hdef
  have hnodes : ∀ (d r : Nat), ∀ p ∈ preorder h d r, ∃ nd, h[p]? = some nd := by
    intro d
    induction d with
    | zero => intro r p hp; simp [preorder] at hp
    | succ d ihd =>
      intro r p hp
      simp only [preorder] at hp
      cases hr : h[r]? with
      | none => simp [hr] at hp
      | some nd =>
        simp only [hr, List.mem_cons, List.mem_flatMap] at hp
        rcases hp with rfl | ⟨c, -, hc⟩
        · exact ⟨nd, hr⟩
        · exact ihd c p hc
  refine ⟨hmain, ?_, ?_⟩
  · rw [hmain]
    simp only [Option.some.injEq, List.find?_eq_none]
    constructor
    · intro hall p hp nd hnd
      have := hall p hp
      simp only [node_matches, hnd, Bool.or_eq_true, decide_eq_true_eq, not_or] at this
      exact this
    · intro hall p hp
      obtain ⟨nd, hnd⟩ := hnodes fuel root p hp
      have := hall p hp nd hnd
      simp only [node_matches, hnd, Bool.or_eq_true, decide_eq_true_eq, not_or]
      exact this
  · intro n hn
    rw [hmain] at hn
    simp only [Option.some.injEq] at hn
    have hmem := List.mem_of_find?_eq_some hn
    have hp := List.find?_some hn
    obtain ⟨nd, hnd⟩ := hnodes fuel root n hmem
    simp only [node_matches, hnd, Bool.or_eq_true, decide_eq_true_eq] at hp
    exact ⟨hmem, nd, hnd, hp⟩

theorem key_chain_of_node_keys (h : node_heap) :
    ∀ (fuel n : Nat) (ks : List cstring), node_keys h fuel n = some ks → key_chain h n ks := by
  intro fuel
  induction fuel with
  | zero => intro n ks hk; simp [node_keys] at hk
  | succ f ih =>
    intro n ks hk
    simp only [node_keys] at hk
    cases hn : h[n]? with
    | none => simp [hn] at hk
    | some nd =>
      cases hp : nd.n_parent with
      | none =>
        simp only [hn, hp, Option.some.injEq] at hk
        subst hk
        exact key_chain.root n nd hn hp
      | some p =>
        simp only [hn, hp] at hk
        obtain ⟨ks2, hks2, rfl⟩ := Option.map_eq_some'.mp hk
        exact key_chain.step n p nd ks2 hn hp (ih p ks2 hks2)

theorem subtree_depth_of_within (h : node_heap) :
    ∀ (d n : Nat), subtree_within h d n = true → subtree_depth h n d := by
  intro d
  induction d with
  | zero => intro n hw; simp [subtree_within] at hw
  | succ d ih =>
    intro n hw
    simp only [subtree_within] at hw
    cases hn : h[n]? with
    | none => simp [hn] at hw
    | some nd =>
      simp only [hn, List.all_eq_true] at hw
      exact subtree_depth.mk n d nd hn (fun c hc => ih c (hw c hc))

/-- Witness of C6, on `example_home_heap`: node 2 has the keys `/home` and
`docs` and the mountpoint `/home/docs`. -/
theorem node_mountpoint_joins_keys_witness :
    node_mountpoint example_home_heap 5 2 = some (join_keys ["/home".toList, "docs".toList]) ∧
    join_keys ["/home".toList, "docs".toList] = "/home/docs".toList :=
  ⟨(node_mountpoint_joins_keys example_home_heap 2 ["/home".toList, "docs".toList] 5
      (key_chain_of_node_keys example_home_heap 5 2 _ (by decide)) (by decide) (by decide)
      (by decide) (by decide)).1,
   by decide⟩

/-- C7, the code at the failing input: in `example_direct_heap` node 2, the
map entry with key `/` below the direct map node, is classified direct and its
mountpoint comes out as the direct map key itself, and so does that of its
child; hung right under the root (`example_flat_heap`) the same entry has the
empty mountpoint. -/
theorem node_mountpoint_direct_key_not_elided :
    node_is_direct_map example_direct_heap 5 2 = some true ∧
    node_mountpoint example_direct_heap 5 1 = some ['/', '-'] ∧
    node_mountpoint example_direct_heap 5 2 = some ['/', '-'] ∧
    node_mountpoint example_direct_heap 5 3 = some ['/', '-'] ∧
    node_mountpoint example_flat_heap 5 1 = some [] ∧
    node_mountpoint example_flat_heap 5 2 = some [] := by
  decide

/-- Witness of C8, on `example_home_heap`: looking for `/home/docs` from the
root returns node 2. -/
theorem node_find_spec_witness :
    (∀ p ∈ preorder example_home_heap 4 0,
      (node_mountpoint example_home_heap 5 p).isSome = true) ∧
    node_find example_home_heap 5 4 0 "/home/docs".toList =
      some ((preorder example_home_heap 4 0).find?
        (node_matches example_home_heap 5 "/home/docs".toList)) ∧
    node_find example_home_heap 5 4 0 "/home/docs".toList = some (some 2) :=
  ⟨by decide,
   (node_find_spec example_home_heap 5 4 0 "/home/docs".toList
      (subtree_depth_of_within example_home_heap 4 0 (by decide)) (by decide)).1,
   by decide⟩

/-- Witness of C9, on `example_direct_heap`: node 3, two levels below the
direct map node, is classified direct. -/
theorem node_is_direct_map_spec_witness :
    node_is_direct_map example_direct_heap 3 3 = some true :=
  (node_is_direct_map_spec example_direct_heap 3 [['/', '-'], ['/'], ['/']] 3
    (key_chain_of_node_keys example_direct_heap 5 3 _ (by decide)) (by decide) (by decide)).1

/-! ### The map parser -/

theorem parse_map_inner_eq (map : cstring) (parent node : Nat) (yytext : cstring)
    (ts : List lexeme) (lineno : Int) (v : map_vars) (h : node_heap) :
    parse_map_inner map parent node yytext ts lineno v h =
      match parse_map_word map node yytext lineno v h with
      | .error e => .error e
      | .ok (v2, h2) => parse_map_again map parent node ts lineno v2 h2 := by
  cases ts with
  | nil =>
    rw [parse_map_inner]
    cases parse_map_word map node yytext lineno v h with
    | error e => rfl
    | ok r => cases r; rfl
  | cons t ts =>
    rw [parse_map_inner]
    cases parse_map_word map node yytext lineno v h with
    | error e => rfl
    | ok r => cases r; rfl

theorem parse_map_again_word (map : cstring) (parent node : Nat) (w : map_word)
    (ts : List lexeme) (line0 : Int) (v : map_vars) (h : node_heap) :
    parse_map_again map parent node (w.lexeme :: ts) line0 v h =
      parse_map_inner map parent node w.text ts w.lineno v h := by
  simp [parse_map_again, map_word.lexeme]

theorem parse_map_inner_mountpoint (map : cstring) (parent node : Nat) (yytext : cstring)
    (ts : List lexeme) (lineno : Int) (h : node_heap)
    (hy : yytext.head? = some '/') :
    parse_map_inner map parent node yytext ts lineno
        { key := none, options := none, mountpoint := none, options2 := none, location := none }
        h =
      parse_map_again map parent node ts lineno
        { key := none, options := none, mountpoint := some yytext, options2 := none,
          location := none } h := by
  rw [parse_map_inner_eq]
  simp [parse_map_word, hy]

theorem parse_map_inner_options2 (map : cstring) (parent node : Nat) (yytext : cstring)
    (ts : List lexeme) (lineno : Int) (mp : Option cstring) (h : node_heap)
    (hy : yytext.head? = some '-') :
    parse_map_inner map parent node yytext ts lineno
        { key := none, options := none, mountpoint := mp, options2 := none, location := none }
        h =
      parse_map_again map parent node ts lineno
        { key := none, options := none, mountpoint := mp, options2 := some yytext,
          location := none } h := by
  rw [parse_map_inner_eq]
  have hy2 : ¬ yytext.head? = some '/' := by rw [hy]; decide
  simp [parse_map_word, hy, hy2]

theorem parse_map_inner_location (map : cstring) (parent node : Nat) (yytext : cstring)
    (ts : List lexeme) (lineno : Int) (mp o2 : Option cstring) (h : node_heap)
    (hy1 : ¬ yytext.head? = some '/') (hy2 : ¬ yytext.head? = some '-') :
    parse_map_inner map parent node yytext ts lineno
        { key := none, options := none, mountpoint := mp, options2 := o2, location := none }
        h =
      parse_map_again map parent node ts lineno
        { key := none, options := none, mountpoint := none, options2 := none, location := none }
        (node_new h node (mp.getD ['/']) (some (o2.getD [])) (some yytext) map lineno).1 := by
  rw [parse_map_inner_eq]
  simp [parse_map_word, hy1, hy2]

theorem parse_map_triple (map : cstring) (parent node : Nat) (t : map_triple)
    (ht : t.shaped = true) (k : List lexeme) (line0 : Int) (h : node_heap) :
    parse_map_again map parent node (t.lexemes ++ k) line0
        { key := none, options := none, mountpoint := none, options2 := none, location := none }
        h =
      parse_map_again map parent node k t.location.lineno
        { key := none, options := none, mountpoint := none, options2 := none, location := none }
        (node_new h node (t.node map node).n_key (t.node map node).n_options
          (t.node map node).n_location map t.location.lineno).1 := by
  obtain ⟨mp, o2, loc⟩ := t
  simp only [map_triple.shaped, Bool.and_eq_true, Bool.not_eq_true', starts_with] at ht
  obtain ⟨⟨⟨h1, h2⟩, h3⟩, h4⟩ := ht
  simp only [beq_eq_false_iff_ne, ne_eq] at h3 h4
  cases mp with
  | none =>
    cases o2 with
    | none =>
      simp only [map_triple.lexemes, Option.toList_none, List.nil_append, List.map_cons,
        List.map_nil, List.singleton_append, parse_map_again_word]
      rw [parse_map_inner_location _ _ _ _ _ _ _ _ _ h3 h4]
      rfl
    | some o =>
      simp only [Option.all_some, beq_iff_eq] at h2
      simp only [map_triple.lexemes, Option.toList_none, Option.toList_some, List.nil_append,
        List.map_cons, List.map_nil, List.singleton_append, List.cons_append,
        parse_map_again_word]
      rw [parse_map_inner_options2 _ _ _ _ _ _ _ _ h2, parse_map_again_word,
        parse_map_inner_location _ _ _ _ _ _ _ _ _ h3 h4]
      rfl
  | some m =>
    simp only [Option.all_some, beq_iff_eq] at h1
    cases o2 with
    | none =>
      simp only [map_triple.lexemes, Option.toList_none, Option.toList_some, List.nil_append,
        List.append_nil, List.map_cons, List.map_nil, List.singleton_append, List.cons_append,
        parse_map_again_word]
      rw [parse_map_inner_mountpoint _ _ _ _ _ _ _ h1, parse_map_again_word,
        parse_map_inner_location _ _ _ _ _ _ _ _ _ h3 h4]
      rfl
    | some o =>
      simp only [Option.all_some, beq_iff_eq] at h2
      simp only [map_triple.lexemes, Option.toList_none, Option.toList_some, List.nil_append,
        List.map_cons, List.map_nil, List.singleton_append, List.cons_append,
        parse_map_again_word]
      rw [parse_map_inner_mountpoint _ _ _ _ _ _ _ h1, parse_map_again_word,
        parse_map_inner_options2 _ _ _ _ _ _ _ _ h2, parse_map_again_word,
        parse_map_inner_location _ _ _ _ _ _ _ _ _ h3 h4]
      rfl


theorem modify_append_length {α : Type} (f : α → α) (A : List α) (x : α) (B : List α) :
    (A ++ x :: B).modify f A.length = A ++ f x :: B := by
  induction A with
  | nil => rfl
  | cons a A ih => simp [ih]

theorem modify_append_left {α : Type} (f : α → α) (B : List α) :
    ∀ (A : List α) (i : Nat), i < A.length → (A ++ B).modify f i = A.modify f i ++ B := by
  intro A
  induction A with
  | nil => intro i hi; simp at hi
  | cons a A ih =>
    intro i hi
    cases i with
    | zero => rfl
    | succ i =>
      simp only [List.cons_append, List.modify_succ_cons]
      rw [ih i (by simpa using hi)]

theorem node_new_first_level (h : node_heap) (parent : Nat) (map key : cstring)
    (options : Option cstring) (line : Int) (hp : parent < h.length) :
    node_new h parent key options none map line =
      (map_entry_heap h parent map key options line [], h.length) := by
  simp only [node_new, map_entry_heap, List.length_nil, List.range_zero, List.map_nil]
  rw [modify_append_left _ _ _ _ hp]

theorem map_entry_heap_length (h : node_heap) (parent : Nat) (map key : cstring)
    (options : Option cstring) (line : Int) (cs : List map_triple) :
    (map_entry_heap h parent map key options line cs).length = h.length + 1 + cs.length := by
  simp [map_entry_heap]
  omega

theorem node_new_second_level (h : node_heap) (parent : Nat) (map key : cstring)
    (options : Option cstring) (line : Int) (cs : List map_triple) (t : map_triple) :
    (node_new (map_entry_heap h parent map key options line cs) h.length
        (t.node map h.length).n_key (t.node map h.length).n_options
        (t.node map h.length).n_location map t.location.lineno).1 =
      map_entry_heap h parent map key options line (cs ++ [t]) := by
  have hlen : (h.modify (fun p => { p with n_children := p.n_children ++ [h.length] })
      parent).length = h.length := by simp
  have hnode : ({ n_key := (t.node map h.length).n_key,
                  n_options := (t.node map h.length).n_options,
                  n_location := (t.node map h.length).n_location, n_config_file := map,
                  n_config_line := t.location.lineno, n_parent := some h.length,
                  n_children := [] } : node) = t.node map h.length := rfl
  simp only [node_new, map_entry_heap_length, hnode]
  simp only [map_entry_heap, List.append_assoc, List.cons_append]
  have key2 := modify_append_length
    (fun p : node => { p with n_children := p.n_children ++ [h.length + 1 + cs.length] })
    (h.modify (fun p => { p with n_children := p.n_children ++ [h.length] }) parent)
    ({ n_key := key, n_options := options, n_location := none, n_config_file := map,
       n_config_line := line, n_parent := some parent,
       n_children := (List.range cs.length).map (fun i => h.length + 1 + i) } : node)
    (cs.map (map_triple.node map h.length) ++ [t.node map h.length])
  rw [hlen] at key2
  rw [key2]
  simp [List.range_succ]

theorem parse_map_groups (map : cstring) (parent : Nat) (h : node_heap) (key : cstring)
    (options : Option cstring) (line : Int) (k : List lexeme) :
    ∀ (ts cs : List map_triple) (line0 : Int), (∀ t ∈ ts, t.shaped = true) →
      parse_map_again map parent h.length (ts.flatMap map_triple.lexemes ++ k) line0
          { key := none, options := none, mountpoint := none, options2 := none,
            location := none }
          (map_entry_heap h parent map key options line cs) =
        parse_map_again map parent h.length k (last_line line0 ts)
          { key := none, options := none, mountpoint := none, options2 := none,
            location := none }
          (map_entry_heap h parent map key options line (cs ++ ts)) := by
  intro ts
  induction ts with
  | nil => intro cs line0 _; simp [last_line]
  | cons t ts ih =>
    intro cs line0 hts
    rw [List.flatMap_cons, List.append_assoc,
      parse_map_triple map parent h.length t (hts t (List.mem_cons_self _ _)),
      node_new_second_level,
      ih (cs ++ [t]) t.location.lineno (fun t2 ht2 => hts t2 (List.mem_cons_of_mem _ ht2))]
    simp [last_line]


theorem map_triple_first_word (t : map_triple) (ht : t.shaped = true) :
    ∃ (w : map_word) (ws : List lexeme), t.lexemes = w.lexeme :: ws ∧
      w.lineno = t.first_line ∧
      ((t.mountpoint.isSome || t.options2.isNone) = true → ¬ w.text.head? = some '-') := by
  obtain ⟨mp, o2, loc⟩ := t
  simp only [map_triple.shaped, Bool.and_eq_true, Bool.not_eq_true', starts_with] at ht
  obtain ⟨⟨⟨h1, h2⟩, h3⟩, h4⟩ := ht
  simp only [beq_eq_false_iff_ne, ne_eq] at h3 h4
  cases mp with
  | some m =>
    simp only [Option.all_some, beq_iff_eq] at h1
    refine ⟨m, _, rfl, rfl, ?_⟩
    intro _
    rw [h1]
    decide
  | none =>
    cases o2 with
    | some o =>
      refine ⟨o, _, rfl, rfl, ?_⟩
      intro hcon
      simp at hcon
    | none => exact ⟨loc, _, rfl, rfl, fun _ => h4⟩

theorem last_line_cons (line : Int) (t : map_triple) (ts : List map_triple) (line2 : Int) :
    last_line line (t :: ts) = last_line line2 (t :: ts) := by
  simp [last_line]

theorem parse_map_outer_entry (map : cstring) (parent : Nat) (h : node_heap) (e : map_entry)
    (k : List lexeme) (lineno : Int) (hparent : parent < h.length)
    (hshape : e.shaped = true) (hplain : e.first_group_plain = true) :
    parse_map_outer map parent (e.lexemes ++ k) lineno
        { key := none, options := none, mountpoint := none, options2 := none, location := none }
        h =
      parse_map_again map parent h.length k (last_line lineno e.triples)
        { key := none, options := none, mountpoint := none, options2 := none, location := none }
        (entry_heap h parent map e) := by
  obtain ⟨key, options, triples⟩ := e
  simp only [map_entry.shaped, Bool.and_eq_true, Bool.not_eq_true', starts_with,
    List.all_eq_true] at hshape
  obtain ⟨⟨⟨hk, ho⟩, hne⟩, hts⟩ := hshape
  simp only [beq_eq_false_iff_ne, ne_eq] at hk
  cases triples with
  | nil => simp at hne
  | cons t ts =>
    simp only [map_entry.first_group_plain] at hplain
    obtain ⟨w, ws, hw, hline, hdash⟩ := map_triple_first_word t (hts t (List.mem_cons_self _ _))
    have hdash2 := hdash hplain
    have hgroups := parse_map_groups map parent h key.text (options.map map_word.text)
      t.first_line k (t :: ts) [] lineno hts
    rw [List.flatMap_cons, hw, List.cons_append, List.cons_append, parse_map_again_word,
      List.nil_append] at hgroups
    simp only [entry_heap, map_entry.first_line]
    rw [← hgroups]
    cases options with
    | none =>
      simp only [map_entry.lexemes, Option.toList_none, List.map_cons, List.map_nil,
        List.flatMap_cons, hw, List.cons_append, List.nil_append, List.append_assoc,
        Option.map_none']
      rw [parse_map_outer]
      simp only [map_word.lexeme, Bool.false_eq_true, if_false, hk]
      rw [parse_map_outer]
      simp only [Bool.false_eq_true, if_false, hdash2]
      rw [node_new_first_level _ _ _ _ _ _ hparent, hline]
    | some o =>
      simp only [Option.all_some, beq_iff_eq] at ho
      simp only [map_entry.lexemes, Option.toList_some, List.map_cons, List.map_nil,
        List.flatMap_cons, hw, List.cons_append, List.nil_append, List.append_assoc,
        Option.map_some']
      rw [parse_map_outer]
      simp only [map_word.lexeme, Bool.false_eq_true, if_false, hk]
      rw [parse_map_outer]
      simp only [Bool.false_eq_true, if_false, ho, if_true, ne_eq, not_true_eq_false]
      rw [parse_map_outer]
      simp only [Bool.false_eq_true, if_false, hdash2]
      rw [node_new_first_level _ _ _ _ _ _ hparent, hline]


/-- C10, as amended: a logical line `key [-options] t1 .. tn` as the grammar
writes it, whose first group does not begin with options, adds to `parent`
exactly one first-level node with that key, the given options and no location,
and gives it one child for each group, in order, with the mountpoint (`/` when
omitted) as key, the options2 (the empty string when omitted) as options and
the location; the rest of the heap is as it was, and the parse goes on with
the next line, or ends at the end of the input. -/
theorem parse_map_yyin_entry (h : node_heap) (parent : Nat) (map : cstring) (lineno : Int)
    (e : map_entry) (rest : List lexeme) (hparent : parent < h.length)
    (hshape : e.shaped = true) (hplain : e.first_group_plain = true) :
    (∀ nl : lexeme, nl.newline = true →
      parse_map_yyin h parent map lineno (e.lexemes ++ nl :: rest) =
        parse_map_yyin (entry_heap h parent map e) parent map nl.lineno rest) ∧
    parse_map_yyin h parent map lineno e.lexemes = .ok (entry_heap h parent map e) ∧
    (entry_heap h parent map e).length = h.length + 1 + e.triples.length ∧
    (∀ (p : Nat) (nd : node), h[p]? = some nd →
      (entry_heap h parent map e)[p]? =
        some (if p = parent then { nd with n_children := nd.n_children ++ [h.length] }
          else nd)) ∧
    (entry_heap h parent map e)[h.length]? =
      some { n_key := e.key.text, n_options := e.options.map map_word.text,
             n_location := none, n_config_file := map, n_config_line := e.first_line,
             n_parent := some parent,
             n_children := (List.range e.triples.length).map (fun i => h.length + 1 + i) } ∧
    ∀ (i : Nat) (t : map_triple), e.triples[i]? = some t →
      (entry_heap h parent map e)[h.length + 1 + i]? =
        some { n_key := (t.mountpoint.map map_word.text).getD ['/'],
               n_options := some ((t.options2.map map_word.text).getD []),
               n_location := some t.location.text, n_config_file := map,
               n_config_line := t.location.lineno, n_parent := some h.length,
               n_children := [] } := by
  have hlen : (h.modify (fun p => { p with n_children := p.n_children ++ [h.length] })
      parent).length = h.length := by simp
  refine ⟨?_, ?_, ?_, ?_, ?_, ?_⟩
  · intro nl hnl
    simp only [parse_map_yyin]
    rw [parse_map_outer_entry map parent h e (nl :: rest) lineno hparent hshape hplain]
    simp [parse_map_again, hnl, parse_map_pending]
  · simp only [parse_map_yyin]
    have := parse_map_outer_entry map parent h e [] lineno hparent hshape hplain
    rw [List.append_nil] at this
    rw [this]
    simp [parse_map_again, parse_map_pending, parse_map_eof]
  · exact map_entry_heap_length _ _ _ _ _ _ _
  · intro p nd hp
    have hplt : p < h.length := by
      rcases Nat.lt_or_ge p h.length with hlt | hge
      · exact hlt
      · rw [List.getElem?_eq_none hge] at hp; cases hp
    simp only [entry_heap, map_entry_heap]
    rw [List.getElem?_append_left (by rw [hlen]; exact hplt), List.getElem?_modify, hp]
    by_cases hpp : p = parent
    · simp [hpp]
    · have hpp2 : ¬ parent = p := fun hcon => hpp hcon.symm
      simp [hpp, hpp2]
  · simp only [entry_heap, map_entry_heap]
    rw [List.getElem?_append_right (by rw [hlen]), hlen]
    simp
  · intro i t hi
    simp only [entry_heap, map_entry_heap]
    rw [List.getElem?_append_right (by rw [hlen]; omega), hlen]
    have : h.length + 1 + i - h.length = i + 1 := by omega
    rw [this, List.getElem?_cons_succ, List.getElem?_map, hi]
    rfl

/-- C10, counterexample: the line `docs -ro -rw server:/x` is as the grammar
writes it (key, options, and one group made of options2 and a location), and
`parse_map_yyin` stops on it with "duplicated options" instead of adding
nodes. -/
theorem parse_map_yyin_options2_counterexample :
    example_entry_options2.shaped = true ∧
    failure_of (parse_map_yyin (node_new_root []).1 0 "auto_home".toList 1
        (example_entry_options2.lexemes ++ [lex_newline 2])) =
      some { message := "duplicated options", file := "auto_home".toList, line := 1 } := by
  decide

/-- Witness of C10 as amended: the line `docs -ro server:/export/docs` parsed
below a fresh root. -/
theorem parse_map_yyin_entry_witness :
    example_entry_docs.shaped = true ∧ example_entry_docs.first_group_plain = true ∧
    parse_map_yyin (node_new_root []).1 0 "auto_home".toList 1 example_entry_docs.lexemes =
      .ok (entry_heap (node_new_root []).1 0 "auto_home".toList example_entry_docs) ∧
    (entry_heap (node_new_root []).1 0 "auto_home".toList example_entry_docs)[1]? =
      some { n_key := "docs".toList, n_options := some "-ro".toList, n_location := none,
             n_config_file := "auto_home".toList, n_config_line := 1, n_parent := some 0,
             n_children := [2] } ∧
    (entry_heap (node_new_root []).1 0 "auto_home".toList example_entry_docs)[2]? =
      some { n_key := ['/'], n_options := some [],
             n_location := some "server:/export/docs".toList,
             n_config_file := "auto_home".toList, n_config_line := 1, n_parent := some 1,
             n_children := [] } :=
  ⟨by decide, by decide,
   (parse_map_yyin_entry (node_new_root []).1 0 "auto_home".toList 1 example_entry_docs []
      (by decide) (by decide) (by decide)).2.1,
   by decide, by decide⟩

/-! ### Truncated entries and include directives -/

theorem node_new_cells (h : node_heap) (parent : Nat) (key : cstring)
    (options location : Option cstring) (file : cstring) (line : Int)
    (hparent : parent < h.length) :
    (node_new h parent key options location file line).2 = h.length ∧
    (node_new h parent key options location file line).1.length = h.length + 1 ∧
    (node_new h parent key options location file line).1[h.length]? =
      some { n_key := key, n_options := options, n_location := location,
             n_config_file := file, n_config_line := line, n_parent := some parent,
             n_children := [] } ∧
    ∀ (p : Nat) (nd : node), h[p]? = some nd →
      (node_new h parent key options location file line).1[p]? =
        some (if p = parent then { nd with n_children := nd.n_children ++ [h.length] }
          else nd) := by
  have hne : parent ≠ h.length := by omega
  refine ⟨rfl, by simp [node_new], ?_, ?_⟩
  · simp only [node_new]
    rw [List.getElem?_modify_ne _ _ hne]
    simp
  · intro p nd hp
    have hplt : p < h.length := by
      rcases Nat.lt_or_ge p h.length with hlt | hge
      · exact hlt
      · rw [List.getElem?_eq_none hge] at hp; cases hp
    simp only [node_new]
    rw [List.getElem?_modify, List.getElem?_append_left hplt, hp]
    by_cases hpp : p = parent
    · simp [hpp]
    · have hpp2 : ¬ parent = p := fun hcon => hpp hcon.symm
      simp [hpp, hpp2]

/-- C14: when `parse_map_yyin` reads, in key position, a word that begins with
`+`, it adds to `parent` one node with that word as key, no options, no
location and no children, last among the children of `parent`, and uses no
further word for that entry: the rest of the input is parsed as from the
start of an entry, so the next word of the line is read as a key. -/
theorem parse_map_yyin_include (map : cstring) (parent : Nat) (t : lexeme) (ts : List lexeme)
    (lineno : Int) (v : map_vars) (h : node_heap) (hword : t.newline = false)
    (hplus : t.yytext.head? = some '+') (hkey : v.key = none) (hparent : parent < h.length) :
    parse_map_outer map parent (t :: ts) lineno v h =
      parse_map_outer map parent ts t.lineno { v with key := none, options := none }
        (node_new h parent t.yytext none none map t.lineno).1 ∧
    parse_map_yyin h parent map lineno (t :: ts) =
      parse_map_yyin (node_new h parent t.yytext none none map t.lineno).1 parent map
        t.lineno ts ∧
    (node_new h parent t.yytext none none map t.lineno).1.length = h.length + 1 ∧
    (node_new h parent t.yytext none none map t.lineno).1[h.length]? =
      some { n_key := t.yytext, n_options := none, n_location := none, n_config_file := map,
             n_config_line := t.lineno, n_parent := some parent, n_children := [] } ∧
    ∀ (p : Nat) (nd : node), h[p]? = some nd →
      (node_new h parent t.yytext none none map t.lineno).1[p]? =
        some (if p = parent then { nd with n_children := nd.n_children ++ [h.length] }
          else nd) := by
  obtain ⟨-, h2, h3, h4⟩ := node_new_cells h parent t.yytext none none map t.lineno hparent
  refine ⟨?_, ?_, h2, h3, h4⟩
  · rw [parse_map_outer]
    simp only [hword, Bool.false_eq_true, if_false, hkey, hplus, if_true]
  · simp only [parse_map_yyin]
    rw [parse_map_outer]
    simp only [hword, Bool.false_eq_true, if_false, hplus, if_true]

/-- Witness of C14: the line `+auto_extra docs`, below a fresh root. -/
theorem parse_map_yyin_include_witness :
    parse_map_yyin (node_new_root []).1 0 "auto_home".toList 1
        [lex_word "+auto_extra" 1, lex_word "docs" 1] =
      parse_map_yyin
        (node_new (node_new_root []).1 0 "+auto_extra".toList none none "auto_home".toList 1).1
        0 "auto_home".toList 1 [lex_word "docs" 1] ∧
    failure_of (parse_map_yyin (node_new_root []).1 0 "auto_home".toList 1
        [lex_word "+auto_extra" 1, lex_word "docs" 1]) =
      some { message := "truncated entry", file := "auto_home".toList, line := 1 } :=
  ⟨(parse_map_yyin_include "auto_home".toList 0 (lex_word "+auto_extra" 1)
      [lex_word "docs" 1] 1
      { key := none, options := none, mountpoint := none, options2 := none, location := none }
      (node_new_root []).1 rfl (by decide) rfl (by decide)).2.1,
   by decide⟩

/-! ### The master file parser -/

theorem parse_master_loop_word (master : cstring) (root : Nat) (w : map_word)
    (ts : List lexeme) (lineno : Int) (v : master_vars) (h : node_heap) :
    parse_master_loop master root (w.lexeme :: ts) lineno v h =
      if v.mountpoint = none then
        parse_master_loop master root ts w.lineno { v with mountpoint := some w.text } h
      else if v.map = none then
        parse_master_loop master root ts w.lineno { v with map := some w.text } h
      else if v.options = none then
        parse_master_loop master root ts w.lineno { v with options := some w.text } h
      else
        .error { message := "too many arguments", file := master, line := w.lineno } := by
  rw [parse_master_loop]
  simp [map_word.lexeme]

theorem parse_master_words (master : cstring) (root : Nat) (words : List map_word)
    (k : List lexeme) (lineno : Int) (h : node_heap) :
    parse_master_loop master root (words.map map_word.lexeme ++ k) lineno
        { mountpoint := none, map := none, options := none } h =
      match words[3]? with
      | some w => .error { message := "too many arguments", file := master, line := w.lineno }
      | none =>
        parse_master_loop master root k (words_line lineno words)
          { mountpoint := words[0]?.map map_word.text, map := words[1]?.map map_word.text,
            options := words[2]?.map map_word.text } h := by
  match words with
  | [] => simp [words_line]
  | [a] => simp [words_line, parse_master_loop_word]
  | [a, b] => simp [words_line, parse_master_loop_word]
  | [a, b, c] => simp [words_line, parse_master_loop_word]
  | a :: b :: c :: d :: rest => simp [parse_master_loop_word]

theorem parse_master_line (master : cstring) (root : Nat) (l : master_line)
    (k : List lexeme) (lineno : Int) (h : node_heap) :
    parse_master_loop master root (l.lexemes ++ k) lineno
        { mountpoint := none, map := none, options := none } h =
      match l.words[3]? with
      | some w => .error { message := "too many arguments", file := master, line := w.lineno }
      | none =>
        parse_master_loop master root k l.lineno
          { mountpoint := none, map := none, options := none }
          (master_add master root h l.words l.lineno) := by
  rw [master_line.lexemes, List.append_assoc, parse_master_words]
  cases h3 : l.words[3]? with
  | some w => rfl
  | none =>
    simp only [List.singleton_append]
    rw [parse_master_loop]
    cases hw : l.words with
    | nil => simp [master_add]
    | cons w rest => simp [master_add]

/-- C12: on every token stream, taken as lines ended by `NEWLINE` and a last
line that none ends, `parse_master_yyin` does what the master grammar says
line by line: a line of one to three words adds one child to `root`, with the
first word as key, the second as location and the third as options, absent
when missing; an empty line adds nothing; the last line adds its node too; a
fourth word on a line stops the parse with "too many arguments".  Every
stream of lexemes is made of such lines. -/
theorem parse_master_yyin_spec (master : cstring) (root : Nat) :
    (∀ (lines : List master_line) (last : List map_word) (lineno : Int) (h : node_heap),
      parse_master_yyin h root master lineno (master_lexemes lines last) =
        master_result master root lines last lineno h) ∧
    (∀ input : List lexeme, ∃ (lines : List master_line) (last : List map_word),
      input = master_lexemes lines last) := by
  constructor
  · intro lines
    induction lines with
    | nil =>
      intro last lineno h
      simp only [parse_master_yyin, master_lexemes, List.flatMap_nil, List.nil_append,
        master_result]
      have := parse_master_words master root last [] lineno h
      rw [List.append_nil] at this
      rw [this]
      cases h3 : last[3]? with
      | some w => rfl
      | none =>
        simp only
        rw [parse_master_loop]
        cases hw : last with
        | nil => simp [master_add]
        | cons w rest => simp [master_add]
    | cons l ls ih =>
      intro last lineno h
      have hl := parse_master_line master root l (master_lexemes ls last) lineno h
      simp only [parse_master_yyin, master_lexemes, List.flatMap_cons, List.append_assoc,
        master_result] at hl ⊢
      rw [hl]
      cases h3 : l.words[3]? with
      | some w => rfl
      | none => exact ih last l.lineno _
  · intro input
    induction input with
    | nil => exact ⟨[], [], rfl⟩
    | cons t ts ih =>
      obtain ⟨lines, last, hts⟩ := ih
      by_cases hnl : t.newline = true
      · refine ⟨{ words := [], newline_text := t.yytext, lineno := t.lineno } :: lines, last, ?_⟩
        obtain ⟨nl, y, ln⟩ := t
        simp only at hnl
        simp [master_lexemes, master_line.lexemes, hts, hnl]
      · cases lines with
        | nil =>
          refine ⟨[], { text := t.yytext, lineno := t.lineno } :: last, ?_⟩
          obtain ⟨nl, y, ln⟩ := t
          simp only [Bool.not_eq_true] at hnl
          simp [master_lexemes, map_word.lexeme, hts, hnl]
        | cons l ls =>
          refine ⟨{ l with words := { text := t.yytext, lineno := t.lineno } :: l.words } :: ls,
            last, ?_⟩
          obtain ⟨nl, y, ln⟩ := t
          simp only [Bool.not_eq_true] at hnl
          simp [master_lexemes, master_line.lexemes, map_word.lexeme, hts, hnl]

/-- Example for C12: the line `/home auto_home -nosuid` below a fresh root
adds node 1 with key `/home`, location `auto_home` and options `-nosuid`. -/
theorem parse_master_yyin_example :
    (heap_of (parse_master_yyin (node_new_root []).1 0 "auto_master".toList 0
        (master_lexemes example_master_lines [])))[1]? =
      some { n_key := "/home".toList, n_options := some "-nosuid".toList,
             n_location := some "auto_home".toList, n_config_file := "auto_master".toList,
             n_config_line := 2, n_parent := some 0, n_children := [] } ∧
    (heap_of (parse_master_yyin (node_new_root []).1 0 "auto_master".toList 0
        (master_lexemes example_master_lines [])))[0]?.map (fun nd => nd.n_children) =
      some [1] := by
  decide

/-! ### Separators in `node_mountpoint` -/

theorem no_double_slash_iff_chain (s : cstring) :
    no_double_slash s ↔ List.Chain' (fun a b => ¬ (a = '/' ∧ b = '/')) s := by
  unfold no_double_slash
  induction s with
  | nil => simp [has_double_slash]
  | cons a rest ih =>
    cases rest with
    | nil => simp [has_double_slash]
    | cons b rest2 =>
      rw [has_double_slash, List.chain'_cons, ← ih]
      simp only [Bool.or_eq_false_iff, Bool.and_eq_false_imp, beq_iff_eq, beq_eq_false_iff_ne,
        ne_eq, not_and]

theorem separated_concat_cases (k x : cstring) (hk : k ≠ []) :
    (x = [] ∧ separated_concat k x '/' = k) ∨
    (x ≠ [] ∧ (k.getLast? = some '/' ∨ x.head? = some '/') ∧
      separated_concat k x '/' = k ++ x) ∨
    (x ≠ [] ∧ k.getLast? ≠ some '/' ∧ x.head? ≠ some '/' ∧
      separated_concat k x '/' = k ++ '/' :: x) := by
  unfold separated_concat
  by_cases hx : x = []
  · left
    simp [hx]
  · by_cases hj : k.getLast? = some '/' ∨ x.head? = some '/'
    · right; left
      refine ⟨hx, hj, ?_⟩
      rcases hj with hj | hj <;> simp [hj]
    · right; right
      simp only [not_or] at hj
      refine ⟨hx, hj.1, hj.2, ?_⟩
      simp [hk, hx, hj.1, hj.2]

theorem getLast?_append_ne_nil (a b : cstring) (hb : b ≠ []) :
    (a ++ b).getLast? = b.getLast? := by
  rw [List.getLast?_append]
  cases hbl : b.getLast? with
  | none => exact absurd (List.getLast?_eq_none_iff.mp hbl) hb
  | some c => rfl

theorem strip_trailing_slash_spec (c : cstring) (hc : c ≠ []) :
    ∃ r, strip_trailing_slash c = some r ∧
      (c.getLast? = some '/' → r = c.dropLast) ∧ (c.getLast? ≠ some '/' → r = c) := by
  unfold strip_trailing_slash
  by_cases hl : c.getLast? = some '/'
  · exact ⟨c.dropLast, by simp [hc, hl], fun _ => rfl, fun h => absurd hl h⟩
  · exact ⟨c, by simp [hc, hl], fun h => absurd h hl, fun _ => rfl⟩

theorem mountpoint_of_keys_no_trailing :
    ∀ (up : List cstring) (x : cstring),
      (∀ k ∈ up, k ≠ [] ∧ ¬ (k.getLast? = some '/' ∧ k.dropLast.getLast? = some '/')) →
      x.getLast? ≠ some '/' →
      ∃ r, mountpoint_of_keys up x = some r ∧ r.getLast? ≠ some '/' := by
  intro up
  induction up with
  | nil => intro x _ hx; exact ⟨x, rfl, hx⟩
  | cons k up ih =>
    intro x hkeys hx
    obtain ⟨hk, hk2⟩ := hkeys k (List.mem_cons_self _ _)
    simp only [mountpoint_of_keys]
    split
    · exact ⟨x, rfl, hx⟩
    · have hcne : separated_concat k x '/' ≠ [] := by
        rcases separated_concat_cases k x hk with ⟨-, h⟩ | ⟨-, -, h⟩ | ⟨-, -, -, h⟩ <;>
          rw [h] <;> simp [hk]
      obtain ⟨r, hr, hr1, hr2⟩ := strip_trailing_slash_spec _ hcne
      rw [hr]
      apply ih r (fun k2 hk2 => hkeys k2 (List.mem_cons_of_mem _ hk2))
      by_cases hl : (separated_concat k x '/').getLast? = some '/'
      · rw [hr1 hl]
        rcases separated_concat_cases k x hk with ⟨-, h⟩ | ⟨hxne, -, h⟩ | ⟨hxne, -, -, h⟩
        · rw [h] at hl ⊢
          exact fun hcon => hk2 ⟨hl, hcon⟩
        · rw [h, getLast?_append_ne_nil _ _ hxne] at hl
          exact absurd hl hx
        · rw [h, getLast?_append_ne_nil _ _ (by simp)] at hl
          rw [List.getLast?_cons] at hl
          cases hxl : x.getLast? with
          | none => exact absurd (List.getLast?_eq_none_iff.mp hxl) hxne
          | some d =>
            rw [hxl] at hl hx
            simp only [Option.getD_some] at hl
            exact absurd hl hx
      · rw [hr2 hl]
        exact hl

theorem two_slashes_at_end (k : cstring) (hk : ∀ pre : cstring, k ≠ pre ++ ['/', '/']) :
    ¬ (k.getLast? = some '/' ∧ k.dropLast.getLast? = some '/') := by
  rintro ⟨h1, h2⟩
  have e1 := List.dropLast_append_getLast? '/' (by simpa using h1)
  have e2 := List.dropLast_append_getLast? '/' (by simpa using h2)
  apply hk k.dropLast.dropLast
  rw [← e1]
  conv_lhs => rw [← e2]
  simp

/-- C15: for a node whose keys up to the child of the root are all non-empty
and none of which ends with two consecutive slashes, `node_mountpoint` returns
a path that does not end with a slash. -/
theorem node_mountpoint_no_trailing_slash (h : node_heap) (n : Nat) (ks : List cstring)
    (fuel : Nat) (hchain : key_chain h n ks) (hfuel : ks.length < fuel)
    (hkeys : ∀ k ∈ ks, k ≠ [] ∧ ∀ pre : cstring, k ≠ pre ++ ['/', '/']) :
    ∃ path, node_mountpoint h fuel n = some path ∧ path.getLast? ≠ some '/' := by
  unfold node_mountpoint
  rw [node_mountpoint_x_of_keys hchain fuel [] hfuel]
  apply mountpoint_of_keys_no_trailing
  · intro k hk
    have := hkeys k (by simpa using hk)
    exact ⟨this.1, two_slashes_at_end k this.2⟩
  · simp

/-- Witness of C15, on `example_slash_heap`: node 2 has the keys `/home` and
`dir/`, and its mountpoint `/home/dir` does not end with a slash. -/
theorem node_mountpoint_no_trailing_slash_witness :
    (∃ path, node_mountpoint example_slash_heap 5 2 = some path ∧
      path.getLast? ≠ some '/') ∧
    node_mountpoint example_slash_heap 5 2 = some "/home/dir".toList :=
  ⟨node_mountpoint_no_trailing_slash example_slash_heap 2 ["/home".toList, "dir/".toList] 5
      (key_chain_of_node_keys example_slash_heap 5 2 _ (by decide)) (by decide)
      (by
        intro k hk
        simp only [List.mem_cons, List.mem_singleton, List.not_mem_nil, or_false] at hk
        rcases hk with rfl | rfl
        · exact ⟨by decide, fun pre hcon => by
            have := congrArg (fun l => l.reverse.take 2) hcon
            simp at this⟩
        · exact ⟨by decide, fun pre hcon => by
            have := congrArg (fun l => l.reverse.take 2) hcon
            simp at this⟩),
   by decide⟩


theorem no_double_slash_end (k : cstring) (hk : no_double_slash k) :
    ¬ (k.getLast? = some '/' ∧ k.dropLast.getLast? = some '/') := by
  rintro ⟨h1, h2⟩
  have e1 := List.dropLast_append_getLast? '/' (by simpa using h1)
  have e2 := List.dropLast_append_getLast? '/' (by simpa using h2)
  rw [no_double_slash_iff_chain] at hk
  rw [← e1, ← e2, List.append_assoc] at hk
  have := (List.chain'_append.mp hk).2.1
  simp [List.chain'_cons] at this

theorem strip_concat_step (a x : cstring) (ha : a ≠ []) (hna : no_double_slash a)
    (hnx : no_double_slash x)
    (hj : ¬ (x ≠ [] ∧ a.getLast? = some '/' ∧ x.head? = some '/')) :
    ∃ r, strip_trailing_slash (separated_concat a x '/') = some r ∧ no_double_slash r ∧
      r.getLast? ≠ some '/' ∧ (r = [] ↔ a = ['/'] ∧ x = []) ∧
      (r ≠ [] → r.head? = a.head?) := by
  have hcfacts : ∃ c, separated_concat a x '/' = c ∧ c ≠ [] ∧ no_double_slash c ∧
      c.head? = a.head? ∧ (x = [] → c = a) ∧ (x ≠ [] → c.getLast? = x.getLast? ∧
        2 ≤ c.length) := by
    have hahead : ∀ t : cstring, (a ++ t).head? = a.head? := by
      intro t
      cases a with
      | nil => exact absurd rfl ha
      | cons c r => rfl
    have halen : 0 < a.length := List.length_pos.mpr ha
    rcases separated_concat_cases a x ha with ⟨hx, h⟩ | ⟨hx, hor, h⟩ | ⟨hx, h1, h2, h⟩
    · exact ⟨a, h, ha, hna, rfl, fun _ => rfl, fun hne => absurd hx hne⟩
    · refine ⟨a ++ x, h, by simp [ha], ?_, hahead x, fun he => absurd he hx, fun _ =>
        ⟨getLast?_append_ne_nil _ _ hx, ?_⟩⟩
      · rw [no_double_slash_iff_chain] at hna hnx ⊢
        rw [List.chain'_append]
        refine ⟨hna, hnx, ?_⟩
        intro u hu v hv hcon
        apply hj
        refine ⟨hx, ?_, ?_⟩
        · rw [Option.mem_def] at hu; rw [hu, hcon.1]
        · rw [Option.mem_def] at hv; rw [hv, hcon.2]
      · have hxlen : 0 < x.length := List.length_pos.mpr hx
        simp only [List.length_append]
        omega
    · refine ⟨a ++ '/' :: x, h, by simp, ?_, hahead _, fun he => absurd he hx, fun _ =>
        ⟨?_, ?_⟩⟩
      · rw [no_double_slash_iff_chain] at hna hnx ⊢
        rw [List.chain'_append]
        refine ⟨hna, ?_, ?_⟩
        · rw [List.chain'_cons']
          refine ⟨?_, hnx⟩
          intro v hv hcon
          rw [Option.mem_def] at hv
          exact h2 (by rw [hv, hcon.2])
        · intro u hu v _ hcon
          rw [Option.mem_def] at hu
          exact h1 (by rw [hu, hcon.1])
      · rw [getLast?_append_ne_nil _ _ (by simp), List.getLast?_cons]
        cases hxl2 : x.getLast? with
        | none => exact absurd (List.getLast?_eq_none_iff.mp hxl2) hx
        | some d => rfl
      · simp only [List.length_append, List.length_cons]
        omega
  obtain ⟨c, hc, hcne, hcn, hchead, hcx, hcx2⟩ := hcfacts
  rw [hc]
  obtain ⟨r, hr, hr1, hr2⟩ := strip_trailing_slash_spec c hcne
  refine ⟨r, hr, ?_, ?_, ?_, ?_⟩
  · by_cases hl : c.getLast? = some '/'
    · rw [hr1 hl]
      rw [no_double_slash_iff_chain] at hcn ⊢
      exact List.Chain'.init hcn
    · rw [hr2 hl]; exact hcn
  · by_cases hl : c.getLast? = some '/'
    · rw [hr1 hl]
      intro hcon
      exact no_double_slash_end c hcn ⟨hl, hcon⟩
    · rw [hr2 hl]; exact hl
  · by_cases hx : x = []
    · have hca := hcx hx
      subst hca
      by_cases hl : c.getLast? = some '/'
      · rw [hr1 hl]
        constructor
        · intro hd
          have e1 := List.dropLast_append_getLast? '/' (by simpa using hl)
          rw [hd] at e1
          exact ⟨by simpa using e1.symm, hx⟩
        · rintro ⟨hc1, -⟩
          rw [hc1]
          rfl
      · rw [hr2 hl]
        constructor
        · intro hcon; exact absurd hcon hcne
        · rintro ⟨hc1, -⟩
          rw [hc1] at hl
          simp at hl
    · obtain ⟨hcl, hclen⟩ := hcx2 hx
      have hrne : r ≠ [] := by
        by_cases hl : c.getLast? = some '/'
        · rw [hr1 hl]
          intro hcon
          have := congrArg List.length hcon
          simp only [List.length_dropLast, List.length_nil] at this
          omega
        · rw [hr2 hl]; exact hcne
      constructor
      · intro hcon; exact absurd hcon hrne
      · rintro ⟨-, hx2⟩; exact absurd hx2 hx
  · intro hrne
    by_cases hl : c.getLast? = some '/'
    · rw [hr1 hl] at hrne ⊢
      rw [List.head?_dropLast]
      have : 1 < c.length := by
        rcases Nat.lt_or_ge 1 c.length with h1 | h1
        · exact h1
        · exfalso
          apply hrne
          apply List.eq_nil_of_length_eq_zero
          simp only [List.length_dropLast]
          omega
      simp [this, hchead]
    · rw [hr2 hl]; exact hchead

theorem mountpoint_of_keys_no_double :
    ∀ (up P : List cstring) (x : cstring),
      (∀ k ∈ up, k ≠ [] ∧ no_double_slash k) →
      no_double_slash x →
      (x = [] ↔ ∀ k ∈ P, k = ['/']) →
      (x ≠ [] → x.head? = P.head?.bind List.head?) →
      (∀ (pre : List cstring) (a b : cstring) (post : List cstring),
        up.reverse ++ P = pre ++ a :: b :: post → a.getLast? = some '/' →
        b.head? = some '/' → ∀ k ∈ b :: post, k = ['/']) →
      ∃ r, mountpoint_of_keys up x = some r ∧ no_double_slash r := by
  intro up
  induction up with
  | nil => intro P x _ hnx _ _ _; exact ⟨x, rfl, hnx⟩
  | cons a up ih =>
    intro P x hkeys hnx hxe hxh hcond
    obtain ⟨ha, hna⟩ := hkeys a (List.mem_cons_self _ _)
    simp only [mountpoint_of_keys]
    split
    · exact ⟨x, rfl, hnx⟩
    · have hj : ¬ (x ≠ [] ∧ a.getLast? = some '/' ∧ x.head? = some '/') := by
        rintro ⟨hx, hal, hxs⟩
        cases P with
        | nil => exact hx (hxe.mpr (by simp))
        | cons b post =>
          have hb : b.head? = some '/' := by
            have := hxh hx
            simp only [List.head?_cons, Option.some_bind] at this
            rw [← this]; exact hxs
          have hall := hcond up.reverse a b post (by simp) hal hb
          exact hx (hxe.mpr hall)
      obtain ⟨r, hr, hrn, -, hre, hrh⟩ := strip_concat_step a x ha hna hnx hj
      rw [hr]
      apply ih (a :: P) r (fun k hk => hkeys k (List.mem_cons_of_mem _ hk)) hrn
      · rw [hre]
        constructor
        · rintro ⟨h1, h2⟩ k hk
          rcases List.mem_cons.mp hk with rfl | hk
          · exact h1
          · exact hxe.mp h2 k hk
        · intro hall
          exact ⟨hall a (List.mem_cons_self _ _),
            hxe.mpr (fun k hk => hall k (List.mem_cons_of_mem _ hk))⟩
      · intro hrne
        simpa using hrh hrne
      · intro pre a2 b post hsplit
        apply hcond pre a2 b post
        rw [← hsplit]
        simp

/-- C16, as amended: for a node whose keys up to the child of the root are all
non-empty and without two consecutive slashes, and in which no key ending with
a slash is directly followed by a key beginning with a slash (unless that key
and every key below it is `/` alone), `node_mountpoint` returns a path without
two consecutive slashes. -/
theorem node_mountpoint_no_double_slash (h : node_heap) (n : Nat) (ks : List cstring)
    (fuel : Nat) (hchain : key_chain h n ks) (hfuel : ks.length < fuel)
    (hkeys : ∀ k ∈ ks, k ≠ [] ∧ no_double_slash k)
    (hjoin : ∀ (pre : List cstring) (a b : cstring) (post : List cstring),
      ks = pre ++ a :: b :: post → a.getLast? = some '/' → b.head? = some '/' →
      ∀ k ∈ b :: post, k = ['/']) :
    ∃ path, node_mountpoint h fuel n = some path ∧ no_double_slash path := by
  unfold node_mountpoint
  rw [node_mountpoint_x_of_keys hchain fuel [] hfuel]
  apply mountpoint_of_keys_no_double ks.reverse [] []
  · intro k hk
    exact hkeys k (by simpa using hk)
  · rfl
  · simp
  · intro hcon; exact absurd rfl hcon
  · intro pre a b post hsplit
    apply hjoin pre a b post
    simpa using hsplit

/-- C16, counterexample: in `example_slash_heap` node 3 has the keys `/home`,
`dir/` and `/sub`, all non-empty and without two consecutive slashes, and its
mountpoint is `/home/dir//sub`. -/
theorem node_mountpoint_double_slash_counterexample :
    node_keys example_slash_heap 5 3 =
      some ["/home".toList, "dir/".toList, "/sub".toList] ∧
    (∀ k ∈ ["/home".toList, "dir/".toList, "/sub".toList], k ≠ [] ∧ no_double_slash k) ∧
    node_mountpoint example_slash_heap 5 3 = some "/home/dir//sub".toList ∧
    ¬ no_double_slash "/home/dir//sub".toList := by
  decide

/-- Witness of C16 as amended, on `example_home_heap`: node 3 has the keys
`/home`, `docs` and `/`, and its mountpoint `/home/docs` has no two consecutive
slashes. -/
theorem node_mountpoint_no_double_slash_witness :
    (∃ path, node_mountpoint example_home_heap 5 3 = some path ∧ no_double_slash path) ∧
    node_mountpoint example_home_heap 5 3 = some "/home/docs".toList :=
  ⟨node_mountpoint_no_double_slash example_home_heap 3
      ["/home".toList, "docs".toList, "/".toList] 5
      (key_chain_of_node_keys example_home_heap 5 3 _ (by decide)) (by decide) (by decide)
      (by
        intro pre a b post hsplit hal hb
        match pre, hsplit with
        | [], hs =>
          simp only [List.nil_append, List.cons.injEq] at hs
          obtain ⟨rfl, -, -⟩ := hs
          exact absurd hal (by decide)
        | [p], hs =>
          simp only [List.singleton_append, List.cons.injEq] at hs
          obtain ⟨-, rfl, -, -⟩ := hs
          exact absurd hal (by decide)
        | p :: q :: pre2, hs =>
          have := congrArg List.length hs
          simp only [List.length_cons, List.length_nil, List.length_append] at this
          omega),
   by decide⟩

/-! ## Theorems, part 3: the device -/

theorem autofs_ignore_walk_iff (sc : autofs_softc) (p : proc_ptr) :
    autofs_ignore_walk sc p = true ↔ sc.sc_dev_pid ∈ proc_pids p := by
  induction p with
  | NULL => simp [autofs_ignore_walk, proc_pids]
  | proc p_pid p_pptr ih =>
    simp only [autofs_ignore_walk, proc_pids, List.mem_cons]
    by_cases hp : p_pid = sc.sc_dev_pid
    · simp [hp]
    · have hp2 : ¬ sc.sc_dev_pid = p_pid := fun h => hp h.symm
      simp [hp, hp2, ih]

/-- C17: `autofs_ignore_thread` returns false when the device is not open,
whatever pid is stored; when it is open, it returns true exactly when the
stored daemon pid is the pid of the caller's process or of one of its
ancestors, up to the root of the process tree. -/
theorem autofs_ignore_thread_spec (sc : autofs_softc) (td : thread) :
    (sc.sc_dev_opened = false → autofs_ignore_thread sc td = false) ∧
    (sc.sc_dev_opened = true →
      (autofs_ignore_thread sc td = true ↔ sc.sc_dev_pid ∈ proc_pids td.td_proc)) := by
  constructor
  · intro h
    simp [autofs_ignore_thread, h]
  · intro h
    simp only [autofs_ignore_thread, h, Bool.true_eq_false, if_false]
    exact autofs_ignore_walk_iff sc td.td_proc

theorem dev_run_outstanding (ops : List dev_op) :
    ∀ (sc sc2 : autofs_softc) (n n2 : Nat),
      n = (if sc.sc_dev_opened then 1 else 0) →
      dev_run ops sc n = some (sc2, n2) →
      n2 = (if sc2.sc_dev_opened then 1 else 0) := by
  induction ops with
  | nil =>
    intro sc sc2 n n2 hn hrun
    simp only [dev_run, Option.some.injEq, Prod.mk.injEq] at hrun
    obtain ⟨rfl, rfl⟩ := hrun
    exact hn
  | cons op ops ih =>
    intro sc sc2 n n2 hn hrun
    cases op with
    | dev_open td =>
      simp only [dev_run] at hrun
      cases ho : autofs_open sc td with
      | none => simp [ho] at hrun
      | some r =>
        obtain ⟨error, sc3⟩ := r
        simp only [ho] at hrun
        refine ih sc3 sc2 _ n2 ?_ hrun
        unfold autofs_open at ho
        by_cases hopen : sc.sc_dev_opened = true
        · simp only [hopen, if_true, Option.some.injEq, Prod.mk.injEq] at ho
          obtain ⟨rfl, rfl⟩ := ho
          simp [EBUSY, hn, hopen]
        · simp only [hopen, Bool.false_eq_true, if_false] at ho
          cases htd : td.td_proc with
          | NULL => simp [htd] at ho
          | proc p_pid p_pptr =>
            simp only [htd, Option.some.injEq, Prod.mk.injEq] at ho
            obtain ⟨rfl, rfl⟩ := ho
            simp [hn, hopen]
    | dev_close =>
      simp only [dev_run] at hrun
      cases hc : autofs_close sc with
      | none => simp [hc] at hrun
      | some r =>
        obtain ⟨error, sc3⟩ := r
        simp only [hc] at hrun
        refine ih sc3 sc2 _ n2 ?_ hrun
        unfold autofs_close at hc
        by_cases hopen : sc.sc_dev_opened = true
        · simp only [hopen, if_true, Option.some.injEq, Prod.mk.injEq] at hc
          obtain ⟨rfl, rfl⟩ := hc
          simp [hn, hopen]
        · simp [hopen] at hc

/-- C18: `autofs_open` returns 0 exactly when the device is not open, and then
stores the caller's pid and marks the device open; on an open device it
returns `EBUSY` and changes nothing.  `autofs_close` clears the open flag and
keeps the pid, and the next `autofs_open` succeeds.  In every sequence of opens
and closes that starts with the device closed, at most one open is
outstanding. -/
theorem autofs_open_close_spec (sc : autofs_softc) (p_pid : Int) (p_pptr : proc_ptr) :
    (sc.sc_dev_opened = false →
      autofs_open sc { td_proc := .proc p_pid p_pptr } =
        some (0, { sc_dev_opened := true, sc_dev_pid := p_pid })) ∧
    (sc.sc_dev_opened = true →
      autofs_open sc { td_proc := .proc p_pid p_pptr } = some (EBUSY, sc)) ∧
    ((∃ sc2, autofs_open sc { td_proc := .proc p_pid p_pptr } = some (0, sc2)) ↔
      sc.sc_dev_opened = false) ∧
    (sc.sc_dev_opened = true →
      autofs_close sc = some (0, { sc with sc_dev_opened := false }) ∧
      autofs_open { sc with sc_dev_opened := false } { td_proc := .proc p_pid p_pptr } =
        some (0, { sc_dev_opened := true, sc_dev_pid := p_pid })) ∧
    (∀ (ops : List dev_op) (sc0 sc2 : autofs_softc) (n : Nat),
      sc0.sc_dev_opened = false → dev_run ops sc0 0 = some (sc2, n) →
      n = (if sc2.sc_dev_opened then 1 else 0) ∧ n ≤ 1) := by
  refine ⟨?_, ?_, ?_, ?_, ?_⟩
  · intro h
    simp [autofs_open, h]
  · intro h
    simp [autofs_open, h]
  · constructor
    · rintro ⟨sc2, h2⟩
      by_cases hopen : sc.sc_dev_opened = true
      · simp [autofs_open, hopen, EBUSY] at h2
      · simpa using hopen
    · intro h
      exact ⟨{ sc_dev_opened := true, sc_dev_pid := p_pid }, by simp [autofs_open, h]⟩
  · intro h
    constructor
    · simp [autofs_close, h]
    · simp [autofs_open]
  · intro ops sc0 sc2 n h0 hrun
    have := dev_run_outstanding ops sc0 sc2 0 n (by simp [h0]) hrun
    refine ⟨this, ?_⟩
    rw [this]
    split <;> omega

/-- Example for C17: with the device opened by the daemon, pid 100, a thread
of a descendant of the daemon is ignored; once the device is closed it is
not. -/
theorem autofs_ignore_thread_example :
    autofs_ignore_thread { sc_dev_opened := true, sc_dev_pid := 100 } example_thread = true ∧
    autofs_ignore_thread { sc_dev_opened := false, sc_dev_pid := 100 } example_thread = false ∧
    autofs_ignore_thread { sc_dev_opened := true, sc_dev_pid := 77 } example_thread = false := by
  decide

/-! ### Changes to the tree -/

theorem node_parent_modify_children (h : node_heap) (g : List Nat → List Nat) (i m : Nat) :
    node_parent (h.modify (fun p => { p with n_children := g p.n_children }) i) m =
      node_parent h m := by
  simp only [node_parent, List.getElem?_modify]
  cases h[m]? with
  | none => rfl
  | some nd => by_cases him : i = m <;> simp [him]

theorem node_children_modify_children (h : node_heap) (g : List Nat → List Nat) (i m : Nat)
    (hi : i < h.length) :
    node_children (h.modify (fun p => { p with n_children := g p.n_children }) i) m =
      if m = i then g (node_children h i) else node_children h m := by
  simp only [node_children, List.getElem?_modify]
  by_cases hmi : m = i
  · subst hmi
    obtain ⟨nd, hnd⟩ : ∃ nd, h[m]? = some nd := ⟨h[m], List.getElem?_eq_getElem hi⟩
    simp [hnd]
  · have him : ¬ i = m := fun hc => hmi hc.symm
    cases h[m]? with
    | none => simp [hmi]
    | some nd => simp [hmi, him]

theorem node_parent_modify_parent (h : node_heap) (v : Option Nat) (i m : Nat)
    (hi : i < h.length) :
    node_parent (h.modify (fun x => { x with n_parent := v }) i) m =
      if m = i then v else node_parent h m := by
  simp only [node_parent, List.getElem?_modify]
  by_cases hmi : m = i
  · subst hmi
    obtain ⟨nd, hnd⟩ : ∃ nd, h[m]? = some nd := ⟨h[m], List.getElem?_eq_getElem hi⟩
    simp [hnd]
  · have him : ¬ i = m := fun hc => hmi hc.symm
    cases h[m]? with
    | none => simp [hmi]
    | some nd => simp [hmi, him]

theorem node_children_modify_parent (h : node_heap) (v : Option Nat) (i m : Nat) :
    node_children (h.modify (fun x => { x with n_parent := v }) i) m = node_children h m := by
  simp only [node_children, List.getElem?_modify]
  cases h[m]? with
  | none => rfl
  | some nd => by_cases him : i = m <;> simp [him]

theorem node_children_out (h : node_heap) (m : Nat) (hm : h.length ≤ m) :
    node_children h m = [] := by
  simp [node_children, List.getElem?_eq_none hm]

theorem node_parent_out (h : node_heap) (m : Nat) (hm : h.length ≤ m) :
    node_parent h m = none := by
  simp [node_parent, List.getElem?_eq_none hm]

theorem tree_wf_iff (s : node_store) :
    tree_wf s ↔
      (∀ m ∈ s.freed, m < s.heap.length) ∧
      (∀ n, node_live s n → ∀ p, node_parent s.heap n = some p →
        node_live s p ∧ (node_children s.heap p).count n = 1) ∧
      (∀ q, node_live s q → ∀ c ∈ node_children s.heap q,
        node_live s c ∧ node_parent s.heap c = some q) := by
  constructor
  · rintro ⟨h1, h2, h3, h4⟩
    refine ⟨h1, fun n hn p hp => ⟨(h2 n hn p hp).1, (h2 n hn p hp).2.1⟩, fun q hq c hc => ?_⟩
    have hcl := h4 q hq c hc
    refine ⟨hcl, ?_⟩
    cases hpc : node_parent s.heap c with
    | none => exact absurd hc (h3 c hcl hpc q hq)
    | some p =>
      by_cases hqp : q = p
      · rw [hqp]
      · exact absurd hc ((h2 c hcl p hpc).2.2 q hq hqp)
  · rintro ⟨h1, h2, h3⟩
    refine ⟨h1, fun n hn p hp => ⟨(h2 n hn p hp).1, (h2 n hn p hp).2, fun q hq hqp hmem => ?_⟩,
      fun n hn hp q hq hmem => ?_, fun q hq c hc => (h3 q hq c hc).1⟩
    · have := (h3 q hq n hmem).2
      rw [hp] at this
      exact hqp (Option.some.inj this).symm
    · have := (h3 q hq n hmem).2
      rw [hp] at this
      cases this

theorem tailq_insert_after_split (l : List Nat) (listelm elm : Nat) (h : listelm ∈ l) :
    ∃ L R, l = L ++ listelm :: R ∧ listelm ∉ L ∧
      tailq_insert_after l listelm elm = L ++ listelm :: elm :: R := by
  induction l with
  | nil => cases h
  | cons a rest ih =>
    by_cases ha : a = listelm
    · exact ⟨[], rest, by simp [ha], by simp, by simp [tailq_insert_after, ha]⟩
    · have hr : listelm ∈ rest := by
        rcases List.mem_cons.1 h with h1 | h1
        · exact absurd h1.symm ha
        · exact h1
      obtain ⟨L, R, h1, h2, h3⟩ := ih hr
      refine ⟨a :: L, R, by simp [h1], ?_, by simp [tailq_insert_after, ha, h3]⟩
      intro hc
      rcases List.mem_cons.1 hc with h4 | h4
      · exact ha h4.symm
      · exact h2 h4

theorem count_tailq_insert_after (l : List Nat) (listelm elm x : Nat) (h : listelm ∈ l) :
    (tailq_insert_after l listelm elm).count x = l.count x + if x = elm then 1 else 0 := by
  obtain ⟨L, R, h1, -, h3⟩ := tailq_insert_after_split l listelm elm h
  rw [h3, h1]
  simp only [List.count_append, List.count_cons]
  by_cases hx : x = elm
  · subst hx
    simp
    omega
  · have hx2 : ¬ (elm == x) = true := by simpa using fun hc => hx hc.symm
    simp [hx, hx2]

theorem mem_tailq_insert_after (l : List Nat) (listelm elm x : Nat) (h : listelm ∈ l) :
    x ∈ tailq_insert_after l listelm elm ↔ x ∈ l ∨ x = elm := by
  obtain ⟨L, R, h1, -, h3⟩ := tailq_insert_after_split l listelm elm h
  rw [h3, h1]
  simp only [List.mem_append, List.mem_cons]
  tauto

theorem node_parent_append (h : node_heap) (nd : node) (m : Nat) :
    node_parent (h ++ [nd]) m = if m = h.length then nd.n_parent else node_parent h m := by
  simp only [node_parent]
  rcases Nat.lt_trichotomy m h.length with hlt | heq | hgt
  · rw [List.getElem?_append_left hlt]
    simp [Nat.ne_of_lt hlt]
  · subst heq
    simp
  · have h1 : (h ++ [nd]).length ≤ m := by simp; omega
    rw [List.getElem?_eq_none h1, List.getElem?_eq_none (Nat.le_of_lt hgt)]
    simp [Nat.ne_of_gt hgt]

theorem node_children_append (h : node_heap) (nd : node) (m : Nat) :
    node_children (h ++ [nd]) m =
      if m = h.length then nd.n_children else node_children h m := by
  simp only [node_children]
  rcases Nat.lt_trichotomy m h.length with hlt | heq | hgt
  · rw [List.getElem?_append_left hlt]
    simp [Nat.ne_of_lt hlt]
  · subst heq
    simp
  · have h1 : (h ++ [nd]).length ≤ m := by simp; omega
    rw [List.getElem?_eq_none h1, List.getElem?_eq_none (Nat.le_of_lt hgt)]
    simp [Nat.ne_of_gt hgt]

theorem node_parent_node_new (h : node_heap) (parent : Nat) (key : cstring)
    (options location : Option cstring) (file : cstring) (line : Int) (m : Nat) :
    node_parent (node_new h parent key options location file line).1 m =
      if m = h.length then some parent else node_parent h m := by
  simp only [node_new]
  rw [node_parent_modify_children _ (fun l => l ++ [h.length]), node_parent_append]

theorem node_children_node_new (h : node_heap) (parent : Nat) (key : cstring)
    (options location : Option cstring) (file : cstring) (line : Int) (m : Nat)
    (hparent : parent < h.length) :
    node_children (node_new h parent key options location file line).1 m =
      if m = parent then node_children h parent ++ [h.length] else node_children h m := by
  simp only [node_new]
  rw [node_children_modify_children _ (fun l => l ++ [h.length]) _ _ (by simp; omega)]
  simp only [node_children_append]
  have hne : parent ≠ h.length := Nat.ne_of_lt hparent
  by_cases hm : m = parent
  · simp [hm, hne]
  · simp only [hm, if_false]
    by_cases hml : m = h.length
    · subst hml
      simp [node_children_out]
    · simp [hml]

theorem tree_wf_node_new (s : node_store) (parent : Nat) (key : cstring)
    (options location : Option cstring) (file : cstring) (line : Int)
    (hwf : tree_wf s) (hparent : node_live s parent) :
    tree_wf { heap := (node_new s.heap parent key options location file line).1,
              freed := s.freed } := by
  rw [tree_wf_iff] at hwf ⊢
  obtain ⟨h1, h2, h3⟩ := hwf
  have hlen : (node_new s.heap parent key options location file line).1.length =
      s.heap.length + 1 := (node_new_cells s.heap parent key options location file line hparent.1).2.1
  have hnf : s.heap.length ∉ s.freed := fun hc => Nat.lt_irrefl _ (h1 _ hc)
  have hlive : ∀ m, node_live ⟨(node_new s.heap parent key options location file line).1,
      s.freed⟩ m ↔ (m = s.heap.length ∨ node_live s m) := by
    intro m
    simp only [node_live, hlen]
    constructor
    · rintro ⟨ha, hb⟩
      by_cases hm : m = s.heap.length
      · exact Or.inl hm
      · exact Or.inr ⟨by omega, hb⟩
    · rintro (hm | ⟨ha, hb⟩)
      · subst hm
        exact ⟨by omega, hnf⟩
      · exact ⟨by omega, hb⟩
  have hnew : s.heap.length ∉ node_children s.heap parent := fun hc =>
    Nat.lt_irrefl _ (h3 parent hparent _ hc).1.1
  refine ⟨fun m hm => by simp only [hlen]; exact Nat.lt_succ_of_lt (h1 m hm), ?_, ?_⟩
  · intro n hn p hp
    simp only [] at hp ⊢
    rw [node_parent_node_new] at hp
    rw [node_children_node_new _ _ _ _ _ _ _ _ hparent.1, hlive]
    rcases (hlive n).1 hn with hn1 | hn1
    · subst hn1
      simp only [if_true] at hp
      cases hp
      refine ⟨Or.inr hparent, ?_⟩
      simp [List.count_eq_zero_of_not_mem hnew]
    · have hne : n ≠ s.heap.length := Nat.ne_of_lt hn1.1
      simp only [hne, if_false] at hp
      obtain ⟨ha, hb⟩ := h2 n hn1 p hp
      refine ⟨Or.inr ha, ?_⟩
      by_cases hpp : p = parent
      · subst hpp
        have hne2 : ¬ (s.heap.length == n) = true := by simpa using fun hc => hne hc.symm
        simp [List.count_append, hb, List.count_cons, hne2]
      · simp only [hpp, if_false]
        exact hb
  · intro q hq c hc
    simp only [] at hc ⊢
    rw [node_children_node_new _ _ _ _ _ _ _ _ hparent.1] at hc
    rw [node_parent_node_new, hlive]
    have hold : ∀ c ∈ node_children s.heap q, node_live s q →
        (c = s.heap.length ∨ node_live s c) ∧
          (if c = s.heap.length then some parent else node_parent s.heap c) = some q := by
      intro c hc hq
      obtain ⟨ha, hb⟩ := h3 q hq c hc
      refine ⟨Or.inr ha, ?_⟩
      simp [Nat.ne_of_lt ha.1, hb]
    by_cases hqp : q = parent
    · subst hqp
      simp only [if_true] at hc
      rcases List.mem_append.1 hc with hc1 | hc1
      · exact hold c hc1 hparent
      · have : c = s.heap.length := by simpa using hc1
        subst this
        simp
    · simp only [hqp, if_false] at hc
      rcases (hlive q).1 hq with hq1 | hq1
      · subst hq1
        rw [node_children_out _ _ (Nat.le_refl _)] at hc
        cases hc
      · exact hold c hc hq1

theorem node_parent_eq_some (h : node_heap) (n p : Nat) :
    node_parent h n = some p ↔ ∃ nd, h[n]? = some nd ∧ nd.n_parent = some p := by
  simp only [node_parent]
  cases h[n]? with
  | none => simp
  | some nd => simp

theorem node_move_after_eq (h : node_heap) (n previous pn pp : Nat)
    (hpn : node_parent h n = some pn) (hpnl : pn < h.length)
    (hpp : node_parent h previous = some pp) (hppl : pp < h.length) :
    node_move_after h n previous =
      some (((h.modify (fun p => { p with n_children := tailq_remove p.n_children n }) pn).modify
        (fun x => { x with n_parent := some pp }) n).modify
        (fun p => { p with n_children := tailq_insert_after p.n_children previous n }) pp) := by
  obtain ⟨nd, hnd, hndp⟩ := (node_parent_eq_some h n pn).1 hpn
  have h1p : node_parent
      (h.modify (fun p => { p with n_children := tailq_remove p.n_children n }) pn) previous =
      some pp := by
    rw [node_parent_modify_children h (fun l => tailq_remove l n)]
    exact hpp
  obtain ⟨pv, hpv, hpvp⟩ := (node_parent_eq_some _ _ _).1 h1p
  simp only [node_move_after, hnd, hndp, hpv, hpvp, Nat.not_le.2 hpnl, if_false,
    List.length_modify, Nat.not_le.2 hppl]

theorem node_move_after_cells (h : node_heap) (n previous pn pp : Nat)
    (hnl : n < h.length)
    (hpn : node_parent h n = some pn) (hpnl : pn < h.length)
    (hpp : node_parent h previous = some pp) (hppl : pp < h.length) :
    ∃ h2, node_move_after h n previous = some h2 ∧ h2.length = h.length ∧
      (∀ m, node_parent h2 m = if m = n then some pp else node_parent h m) ∧
      (∀ m, node_children h2 m =
        if m = pp then
          tailq_insert_after
            (if pp = pn then tailq_remove (node_children h pn) n else node_children h pp)
            previous n
        else if m = pn then tailq_remove (node_children h pn) n
        else node_children h m) ∧
      (∀ (m : Nat) (nd : node), h[m]? = some nd → ∃ nd2 : node, h2[m]? = some nd2 ∧
        { nd2 with n_parent := nd.n_parent, n_children := nd.n_children } = nd) := by
  refine ⟨_, node_move_after_eq h n previous pn pp hpn hpnl hpp hppl, by simp, ?_, ?_, ?_⟩
  · intro m
    rw [node_parent_modify_children _ (fun l => tailq_insert_after l previous n),
      node_parent_modify_parent _ _ _ _ (by simpa using hnl),
      node_parent_modify_children h (fun l => tailq_remove l n)]
  · intro m
    rw [node_children_modify_children _ (fun l => tailq_insert_after l previous n) _ _
        (by simpa using hppl),
      node_children_modify_parent, node_children_modify_parent,
      node_children_modify_children h (fun l => tailq_remove l n) _ _ hpnl,
      node_children_modify_children h (fun l => tailq_remove l n) _ _ hpnl]
  · intro m nd hm
    simp only [List.getElem?_modify, hm, Option.map_some']
    refine ⟨_, rfl, ?_⟩
    by_cases h1 : pn = m <;> by_cases h2 : n = m <;> by_cases h3 : pp = m <;> simp [h1, h2, h3]

theorem tree_wf_move (s : node_store) (h2 : node_heap) (n previous pn pp : Nat)
    (hwf : tree_wf s) (hn : node_live s n) (hprev : node_live s previous) (hne : n ≠ previous)
    (hpn : node_parent s.heap n = some pn) (hpp : node_parent s.heap previous = some pp)
    (hlen : h2.length = s.heap.length)
    (hpar : ∀ m, node_parent h2 m = if m = n then some pp else node_parent s.heap m)
    (hch : ∀ m, node_children h2 m =
        if m = pp then
          tailq_insert_after
            (if pp = pn then tailq_remove (node_children s.heap pn) n
              else node_children s.heap pp)
            previous n
        else if m = pn then tailq_remove (node_children s.heap pn) n
        else node_children s.heap m) :
    tree_wf ⟨h2, s.freed⟩ := by
  rw [tree_wf_iff] at hwf ⊢
  obtain ⟨w1, w2, w3⟩ := hwf
  have hlive : ∀ m, node_live ⟨h2, s.freed⟩ m ↔ node_live s m := by
    intro m
    simp only [node_live, hlen]
  obtain ⟨hpnlive, hcn⟩ := w2 n hn pn hpn
  obtain ⟨hpplive, hcp⟩ := w2 previous hprev pp hpp
  -- the queue of `pp` once `n` is taken out of the queue of `pn`
  have hprevmem : previous ∈ (if pp = pn then tailq_remove (node_children s.heap pn) n
      else node_children s.heap pp) := by
    have hmem : previous ∈ node_children s.heap pp := List.count_pos_iff.1 (by omega)
    by_cases hq : pp = pn
    · simp only [hq, if_true, tailq_remove]
      rw [← hq]
      exact (List.mem_erase_of_ne (fun hc => hne hc.symm)).2 hmem
    · simp only [hq, if_false]
      exact hmem
  have hnot : ∀ q, node_live s q → q ≠ pn → n ∉ node_children s.heap q := by
    intro q hq hqn hc
    have := (w3 q hq n hc).2
    rw [hpn] at this
    exact hqn (Option.some.inj this).symm
  have hgone : n ∉ tailq_remove (node_children s.heap pn) n := by
    intro hc
    have h0 : (tailq_remove (node_children s.heap pn) n).count n = 0 := by
      simp [tailq_remove, List.count_erase_self, hcn]
    exact absurd (List.count_pos_iff.2 hc) (by omega)
  refine ⟨fun m hm => by simp only [hlen]; exact w1 m hm, ?_, ?_⟩
  · intro m hm p hp
    simp only [] at hp ⊢
    rw [hlive] at hm ⊢
    rw [hpar] at hp
    rw [hch]
    by_cases hmn : m = n
    · subst hmn
      simp only [if_true] at hp
      cases hp
      refine ⟨hpplive, ?_⟩
      simp only [if_true]
      rw [count_tailq_insert_after _ _ _ _ hprevmem]
      simp only [if_true]
      have : (if pp = pn then tailq_remove (node_children s.heap pn) m
          else node_children s.heap pp).count m = 0 := by
        apply List.count_eq_zero_of_not_mem
        by_cases hq : pp = pn
        · simp only [hq, if_true]
          exact hgone
        · simp only [hq, if_false]
          exact hnot pp hpplive hq
      omega
    · simp only [hmn, if_false] at hp
      obtain ⟨hpl, hc⟩ := w2 m hm p hp
      refine ⟨hpl, ?_⟩
      have herase : ∀ l : List Nat, (tailq_remove l n).count m = l.count m := by
        intro l
        simp only [tailq_remove]
        rw [List.count_erase_of_ne hmn]
      by_cases hq : p = pp
      · simp only [hq, if_true]
        rw [count_tailq_insert_after _ _ _ _ hprevmem]
        simp only [hmn, if_false, Nat.add_zero]
        by_cases hq2 : pp = pn
        · simp only [hq2, if_true]
          rw [herase, ← hq2, ← hq]
          exact hc
        · simp only [hq2, if_false]
          rw [← hq]
          exact hc
      · simp only [hq, if_false]
        by_cases hq2 : p = pn
        · simp only [hq2, if_true]
          rw [herase, ← hq2]
          exact hc
        · simp only [hq2, if_false]
          exact hc
  · intro q hq c hc
    simp only [] at hc ⊢
    rw [hlive] at hq ⊢
    rw [hch] at hc
    rw [hpar]
    have hold : c ≠ n → c ∈ node_children s.heap q →
        node_live s c ∧ (if c = n then some pp else node_parent s.heap c) = some q := by
      intro hcn2 hmem
      simp only [hcn2, if_false]
      exact w3 q hq c hmem
    by_cases hcn2 : c = n
    · subst hcn2
      by_cases hq1 : q = pp
      · subst hq1
        exact ⟨hn, by simp⟩
      · simp only [hq1, if_false] at hc
        by_cases hq2 : q = pn
        · simp only [hq2, if_true] at hc
          exact absurd hc hgone
        · simp only [hq2, if_false] at hc
          exact absurd hc (hnot q hq hq2)
    · by_cases hq1 : q = pp
      · simp only [hq1, if_true] at hc
        rcases (mem_tailq_insert_after _ _ _ _ hprevmem).1 hc with hc1 | hc1
        · by_cases hq2 : pp = pn
          · simp only [hq2, if_true, tailq_remove] at hc1
            exact hold hcn2 (by rw [hq1, hq2]; exact List.mem_of_mem_erase hc1)
          · simp only [hq2, if_false] at hc1
            exact hold hcn2 (by rw [hq1]; exact hc1)
        · exact absurd hc1 hcn2
      · simp only [hq1, if_false] at hc
        by_cases hq2 : q = pn
        · simp only [hq2, if_true, tailq_remove] at hc
          exact hold hcn2 (by rw [hq2]; exact List.mem_of_mem_erase hc)
        · simp only [hq2, if_false] at hc
          exact hold hcn2 hc

theorem node_children_eq (h : node_heap) (n : Nat) (nd : node) (hn : h[n]? = some nd) :
    node_children h n = nd.n_children := by
  simp [node_children, hn]

theorem subtree_depth_iff (h : node_heap) (n d : Nat) :
    subtree_depth h n (d + 1) ↔
      n < h.length ∧ ∀ c ∈ node_children h n, subtree_depth h c d := by
  constructor
  · intro hsd
    cases hsd with
    | mk _ _ nd hn hch =>
      refine ⟨?_, by rw [node_children_eq h n nd hn]; exact hch⟩
      rcases Nat.lt_or_ge n h.length with hlt | hge
      · exact hlt
      · rw [List.getElem?_eq_none hge] at hn
        cases hn
  · rintro ⟨hlt, hch⟩
    have hn : h[n]? = some h[n] := List.getElem?_eq_getElem hlt
    refine subtree_depth.mk n d h[n] hn ?_
    rw [node_children_eq h n _ hn] at hch
    exact hch

theorem subtree_depth_zero (h : node_heap) (n : Nat) : ¬ subtree_depth h n 0 := by
  intro hsd
  cases hsd

theorem subtree_depth_succ (h : node_heap) (d : Nat) :
    ∀ n, subtree_depth h n d → subtree_depth h n (d + 1) := by
  induction d with
  | zero => intro n hsd; exact absurd hsd (subtree_depth_zero h n)
  | succ d ih =>
    intro n hsd
    rw [subtree_depth_iff] at hsd ⊢
    exact ⟨hsd.1, fun c hc => ih c (hsd.2 c hc)⟩

theorem subtree_depth_shrink (h h2 : node_heap) (hlen : h2.length = h.length)
    (hsub : ∀ m, ∀ c ∈ node_children h2 m, c ∈ node_children h m) (d : Nat) :
    ∀ n, subtree_depth h n d → subtree_depth h2 n d := by
  induction d with
  | zero => intro n hsd; exact absurd hsd (subtree_depth_zero h n)
  | succ d ih =>
    intro n hsd
    rw [subtree_depth_iff] at hsd ⊢
    exact ⟨by rw [hlen]; exact hsd.1, fun c hc => ih c (hsd.2 c (hsub n c hc))⟩

theorem node_under_top (h : node_heap) (a b m : Nat) (hab : node_parent h a = some b)
    (hu : node_under h a m) : node_under h b m := by
  induction hu with
  | self => exact node_under.step a b hab node_under.self
  | step m p hp _ ih => exact node_under.step m p hp ih

theorem node_under_congr (h h2 : node_heap) (hpar : ∀ m, node_parent h2 m = node_parent h m)
    (a m : Nat) (hu : node_under h2 a m) : node_under h a m := by
  induction hu with
  | self => exact node_under.self
  | step m p hp _ ih => exact node_under.step m p (by rw [← hpar]; exact hp) ih

theorem subtree_depth_under (s : node_store) (hwf : tree_wf s) (a m : Nat)
    (hu : node_under s.heap a m) (hm : node_live s m) :
    ∀ e, subtree_depth s.heap a e → subtree_depth s.heap m e := by
  have hw := (tree_wf_iff s).1 hwf
  induction hu with
  | self => exact fun e he => he
  | step m p hp _ ih =>
    intro e he
    obtain ⟨hpl, hc⟩ := hw.2.1 m hm p hp
    have hmem : m ∈ node_children s.heap p := List.count_pos_iff.1 (by omega)
    have hsp := ih hpl e he
    cases e with
    | zero => exact absurd hsp (subtree_depth_zero _ _)
    | succ e =>
      exact subtree_depth_succ _ _ _ (((subtree_depth_iff _ _ _).1 hsp).2 m hmem)

theorem node_not_under_child (s : node_store) (hwf : tree_wf s) (n c : Nat)
    (hn : node_live s n) (hc : c ∈ node_children s.heap n) (hu : node_under s.heap c n) :
    ∀ e, ¬ subtree_depth s.heap n e := by
  intro e
  induction e with
  | zero => exact subtree_depth_zero _ _
  | succ e ih =>
    intro he
    exact ih (subtree_depth_under s hwf c n hu hn e (((subtree_depth_iff _ _ _).1 he).2 c hc))

theorem heap_shrunk_refl (s : node_store) : heap_shrunk s s :=
  ⟨rfl, fun _ hm => hm, fun _ nd hnd => ⟨nd, hnd, rfl⟩, fun _ _ hc => hc⟩

theorem heap_shrunk_trans (s t u : node_store) (h1 : heap_shrunk s t) (h2 : heap_shrunk t u) :
    heap_shrunk s u := by
  refine ⟨h2.1.trans h1.1, fun m hm => h2.2.1 m (h1.2.1 m hm), fun m nd hnd => ?_,
    fun m c hc => h1.2.2.2 m c (h2.2.2.2 m c hc)⟩
  obtain ⟨nd2, hnd2, he2⟩ := h1.2.2.1 m nd hnd
  obtain ⟨nd3, hnd3, he3⟩ := h2.2.2.1 m nd2 hnd2
  refine ⟨nd3, hnd3, ?_⟩
  rw [← he2, ← he3]

theorem heap_shrunk_parent (s t : node_store) (h1 : heap_shrunk s t) (m : Nat) :
    node_parent t.heap m = node_parent s.heap m := by
  rcases Nat.lt_or_ge m s.heap.length with hlt | hge
  · obtain ⟨nd2, hnd2, he2⟩ := h1.2.2.1 m _ (List.getElem?_eq_getElem hlt)
    simp only [node_parent, hnd2, List.getElem?_eq_getElem hlt]
    rw [← he2]
  · rw [node_parent_out _ _ hge, node_parent_out _ _ (by rw [h1.1]; exact hge)]

theorem tree_wf_free (t : node_store) (h2 : node_heap) (n : Nat) (hwf : tree_wf t)
    (hn : node_live t n) (hempty : node_children t.heap n = [])
    (hlen : h2.length = t.heap.length)
    (hpar : ∀ m, node_parent h2 m = node_parent t.heap m)
    (hch : ∀ m, m ∉ t.freed → node_children h2 m = (node_children t.heap m).erase n) :
    tree_wf ⟨h2, n :: t.freed⟩ := by
  rw [tree_wf_iff] at hwf ⊢
  obtain ⟨w1, w2, w3⟩ := hwf
  have hlive : ∀ m, node_live ⟨h2, n :: t.freed⟩ m ↔ node_live t m ∧ m ≠ n := by
    intro m
    simp only [node_live, hlen, List.mem_cons, not_or]
    tauto
  refine ⟨?_, ?_, ?_⟩
  · intro m hm
    simp only [hlen]
    rcases List.mem_cons.1 hm with h1 | h1
    · rw [h1]
      exact hn.1
    · exact w1 m h1
  · intro m hm q hq
    simp only [] at hq ⊢
    rw [hlive] at hm ⊢
    rw [hpar] at hq
    obtain ⟨hql, hc⟩ := w2 m hm.1 q hq
    have hqn : q ≠ n := by
      intro hqn
      rw [hqn, hempty] at hc
      simp at hc
    refine ⟨⟨hql, hqn⟩, ?_⟩
    rw [hch q hql.2, List.count_erase_of_ne hm.2]
    exact hc
  · intro q hq c hc
    simp only [] at hc ⊢
    rw [hlive] at hq ⊢
    rw [hch q hq.1.2] at hc
    obtain ⟨hcl, hcp⟩ := w3 q hq.1 c (List.mem_of_mem_erase hc)
    rw [hpar]
    refine ⟨⟨hcl, ?_⟩, hcp⟩
    intro hcn
    subst hcn
    have h1 := (w2 c hcl q hcp).2
    have h0 : ((node_children t.heap q).erase c).count c = 0 := by
      rw [List.count_erase_self, h1]
    exact absurd (List.count_pos_iff.2 hc) (by omega)

theorem node_delete_children_spec (d : Nat)
    (ih : ∀ (t : node_store) (c : Nat), tree_wf t → node_live t c →
      subtree_depth t.heap c d → ∃ t2, node_delete d t c = some t2 ∧ node_delete_post t c t2)
    (s : node_store) (n : Nat) (hwf : tree_wf s) (hn : node_live s n)
    (hsd : subtree_depth s.heap n (d + 1)) :
    ∀ (rest done : List Nat) (t : node_store),
      node_children s.heap n = done ++ rest →
      heap_shrunk s t → tree_wf t →
      (∀ m ∈ t.freed, m ∈ s.freed ∨ ∃ c ∈ done, node_under s.heap c m) →
      (∀ m, m ∉ t.freed → m ≠ n → node_children t.heap m = node_children s.heap m) →
      node_children t.heap n = rest →
      ∃ t2, node_delete_children (node_delete d) rest t = some t2 ∧
        heap_shrunk s t2 ∧ tree_wf t2 ∧
        (∀ m ∈ t2.freed, m ∈ s.freed ∨
          ∃ c ∈ node_children s.heap n, node_under s.heap c m) ∧
        (∀ m, m ∉ t2.freed → m ≠ n → node_children t2.heap m = node_children s.heap m) ∧
        node_children t2.heap n = [] := by
  have w := (tree_wf_iff s).1 hwf
  have acyc : ∀ c ∈ node_children s.heap n, ¬ node_under s.heap c n :=
    fun c hc hu => node_not_under_child s hwf n c hn hc hu (d + 1) hsd
  intro rest
  induction rest with
  | nil =>
    intro done t hsplit hshr hwft hfreed hlists hrest
    refine ⟨t, rfl, hshr, hwft, ?_, hlists, hrest⟩
    rw [hsplit, List.append_nil]
    exact hfreed
  | cons c rest ihr =>
    intro done t hsplit hshr hwft hfreed hlists hrest
    have hdone : ∀ x ∈ done, x ∈ node_children s.heap n := by
      intro x hx
      rw [hsplit]
      exact List.mem_append_left _ hx
    have hcmem : c ∈ node_children s.heap n := by
      rw [hsplit]
      exact List.mem_append_right _ (List.mem_cons_self _ _)
    obtain ⟨hcl, hcp⟩ := w.2.2 n hn c hcmem
    have hcount := (w.2.1 c hcl n hcp).2
    have hcnd : c ∉ done := by
      intro hc
      rw [hsplit, List.count_append, List.count_cons_self] at hcount
      have := List.count_pos_iff.2 hc
      omega
    have hsib : ∀ x ∈ done, ¬ node_under s.heap x c := by
      intro x hx hu
      cases hu with
      | self => exact hcnd hx
      | step _ p hp hup =>
        rw [hcp] at hp
        cases hp
        exact acyc x (hdone x hx) hup
    have hnt : n ∉ t.freed := by
      intro hf
      rcases hfreed n hf with h1 | ⟨x, hx, hu⟩
      · exact hn.2 h1
      · exact acyc x (hdone x hx) hu
    have hct : node_live t c := by
      refine ⟨by rw [hshr.1]; exact hcl.1, fun hf => ?_⟩
      rcases hfreed c hf with h1 | ⟨x, hx, hu⟩
      · exact hcl.2 h1
      · exact hsib x hx hu
    have hsdc : subtree_depth t.heap c d :=
      subtree_depth_shrink s.heap t.heap hshr.1 hshr.2.2.2 d c
        (((subtree_depth_iff _ _ _).1 hsd).2 c hcmem)
    obtain ⟨t2, hdel, hpost⟩ := ih t c hwft hct hsdc
    obtain ⟨p1, p2, p3, p4, p5⟩ := hpost
    have hnt2 : n ∉ t2.freed := by
      intro hf
      rcases p4 n hf with h1 | h1
      · exact hnt h1
      · exact acyc c hcmem (node_under_congr s.heap t.heap (heap_shrunk_parent s t hshr) c n h1)
    simp only [node_delete_children, hdel]
    refine ihr (done ++ [c]) t2 (by rw [hsplit]; simp) (heap_shrunk_trans s t t2 hshr p1) p2
      ?_ ?_ ?_
    · intro m hm
      rcases p4 m hm with h1 | h1
      · rcases hfreed m h1 with h2 | ⟨x, hx, hu⟩
        · exact Or.inl h2
        · exact Or.inr ⟨x, List.mem_append_left _ hx, hu⟩
      · exact Or.inr ⟨c, by simp,
          node_under_congr s.heap t.heap (heap_shrunk_parent s t hshr) c m h1⟩
    · intro m hm hmn
      have hmt : m ∉ t.freed := fun hf => hm (p1.2.1 m hf)
      rw [p5 m hm, hlists m hmt hmn]
      apply List.erase_of_not_mem
      intro hc
      rcases Nat.lt_or_ge m s.heap.length with hlt | hge
      · have hml : node_live s m := ⟨hlt, fun hf => hmt (hshr.2.1 m hf)⟩
        have := (w.2.2 m hml c hc).2
        rw [hcp] at this
        exact hmn (Option.some.inj this).symm
      · rw [node_children_out _ _ hge] at hc
        cases hc
    · rw [p5 n hnt2, hrest, List.erase_cons_head]

theorem node_delete_spec (fuel : Nat) :
    ∀ (s : node_store) (n : Nat), tree_wf s → node_live s n → subtree_depth s.heap n fuel →
      ∃ s2, node_delete fuel s n = some s2 ∧ node_delete_post s n s2 := by
  induction fuel with
  | zero => intro s n _ _ hsd; exact absurd hsd (subtree_depth_zero _ _)
  | succ d ih =>
    intro s n hwf hn hsd
    have w := (tree_wf_iff s).1 hwf
    obtain ⟨t, hloop, hshr, hwft, hfreed, hlists, hempty⟩ :=
      node_delete_children_spec d ih s n hwf hn hsd (node_children s.heap n) [] s rfl
        (heap_shrunk_refl s) hwf (fun m hm => Or.inl hm) (fun _ _ _ => rfl) rfl
    have wt := (tree_wf_iff t).1 hwft
    have hnt : node_live t n := by
      refine ⟨by rw [hshr.1]; exact hn.1, fun hf => ?_⟩
      rcases hfreed n hf with h1 | ⟨x, hx, hu⟩
      · exact hn.2 h1
      · exact node_not_under_child s hwf n x hn hx hu (d + 1) hsd
    have hunder : ∀ m ∈ n :: t.freed, m ∈ s.freed ∨ node_under s.heap n m := by
      intro m hm
      rcases List.mem_cons.1 hm with h1 | h1
      · rw [h1]
        exact Or.inr node_under.self
      · rcases hfreed m h1 with h2 | ⟨x, hx, hu⟩
        · exact Or.inl h2
        · exact Or.inr (node_under_top s.heap x n m (w.2.2 n hn x hx).2 hu)
    have hkeep : ∀ m, m ∉ n :: t.freed →
        (node_children t.heap m).erase n = (node_children s.heap m).erase n := by
      intro m hm
      rw [hlists m (fun hf => hm (List.mem_cons_of_mem _ hf))
        (fun hmn => hm (by rw [hmn]; exact List.mem_cons_self _ _))]
    obtain ⟨nd, hnd⟩ : ∃ nd, t.heap[n]? = some nd := ⟨_, List.getElem?_eq_getElem hnt.1⟩
    have hparnd : node_parent t.heap n = nd.n_parent := by simp [node_parent, hnd]
    cases hpar : nd.n_parent with
    | none =>
      rw [hpar] at hparnd
      have hno : ∀ m, m ∉ t.freed →
          node_children t.heap m = (node_children t.heap m).erase n := by
        intro m hm
        symm
        apply List.erase_of_not_mem
        intro hc
        rcases Nat.lt_or_ge m t.heap.length with hlt | hge
        · have := (wt.2.2 m ⟨hlt, hm⟩ n hc).2
          rw [hparnd] at this
          cases this
        · rw [node_children_out _ _ hge] at hc
          cases hc
      refine ⟨⟨t.heap, n :: t.freed⟩, by simp [node_delete, hn.2, hloop, hnd, hpar], ?_,
        tree_wf_free t t.heap n hwft hnt hempty rfl (fun _ => rfl) hno,
        List.mem_cons_self _ _, hunder, ?_⟩
      · exact heap_shrunk_trans s t _ hshr
          ⟨rfl, fun m hm => List.mem_cons_of_mem _ hm, fun _ nd hnd => ⟨nd, hnd, rfl⟩,
            fun _ _ hc => hc⟩
      · intro m hm
        show node_children t.heap m = _
        rw [hno m (fun hf => hm (List.mem_cons_of_mem _ hf))]
        exact hkeep m hm
    | some p =>
      rw [hpar] at hparnd
      obtain ⟨hpl, hpc⟩ := wt.2.1 n hnt p hparnd
      have hch : ∀ m, node_children (t.heap.modify
          (fun pn => { pn with n_children := tailq_remove pn.n_children n }) p) m =
          if m = p then tailq_remove (node_children t.heap p) n else node_children t.heap m :=
        fun m => node_children_modify_children t.heap (fun l => tailq_remove l n) p m hpl.1
      have hno : ∀ m, m ∉ t.freed →
          node_children (t.heap.modify
            (fun pn => { pn with n_children := tailq_remove pn.n_children n }) p) m =
            (node_children t.heap m).erase n := by
        intro m hm
        rw [hch]
        by_cases hmp : m = p
        · simp only [hmp, if_true, tailq_remove]
        · simp only [hmp, if_false]
          symm
          apply List.erase_of_not_mem
          intro hc
          rcases Nat.lt_or_ge m t.heap.length with hlt | hge
          · have := (wt.2.2 m ⟨hlt, hm⟩ n hc).2
            rw [hparnd] at this
            exact hmp (Option.some.inj this).symm
          · rw [node_children_out _ _ hge] at hc
            cases hc
      have hguard : ¬ (p ∈ t.freed ∨ t.heap.length ≤ p) := by
        intro hc
        rcases hc with h1 | h1
        · exact hpl.2 h1
        · exact absurd hpl.1 (Nat.not_lt.2 h1)
      refine ⟨⟨t.heap.modify
          (fun pn => { pn with n_children := tailq_remove pn.n_children n }) p, n :: t.freed⟩,
        by simp [node_delete, hn.2, hloop, hnd, hpar, hguard], ?_,
        tree_wf_free t _ n hwft hnt hempty (by simp)
          (fun m => node_parent_modify_children t.heap (fun l => tailq_remove l n) p m) hno,
        List.mem_cons_self _ _, hunder, ?_⟩
      · refine heap_shrunk_trans s t _ hshr
          ⟨by simp, fun m hm => List.mem_cons_of_mem _ hm, fun m nd hnd => ?_, fun m c hc => ?_⟩
        · simp only [List.getElem?_modify, hnd, Option.map_some']
          refine ⟨_, rfl, ?_⟩
          by_cases h1 : p = m <;> simp [h1]
        · simp only [] at hc
          rw [hch] at hc
          by_cases hmp : m = p
          · simp only [hmp, if_true, tailq_remove] at hc
            rw [hmp]
            exact List.mem_of_mem_erase hc
          · simp only [hmp, if_false] at hc
            exact hc
      · intro m hm
        simp only []
        rw [hno m (fun hf => hm (List.mem_cons_of_mem _ hf))]
        exact hkeep m hm

theorem tree_wf_of_check (s : node_store) (h : tree_wf_check s = true) : tree_wf s := by
  rw [tree_wf_iff]
  obtain ⟨h1, h2, h3⟩ := of_decide_eq_true h
  exact ⟨h1, fun n hn p hp => h2 n hn.1 hn.2 p hp, fun q hq c hc => h3 q hq.1 hq.2 c hc⟩

theorem node_delete_frees_subtree (s t : node_store) (n : Nat) (hpost : node_delete_post s n t) :
    ∀ m, node_under s.heap n m → m < s.heap.length → m ∈ t.freed := by
  obtain ⟨p1, p2, p3, -, -⟩ := hpost
  have wt := (tree_wf_iff t).1 p2
  intro m hu
  induction hu with
  | self => exact fun _ => p3
  | step m p hp _ ih =>
    intro hm
    by_contra hf
    have hml : node_live t m := ⟨by rw [p1.1]; exact hm, hf⟩
    have hpl := (wt.2.1 m hml p (by rw [heap_shrunk_parent s t p1]; exact hp)).1
    exact hpl.2 (ih (by rw [← p1.1]; exact hpl.1))

/-- C20: the three functions that change the tree keep it well formed, that
is, keep every node that has a parent exactly once in the queue of children of
that parent and in no other queue.  `node_new` returns a new node whose parent
is `parent`, puts it last in the queue of `parent` and leaves every other
queue and parent as it was.  `node_move_after(n, previous)` sets the parent of
`n` to the parent of `previous` and puts `n` right after `previous` in that
parent's queue, which otherwise keeps its order; `n` leaves the queue of its
former parent and nothing else changes.  `node_delete(n)` returns once the
bound on the recursion reaches the depth of the subtree of `n`; the nodes it
frees are `n` and the nodes under `n`, and every node left keeps its parent,
its fields and its children, `n` apart. -/
theorem tree_wf_preserved (s : node_store) (hwf : tree_wf s) :
    (∀ (parent : Nat) (key : cstring) (options location : Option cstring) (file : cstring)
        (line : Int), node_live s parent →
      (node_new s.heap parent key options location file line).2 = s.heap.length ∧
      tree_wf ⟨(node_new s.heap parent key options location file line).1, s.freed⟩ ∧
      node_parent (node_new s.heap parent key options location file line).1 s.heap.length =
        some parent ∧
      node_children (node_new s.heap parent key options location file line).1 parent =
        node_children s.heap parent ++ [s.heap.length] ∧
      (∀ m, m ≠ parent →
        node_children (node_new s.heap parent key options location file line).1 m =
          node_children s.heap m) ∧
      (∀ m, m ≠ s.heap.length →
        node_parent (node_new s.heap parent key options location file line).1 m =
          node_parent s.heap m)) ∧
    (∀ (n previous pn pp : Nat), node_live s n → node_live s previous → n ≠ previous →
      node_parent s.heap n = some pn → node_parent s.heap previous = some pp →
      ∃ h2, node_move_after s.heap n previous = some h2 ∧
        tree_wf ⟨h2, s.freed⟩ ∧
        node_parent h2 n = some pp ∧
        (∀ m, m ≠ n → node_parent h2 m = node_parent s.heap m) ∧
        (∃ L R, (node_children s.heap pp).erase n = L ++ previous :: R ∧ previous ∉ L ∧
          node_children h2 pp = L ++ previous :: n :: R) ∧
        (pn ≠ pp → node_children h2 pn = (node_children s.heap pn).erase n) ∧
        (∀ m, m ≠ pn → m ≠ pp → node_children h2 m = node_children s.heap m)) ∧
    (∀ (n fuel : Nat), node_live s n → subtree_depth s.heap n fuel →
      ∃ s2, node_delete fuel s n = some s2 ∧ tree_wf s2 ∧ heap_shrunk s s2 ∧
        (∀ m, node_live s2 m ↔ node_live s m ∧ ¬ node_under s.heap n m) ∧
        (∀ m, node_live s2 m → node_parent s2.heap m = node_parent s.heap m ∧
          node_children s2.heap m = (node_children s.heap m).erase n)) := by
  have w := (tree_wf_iff s).1 hwf
  refine ⟨?_, ?_, ?_⟩
  · intro parent key options location file line hparent
    refine ⟨rfl, tree_wf_node_new s parent key options location file line hwf hparent,
      by rw [node_parent_node_new]; simp,
      by rw [node_children_node_new _ _ _ _ _ _ _ _ hparent.1]; simp, fun m hm => ?_,
      fun m hm => ?_⟩
    · rw [node_children_node_new _ _ _ _ _ _ _ _ hparent.1]
      simp [hm]
    · rw [node_parent_node_new]
      simp [hm]
  · intro n previous pn pp hn hprev hne hpn hpp
    obtain ⟨hpnl, hcn⟩ := w.2.1 n hn pn hpn
    obtain ⟨hppl, hcp⟩ := w.2.1 previous hprev pp hpp
    obtain ⟨h2, hmove, hlen, hpar, hch, -⟩ :=
      node_move_after_cells s.heap n previous pn pp hn.1 hpn hpnl.1 hpp hppl.1
    have hq : (if pp = pn then tailq_remove (node_children s.heap pn) n
        else node_children s.heap pp) = (node_children s.heap pp).erase n := by
      by_cases hq : pp = pn
      · simp only [hq, if_true, tailq_remove]
      · simp only [hq, if_false]
        symm
        apply List.erase_of_not_mem
        intro hc
        have := (w.2.2 pp hppl n hc).2
        rw [hpn] at this
        exact hq (Option.some.inj this).symm
    have hmem : previous ∈ (node_children s.heap pp).erase n :=
      (List.mem_erase_of_ne (fun hc => hne hc.symm)).2 (List.count_pos_iff.1 (by omega))
    obtain ⟨L, R, hl1, hl2, hl3⟩ :=
      tailq_insert_after_split ((node_children s.heap pp).erase n) previous n hmem
    refine ⟨h2, hmove, tree_wf_move s h2 n previous pn pp hwf hn hprev hne hpn hpp hlen hpar hch,
      by rw [hpar]; simp, fun m hm => by rw [hpar]; simp [hm], ⟨L, R, hl1, hl2, ?_⟩,
      fun hp => ?_, fun m hm1 hm2 => ?_⟩
    · rw [hch]
      simp only [if_true]
      rw [hq]
      exact hl3
    · rw [hch]
      simp [hp, tailq_remove]
    · rw [hch]
      simp [hm1, hm2]
  · intro n fuel hn hsd
    obtain ⟨s2, hdel, hpost⟩ := node_delete_spec fuel s n hwf hn hsd
    have hall := node_delete_frees_subtree s s2 n hpost
    obtain ⟨p1, p2, p3, p4, p5⟩ := hpost
    refine ⟨s2, hdel, p2, p1, fun m => ⟨fun hm => ⟨⟨by rw [← p1.1]; exact hm.1,
      fun hf => hm.2 (p1.2.1 m hf)⟩, fun hu => hm.2 (hall m hu (by rw [← p1.1]; exact hm.1))⟩,
      fun hm => ⟨by rw [p1.1]; exact hm.1.1, fun hf => ?_⟩⟩,
      fun m hm => ⟨heap_shrunk_parent s s2 p1 m, p5 m hm.2⟩⟩
    rcases p4 m hf with h1 | h1
    · exact hm.1.2 h1
    · exact hm.2 h1

theorem tree_wf_preserved_witness :
    tree_wf example_home_store ∧
    tree_wf ⟨(node_new example_home_store.heap 1 "tmp".toList none none [] 3).1, []⟩ ∧
    (∃ h2, node_move_after example_home_store.heap 6 3 = some h2 ∧ tree_wf ⟨h2, []⟩ ∧
      node_parent h2 6 = some 2) ∧
    (∃ s2, node_delete 2 example_home_store 2 = some s2 ∧ tree_wf s2 ∧
      ∀ m, node_live s2 m ↔ node_live example_home_store m ∧
        ¬ node_under example_home_store.heap 2 m) :=
  ⟨tree_wf_of_check _ (by decide),
    ((tree_wf_preserved example_home_store (tree_wf_of_check _ (by decide))).1 1 "tmp".toList
      none none [] 3 (by decide)).2.1,
    (let ⟨h2, h⟩ := (tree_wf_preserved example_home_store (tree_wf_of_check _ (by decide))).2.1
      6 3 4 2 (by decide) (by decide) (by decide) (by decide) (by decide)
     ⟨h2, h.1, h.2.1, h.2.2.1⟩),
    (let ⟨s2, h⟩ := (tree_wf_preserved example_home_store (tree_wf_of_check _ (by decide))).2.2
      2 2 (by decide) (subtree_depth_of_within _ 2 2 (by decide))
     ⟨s2, h.1, h.2.1, h.2.2.2.1⟩)⟩

theorem node_delete_example :
    (node_delete 2 example_home_store 2).map (fun s => (s.heap.map (·.n_children), s.freed)) =
      some ([[1], [4], [], [], [5, 6], [], []], [2, 3]) ∧
    (node_move_after example_home_heap 6 3).map (fun h => (h.map (·.n_children), h.map (·.n_parent)))
      = some ([[1], [2, 4], [3, 6], [], [5], [], []],
          [none, some 0, some 1, some 2, some 1, some 4, some 2]) := by
  decide

/-! ### Include expansion -/

theorem heap_grown_trans (base : Nat) (h h2 h3 : node_heap) (h12 : heap_grown base h h2)
    (h23 : heap_grown base h2 h3) : heap_grown base h h3 := by
  induction h23 with
  | refl => exact h12
  | step h4 parent key options location file line _ hb hp ih =>
    exact heap_grown.step h4 parent key options location file line ih hb hp

theorem heap_grown_new (base : Nat) (h : node_heap) (parent : Nat) (key : cstring)
    (options location : Option cstring) (file : cstring) (line : Int) (hb : base ≤ parent)
    (hp : parent < h.length) :
    heap_grown base h (node_new h parent key options location file line).1 :=
  heap_grown.step h parent key options location file line heap_grown.refl hb hp

theorem node_new_length (h : node_heap) (parent : Nat) (key : cstring)
    (options location : Option cstring) (file : cstring) (line : Int) :
    (node_new h parent key options location file line).1.length = h.length + 1 := by
  simp [node_new]

theorem heap_grown_length (base : Nat) (h h2 : node_heap) (hg : heap_grown base h h2) :
    h.length ≤ h2.length := by
  induction hg with
  | refl => exact Nat.le_refl _
  | step h4 parent key options location file line _ hb hp ih =>
    rw [node_new_length]
    omega

theorem heap_grown_cells (base : Nat) (h h2 : node_heap) (hg : heap_grown base h h2) :
    ∀ m, m < base → h2[m]? = h[m]? := by
  induction hg with
  | refl => exact fun _ _ => rfl
  | step h4 parent key options location file line _ hb hp ih =>
    intro m hm
    rw [← ih m hm]
    simp only [node_new]
    rw [List.getElem?_modify_ne _ _ (by omega), List.getElem?_append_left (by omega)]

theorem heap_grown_parent (base : Nat) (h h2 : node_heap) (hg : heap_grown base h h2) :
    ∀ m, m < h.length → node_parent h2 m = node_parent h m := by
  induction hg with
  | refl => exact fun _ _ => rfl
  | step h4 parent key options location file line hg4 hb hp ih =>
    intro m hm
    have := heap_grown_length base h h4 hg4
    rw [node_parent_node_new, if_neg (by omega), ih m hm]

theorem heap_grown_wf (base : Nat) (h h2 : node_heap) (freed : List Nat)
    (hg : heap_grown base h h2) (hfreed : ∀ f ∈ freed, f < base) (hwf : tree_wf ⟨h, freed⟩) :
    tree_wf ⟨h2, freed⟩ := by
  induction hg with
  | refl => exact hwf
  | step h4 parent key options location file line _ hb hp ih =>
    exact tree_wf_node_new ⟨h4, freed⟩ parent key options location file line ih
      ⟨hp, fun hf => absurd (hfreed parent hf) (by omega)⟩

theorem tree_wf_new_root (s : node_store) (hwf : tree_wf s) :
    tree_wf ⟨(node_new_root s.heap).1, s.freed⟩ := by
  rw [tree_wf_iff] at hwf ⊢
  obtain ⟨w1, w2, w3⟩ := hwf
  have hlive : ∀ m, node_live ⟨(node_new_root s.heap).1, s.freed⟩ m →
      m ≠ s.heap.length → node_live s m := by
    intro m hm hne
    have := hm.1
    simp only [node_new_root, List.length_append, List.length_singleton] at this
    exact ⟨by omega, hm.2⟩
  have hup : ∀ m, node_live s m → node_live ⟨(node_new_root s.heap).1, s.freed⟩ m := by
    intro m hm
    refine ⟨?_, hm.2⟩
    simp only [node_new_root, List.length_append, List.length_singleton]
    exact Nat.lt_succ_of_lt hm.1
  refine ⟨?_, ?_, ?_⟩
  · intro m hm
    simp only [node_new_root, List.length_append, List.length_singleton]
    exact Nat.lt_succ_of_lt (w1 m hm)
  · intro n hn p hp
    simp only [node_new_root, node_parent_append, node_children_append] at hp ⊢
    by_cases hnl : n = s.heap.length
    · simp [hnl] at hp
    · simp only [hnl, if_false] at hp
      obtain ⟨h1, h2⟩ := w2 n (hlive n hn hnl) p hp
      refine ⟨hup p h1, ?_⟩
      rw [if_neg (Nat.ne_of_lt h1.1)]
      exact h2
  · intro q hq c hc
    simp only [node_new_root, node_parent_append, node_children_append] at hc ⊢
    by_cases hql : q = s.heap.length
    · simp [hql] at hc
    · simp only [hql, if_false] at hc
      obtain ⟨h1, h2⟩ := w3 q (hlive q hq hql) c hc
      refine ⟨hup c h1, ?_⟩
      rw [if_neg (Nat.ne_of_lt h1.1)]
      exact h2

theorem parse_master_loop_grown (master : cstring) (root : Nat) :
    ∀ (ts : List lexeme) (lineno : Int) (v : master_vars) (h h2 : node_heap),
      root < h.length → parse_master_loop master root ts lineno v h = .ok h2 →
      heap_grown root h h2 := by
  intro ts
  induction ts with
  | nil =>
    intro lineno v h h2 hr hp
    simp only [parse_master_loop] at hp
    split at hp
    · cases hp
      exact heap_grown_new root h root _ _ _ _ _ (Nat.le_refl _) hr
    · cases hp
      exact heap_grown.refl
  | cons t ts ih =>
    intro lineno v h h2 hr hp
    simp only [parse_master_loop] at hp
    split at hp
    · split at hp
      · exact heap_grown_trans root h _ h2
          (heap_grown_new root h root _ _ _ _ _ (Nat.le_refl _) hr)
          (ih _ _ _ _ (by rw [node_new_length]; omega) hp)
      · exact ih _ _ _ _ hr hp
    · split at hp
      · exact ih _ _ _ _ hr hp
      · split at hp
        · exact ih _ _ _ _ hr hp
        · split at hp
          · exact ih _ _ _ _ hr hp
          · cases hp

theorem parse_map_word_grown (map : cstring) (parent node : Nat) (yytext : cstring)
    (lineno : Int) (v v2 : map_vars) (h h2 : node_heap) (hb : parent ≤ node)
    (hn : node < h.length) (hp : parse_map_word map node yytext lineno v h = .ok (v2, h2)) :
    heap_grown parent h h2 := by
  simp only [parse_map_word] at hp
  split at hp
  · split at hp
    · cases hp
    · split at hp
      · cases hp
      · cases hp
        exact heap_grown.refl
  · split at hp
    · split at hp
      · cases hp
      · split at hp
        · cases hp
        · cases hp
          exact heap_grown.refl
    · split at hp
      · cases hp
      · cases hp
        exact heap_grown_new parent h node _ _ _ _ _ hb hn

theorem parse_map_eof_grown (map : cstring) (parent : Nat) (lineno : Int) (v : map_vars)
    (h h2 : node_heap) (hp : parse_map_eof map lineno v h = .ok h2) : heap_grown parent h h2 := by
  simp only [parse_map_eof] at hp
  split at hp
  · cases hp
  · cases hp
    exact heap_grown.refl

theorem parse_map_grown (map : cstring) (parent : Nat) :
    ∀ (ts : List lexeme),
      (∀ (lineno : Int) (v : map_vars) (h h2 : node_heap), parent < h.length →
        parse_map_outer map parent ts lineno v h = .ok h2 → heap_grown parent h h2) ∧
      (∀ (node : Nat) (yytext : cstring) (lineno : Int) (v : map_vars) (h h2 : node_heap),
        parent ≤ node → node < h.length →
        parse_map_inner map parent node yytext ts lineno v h = .ok h2 →
        heap_grown parent h h2) := by
  intro ts
  induction ts with
  | nil =>
    refine ⟨fun lineno v h h2 _ hp => ?_, fun node yytext lineno v h h2 hb hn hp => ?_⟩
    · simp only [parse_map_outer] at hp
      exact parse_map_eof_grown map parent lineno v h h2 hp
    · simp only [parse_map_inner] at hp
      split at hp
      · cases hp
      · rename_i v2 h3 hw
        split at hp
        · cases hp
        · exact heap_grown_trans parent h h3 h2
            (parse_map_word_grown map parent node yytext lineno v v2 h h3 hb hn hw)
            (parse_map_eof_grown map parent lineno v2 h3 h2 hp)
  | cons t ts ih =>
    obtain ⟨iho, ihi⟩ := ih
    refine ⟨fun lineno v h h2 hr hp => ?_, fun node yytext lineno v h h2 hb hn hp => ?_⟩
    · simp only [parse_map_outer] at hp
      split at hp
      · split at hp
        · cases hp
        · exact iho _ _ _ _ hr hp
      · split at hp
        · split at hp
          · exact heap_grown_trans parent h _ h2
              (heap_grown_new parent h parent _ _ _ _ _ (Nat.le_refl _) hr)
              (iho _ _ _ _ (by rw [node_new_length]; omega) hp)
          · exact iho _ _ _ _ hr hp
        · split at hp
          · split at hp
            · cases hp
            · exact iho _ _ _ _ hr hp
          · exact heap_grown_trans parent h _ h2
              (heap_grown_new parent h parent _ _ _ _ _ (Nat.le_refl _) hr)
              (ihi _ _ _ _ _ _ (by simp only [node_new]; omega)
                (by rw [node_new_length]; simp only [node_new]; omega) hp)
    · simp only [parse_map_inner] at hp
      split at hp
      · cases hp
      · rename_i v2 h3 hw
        have hg := parse_map_word_grown map parent node yytext lineno v v2 h h3 hb hn hw
        have hl := heap_grown_length parent h h3 hg
        split at hp
        · split at hp
          · cases hp
          · exact heap_grown_trans parent h h3 h2 hg (iho _ _ _ _ (by omega) hp)
        · exact heap_grown_trans parent h h3 h2 hg (ihi _ _ _ _ _ _ hb (by omega) hp)

theorem node_same_entry_refl (a : node) : node_same_entry a a :=
  ⟨rfl, rfl, rfl, rfl, rfl⟩

theorem node_same_entry_trans (a b c : node) (h1 : node_same_entry a b)
    (h2 : node_same_entry b c) : node_same_entry a c :=
  ⟨h1.1.trans h2.1, h1.2.1.trans h2.2.1, h1.2.2.1.trans h2.2.2.1,
    h1.2.2.2.1.trans h2.2.2.2.1, h1.2.2.2.2.trans h2.2.2.2.2⟩

theorem tailq_insert_after_first (L T : List Nat) (listelm elm : Nat) (h : listelm ∉ L) :
    tailq_insert_after (L ++ listelm :: T) listelm elm = L ++ listelm :: elm :: T := by
  induction L with
  | nil => simp [tailq_insert_after]
  | cons a L ih =>
    have ha : a ≠ listelm := fun hc => h (by rw [hc]; exact List.mem_cons_self _ _)
    have hL : listelm ∉ L := fun hc => h (List.mem_cons_of_mem _ hc)
    simp [tailq_insert_after, ha, ih hL]

theorem node_move_children_after_spec (freed : List Nat) (n root tmproot : Nat) (L : List Nat)
    (hroot : root ≠ tmproot) (hL : n ∉ L) :
    ∀ (rev : List Nat) (u : node_heap) (T : List Nat),
      tree_wf ⟨u, freed⟩ → node_live ⟨u, freed⟩ n → node_live ⟨u, freed⟩ tmproot →
      node_parent u n = some root →
      node_children u tmproot = rev.reverse → node_children u root = L ++ n :: T →
      ∃ u2, node_move_children_after n rev u = some u2 ∧ tree_wf ⟨u2, freed⟩ ∧
        u2.length = u.length ∧ node_children u2 tmproot = [] ∧
        node_children u2 root = L ++ n :: (rev.reverse ++ T) ∧
        (∀ m, node_parent u2 m = if m ∈ rev then some root else node_parent u m) ∧
        (∀ m, m ≠ root → m ≠ tmproot → node_children u2 m = node_children u m) ∧
        (∀ (m : Nat) (nd : node), u[m]? = some nd →
          ∃ nd2 : node, u2[m]? = some nd2 ∧ node_same_entry nd2 nd) := by
  intro rev
  induction rev with
  | nil =>
    intro u T hwf _ _ _ htmp hch
    exact ⟨u, rfl, hwf, rfl, by simpa using htmp, by simpa using hch, fun m => by simp,
      fun _ _ _ => rfl, fun m nd hm => ⟨nd, hm, node_same_entry_refl nd⟩⟩
  | cons x rev ih =>
    intro u T hwf hn htl hpn htmp hch
    have w := (tree_wf_iff _).1 hwf
    have hxmem : x ∈ node_children u tmproot := by
      rw [htmp]
      simp
    obtain ⟨hxl, hxp⟩ := w.2.2 tmproot htl x hxmem
    have hxc := (w.2.1 x hxl tmproot hxp).2
    have hxn : x ≠ n := by
      intro hc
      rw [hc, hpn] at hxp
      exact hroot (Option.some.inj hxp)
    have hrl := (w.2.1 n hn root hpn).1
    have hxrev : x ∉ rev.reverse := by
      intro hc
      rw [htmp, List.reverse_cons, List.count_append, List.count_singleton_self] at hxc
      have := List.count_pos_iff.2 hc
      omega
    obtain ⟨u1, hmove, hlen, hpar, hchl, hcells⟩ :=
      node_move_after_cells u x n tmproot root hxl.1 hxp htl.1 hpn hrl.1
    have hwf1 := tree_wf_move ⟨u, freed⟩ u1 x n tmproot root hwf hxl hn hxn hxp hpn hlen hpar hchl
    have hn1 : node_live ⟨u1, freed⟩ n := ⟨by show n < u1.length; rw [hlen]; exact hn.1, hn.2⟩
    have htl1 : node_live ⟨u1, freed⟩ tmproot :=
      ⟨by show tmproot < u1.length; rw [hlen]; exact htl.1, htl.2⟩
    have hpn1 : node_parent u1 n = some root := by
      rw [hpar, if_neg (fun hc => hxn hc.symm)]
      exact hpn
    have htmp1 : node_children u1 tmproot = rev.reverse := by
      rw [hchl, if_neg (fun hc => hroot hc.symm), if_pos rfl, htmp, List.reverse_cons,
        tailq_remove, List.erase_append_right _ hxrev]
      simp
    have hch1 : node_children u1 root = L ++ n :: (x :: T) := by
      rw [hchl, if_pos rfl, if_neg hroot, hch]
      exact tailq_insert_after_first L T n x hL
    obtain ⟨u2, hloop, hwf2, hlen2, htmp2, hch2, hpar2, hoth2, hcells2⟩ :=
      ih u1 (x :: T) hwf1 hn1 htl1 hpn1 htmp1 hch1
    refine ⟨u2, by simp only [node_move_children_after, hmove, hloop], hwf2, hlen2.trans hlen,
      htmp2, by rw [hch2]; simp, fun m => ?_, fun m hm1 hm2 => ?_, fun m nd hm => ?_⟩
    · rw [hpar2, hpar]
      by_cases h1 : m ∈ rev
      · simp [h1]
      · by_cases h2 : m = x
        · simp [h2]
        · simp [h1, h2]
    · rw [hoth2 m hm1 hm2, hchl, if_neg hm1, if_neg hm2]
    · obtain ⟨nd1, hnd1, he1⟩ := hcells m nd hm
      obtain ⟨nd2, hnd2, he2⟩ := hcells2 m nd1 hnd1
      refine ⟨nd2, hnd2, node_same_entry_trans nd2 nd1 nd he2 ?_⟩
      rw [← he1]
      exact ⟨rfl, rfl, rfl, rfl, rfl⟩

theorem node_expand_includes_parse_grown (env : include_env) (is_master : Bool)
    (h h2 : node_heap) (key : cstring)
    (hp : node_expand_includes_parse env is_master h key = .ok h2) :
    heap_grown h.length (node_new_root h).1 h2 := by
  have hlt : (node_new_root h).2 < (node_new_root h).1.length := by simp [node_new_root]
  simp only [node_expand_includes_parse] at hp
  split at hp
  · cases hp
  · split at hp
    · cases hp
    · split at hp
      · cases hp
      · rename_i h3 hparse
        split at hp
        · cases hp
        · cases hp
          cases is_master with
          | true =>
            simp only [if_true, parse_master_yyin] at hparse
            exact parse_master_loop_grown _ _ _ _ _ _ _ hlt hparse
          | false =>
            simp only [Bool.false_eq_true, if_false, parse_map_yyin] at hparse
            exact (parse_map_grown _ _ _).1 _ _ _ _ hlt hparse

theorem heap_grown_children (base : Nat) (h h2 : node_heap) (hg : heap_grown base h h2) :
    ∀ m, ∀ c ∈ node_children h2 m, c ∈ node_children h m ∨ h.length ≤ c := by
  induction hg with
  | refl => exact fun _ _ hc => Or.inl hc
  | step h4 parent key options location file line hg4 hb hp ih =>
    intro m c hc
    rw [node_children_node_new _ _ _ _ _ _ _ _ hp] at hc
    by_cases hm : m = parent
    · simp only [hm, if_true] at hc
      rcases List.mem_append.1 hc with h1 | h1
      · exact hm ▸ ih parent c h1
      · have : c = h4.length := by simpa using h1
        exact Or.inr (by rw [this]; exact heap_grown_length base h h4 hg4)
    · simp only [hm, if_false] at hc
      exact ih m c hc

theorem subtree_depth_transfer (h h2 : node_heap) (d : Nat) :
    ∀ x, (∀ m, node_reach h x m → m < h2.length ∧ node_children h2 m = node_children h m) →
      subtree_depth h x d → subtree_depth h2 x d := by
  induction d with
  | zero => intro x _ hsd; exact absurd hsd (subtree_depth_zero h x)
  | succ d ih =>
    intro x hx hsd
    rw [subtree_depth_iff] at hsd ⊢
    obtain ⟨h1, h2c⟩ := hx x node_reach.self
    refine ⟨h1, fun c hc => ?_⟩
    rw [h2c] at hc
    refine ih c (fun m hm => hx m ?_) (hsd.2 c hc)
    clear ih hsd h1 h2c hx
    induction hm with
    | self => exact node_reach.step x c node_reach.self hc
    | step m c2 _ hc2 ih2 => exact node_reach.step m c2 ih2 hc2

theorem node_reach_live (s : node_store) (hwf : tree_wf s) (a m : Nat) (ha : node_live s a)
    (hr : node_reach s.heap a m) : node_live s m ∧ node_under s.heap a m := by
  have w := (tree_wf_iff s).1 hwf
  induction hr with
  | self => exact ⟨ha, node_under.self⟩
  | step m c _ hc ih =>
    obtain ⟨h1, h2⟩ := w.2.2 m ih.1 c hc
    exact ⟨h1, node_under.step c m h2 ih.2⟩

theorem node_under_live (t : node_store) (u : node_heap) (hwf : tree_wf t)
    (hpar : ∀ m, node_live t m → node_parent u m = node_parent t.heap m) (n m : Nat)
    (hu : node_under u n m) (hm : node_live t m) : node_under t.heap n m := by
  have w := (tree_wf_iff t).1 hwf
  induction hu with
  | self => exact node_under.self
  | step m p hp _ ih =>
    rw [hpar m hm] at hp
    exact node_under.step m p hp (ih (w.2.1 m hm p hp).1)

theorem node_no_cycle (s : node_store) (hwf : tree_wf s) (root n : Nat)
    (hroot : node_live s root) (hn : n ∈ node_children s.heap root)
    (hu : node_under s.heap n root) : ∀ d, ¬ subtree_depth s.heap n d := by
  intro d
  induction d with
  | zero => exact subtree_depth_zero _ _
  | succ d ih =>
    intro hsd
    exact ih (((subtree_depth_iff _ _ _).1
      (subtree_depth_under s hwf n root hu hroot (d + 1) hsd)).2 n hn)

theorem node_under_leaf (s : node_store) (hwf : tree_wf s) (a m : Nat)
    (hleaf : node_children s.heap a = []) (hu : node_under s.heap a m) (hm : node_live s m) :
    m = a := by
  have w := (tree_wf_iff s).1 hwf
  induction hu with
  | self => rfl
  | step m p hp _ ih =>
    obtain ⟨h1, h2⟩ := w.2.1 m hm p hp
    have hmem : m ∈ node_children s.heap p := List.count_pos_iff.1 (by omega)
    rw [ih h1, hleaf] at hmem
    cases hmem

theorem node_cell_ext (h h2 : node_heap) (m : Nat) (nd nd2 : node) (hm : h[m]? = some nd)
    (hm2 : h2[m]? = some nd2) (he : node_same_entry nd2 nd)
    (hp : node_parent h2 m = node_parent h m)
    (hc : node_children h2 m = node_children h m) : h2[m]? = h[m]? := by
  rw [hm, hm2]
  simp only [node_parent, node_children, hm, hm2] at hp hc
  obtain ⟨e1, e2, e3, e4, e5⟩ := he
  cases nd
  cases nd2
  simp only at e1 e2 e3 e4 e5 hp hc
  simp [e1, e2, e3, e4, e5, hp, hc]

theorem node_same_entry_of_shrunk (nd nd2 : node) (c : List Nat)
    (h : { nd2 with n_children := c } = nd) : node_same_entry nd2 nd := by
  rw [← h]
  exact ⟨rfl, rfl, rfl, rfl, rfl⟩

theorem node_expand_includes_body_spec (env : include_env) (is_master : Bool) (dfuel : Nat)
    (t : node_store) (root n : Nat) (nd : node) (h2 : node_heap) (L R : List Nat)
    (hwf : tree_wf t) (hroot : node_live t root) (hn : node_live t n)
    (hnd : t.heap[n]? = some nd) (hpar : nd.n_parent = some root)
    (hinc : node_is_include nd = true) (hsd : subtree_depth t.heap n dfuel)
    (hsplit : node_children t.heap root = L ++ n :: R)
    (hparse : node_expand_includes_parse env is_master t.heap nd.n_key = .ok h2) :
    ∃ t2, node_expand_includes_body env is_master dfuel t n = .ok t2 ∧
      node_children t2.heap root = L ++ node_children h2 t.heap.length ++ R ∧
      node_expand_includes_post root n h2 t t2 := by
  have w := (tree_wf_iff t).1 hwf
  have hpn : node_parent t.heap n = some root := by simp [node_parent, hnd, hpar]
  have hg := node_expand_includes_parse_grown env is_master t.heap h2 nd.n_key hparse
  have hh1len : (node_new_root t.heap).1.length = t.heap.length + 1 := by simp [node_new_root]
  have hh2len := heap_grown_length _ _ _ hg
  rw [hh1len] at hh2len
  have hF : ∀ f ∈ t.freed, f < t.heap.length := w.1
  have hwf2 : tree_wf ⟨h2, t.freed⟩ := heap_grown_wf _ _ _ _ hg hF (tree_wf_new_root t hwf)
  have w2 := (tree_wf_iff _).1 hwf2
  have hcell2 : ∀ m, m < t.heap.length → h2[m]? = t.heap[m]? := by
    intro m hm
    rw [heap_grown_cells _ _ _ hg m hm]
    simp only [node_new_root]
    exact List.getElem?_append_left hm
  have hpar2 : ∀ m, m < t.heap.length → node_parent h2 m = node_parent t.heap m := by
    intro m hm
    simp only [node_parent, hcell2 m hm]
  have hch2 : ∀ m, m < t.heap.length → node_children h2 m = node_children t.heap m := by
    intro m hm
    simp only [node_children, hcell2 m hm]
  have hptmp : node_parent h2 t.heap.length = none := by
    rw [heap_grown_parent _ _ _ hg _ (by rw [hh1len]; omega)]
    simp [node_new_root, node_parent_append]
  have hXnew : ∀ x ∈ node_children h2 t.heap.length, t.heap.length < x := by
    intro x hx
    rcases heap_grown_children _ _ _ hg _ x hx with h1 | h1
    · simp [node_new_root, node_children_append] at h1
    · rw [hh1len] at h1
      omega
  have hrt : root ≠ t.heap.length := Nat.ne_of_lt hroot.1
  have hnmem : n ∈ node_children t.heap root := by
    rw [hsplit]
    simp
  have hnL : n ∉ L := by
    intro hc
    have h1 := (w.2.1 n hn root hpn).2
    rw [hsplit, List.count_append, List.count_cons_self] at h1
    have := List.count_pos_iff.2 hc
    omega
  have hn2 : node_live ⟨h2, t.freed⟩ n := ⟨by show n < h2.length; have := hn.1; omega, hn.2⟩
  have htl2 : node_live ⟨h2, t.freed⟩ t.heap.length :=
    ⟨by show _ < h2.length; omega, fun hf => absurd (hF _ hf) (Nat.lt_irrefl _)⟩
  obtain ⟨u3, hmoves, hwf3, hlen3, htmp3, hch3, hpar3, hoth3, hcells3⟩ :=
    node_move_children_after_spec t.freed n root t.heap.length L hrt hnL
      (node_children h2 t.heap.length).reverse h2 R hwf2 hn2 htl2
      (by rw [hpar2 n hn.1]; exact hpn) (by rw [List.reverse_reverse])
      (by rw [hch2 root hroot.1]; exact hsplit)
  rw [List.reverse_reverse] at hch3
  have hpar3old : ∀ m, node_live t m → node_parent u3 m = node_parent t.heap m := by
    intro m hm
    rw [hpar3, if_neg, hpar2 m hm.1]
    intro hc
    have := hXnew m (List.mem_reverse.1 hc)
    have := hm.1
    omega
  have hch3old : ∀ m, m < t.heap.length → m ≠ root →
      node_children u3 m = node_children t.heap m := by
    intro m hm hmr
    rw [hoth3 m hmr (Nat.ne_of_lt hm), hch2 m hm]
  have hcyc : ¬ node_under t.heap n root :=
    fun hu => node_no_cycle t hwf root n hroot hnmem hu dfuel hsd
  have hcyc3 : ¬ node_under u3 n root :=
    fun hu => hcyc (node_under_live t u3 hwf hpar3old n root hu hroot)
  have hsd3 : subtree_depth u3 n dfuel := by
    refine subtree_depth_transfer t.heap u3 dfuel n (fun m hm => ?_) hsd
    obtain ⟨hml, hmu⟩ := node_reach_live t hwf n m hn hm
    have hmr : m ≠ root := by
      intro hc
      rw [hc] at hmu
      exact hcyc hmu
    exact ⟨by rw [hlen3]; have := hml.1; omega, hch3old m hml.1 hmr⟩
  have hn3 : node_live ⟨u3, t.freed⟩ n :=
    ⟨by show n < u3.length; rw [hlen3]; have := hn.1; omega, hn.2⟩
  obtain ⟨s4, hdel4, p41, p42, p43, p44, p45⟩ :=
    node_delete_spec dfuel ⟨u3, t.freed⟩ n hwf3 hn3 hsd3
  have hlen4 : s4.heap.length = h2.length := p41.1.trans hlen3
  have hroot4 : root ∉ s4.freed := by
    intro hf
    rcases p44 root hf with h1 | h1
    · exact hroot.2 h1
    · exact hcyc3 h1
  have hptmp3 : node_parent u3 t.heap.length = none := by
    rw [hpar3, if_neg, hptmp]
    intro hc
    exact Nat.lt_irrefl _ (hXnew _ (List.mem_reverse.1 hc))
  have htmp4 : t.heap.length ∉ s4.freed := by
    intro hf
    rcases p44 _ hf with h1 | h1
    · exact Nat.lt_irrefl _ (hF _ h1)
    · cases h1 with
      | self => exact Nat.lt_irrefl _ hn.1
      | step _ p hp _ =>
        simp only [] at hp
        rw [hptmp3] at hp
        cases hp
  have hleaf4 : node_children s4.heap t.heap.length = [] := by
    rw [p45 _ htmp4]
    show (node_children u3 t.heap.length).erase n = []
    rw [htmp3]
    rfl
  have htl4 : node_live s4 t.heap.length := ⟨by rw [hlen4]; omega, htmp4⟩
  have hsd4 : subtree_depth s4.heap t.heap.length dfuel := by
    cases dfuel with
    | zero => exact absurd hsd (subtree_depth_zero _ _)
    | succ d =>
      rw [subtree_depth_iff]
      refine ⟨htl4.1, fun c hc => ?_⟩
      rw [hleaf4] at hc
      cases hc
  obtain ⟨s5, hdel5, p51, p52, p53, p54, p55⟩ :=
    node_delete_spec dfuel s4 t.heap.length p42 htl4 hsd4
  have hlen5 : s5.heap.length = h2.length := p51.1.trans hlen4
  have hkeep5 : ∀ m, node_live s4 m → m ≠ t.heap.length → m ∉ s5.freed := by
    intro m hm hne hf
    rcases p54 m hf with h1 | h1
    · exact hm.2 h1
    · exact hne (node_under_leaf s4 p42 _ m hleaf4 h1 hm)
  have hkeep4 : ∀ m, node_live t m → ¬ node_under t.heap n m → m ∉ s4.freed := by
    intro m hm hu hf
    rcases p44 m hf with h1 | h1
    · exact hm.2 h1
    · exact hu (node_under_live t u3 hwf hpar3old n m h1 hm)
  have hroot5 : node_live s5 root :=
    ⟨by rw [hlen5]; have := hroot.1; omega,
      hkeep5 root ⟨by rw [hlen4]; have := hroot.1; omega, hroot4⟩ hrt⟩
  have hshr : heap_shrunk ⟨u3, t.freed⟩ s5 := heap_shrunk_trans _ s4 s5 p41 p51
  have hpar5 : ∀ m, node_parent s5.heap m = node_parent u3 m :=
    fun m => heap_shrunk_parent ⟨u3, t.freed⟩ s5 hshr m
  have hch5 : ∀ m, node_live s4 m → m ≠ t.heap.length →
      node_children s5.heap m = ((node_children u3 m).erase n).erase t.heap.length := by
    intro m hm hne
    rw [p55 m (hkeep5 m hm hne), p45 m hm.2]
  have hX4 : ∀ x ∈ node_children h2 t.heap.length, node_live s4 x := by
    intro x hx
    refine ⟨by rw [hlen4]; exact (w2.2.2 _ htl2 x hx).1.1, fun hf => ?_⟩
    have hxn := hXnew x hx
    rcases p44 x hf with h1 | h1
    · have := hF x h1
      omega
    · cases h1 with
      | self => have := hn.1; omega
      | step _ p hp hu =>
        simp only [] at hp
        rw [hpar3, if_pos (List.mem_reverse.2 hx)] at hp
        cases hp
        exact hcyc3 hu
  refine ⟨s5, ?_, ?_, p52, hroot5, p51.2.1 n p43, p53,
    fun m hm => p51.2.1 m (p41.2.1 m hm), ?_, ?_⟩
  · have hmoves2 : node_move_children_after n
        (node_children h2 (node_new_root t.heap).2).reverse h2 = some u3 := hmoves
    have hdel52 : node_delete dfuel s4 (node_new_root t.heap).2 = some s5 := hdel5
    simp only [node_expand_includes_body, hnd, hn.2, hinc, hparse, hmoves2, hdel4, hdel52,
      if_false, Bool.true_eq_false]
  · rw [hch5 root ⟨by rw [hlen4]; have := hroot.1; omega, hroot4⟩ hrt, hch3,
      List.erase_append_right _ hnL, List.erase_cons_head, ← List.append_assoc]
    apply List.erase_of_not_mem
    intro hc
    have h1 : t.heap.length ∈ node_children s4.heap root := by
      rw [p45 root hroot4]
      show _ ∈ (node_children u3 root).erase n
      rw [hch3, List.erase_append_right _ hnL, List.erase_cons_head, ← List.append_assoc]
      exact hc
    have h2p := ((tree_wf_iff s4).1 p42).2.2 root
      ⟨by rw [hlen4]; have := hroot.1; omega, hroot4⟩ _ h1
    rw [heap_shrunk_parent _ s4 p41] at h2p
    have h3 := h2p.2
    simp only [] at h3
    rw [hptmp3] at h3
    cases h3
  · intro x hx
    have hxn := hXnew x hx
    have hx4 := hX4 x hx
    have hxl2 := (w2.2.2 _ htl2 x hx).1
    have hxr : x ≠ root := by have := hroot.1; omega
    refine ⟨hxn, ⟨by rw [hlen5, ← hlen4]; exact hx4.1, hkeep5 x hx4 (by omega)⟩, ?_, ?_, ?_⟩
    · rw [hpar5, hpar3, if_pos (List.mem_reverse.2 hx)]
    · rw [hch5 x hx4 (by omega), hoth3 x hxr (by omega)]
      have h1 : n ∉ node_children h2 x := by
        intro hc
        have := (w2.2.2 x hxl2 n hc).2
        simp only [] at this
        rw [hpar2 n hn.1, hpn] at this
        exact hxr (Option.some.inj this).symm
      have h2n : t.heap.length ∉ node_children h2 x := by
        intro hc
        have := (w2.2.2 x hxl2 _ hc).2
        simp only [] at this
        rw [hptmp] at this
        cases this
      rw [List.erase_of_not_mem h1, List.erase_of_not_mem h2n]
    · obtain ⟨ndx, hndx⟩ : ∃ ndx, h2[x]? = some ndx := ⟨_, List.getElem?_eq_getElem hxl2.1⟩
      obtain ⟨nd3, hnd3, he3⟩ := hcells3 x ndx hndx
      obtain ⟨nd5, hnd5, he5⟩ := hshr.2.2.1 x nd3 hnd3
      exact ⟨ndx, nd5, hndx, hnd5,
        node_same_entry_trans nd5 nd3 ndx (node_same_entry_of_shrunk nd3 nd5 _ he5) he3⟩
  · intro m hm hmr hmu
    have hm4 : node_live s4 m := ⟨by rw [hlen4]; have := hm.1; omega, hkeep4 m hm hmu⟩
    have hmt : m ≠ t.heap.length := Nat.ne_of_lt hm.1
    refine ⟨?_, ⟨by rw [hlen5]; have := hm.1; omega, hkeep5 m hm4 hmt⟩⟩
    obtain ⟨ndm, hndm⟩ : ∃ ndm, t.heap[m]? = some ndm := ⟨_, List.getElem?_eq_getElem hm.1⟩
    obtain ⟨nd3, hnd3, he3⟩ := hcells3 m ndm (by rw [hcell2 m hm.1]; exact hndm)
    obtain ⟨nd5, hnd5, he5⟩ := hshr.2.2.1 m nd3 hnd3
    refine node_cell_ext t.heap s5.heap m ndm nd5 hndm hnd5
      (node_same_entry_trans nd5 nd3 ndm (node_same_entry_of_shrunk nd3 nd5 _ he5) he3)
      (by rw [hpar5, hpar3old m hm]) ?_
    rw [hch5 m hm4 hmt, hch3old m hm.1 hmr]
    have h1 : n ∉ node_children t.heap m := by
      intro hc
      have := (w.2.2 m hm n hc).2
      rw [hpn] at this
      exact hmr (Option.some.inj this).symm
    have h2n : t.heap.length ∉ node_children t.heap m := by
      intro hc
      exact Nat.lt_irrefl _ (w.2.2 m hm _ hc).1.1
    rw [List.erase_of_not_mem h1, List.erase_of_not_mem h2n]

theorem node_under_linear (h : node_heap) (a b m : Nat) (ha : node_under h a m) :
    node_under h b m → node_under h a b ∨ node_under h b a := by
  induction ha with
  | self => exact fun hb => Or.inr hb
  | step m p hp hu ih =>
    intro hb
    cases hb with
    | self => exact Or.inl (node_under.step _ p hp hu)
    | step _ p2 hp2 hu2 =>
      rw [hp] at hp2
      cases hp2
      exact ih hu2

theorem node_expand_includes_parse_defined (env : include_env) (is_master : Bool)
    (h : node_heap) (key : cstring) :
    node_expand_includes_parse env is_master h key ≠ .error .undefined := by
  intro hp
  simp only [node_expand_includes_parse] at hp
  split at hp
  · cases hp
  · split at hp
    · cases hp
    · split at hp
      · cases hp
      · split at hp
        · cases hp
        · cases hp

theorem node_expand_includes_piece_stable (env : include_env) (is_master : Bool) (root : Nat)
    (s t t2 : node_store) (c : Nat) (piece : List Nat)
    (hp : node_expand_includes_piece env is_master root s t c piece)
    (hfreed : ∀ m ∈ t.freed, m ∈ t2.freed)
    (hcells : ∀ x ∈ piece, t2.heap[x]? = t.heap[x]? ∧ node_live t2 x) :
    node_expand_includes_piece env is_master root s t2 c piece := by
  obtain ⟨nd, hnd, h1, h2⟩ := hp
  refine ⟨nd, hnd, fun hinc => ?_, fun hinc => ?_⟩
  · obtain ⟨e1, e2, e3, e4⟩ := h1 hinc
    obtain ⟨c1, c2⟩ := hcells c (by rw [e1]; simp)
    refine ⟨e1, c2, c1.trans e3, ?_⟩
    simp only [node_parent, c1] at e4 ⊢
    exact e4
  · obtain ⟨e1, h, h2h, e2, e3, e4, e5, e6⟩ := h2 hinc
    refine ⟨hfreed c e1, h, h2h, e2, e3, hfreed _ e4, e5, fun x hx => ?_⟩
    obtain ⟨f1, f2, f3, f4, ndx, nd2, f5, f6, f7⟩ := e6 x hx
    obtain ⟨c1, c2⟩ := hcells x hx
    refine ⟨f1, c2, ?_, ?_, ndx, nd2, f5, c1.trans f6, f7⟩
    · simp only [node_parent, c1] at f3 ⊢
      exact f3
    · simp only [node_children, c1] at f4 ⊢
      exact f4

theorem node_reach_transfer (h h2 : node_heap) (c : Nat)
    (hch : ∀ m, node_reach h c m → node_children h2 m = node_children h m) (m : Nat)
    (hm : node_reach h c m) : node_reach h2 c m := by
  induction hm with
  | self => exact node_reach.self
  | step m x hr hx ih =>
    exact node_reach.step m x ih (by rw [hch m hr]; exact hx)

theorem node_expand_includes_loop_spec (env : include_env) (is_master : Bool) (dfuel : Nat)
    (s : node_store) (root : Nat) (hwf : tree_wf s) (hroot : node_live s root)
    (hsd : subtree_depth s.heap root (dfuel + 1)) :
    ∀ (rest done : List Nat) (pieces : List (List Nat)) (t : node_store),
      node_children s.heap root = done ++ rest → tree_wf t → node_live t root →
      s.heap.length ≤ t.heap.length →
      List.Forall₂ (node_expand_includes_piece env is_master root s t) done pieces →
      node_children t.heap root = pieces.flatten ++ rest →
      (∀ c ∈ rest, ∀ m, node_reach s.heap c m → t.heap[m]? = s.heap[m]? ∧ node_live t m) →
      (∀ e, node_expand_includes_loop env is_master dfuel rest t = .error e →
        e ≠ .undefined ∧ ∃ c ∈ rest, ∃ (nd : node) (h : node_heap), s.heap[c]? = some nd ∧
          node_is_include nd = true ∧
          node_expand_includes_parse env is_master h nd.n_key = .error e) ∧
      (∀ s2, node_expand_includes_loop env is_master dfuel rest t = .ok s2 →
        tree_wf s2 ∧ node_live s2 root ∧ ∃ pieces2,
          List.Forall₂ (node_expand_includes_piece env is_master root s s2) (done ++ rest)
            pieces2 ∧
          node_children s2.heap root = pieces2.flatten) := by
  have ws := (tree_wf_iff s).1 hwf
  have hcycs : ∀ c ∈ node_children s.heap root, ¬ node_under s.heap c root :=
    fun c hc hu => node_not_under_child s hwf root c hroot hc hu (dfuel + 1) hsd
  have hsdc : ∀ c ∈ node_children s.heap root, subtree_depth s.heap c dfuel :=
    fun c hc => ((subtree_depth_iff _ _ _).1 hsd).2 c hc
  intro rest
  induction rest with
  | nil =>
    intro done pieces t hsplit hwft hroott hlen hpieces hch hrest
    refine ⟨fun e he => ?_, fun s2 hs2 => ?_⟩
    · simp [node_expand_includes_loop] at he
    · simp only [node_expand_includes_loop] at hs2
      cases hs2
      exact ⟨hwft, hroott, pieces, by simpa using hpieces, by simpa using hch⟩
  | cons n rest ih =>
    intro done pieces t hsplit hwft hroott hlen hpieces hch hrest
    have wt := (tree_wf_iff t).1 hwft
    have hnmem : n ∈ node_children s.heap root := by
      rw [hsplit]
      simp
    obtain ⟨hnl, hnp⟩ := ws.2.2 root hroot n hnmem
    obtain ⟨hcelln, hnt⟩ := hrest n (List.mem_cons_self _ _) n node_reach.self
    obtain ⟨nd, hnd⟩ : ∃ nd, s.heap[n]? = some nd := ⟨_, List.getElem?_eq_getElem hnl.1⟩
    have hndt : t.heap[n]? = some nd := hcelln.trans hnd
    have hsplit2 : node_children s.heap root = (done ++ [n]) ++ rest := by
      rw [hsplit]
      simp
    have hrest2 : ∀ c ∈ rest, ∀ m, node_reach s.heap c m →
        t.heap[m]? = s.heap[m]? ∧ node_live t m :=
      fun c hc => hrest c (List.mem_cons_of_mem _ hc)
    have hpnt : node_parent t.heap n = some root := by
      simp only [node_parent, hcelln] at hnp ⊢
      exact hnp
    cases hinc : node_is_include nd with
    | false =>
      have hbody : node_expand_includes_body env is_master dfuel t n = .ok t := by
        simp [node_expand_includes_body, hndt, hnt.2, hinc]
      have hloop : node_expand_includes_loop env is_master dfuel (n :: rest) t =
          node_expand_includes_loop env is_master dfuel rest t := by
        simp only [node_expand_includes_loop, hbody]
      rw [hloop]
      have hpiece : node_expand_includes_piece env is_master root s t n [n] :=
        ⟨nd, hnd, fun _ => ⟨rfl, hnt, hcelln, hpnt⟩, fun h => by rw [hinc] at h; cases h⟩
      obtain ⟨r1, r2⟩ := ih (done ++ [n]) (pieces ++ [[n]]) t hsplit2 hwft hroott hlen
        (List.rel_append hpieces (List.Forall₂.cons hpiece List.Forall₂.nil))
        (by rw [hch]; simp) hrest2
      refine ⟨fun e he => ?_, fun s2 hs2 => ?_⟩
      · obtain ⟨e1, c, hc, hx⟩ := r1 e he
        exact ⟨e1, c, List.mem_cons_of_mem _ hc, hx⟩
      · have := r2 s2 hs2
        simpa using this
    | true =>
      cases hparse : node_expand_includes_parse env is_master t.heap nd.n_key with
      | error e0 =>
        have hbody : node_expand_includes_body env is_master dfuel t n = .error e0 := by
          simp [node_expand_includes_body, hndt, hnt.2, hinc, hparse]
        refine ⟨fun e he => ?_, fun s2 hs2 => ?_⟩
        · simp only [node_expand_includes_loop, hbody] at he
          cases he
          exact ⟨fun hc => node_expand_includes_parse_defined env is_master t.heap nd.n_key
            (by rw [hparse, hc]), n, List.mem_cons_self _ _, nd, t.heap, hnd, hinc, hparse⟩
        · simp only [node_expand_includes_loop, hbody] at hs2
          cases hs2
      | ok h2 =>
        have hsdt : ∀ c ∈ n :: rest, subtree_depth t.heap c dfuel := by
          intro c hc
          have hcm : c ∈ node_children s.heap root := by
            rw [hsplit]
            exact List.mem_append_right _ hc
          exact subtree_depth_transfer s.heap t.heap dfuel c
            (fun m hm => ⟨(hrest c hc m hm).2.1, by
              simp only [node_children, (hrest c hc m hm).1]⟩) (hsdc c hcm)
        have hpar : nd.n_parent = some root := by
          simpa [node_parent, hnd] using hnp
        obtain ⟨t2, hbody, hch2, q1, q2, q3, q4, q5, q6, q7⟩ :=
          node_expand_includes_body_spec env is_master dfuel t root n nd h2 pieces.flatten rest
            hwft hroott hnt hndt hpar hinc (hsdt n (List.mem_cons_self _ _)) hch hparse
        have hloop : node_expand_includes_loop env is_master dfuel (n :: rest) t =
            node_expand_includes_loop env is_master dfuel rest t2 := by
          simp only [node_expand_includes_loop, hbody]
        rw [hloop]
        have hlen2 : s.heap.length ≤ t2.heap.length :=
          Nat.le_trans hlen (Nat.le_of_lt (((tree_wf_iff t2).1 q1).1 _ q4))
        have hnmemt : n ∈ node_children t.heap root := by
          rw [hch]
          simp
        have hcyct : ¬ node_under t.heap n root := fun hu =>
          node_no_cycle t hwft root n hroott hnmemt hu dfuel (hsdt n (List.mem_cons_self _ _))
        have hframe : ∀ x, node_live t x → node_parent t.heap x = some root → x ≠ n →
            x ≠ root → t2.heap[x]? = t.heap[x]? ∧ node_live t2 x := by
          intro x hx hxp hxn hxr
          refine q7 x hx hxr (fun hu => ?_)
          cases hu with
          | self => exact hxn rfl
          | step _ p hp hu2 =>
            rw [hxp] at hp
            cases hp
            exact hcyct hu2
        have hnrest : n ∉ rest := by
          intro hc
          have h1 := (ws.2.1 n hnl root hnp).2
          rw [hsplit, List.count_append, List.count_cons_self] at h1
          have := List.count_pos_iff.2 hc
          omega
        have hpieces2 : List.Forall₂ (node_expand_includes_piece env is_master root s t2)
            done pieces := by
          refine hpieces.imp (fun c piece hp => ?_)
          refine node_expand_includes_piece_stable env is_master root s t t2 c piece hp q5
            (fun x hx => ?_)
          obtain ⟨ndc, hndc, h1, h2c⟩ := hp
          cases hincc : node_is_include ndc with
          | false =>
            obtain ⟨e1, e2, e3, e4⟩ := h1 hincc
            rw [e1] at hx
            have hxc : x = c := by simpa using hx
            subst hxc
            refine hframe x e2 e4 (fun hc => ?_) (fun hc => ?_)
            · rw [hc, hnd] at hndc
              cases hndc
              rw [hinc] at hincc
              cases hincc
            · subst hc
              have h3 : node_parent s.heap x = some x := by
                simp only [node_parent, e3] at e4 ⊢
                exact e4
              have h4 := (ws.2.1 x hroot x h3).2
              exact hcycs x (List.count_pos_iff.1 (by omega)) node_under.self
          | true =>
            obtain ⟨-, h, h2h, -, -, -, -, e6⟩ := h2c hincc
            obtain ⟨f1, f2, f3, -⟩ := e6 x hx
            exact hframe x f2 f3 (by have := hnl.1; omega) (by have := hroot.1; omega)
        have hpiece : node_expand_includes_piece env is_master root s t2 n
            (node_children h2 t.heap.length) :=
          ⟨nd, hnd, fun h => (by rw [hinc] at h; cases h),
            fun _ => ⟨q3, t.heap, h2, hlen, hparse, q4, rfl,
              fun x hx => ⟨by have := (q6 x hx).1; omega, (q6 x hx).2⟩⟩⟩
        have hrest3 : ∀ c ∈ rest, ∀ m, node_reach s.heap c m →
            t2.heap[m]? = s.heap[m]? ∧ node_live t2 m := by
          intro c hc m hm
          have hc2 : c ∈ n :: rest := List.mem_cons_of_mem _ hc
          obtain ⟨hcm, hml⟩ := hrest c hc2 m hm
          have hcmem : c ∈ node_children s.heap root := by
            rw [hsplit]
            exact List.mem_append_right _ hc2
          obtain ⟨hcl, hcp⟩ := ws.2.2 root hroot c hcmem
          have hcn : c ≠ n := fun h => hnrest (h ▸ hc)
          obtain ⟨hccell, hclt⟩ := hrest c hc2 c node_reach.self
          have hcpt : node_parent t.heap c = some root := by
            simp only [node_parent, hccell] at hcp ⊢
            exact hcp
          have hmr : m ≠ root := by
            intro h
            rw [h] at hm
            exact hcycs c hcmem (node_reach_live s hwf c root hcl hm).2
          have hrt : node_reach t.heap c m :=
            node_reach_transfer s.heap t.heap c
              (fun x hx => by simp only [node_children, (hrest c hc2 x hx).1]) m hm
          have huc := (node_reach_live t hwft c m hclt hrt).2
          have hcmemt : c ∈ node_children t.heap root := by
            rw [hch]
            exact List.mem_append_right _ hc2
          have hnu : ¬ node_under t.heap n m := by
            intro hun
            rcases node_under_linear t.heap n c m hun huc with h1 | h1
            · cases h1 with
              | self => exact hcn rfl
              | step _ p hp hu =>
                rw [hcpt] at hp
                cases hp
                exact hcyct hu
            · cases h1 with
              | self => exact hcn rfl
              | step _ p hp hu =>
                rw [hpnt] at hp
                cases hp
                exact node_no_cycle t hwft root c hroott hcmemt hu dfuel (hsdt c hc2)
          obtain ⟨g1, g2⟩ := q7 m hml hmr hnu
          exact ⟨g1.trans hcm, g2⟩
        obtain ⟨r1, r2⟩ := ih (done ++ [n]) (pieces ++ [node_children h2 t.heap.length]) t2
          hsplit2 q1 q2 hlen2
          (List.rel_append hpieces2 (List.Forall₂.cons hpiece List.Forall₂.nil))
          (by rw [hch2]; simp) hrest3
        refine ⟨fun e he => ?_, fun s2 hs2 => ?_⟩
        · obtain ⟨e1, c, hc, hx⟩ := r1 e he
          exact ⟨e1, c, List.mem_cons_of_mem _ hc, hx⟩
        · have := r2 s2 hs2
          simpa using this

theorem node_expand_includes_example :
    node_child_keys example_include_store 0 = ["A".toList, "+inc".toList, "B".toList] ∧
    (store_of (node_expand_includes example_include_env true 1 example_include_store 0)).map
        (fun s => (node_children s.heap 0, node_child_keys s 0, s.freed)) =
      some ([1, 5, 6, 3], ["A".toList, "X".toList, "Y".toList, "B".toList], [4, 2]) := by
  decide

/-! ### The flags of a request -/

theorem getElem?_modify_cases {α : Type} (f : α → α) (l : List α) (k i : Nat) (r : α)
    (h : (l.modify f k)[i]? = some r) :
    ∃ r0, l[i]? = some r0 ∧ ((k ≠ i ∧ r = r0) ∨ (k = i ∧ r = f r0)) := by
  rw [List.getElem?_modify] at h
  cases hq : l[i]? with
  | none => rw [hq] at h; cases h
  | some r0 =>
    rw [hq] at h
    refine ⟨r0, rfl, ?_⟩
    by_cases hki : k = i
    · right
      simp only [hki, if_true] at h
      exact ⟨hki, (Option.some.inj h).symm⟩
    · left
      simp only [hki, if_false] at h
      exact ⟨hki, (Option.some.inj h).symm⟩

theorem getElem?_modify_some {α : Type} (f : α → α) (l : List α) (k i : Nat) (r : α)
    (h : l[i]? = some r) :
    (l.modify f k)[i]? = some (if k = i then f r else r) := by
  rw [List.getElem?_modify, h]
  by_cases hki : k = i
  · simp only [hki, if_true]
    rfl
  · simp only [hki, if_false]
    rfl

theorem broker_step_flags (MAXPATHLEN : Nat) (q : List autofs_request) (op : broker_op) :
    ((∀ (i : Nat) (r : autofs_request), q[i]? = some r →
        ¬ (r.ar_done = true ∧ r.ar_in_progress = true)) →
      ∀ (i : Nat) (r : autofs_request), (broker_step MAXPATHLEN q op).2[i]? = some r →
        ¬ (r.ar_done = true ∧ r.ar_in_progress = true)) ∧
    (∀ (i : Nat) (r : autofs_request), q[i]? = some r → r.ar_done = true →
      ∃ r2 : autofs_request, (broker_step MAXPATHLEN q op).2[i]? = some r2 ∧
        r2.ar_done = true ∧ r2.ar_id = r.ar_id) := by
  cases op with
  | claim_next adr signals =>
    cases hsc : request_scan q with
    | none =>
      rw [broker_step_claim_none MAXPATHLEN adr q signals hsc]
      exact ⟨fun h => h, fun i r hr hd => ⟨r, hr, hd, rfl⟩⟩
    | some k =>
      obtain ⟨adr2, h2⟩ := broker_step_claim_some MAXPATHLEN adr q signals k hsc
      obtain ⟨ar, hget, hd2, -, -⟩ := request_scan_some hsc
      rw [h2]
      refine ⟨fun h i r hr => ?_, fun i r hr hd => ?_⟩
      · simp only [] at hr
        obtain ⟨r0, hq, hc⟩ := getElem?_modify_cases _ q k i r hr
        rcases hc with ⟨-, he⟩ | ⟨hki, he⟩
        · rw [he]
          exact h i r0 hq
        · rw [hki, hq] at hget
          cases hget
          rw [he]
          simp [hd2]
      · simp only []
        rw [getElem?_modify_some _ q k i r hr]
        by_cases hki : k = i
        · exact ⟨{ r with ar_in_progress := true }, by simp only [hki, if_true], hd, rfl⟩
        · exact ⟨r, by simp only [hki, if_false], hd, rfl⟩
  | complete add =>
    simp only [broker_step, autofs_ioctl_done]
    cases hsc : done_scan add.add_id q with
    | none => exact ⟨fun h => h, fun i r hr hd => ⟨r, hr, hd, rfl⟩⟩
    | some k =>
      refine ⟨fun h i r hr => ?_, fun i r hr hd => ?_⟩
      · simp only [] at hr
        obtain ⟨r0, hq, hc⟩ := getElem?_modify_cases _ q k i r hr
        rcases hc with ⟨-, he⟩ | ⟨hki, he⟩
        · rw [he]
          exact h i r0 hq
        · rw [he]
          simp
      · simp only []
        rw [getElem?_modify_some _ q k i r hr]
        by_cases hki : k = i
        · exact ⟨{ r with ar_done := true, ar_in_progress := false },
            by simp only [hki, if_true], rfl, rfl⟩
        · exact ⟨r, by simp only [hki, if_false], hd, rfl⟩
  | enqueue id frm mountpoint path options =>
    simp only [broker_step, request_enqueue]
    refine ⟨fun h i r hr => ?_, fun i r hr hd => ?_⟩
    · rcases Nat.lt_trichotomy i q.length with hlt | heq | hgt
      · rw [List.getElem?_append_left hlt] at hr
        exact h i r hr
      · subst heq
        simp at hr
        rw [← hr]
        simp
      · rw [List.getElem?_eq_none (by simp; omega)] at hr
        cases hr
    · have hlt : i < q.length := by
        rcases Nat.lt_or_ge i q.length with h | h
        · exact h
        · rw [List.getElem?_eq_none h] at hr; cases hr
      exact ⟨r, by rw [List.getElem?_append_left hlt]; exact hr, hd, rfl⟩

theorem broker_run_flags (MAXPATHLEN : Nat) (ops : List broker_op) :
    ∀ q : List autofs_request,
      ((∀ (i : Nat) (r : autofs_request), q[i]? = some r →
          ¬ (r.ar_done = true ∧ r.ar_in_progress = true)) →
        ∀ (i : Nat) (r : autofs_request), (broker_run MAXPATHLEN ops q).2[i]? = some r →
          ¬ (r.ar_done = true ∧ r.ar_in_progress = true)) ∧
      (∀ (i : Nat) (r : autofs_request), q[i]? = some r → r.ar_done = true →
        ∃ r2 : autofs_request, (broker_run MAXPATHLEN ops q).2[i]? = some r2 ∧
          r2.ar_done = true ∧ r2.ar_id = r.ar_id) := by
  induction ops with
  | nil => exact fun q => ⟨fun h => h, fun i r hr hd => ⟨r, hr, hd, rfl⟩⟩
  | cons op ops ih =>
    intro q
    obtain ⟨s1, s2⟩ := broker_step_flags MAXPATHLEN q op
    obtain ⟨r1, r2⟩ := ih (broker_step MAXPATHLEN q op).2
    simp only [broker_run]
    refine ⟨fun h => r1 (s1 h), fun i r hr hd => ?_⟩
    obtain ⟨ra, ha, hda, hia⟩ := s2 i r hr hd
    obtain ⟨rb, hb, hdb, hib⟩ := r2 i ra ha hda
    exact ⟨rb, hb, hdb, hib.trans hia⟩

/-- C24: run from a queue in which no request has both `ar_done` and
`ar_in_progress` set, every sequence of calls of `autofs_ioctl_request` and
`autofs_ioctl_done` and of enqueues of fresh requests leaves a queue in which
no request has both flags set.  And from any queue, a request whose `ar_done`
is set is, after any such sequence, still at its place in the queue with its
id and with `ar_done` set. -/
theorem request_flags_invariant (MAXPATHLEN : Nat) (ops : List broker_op)
    (q : List autofs_request)
    (hq : ∀ r ∈ q, ¬ (r.ar_done = true ∧ r.ar_in_progress = true)) :
    (∀ r ∈ (broker_run MAXPATHLEN ops q).2,
      ¬ (r.ar_done = true ∧ r.ar_in_progress = true)) ∧
    (∀ (pre post : List broker_op), ops = pre ++ post →
      ∀ (i : Nat) (r : autofs_request),
        (broker_run MAXPATHLEN pre q).2[i]? = some r → r.ar_done = true →
        ∃ r2 : autofs_request, (broker_run MAXPATHLEN ops q).2[i]? = some r2 ∧
          r2.ar_done = true ∧ r2.ar_id = r.ar_id) := by
  refine ⟨fun r hr => ?_, fun pre post hops i r hr hd => ?_⟩
  · obtain ⟨i, hi⟩ := List.mem_iff_getElem?.1 hr
    exact (broker_run_flags MAXPATHLEN ops q).1
      (fun j r0 hj => hq r0 (List.mem_iff_getElem?.2 ⟨j, hj⟩)) i r hi
  · have hsplit : (broker_run MAXPATHLEN (pre ++ post) q).2 =
        (broker_run MAXPATHLEN post (broker_run MAXPATHLEN pre q).2).2 := by
      clear hr hops hq
      induction pre generalizing q with
      | nil => rfl
      | cons op pre ih =>
        simp only [List.cons_append, broker_run]
        exact ih _
    rw [hops, hsplit]
    exact (broker_run_flags MAXPATHLEN post _).2 i r hr hd

theorem request_flags_invariant_witness :
    (∀ r ∈ example_requests, ¬ (r.ar_done = true ∧ r.ar_in_progress = true)) ∧
    (∀ r ∈ (broker_run 1024
        [.claim_next example_adr [], .complete { add_id := 7 }, .claim_next example_adr [],
         .enqueue 9 [] [] [] [], .complete { add_id := 5 }] example_requests).2,
      ¬ (r.ar_done = true ∧ r.ar_in_progress = true)) :=
  ⟨by decide, (request_flags_invariant 1024 _ example_requests (by decide)).1⟩

/-! ### The pending location -/

theorem parse_map_word_location (map : cstring) (node : Nat) (yytext : cstring) (lineno : Int)
    (v v2 : map_vars) (h h2 : node_heap) (hl : v.location = none)
    (hp : parse_map_word map node yytext lineno v h = .ok (v2, h2)) : v2.location = none := by
  simp only [parse_map_word] at hp
  split at hp
  · split at hp
    · cases hp
    · split at hp
      · cases hp
      · cases hp
        exact hl
  · split at hp
    · split at hp
      · cases hp
      · split at hp
        · cases hp
        · cases hp
          exact hl
    · split at hp
      · cases hp
      · cases hp
        rfl

theorem parse_map_word_error (map : cstring) (node : Nat) (yytext : cstring) (lineno : Int)
    (v : map_vars) (h : node_heap) (e : parse_error) (hl : v.location = none)
    (hp : parse_map_word map node yytext lineno v h = .error e) :
    e.message ≠ "too many arguments" ∧ e.message ≠ "options out of order" ∧
    (e.message = "mountpoint out of order" →
      v.options2 ≠ none ∧ v.mountpoint = none ∧ yytext.head? = some '/') := by
  simp only [parse_map_word] at hp
  split at hp
  · rename_i hsl
    split at hp
    · cases hp
      exact ⟨by simp, by simp, fun hc => absurd hc (by simp)⟩
    · rename_i hmp
      split at hp
      · rename_i ho
        cases hp
        refine ⟨by simp, by simp, fun _ => ⟨?_, by simpa using hmp, hsl⟩⟩
        rcases ho with ho | ho
        · exact ho
        · exact absurd hl ho
      · cases hp
  · split at hp
    · split at hp
      · cases hp
        exact ⟨by simp, by simp, fun hc => absurd hc (by simp)⟩
      · split at hp
        · rename_i ho
          exact absurd hl ho
        · cases hp
    · split at hp
      · rename_i ho
        exact absurd hl ho
      · cases hp

theorem parse_map_eof_error (map : cstring) (lineno : Int) (v : map_vars) (h : node_heap)
    (e : parse_error) (hp : parse_map_eof map lineno v h = .error e) :
    e.message = "truncated entry" := by
  simp only [parse_map_eof] at hp
  split at hp
  · cases hp
    rfl
  · cases hp

theorem parse_map_location_absent (map : cstring) (parent : Nat) :
    ∀ (ts : List lexeme),
      (∀ (lineno : Int) (v : map_vars) (h : node_heap), v.location = none →
        (∀ x ∈ parse_map_outer_heads map parent ts lineno v h, x.location = none) ∧
        ∀ e, parse_map_outer map parent ts lineno v h = .error e →
          e.message ≠ "too many arguments" ∧ e.message ≠ "options out of order") ∧
      (∀ (node : Nat) (yytext : cstring) (lineno : Int) (v : map_vars) (h : node_heap),
        v.location = none →
        (∀ x ∈ parse_map_inner_heads map parent node yytext ts lineno v h, x.location = none) ∧
        ∀ e, parse_map_inner map parent node yytext ts lineno v h = .error e →
          e.message ≠ "too many arguments" ∧ e.message ≠ "options out of order") := by
  have htr : ∀ e : parse_error, e.message = "truncated entry" →
      e.message ≠ "too many arguments" ∧ e.message ≠ "options out of order" := by
    intro e he
    rw [he]
    exact ⟨by simp, by simp⟩
  intro ts
  induction ts with
  | nil =>
    refine ⟨fun lineno v h hl => ⟨?_, fun e he => ?_⟩,
      fun node yytext lineno v h hl => ⟨?_, fun e he => ?_⟩⟩
    · simp [parse_map_outer_heads]
    · simp only [parse_map_outer] at he
      exact htr e (parse_map_eof_error map lineno v h e he)
    · intro x hx
      simp only [parse_map_inner_heads, List.mem_singleton] at hx
      rw [hx]
      exact hl
    · simp only [parse_map_inner] at he
      split at he
      · rename_i e2 hw
        cases he
        have := parse_map_word_error map node yytext lineno v h _ hl hw
        exact ⟨this.1, this.2.1⟩
      · split at he
        · cases he
          exact ⟨by simp, by simp⟩
        · exact htr e (parse_map_eof_error map lineno _ _ e he)
  | cons t ts ih =>
    obtain ⟨iho, ihi⟩ := ih
    refine ⟨fun lineno v h hl => ⟨?_, fun e he => ?_⟩,
      fun node yytext lineno v h hl => ⟨?_, fun e he => ?_⟩⟩
    · simp only [parse_map_outer_heads]
      split
      · split
        · simp
        · refine (iho _ _ _ ?_).1
          exact hl
      · split
        · split
          · refine (iho _ _ _ ?_).1
            exact hl
          · refine (iho _ _ _ ?_).1
            exact hl
        · split
          · split
            · simp
            · refine (iho _ _ _ ?_).1
              exact hl
          · refine (ihi _ _ _ _ _ ?_).1
            exact hl
    · simp only [parse_map_outer] at he
      split at he
      · split at he
        · cases he
          exact ⟨by simp, by simp⟩
        · refine (iho _ _ _ ?_).2 e he
          exact hl
      · split at he
        · split at he
          · refine (iho _ _ _ ?_).2 e he
            exact hl
          · refine (iho _ _ _ ?_).2 e he
            exact hl
        · split at he
          · split at he
            · cases he
              exact ⟨by simp, by simp⟩
            · refine (iho _ _ _ ?_).2 e he
              exact hl
          · refine (ihi _ _ _ _ _ ?_).2 e he
            exact hl
    · intro x hx
      simp only [parse_map_inner_heads, List.mem_cons] at hx
      rcases hx with hx | hx
      · rw [hx]
        exact hl
      · split at hx
        · cases hx
        · rename_i v2 h2 hw
          have hl2 := parse_map_word_location map node yytext lineno v v2 h h2 hl hw
          split at hx
          · split at hx
            · cases hx
            · exact (iho _ _ _ hl2).1 x hx
          · exact (ihi _ _ _ _ _ hl2).1 x hx
    · simp only [parse_map_inner] at he
      split at he
      · rename_i e2 hw
        cases he
        have := parse_map_word_error map node yytext lineno v h _ hl hw
        exact ⟨this.1, this.2.1⟩
      · rename_i v2 h2 hw
        have hl2 := parse_map_word_location map node yytext lineno v v2 h h2 hl hw
        split at he
        · split at he
          · cases he
            exact ⟨by simp, by simp⟩
          · exact (iho _ _ _ hl2).2 e he
        · exact (ihi _ _ _ _ _ hl2).2 e he


theorem locations_entry_shaped (key : map_word) (locs : List map_word)
    (hkey : starts_with '+' key.text = false) (hne : locs ≠ [])
    (hlocs : ∀ w ∈ locs, starts_with '/' w.text = false ∧ starts_with '-' w.text = false) :
    (locations_entry key locs).shaped = true ∧
    (locations_entry key locs).first_group_plain = true := by
  constructor
  · simp only [map_entry.shaped, locations_entry, hkey, Option.all_none, Bool.not_false,
      Bool.true_and, Bool.and_eq_true, Bool.not_eq_true', List.isEmpty_eq_false,
      List.all_eq_true, List.mem_map, forall_exists_index, and_imp,
      forall_apply_eq_imp_iff₂]
    refine ⟨by simpa using hne, fun w hw => ?_⟩
    simp [map_triple.shaped, (hlocs w hw).1, (hlocs w hw).2]
  · cases locs with
    | nil => exact absurd rfl hne
    | cons w ws => simp [map_entry.first_group_plain, locations_entry]

/-- C22: at the head of every iteration of the inner loop of `parse_map_yyin`
the variable `location` is `NULL`, on every token stream: a step of that loop
that starts with `location` `NULL` ends with it `NULL`, and the outer loop
does not write it.  So no run stops with "too many arguments" or "options out
of order", and a step that stops with "mountpoint out of order" has options2
pending, no mountpoint, and a word beginning with a slash at hand.  A key
followed on its line by any number of locations and nothing else gives one
first-level node with one child for each location, in order, with key `/`,
empty options and that location. -/
theorem parse_map_yyin_location_absent (map : cstring) (parent : Nat) :
    (∀ (h : node_heap) (lineno : Int) (input : List lexeme),
      (∀ x ∈ parse_map_outer_heads map parent input lineno
          { key := none, options := none, mountpoint := none, options2 := none,
            location := none } h, x.location = none) ∧
      ∀ e, parse_map_yyin h parent map lineno input = .error e →
        e.message ≠ "too many arguments" ∧ e.message ≠ "options out of order") ∧
    (∀ (node : Nat) (yytext : cstring) (lineno : Int) (v v2 : map_vars) (h h2 : node_heap),
      v.location = none → parse_map_word map node yytext lineno v h = .ok (v2, h2) →
      v2.location = none) ∧
    (∀ (node : Nat) (yytext : cstring) (lineno : Int) (v : map_vars) (h : node_heap)
        (e : parse_error), v.location = none →
      parse_map_word map node yytext lineno v h = .error e →
      e.message = "mountpoint out of order" →
      v.options2 ≠ none ∧ v.mountpoint = none ∧ yytext.head? = some '/') ∧
    (∀ (h : node_heap) (lineno : Int) (key : map_word) (locs : List map_word),
      parent < h.length → starts_with '+' key.text = false → locs ≠ [] →
      (∀ w ∈ locs, starts_with '/' w.text = false ∧ starts_with '-' w.text = false) →
      (locations_entry key locs).lexemes = key.lexeme :: locs.map map_word.lexeme ∧
      parse_map_yyin h parent map lineno (key.lexeme :: locs.map map_word.lexeme) =
        .ok (entry_heap h parent map (locations_entry key locs)) ∧
      (∀ (nl : lexeme) (rest : List lexeme), nl.newline = true →
        parse_map_yyin h parent map lineno
            (key.lexeme :: locs.map map_word.lexeme ++ nl :: rest) =
          parse_map_yyin (entry_heap h parent map (locations_entry key locs)) parent map
            nl.lineno rest) ∧
      (entry_heap h parent map (locations_entry key locs)).length =
        h.length + 1 + locs.length ∧
      node_children (entry_heap h parent map (locations_entry key locs)) h.length =
        (List.range locs.length).map (fun i => h.length + 1 + i) ∧
      ∀ (i : Nat) (w : map_word), locs[i]? = some w →
        (entry_heap h parent map (locations_entry key locs))[h.length + 1 + i]? =
          some { n_key := ['/'], n_options := some [], n_location := some w.text,
                 n_config_file := map, n_config_line := w.lineno, n_parent := some h.length,
                 n_children := [] }) := by
  refine ⟨fun h lineno input => ?_, fun node yytext lineno v v2 h h2 hl hp =>
    parse_map_word_location map node yytext lineno v v2 h h2 hl hp,
    fun node yytext lineno v h e hl hp =>
      (parse_map_word_error map node yytext lineno v h e hl hp).2.2, ?_⟩
  · exact (parse_map_location_absent map parent input).1 lineno _ h rfl
  · intro h lineno key locs hparent hkey hne hlocs
    obtain ⟨hshape, hplain⟩ := locations_entry_shaped key locs hkey hne hlocs
    have hlex : (locations_entry key locs).lexemes = key.lexeme :: locs.map map_word.lexeme := by
      have hflat : ∀ l : List map_word,
          (l.flatMap fun a => [a.lexeme]) = l.map map_word.lexeme := by
        intro l
        induction l with
        | nil => rfl
        | cons a l ih => simp [List.flatMap_cons, ih]
      simp [map_entry.lexemes, locations_entry, map_triple.lexemes, List.flatMap_map, hflat]
    have hlen : (h.modify (fun p => { p with n_children := p.n_children ++ [h.length] })
        parent).length = h.length := by simp
    refine ⟨hlex, ?_, ?_, ?_, ?_, ?_⟩
    · rw [← hlex]
      simp only [parse_map_yyin]
      have := parse_map_outer_entry map parent h _ [] lineno hparent hshape hplain
      rw [List.append_nil] at this
      rw [this]
      simp [parse_map_again, parse_map_pending, parse_map_eof]
    · intro nl rest hnl
      rw [← hlex]
      simp only [parse_map_yyin]
      rw [parse_map_outer_entry map parent h _ (nl :: rest) lineno hparent hshape hplain]
      simp [parse_map_again, hnl, parse_map_pending]
    · rw [entry_heap, map_entry_heap_length]
      simp [locations_entry]
    · simp only [entry_heap, map_entry_heap, node_children]
      rw [List.getElem?_append_right (by rw [hlen]), hlen]
      simp [locations_entry]
    · intro i w hi
      simp only [entry_heap, map_entry_heap]
      rw [List.getElem?_append_right (by rw [hlen]; omega), hlen]
      have : h.length + 1 + i - h.length = i + 1 := by omega
      rw [this, List.getElem?_cons_succ, List.getElem?_map]
      simp [locations_entry, List.getElem?_map, hi, map_triple.node]

theorem parse_map_yyin_locations_example :
    (heap_of (parse_map_yyin (node_new_root []).1 0 "auto_x".toList 1
      [lex_word "k" 1, lex_word "a:/1" 1, lex_word "b:/2" 1, lex_word "c:/3" 1,
       lex_newline 2])).map (fun nd => (nd.n_key, nd.n_location, nd.n_children)) =
      [("/".toList, none, [1]), ("k".toList, none, [2, 3, 4]),
       ("/".toList, some "a:/1".toList, []), ("/".toList, some "b:/2".toList, []),
       ("/".toList, some "c:/3".toList, [])] ∧
    failure_of (parse_map_yyin (node_new_root []).1 0 "auto_x".toList 1
      [lex_word "k" 1, lex_word "a:/1" 1, lex_word "-p" 1, lex_word "/n" 1,
       lex_newline 2]) =
      some { message := "mountpoint out of order", file := "auto_x".toList, line := 1 } := by
  decide

/-! ### Nodes with the default mountpoint -/

theorem node_mountpoint_x_succ (h : node_heap) :
    ∀ (fuel n : Nat) (x y : cstring), node_mountpoint_x h fuel n x = some y →
      node_mountpoint_x h (fuel + 1) n x = some y := by
  intro fuel
  induction fuel with
  | zero => intro n x y hy; simp [node_mountpoint_x] at hy
  | succ f ih =>
    intro n x y hy
    rw [node_mountpoint_x] at hy ⊢
    cases hn : h[n]? with
    | none => rw [hn] at hy; cases hy
    | some nd =>
      rw [hn] at hy
      simp only at hy ⊢
      cases hp : nd.n_parent with
      | none => rw [hp] at hy; exact hy
      | some p =>
        rw [hp] at hy
        simp only at hy ⊢
        cases hpn : h[p]? with
        | none => rw [hpn] at hy; cases hy
        | some pn =>
          rw [hpn] at hy
          simp only at hy ⊢
          split at hy
          · rename_i hc
            rw [if_pos hc]
            exact hy
          · rename_i hc
            rw [if_neg hc]
            cases hs : strip_trailing_slash (separated_concat nd.n_key x '/') with
            | none => rw [hs] at hy; cases hy
            | some path =>
              rw [hs] at hy
              exact ih p path y hy

theorem node_mountpoint_x_mono (h : node_heap) (fuel fuel2 n : Nat) (x y : cstring)
    (hle : fuel ≤ fuel2) (hy : node_mountpoint_x h fuel n x = some y) :
    node_mountpoint_x h fuel2 n x = some y := by
  induction hle with
  | refl => exact hy
  | step _ ih => exact node_mountpoint_x_succ h _ n x y ih

theorem node_mountpoint_default (h : node_heap) (n p : Nat) (nd : node)
    (hn : h[n]? = some nd) (hkey : nd.n_key = ['/']) (hp : nd.n_parent = some p) (fuel : Nat) :
    node_mountpoint h (fuel + 1) n = node_mountpoint h fuel p := by
  simp only [node_mountpoint]
  rw [node_mountpoint_x]
  simp only [hn, hp, hkey]
  cases hpn : h[p]? with
  | none =>
    cases fuel with
    | zero => simp [node_mountpoint_x]
    | succ f => simp [node_mountpoint_x, hpn]
  | some pn =>
    simp [separated_concat, strip_trailing_slash]

theorem node_find_children_some (find : Nat → Option (Option Nat)) (n : Nat) :
    ∀ cs : List Nat, node_find_children find cs = some (some n) →
      ∃ c ∈ cs, find c = some (some n) := by
  intro cs
  induction cs with
  | nil => intro hc; simp [node_find_children] at hc
  | cons c rest ih =>
    intro hc
    simp only [node_find_children] at hc
    cases hf : find c with
    | none => rw [hf] at hc; cases hc
    | some r =>
      rw [hf] at hc
      cases r with
      | none =>
        obtain ⟨c2, hc2, h2⟩ := ih hc
        exact ⟨c2, List.mem_cons_of_mem _ hc2, h2⟩
      | some n2 =>
        simp only [Option.some.injEq] at hc
        exact ⟨c, List.mem_cons_self _ _, by rw [hf, hc]⟩

theorem node_find_not_default (h : node_heap) (n p : Nat) (nd : node)
    (hn : h[n]? = some nd) (hkey : nd.n_key = ['/']) (hp : nd.n_parent = some p)
    (honly : ∀ (q : Nat) (qd : node), h[q]? = some qd → n ∈ qd.n_children → q = p)
    (mfuel : Nat) (m : cstring) :
    ∀ (fuel r : Nat), r ≠ n → node_find h mfuel fuel r m ≠ some (some n) := by
  intro fuel
  induction fuel using Nat.strong_induction_on with
  | _ fuel ih =>
    intro r hr hfind
    cases fuel with
    | zero => simp [node_find] at hfind
    | succ f =>
      rw [node_find] at hfind
      cases hrd : h[r]? with
      | none => rw [hrd] at hfind; cases hfind
      | some rd =>
        rw [hrd] at hfind
        simp only at hfind
        split at hfind
        · exact hr (Option.some.inj (Option.some.inj hfind))
        · cases hmr : node_mountpoint h mfuel r with
          | none => rw [hmr] at hfind; cases hfind
          | some tmp =>
            rw [hmr] at hfind
            simp only at hfind
            split at hfind
            · exact hr (Option.some.inj (Option.some.inj hfind))
            · rename_i hstar htmp
              obtain ⟨c, hc, hcf⟩ := node_find_children_some _ n rd.n_children hfind
              by_cases hcn : c = n
              · subst hcn
                have hrp : r = p := honly r rd hrd hc
                -- the search from the node itself
                cases f with
                | zero => simp [node_find] at hcf
                | succ f2 =>
                  rw [node_find] at hcf
                  simp only [hn, hkey] at hcf
                  rw [if_neg (by decide)] at hcf
                  cases hmn : node_mountpoint h mfuel c with
                  | none => rw [hmn] at hcf; cases hcf
                  | some tmp2 =>
                    rw [hmn] at hcf
                    simp only at hcf
                    split at hcf
                    · rename_i heq
                      cases mfuel with
                      | zero => simp [node_mountpoint, node_mountpoint_x] at hmn
                      | succ k =>
                        rw [node_mountpoint_default h c p nd hn hkey hp k] at hmn
                        have := node_mountpoint_x_succ h k p [] tmp2 hmn
                        rw [← hrp] at this
                        simp only [node_mountpoint] at hmr
                        rw [hmr] at this
                        exact htmp ((Option.some.inj this).trans heq)
                    · obtain ⟨c2, hc2, hcf2⟩ := node_find_children_some _ c nd.n_children hcf
                      by_cases hc2n : c2 = c
                      · rw [hc2n] at hc2
                        exact hr (hrp.trans (honly c nd hn hc2).symm)
                      · exact ih f2 (by omega) c2 hc2n hcf2
              · exact ih f (by omega) c hcn hcf


theorem node_mountpoint_in_heap (h : node_heap) (fuel n : Nat) (x y : cstring)
    (hy : node_mountpoint_x h fuel n x = some y) : ∃ nd, h[n]? = some nd := by
  cases fuel with
  | zero => simp [node_mountpoint_x] at hy
  | succ f =>
    rw [node_mountpoint_x] at hy
    cases hn : h[n]? with
    | none => rw [hn] at hy; cases hy
    | some nd => exact ⟨nd, rfl⟩

/-- C21: a node `n` with key `/` and parent `p` has the mountpoint of `p`:
`node_mountpoint(n)` is computed as `node_mountpoint(p)` after one step that
leaves the path empty, so the two agree whenever the bounds on the recursion
let both return.  Hence `p` passes the test of `node_find` whenever `n` does,
and when `p` is the only node that has `n` among its children, `node_find`
started at any node other than `n` never returns `n`. -/
theorem node_default_mountpoint (h : node_heap) (n p : Nat) (nd : node)
    (hn : h[n]? = some nd) (hkey : nd.n_key = ['/']) (hp : nd.n_parent = some p) :
    (∀ fuel, node_mountpoint h (fuel + 1) n = node_mountpoint h fuel p) ∧
    (∀ (fuel fuel2 : Nat) (path path2 : cstring), node_mountpoint h fuel n = some path →
      node_mountpoint h fuel2 p = some path2 → path = path2) ∧
    (∀ (mfuel : Nat) (m : cstring), node_matches h mfuel m n = true →
      node_matches h mfuel m p = true) ∧
    ((∀ q, n ∈ node_children h q → q = p) →
      ∀ (mfuel fuel r : Nat) (m : cstring), r ≠ n →
        node_find h mfuel fuel r m ≠ some (some n)) := by
  refine ⟨node_mountpoint_default h n p nd hn hkey hp, ?_, ?_, ?_⟩
  · intro fuel fuel2 path path2 h1 h2
    have h3 : node_mountpoint h (fuel2 + 1) n = some path2 := by
      rw [node_mountpoint_default h n p nd hn hkey hp]
      exact h2
    have h4 := node_mountpoint_x_mono h fuel (max fuel (fuel2 + 1)) n [] path
      (Nat.le_max_left _ _) h1
    have h5 := node_mountpoint_x_mono h (fuel2 + 1) (max fuel (fuel2 + 1)) n [] path2
      (Nat.le_max_right _ _) h3
    rw [h4] at h5
    exact Option.some.inj h5
  · intro mfuel m hm
    simp only [node_matches, hn, hkey] at hm
    have hm2 : node_mountpoint h mfuel n = some m := by simpa using hm
    cases mfuel with
    | zero => simp [node_mountpoint, node_mountpoint_x] at hm2
    | succ k =>
      rw [node_mountpoint_default h n p nd hn hkey hp k] at hm2
      obtain ⟨pd, hpd⟩ := node_mountpoint_in_heap h k p [] m hm2
      have := node_mountpoint_x_succ h k p [] m hm2
      simp only [node_mountpoint] at this ⊢
      simp [node_matches, hpd, node_mountpoint, this]
  · intro honly mfuel fuel r m hr
    exact node_find_not_default h n p nd hn hkey hp
      (fun q qd hq hmem => honly q (by rw [node_children_eq h q qd hq]; exact hmem))
      mfuel m fuel r hr

theorem node_default_mountpoint_witness :
    example_home_heap[3]? = some example_default_node ∧
    node_mountpoint example_home_heap 4 3 = node_mountpoint example_home_heap 3 2 ∧
    node_mountpoint example_home_heap 3 2 = some "/home/docs".toList ∧
    ∀ (mfuel fuel r : Nat) (m : cstring), r ≠ 3 →
      node_find example_home_heap mfuel fuel r m ≠ some (some 3) :=
  ⟨by decide,
    (node_default_mountpoint example_home_heap 3 2 example_default_node (by decide) rfl rfl).1 3,
    by decide,
    (node_default_mountpoint example_home_heap 3 2 example_default_node (by decide) rfl
      rfl).2.2.2 (fun q hq => by
        have hb : ∀ q, q < example_home_heap.length →
            3 ∈ node_children example_home_heap q → q = 2 := by decide
        rcases Nat.lt_or_ge q example_home_heap.length with hlt | hge
        · exact hb q hlt hq
        · rw [node_children_out _ _ hge] at hq
          cases hq)⟩

/-! ### Loading maps -/

theorem parse_master_example :
    (loaded_store (parse_master example_map_env 2 2 4 2
        { heap := (node_new_root []).1, freed := [] } 0 "/etc/auto_master".toList)).map
      (fun s => (s.heap.map (·.n_key), s.heap.map (·.n_location))) =
    some (["/".toList, ['/', '-'], "/home".toList, "k".toList, "/a".toList, "/b".toList],
          [none, some "auto_direct!".toList, some "auto_home!".toList, none,
           some "hostA:/a!!".toList, some "hostB:/b!!".toList]) ∧
    (loaded_store (parse_master example_map_env 2 2 4 2
        { heap := (node_new_root []).1, freed := [] } 0 "/etc/auto_master".toList)).map
      (fun s => (s.heap.map (·.n_children), s.heap.map (·.n_config_file))) =
    some ([[1, 2], [3], [], [4, 5], [], []],
          [[], "/etc/auto_master".toList, "/etc/auto_master".toList, "auto_direct".toList,
           "auto_direct".toList, "auto_direct".toList]) := by
  decide

/-! ### The pass `node_expand_defined` -/

theorem heap_relocated_refl (h : node_heap) : heap_relocated h h :=
  ⟨rfl, fun _ nd hnd => ⟨nd, hnd, rfl⟩⟩

theorem heap_relocated_trans (h h2 h3 : node_heap) (h12 : heap_relocated h h2)
    (h23 : heap_relocated h2 h3) : heap_relocated h h3 := by
  refine ⟨h23.1.trans h12.1, fun m nd hnd => ?_⟩
  obtain ⟨nd2, hnd2, he2⟩ := h12.2 m nd hnd
  obtain ⟨nd3, hnd3, he3⟩ := h23.2 m nd2 hnd2
  refine ⟨nd3, hnd3, ?_⟩
  rw [← he2, ← he3]

theorem heap_relocated_parent (h h2 : node_heap) (hr : heap_relocated h h2) (m : Nat) :
    node_parent h2 m = node_parent h m := by
  rcases Nat.lt_or_ge m h.length with hlt | hge
  · obtain ⟨nd2, hnd2, he2⟩ := hr.2 m _ (List.getElem?_eq_getElem hlt)
    simp only [node_parent, hnd2, List.getElem?_eq_getElem hlt]
    rw [← he2]
  · rw [node_parent_out _ _ hge, node_parent_out _ _ (by rw [hr.1]; exact hge)]

theorem heap_relocated_children (h h2 : node_heap) (hr : heap_relocated h h2) (m : Nat) :
    node_children h2 m = node_children h m := by
  rcases Nat.lt_or_ge m h.length with hlt | hge
  · obtain ⟨nd2, hnd2, he2⟩ := hr.2 m _ (List.getElem?_eq_getElem hlt)
    simp only [node_children, hnd2, List.getElem?_eq_getElem hlt]
    rw [← he2]
  · rw [node_children_out _ _ hge, node_children_out _ _ (by rw [hr.1]; exact hge)]

theorem heap_relocated_wf (h h2 : node_heap) (freed : List Nat) (hr : heap_relocated h h2)
    (hwf : tree_wf ⟨h, freed⟩) : tree_wf ⟨h2, freed⟩ := by
  rw [tree_wf_iff] at hwf ⊢
  obtain ⟨w1, w2, w3⟩ := hwf
  have hlive : ∀ m, node_live ⟨h2, freed⟩ m ↔ node_live ⟨h, freed⟩ m := by
    intro m
    simp only [node_live, hr.1]
  refine ⟨fun m hm => by simp only [hr.1]; exact w1 m hm, fun n hn p hp => ?_,
    fun q hq c hc => ?_⟩
  · simp only [] at hp ⊢
    rw [heap_relocated_parent h h2 hr] at hp
    rw [heap_relocated_children h h2 hr, hlive]
    exact w2 n ((hlive n).1 hn) p hp
  · simp only [] at hc ⊢
    rw [heap_relocated_children h h2 hr] at hc
    rw [heap_relocated_parent h h2 hr, hlive]
    exact w3 q ((hlive q).1 hq) c hc

theorem heap_relocated_under (h h2 : node_heap) (hr : heap_relocated h h2) (a m : Nat) :
    node_under h2 a m ↔ node_under h a m :=
  ⟨node_under_congr h h2 (heap_relocated_parent h h2 hr) a m,
    node_under_congr h2 h (fun x => (heap_relocated_parent h h2 hr x).symm) a m⟩

theorem heap_relocated_depth (h h2 : node_heap) (hr : heap_relocated h h2) (n d : Nat)
    (hsd : subtree_depth h2 n d) : subtree_depth h n d :=
  subtree_depth_shrink h2 h hr.1.symm
    (fun m c hc => by rw [heap_relocated_children h h2 hr]; exact hc) d n hsd

theorem heap_relocated_modify (defined_expand : cstring → cstring) (h : node_heap) (n : Nat) :
    heap_relocated h
      (h.modify (fun x => { x with n_location := x.n_location.map defined_expand }) n) := by
  refine ⟨by simp, fun m nd hnd => ?_⟩
  rw [getElem?_modify_some _ h n m nd hnd]
  by_cases hnm : n = m
  · exact ⟨{ nd with n_location := nd.n_location.map defined_expand }, by rw [if_pos hnm], rfl⟩
  · exact ⟨nd, by rw [if_neg hnm], rfl⟩

theorem node_location_modify (defined_expand : cstring → cstring) (h : node_heap) (n m : Nat) :
    node_location (h.modify (fun x => { x with n_location := x.n_location.map defined_expand })
        n) m =
      if n = m then (node_location h m).map defined_expand else node_location h m := by
  simp only [node_location]
  cases hm : h[m]? with
  | none =>
    have : (h.modify (fun x => { x with n_location := x.n_location.map defined_expand })
        n)[m]? = none := by
      rw [List.getElem?_modify, hm]
      rfl
    rw [this]
    simp
  | some nd =>
    rw [getElem?_modify_some _ h n m nd hm]
    by_cases hnm : n = m
    · simp [hnm]
    · simp [hnm]

theorem node_expand_defined_children_shape (defined_expand : cstring → cstring)
    (expand : node_heap → Nat → Option node_heap)
    (hexp : ∀ (g : node_heap) (n : Nat) (g2 : node_heap), expand g n = some g2 →
      heap_relocated g g2) :
    ∀ (cs : List Nat) (g g2 : node_heap),
      node_expand_defined_children defined_expand expand cs g = some g2 →
      heap_relocated g g2 := by
  intro cs
  induction cs with
  | nil =>
    intro g g2 hg
    simp only [node_expand_defined_children] at hg
    cases hg
    exact heap_relocated_refl g
  | cons n rest ih =>
    intro g g2 hg
    simp only [node_expand_defined_children] at hg
    split at hg
    · cases hg
    · split at hg
      · cases hg
      · rename_i g1 hg1
        exact heap_relocated_trans _ _ _
          (heap_relocated_trans _ _ _ (heap_relocated_modify defined_expand g n)
            (hexp _ _ _ hg1)) (ih _ _ hg)

theorem node_expand_defined_shape (defined_expand : cstring → cstring) :
    ∀ (fuel : Nat) (h : node_heap) (root : Nat) (h2 : node_heap),
      node_expand_defined defined_expand fuel h root = some h2 → heap_relocated h h2 := by
  intro fuel
  induction fuel with
  | zero => intro h root h2 hh; simp [node_expand_defined] at hh
  | succ f ih =>
    intro h root h2 hh
    simp only [node_expand_defined] at hh
    split at hh
    · cases hh
    · exact node_expand_defined_children_shape defined_expand _ (fun g n g2 => ih g n g2)
        _ _ _ hh

theorem node_expand_defined_depth (defined_expand : cstring → cstring) :
    ∀ (fuel : Nat) (h : node_heap) (root : Nat) (h2 : node_heap),
      node_expand_defined defined_expand fuel h root = some h2 → subtree_depth h root fuel := by
  intro fuel
  induction fuel with
  | zero => intro h root h2 hh; simp [node_expand_defined] at hh
  | succ f ih =>
    intro h root h2 hh
    simp only [node_expand_defined] at hh
    split at hh
    · cases hh
    · rename_i rd hrd
      refine subtree_depth.mk root f rd hrd ?_
      have hloop : ∀ (cs : List Nat) (g g2 : node_heap), heap_relocated h g →
          node_expand_defined_children defined_expand
            (node_expand_defined defined_expand f) cs g = some g2 →
          ∀ c ∈ cs, subtree_depth h c f := by
        intro cs
        induction cs with
        | nil => intro g g2 _ _ c hc; cases hc
        | cons n rest ihc =>
          intro g g2 hrel hg c hc
          simp only [node_expand_defined_children] at hg
          split at hg
          · cases hg
          · split at hg
            · cases hg
            · rename_i g1 hg1
              have hrel1 := heap_relocated_trans _ _ _ hrel
                (heap_relocated_modify defined_expand g n)
              rcases List.mem_cons.1 hc with h1 | h1
              · rw [h1]
                exact heap_relocated_depth _ _ hrel1 n f (ih _ _ _ hg1)
              · exact ihc g1 g2 (heap_relocated_trans _ _ _ hrel1
                  (node_expand_defined_shape defined_expand f _ _ _ hg1)) hg c h1
      exact hloop rd.n_children h h2 (heap_relocated_refl h) hh

theorem node_under_child_iff (s : node_store) (hwf : tree_wf s) (r e : Nat)
    (hr : node_live s r) (hsd : subtree_depth s.heap r e) (m : Nat) (hm : node_live s m) :
    (node_under s.heap r m ∧ m ≠ r) ↔ ∃ c ∈ node_children s.heap r, node_under s.heap c m := by
  have w := (tree_wf_iff s).1 hwf
  constructor
  · rintro ⟨hu, hne⟩
    induction hu with
    | self => exact absurd rfl hne
    | step m p hp hu ih =>
      obtain ⟨hpl, hcnt⟩ := w.2.1 m hm p hp
      have hmem : m ∈ node_children s.heap p := List.count_pos_iff.1 (by omega)
      by_cases hpr : p = r
      · rw [hpr] at hmem
        exact ⟨m, hmem, node_under.self⟩
      · obtain ⟨c, hc, huc⟩ := ih hpl hpr
        exact ⟨c, hc, node_under.step m p hp huc⟩
  · rintro ⟨c, hc, hu⟩
    refine ⟨node_under_top _ c r m (w.2.2 r hr c hc).2 hu, fun hmr => ?_⟩
    rw [hmr] at hu
    exact node_not_under_child s hwf r c hr hc hu e hsd

theorem node_under_sibling (s : node_store) (hwf : tree_wf s) (r e : Nat)
    (hr : node_live s r) (hsd : subtree_depth s.heap r e) (c1 c2 m : Nat)
    (h1 : c1 ∈ node_children s.heap r) (h2 : c2 ∈ node_children s.heap r)
    (hu1 : node_under s.heap c1 m) (hu2 : node_under s.heap c2 m) : c1 = c2 := by
  have w := (tree_wf_iff s).1 hwf
  have key : ∀ a b, a ∈ node_children s.heap r → b ∈ node_children s.heap r →
      node_under s.heap a b → a = b := by
    intro a b ha hb hu
    cases hu with
    | self => rfl
    | step _ p hp hu =>
      rw [(w.2.2 r hr b hb).2] at hp
      cases hp
      exact absurd hsd (node_not_under_child s hwf r a hr ha hu e)
  rcases node_under_linear s.heap c1 c2 m hu1 hu2 with h | h
  · exact key c1 c2 h1 h2 h
  · exact (key c2 c1 h2 h1 h).symm

theorem node_children_nodup (s : node_store) (hwf : tree_wf s) (r : Nat)
    (hr : node_live s r) : (node_children s.heap r).Nodup := by
  have w := (tree_wf_iff s).1 hwf
  rw [List.nodup_iff_count_le_one]
  intro c
  by_cases hc : c ∈ node_children s.heap r
  · obtain ⟨hcl, hp⟩ := w.2.2 r hr c hc
    exact le_of_eq (w.2.1 c hcl r hp).2
  · rw [List.count_eq_zero_of_not_mem hc]
    omega

theorem node_expand_defined_children_spec (defined_expand : cstring → cstring)
    (expand : node_heap → Nat → Option node_heap) (h : node_heap) (freed : List Nat)
    (r e : Nat) (hwf : tree_wf ⟨h, freed⟩) (hr : node_live ⟨h, freed⟩ r)
    (hsd : subtree_depth h r e)
    (hshape : ∀ (g : node_heap) (n : Nat) (g2 : node_heap), expand g n = some g2 →
      heap_relocated g g2)
    (hspec : ∀ (g : node_heap) (n : Nat) (g2 : node_heap), heap_relocated h g →
      n ∈ node_children h r → expand g n = some g2 →
      ∀ m, node_live ⟨h, freed⟩ m →
        (node_under h n m ∧ m ≠ n →
          node_location g2 m = (node_location g m).map defined_expand) ∧
        (¬ (node_under h n m ∧ m ≠ n) → node_location g2 m = node_location g m)) :
    ∀ (rest done : List Nat) (g g2 : node_heap), node_children h r = done ++ rest →
      heap_relocated h g →
      (∀ m, node_live ⟨h, freed⟩ m →
        ((∃ c ∈ done, node_under h c m) →
          node_location g m = (node_location h m).map defined_expand) ∧
        ((¬ ∃ c ∈ done, node_under h c m) → node_location g m = node_location h m)) →
      node_expand_defined_children defined_expand expand rest g = some g2 →
      heap_relocated h g2 ∧
      ∀ m, node_live ⟨h, freed⟩ m →
        ((∃ c ∈ node_children h r, node_under h c m) →
          node_location g2 m = (node_location h m).map defined_expand) ∧
        ((¬ ∃ c ∈ node_children h r, node_under h c m) →
          node_location g2 m = node_location h m) := by
  intro rest
  induction rest with
  | nil =>
    intro done g g2 hsplit hrel hinv hg
    simp only [node_expand_defined_children] at hg
    cases hg
    rw [List.append_nil] at hsplit
    rw [hsplit]
    exact ⟨hrel, hinv⟩
  | cons n rest ih =>
    intro done g g2 hsplit hrel hinv hg
    simp only [node_expand_defined_children] at hg
    split at hg
    · cases hg
    · split at hg
      · cases hg
      · rename_i g1 hg1
        have hnmem : n ∈ node_children h r := by rw [hsplit]; simp
        have hnd := node_children_nodup ⟨h, freed⟩ hwf r hr
        have hrelm := heap_relocated_trans _ _ _ hrel (heap_relocated_modify defined_expand g n)
        have hrel1 := heap_relocated_trans _ _ _ hrelm (hshape _ _ _ hg1)
        have hdm : ∀ c ∈ done, c ∈ node_children h r := by
          intro c hc; rw [hsplit]; simp [hc]
        have hnot : ∀ c ∈ done, ∀ m, node_under h c m → ¬ node_under h n m := by
          intro c hc m hu1 hu2
          have hcn := node_under_sibling ⟨h, freed⟩ hwf r e hr hsd c n m (hdm c hc) hnmem hu1 hu2
          rw [hsplit] at hnd
          have := (List.nodup_append.1 hnd).2.2
          exact this (by rw [← hcn]; exact hc) (List.mem_cons_self n rest)
        refine ih (done ++ [n]) g1 g2 (by rw [hsplit]; simp) hrel1 ?_ hg
        intro m hm
        have hsp := hspec _ n g1 hrelm hnmem hg1 m hm
        rw [node_location_modify] at hsp
        constructor
        · rintro ⟨c, hc, hu⟩
          rcases List.mem_append.1 hc with hcd | hcn
          · have hnu : ¬ node_under h n m := hnot c hcd m hu
            rw [hsp.2 (fun hx => hnu hx.1), if_neg (fun hx => hnu (by rw [hx]; exact node_under.self))]
            exact (hinv m hm).1 ⟨c, hcd, hu⟩
          · rw [List.mem_singleton] at hcn
            rw [hcn] at hu
            have hnd2 : ¬ ∃ c ∈ done, node_under h c m := by
              rintro ⟨c2, hc2, hu2⟩
              exact hnot c2 hc2 m hu2 hu
            by_cases hmn : m = n
            · rw [hsp.2 (fun hx => hx.2 hmn), if_pos hmn.symm, (hinv m hm).2 hnd2]
            · rw [hsp.1 ⟨hu, hmn⟩, if_neg (fun hx => hmn hx.symm), (hinv m hm).2 hnd2]
        · intro hno
          have hnu : ¬ node_under h n m := fun hx => hno ⟨n, by simp, hx⟩
          rw [hsp.2 (fun hx => hnu hx.1), if_neg (fun hx => hnu (by rw [hx]; exact node_under.self))]
          exact (hinv m hm).2 (fun ⟨c, hc, hu⟩ => hno ⟨c, by simp [hc], hu⟩)

theorem node_expand_defined_spec (defined_expand : cstring → cstring) :
    ∀ (fuel : Nat) (h : node_heap) (freed : List Nat) (r : Nat) (h2 : node_heap),
      tree_wf ⟨h, freed⟩ → node_live ⟨h, freed⟩ r →
      node_expand_defined defined_expand fuel h r = some h2 →
      ∀ m, node_live ⟨h, freed⟩ m →
        (node_under h r m ∧ m ≠ r →
          node_location h2 m = (node_location h m).map defined_expand) ∧
        (¬ (node_under h r m ∧ m ≠ r) → node_location h2 m = node_location h m) := by
  intro fuel
  induction fuel with
  | zero => intro h freed r h2 _ _ hh; simp [node_expand_defined] at hh
  | succ f ih =>
    intro h freed r h2 hwf hr hh m hm
    have hsd := node_expand_defined_depth defined_expand _ _ _ _ hh
    have hiff := node_under_child_iff ⟨h, freed⟩ hwf r (f + 1) hr hsd m hm
    simp only [node_expand_defined] at hh
    split at hh
    · cases hh
    · rename_i rd hrd
      rw [← node_children_eq h r rd hrd] at hh
      have hw := (tree_wf_iff ⟨h, freed⟩).1 hwf
      have := (node_expand_defined_children_spec defined_expand
        (node_expand_defined defined_expand f) h freed r (f + 1) hwf hr hsd
        (fun g n g2 => node_expand_defined_shape defined_expand f g n g2)
        (fun g n g2 hrel hn hg x hx => by
          have hl : ∀ y, node_live ⟨g, freed⟩ y ↔ node_live ⟨h, freed⟩ y := by
            intro y
            simp only [node_live, hrel.1]
          have := ih g freed n g2 (heap_relocated_wf h g freed hrel hwf)
            ((hl n).2 (hw.2.2 r hr n hn).1) hg x ((hl x).2 hx)
          rw [heap_relocated_under h g hrel] at this
          exact this)
        (node_children h r) [] h h2 rfl (heap_relocated_refl h)
        (fun x _ => ⟨fun ⟨c, hc, _⟩ => (by cases hc), fun _ => rfl⟩) hh).2 m hm
      exact ⟨fun hx => this.1 (hiff.1 hx), fun hx => this.2 (fun hy => hx (hiff.2 hy))⟩

/-! ### What a parse adds to the tree -/

theorem heap_kept_refl (h : node_heap) : heap_kept h h :=
  fun _ nd hnd => ⟨nd, hnd, rfl⟩

theorem heap_kept_trans (h h2 h3 : node_heap) (h12 : heap_kept h h2) (h23 : heap_kept h2 h3) :
    heap_kept h h3 := by
  intro m nd hnd
  obtain ⟨nd2, hnd2, he2⟩ := h12 m nd hnd
  obtain ⟨nd3, hnd3, he3⟩ := h23 m nd2 hnd2
  refine ⟨nd3, hnd3, ?_⟩
  rw [← he2, ← he3]

theorem heap_kept_length (h h2 : node_heap) (hk : heap_kept h h2) : h.length ≤ h2.length := by
  rcases Nat.lt_or_ge h2.length h.length with hlt | hge
  · obtain ⟨nd2, hnd2, -⟩ := hk h2.length _ (List.getElem?_eq_getElem hlt)
    rw [List.getElem?_eq_none (Nat.le_refl _)] at hnd2
    cases hnd2
  · exact hge

theorem heap_kept_parent (h h2 : node_heap) (hk : heap_kept h h2) (m : Nat)
    (hm : m < h.length) : node_parent h2 m = node_parent h m := by
  obtain ⟨nd2, hnd2, he2⟩ := hk m _ (List.getElem?_eq_getElem hm)
  simp only [node_parent, hnd2, List.getElem?_eq_getElem hm]
  rw [← he2]

theorem heap_kept_location (h h2 : node_heap) (hk : heap_kept h h2) (m : Nat)
    (hm : m < h.length) : node_location h2 m = node_location h m := by
  obtain ⟨nd2, hnd2, he2⟩ := hk m _ (List.getElem?_eq_getElem hm)
  simp only [node_location, hnd2, List.getElem?_eq_getElem hm]
  rw [← he2]

theorem heap_kept_of_cells (h h2 : node_heap) (hc : ∀ m, m < h.length → h2[m]? = h[m]?) :
    heap_kept h h2 := by
  intro m nd hnd
  have hm : m < h.length := by
    rcases Nat.lt_or_ge m h.length with hlt | hge
    · exact hlt
    · rw [List.getElem?_eq_none hge] at hnd
      cases hnd
  exact ⟨nd, (hc m hm).trans hnd, rfl⟩

theorem heap_kept_node_new (h : node_heap) (parent : Nat) (key : cstring)
    (options location : Option cstring) (file : cstring) (line : Int)
    (hparent : parent < h.length) :
    heap_kept h (node_new h parent key options location file line).1 := by
  intro m nd hnd
  rw [(node_new_cells h parent key options location file line hparent).2.2.2 m nd hnd]
  by_cases hm : m = parent
  · exact ⟨{ nd with n_children := nd.n_children ++ [h.length] }, by rw [if_pos hm], rfl⟩
  · exact ⟨nd, by rw [if_neg hm], rfl⟩

theorem heap_kept_new_root (h : node_heap) : heap_kept h (node_new_root h).1 :=
  heap_kept_of_cells _ _ (fun m hm => by
    simp only [node_new_root]
    exact List.getElem?_append_left hm)

theorem heap_kept_grown (base : Nat) (h h2 : node_heap) (hg : heap_grown base h h2) :
    heap_kept h h2 := by
  induction hg with
  | refl => exact heap_kept_refl h
  | step h4 parent key options location file line _ hb hp ih =>
    exact heap_kept_trans _ _ _ ih (heap_kept_node_new h4 parent key options location file line hp)

theorem map_grown_trans (flat : Bool) (base len : Nat) (h h2 h3 : node_heap)
    (h12 : map_grown flat base len h h2) (h23 : map_grown flat base len h2 h3) :
    map_grown flat base len h h3 := by
  induction h23 with
  | refl => exact h12
  | first h4 key options location file line _ hl ih =>
    exact map_grown.first h4 key options location file line ih hl
  | second h4 node key options location file line _ hf hn hlt hp ih =>
    exact map_grown.second h4 node key options location file line ih hf hn hlt hp

theorem map_grown_length (flat : Bool) (base len : Nat) (h h2 : node_heap)
    (hg : map_grown flat base len h h2) : h.length ≤ h2.length := by
  induction hg with
  | refl => exact Nat.le_refl _
  | first h4 key options location file line _ _ ih =>
    rw [node_new_length]
    omega
  | second h4 node key options location file line _ _ _ _ _ ih =>
    rw [node_new_length]
    omega

theorem map_grown_kept (flat : Bool) (base len : Nat) (h h2 : node_heap)
    (hbase : base < h.length) (hg : map_grown flat base len h h2) : heap_kept h h2 := by
  induction hg with
  | refl => exact heap_kept_refl h
  | first h4 key options location file line hg4 _ ih =>
    have := map_grown_length flat base len h h4 hg4
    exact heap_kept_trans _ _ _ ih
      (heap_kept_node_new h4 base key options location file line (by omega))
  | second h4 node key options location file line _ _ _ hlt _ ih =>
    exact heap_kept_trans _ _ _ ih
      (heap_kept_node_new h4 node key options location file line hlt)

theorem map_grown_cells (flat : Bool) (base len : Nat) (h h2 : node_heap)
    (hlen : len ≤ h.length) (hg : map_grown flat base len h h2) :
    ∀ m, m < len → m ≠ base → h2[m]? = h[m]? := by
  induction hg with
  | refl => exact fun _ _ _ => rfl
  | first h4 key options location file line hg4 _ ih =>
    intro m hm hmb
    have := map_grown_length flat base len h h4 hg4
    rw [← ih m hm hmb]
    simp only [node_new]
    rw [List.getElem?_modify_ne _ _ (fun hx => hmb hx.symm),
      List.getElem?_append_left (by omega)]
  | second h4 node key options location file line hg4 _ hn _ _ ih =>
    intro m hm hmb
    have := map_grown_length flat base len h h4 hg4
    rw [← ih m hm hmb]
    simp only [node_new]
    rw [List.getElem?_modify_ne _ _ (by omega), List.getElem?_append_left (by omega)]

theorem map_grown_wf (flat : Bool) (base len : Nat) (h h2 : node_heap) (freed : List Nat)
    (hg : map_grown flat base len h h2) (hfreed : ∀ f ∈ freed, f < len)
    (hbase : node_live ⟨h, freed⟩ base) (hwf : tree_wf ⟨h, freed⟩) :
    tree_wf ⟨h2, freed⟩ := by
  induction hg with
  | refl => exact hwf
  | first h4 key options location file line hg4 _ ih =>
    have := map_grown_length flat base len h h4 hg4
    exact tree_wf_node_new ⟨h4, freed⟩ base key options location file line ih
      ⟨Nat.lt_of_lt_of_le hbase.1 this, hbase.2⟩
  | second h4 node key options location file line _ _ hn hlt _ ih =>
    exact tree_wf_node_new ⟨h4, freed⟩ node key options location file line ih
      ⟨hlt, fun hf => absurd (hfreed node hf) (by omega)⟩

theorem map_grown_children (flat : Bool) (base len : Nat) (h h2 : node_heap)
    (hbase : base < h.length) (hg : map_grown flat base len h h2) :
    ∀ c ∈ node_children h2 base, c ∈ node_children h base ∨ h.length ≤ c := by
  induction hg with
  | refl => exact fun _ hc => Or.inl hc
  | first h4 key options location file line hg4 _ ih =>
    intro c hc
    have hl := map_grown_length flat base len h h4 hg4
    rw [node_children_node_new _ _ _ _ _ _ _ _ (by omega), if_pos rfl] at hc
    rcases List.mem_append.1 hc with h1 | h1
    · exact ih c h1
    · have : c = h4.length := by simpa using h1
      exact Or.inr (by rw [this]; exact hl)
  | second h4 node key options location file line hg4 _ hn hlt hp ih =>
    intro c hc
    rw [node_children_node_new _ _ _ _ _ _ _ _ hlt] at hc
    by_cases hm : base = node
    · rw [hm, hp] at hp
      have hp2 := hp
      rw [← hm] at hp2
      simp only [hm, if_true] at hc
      rcases List.mem_append.1 hc with h1 | h1
      · exact ih c (by rw [hm]; exact h1)
      · have : c = h4.length := by simpa using h1
        exact Or.inr (by rw [this]; exact map_grown_length flat base len h h4 hg4)
    · simp only [hm, if_false] at hc
      exact ih c hc

theorem node_location_node_new (h : node_heap) (parent : Nat) (key : cstring)
    (options location : Option cstring) (file : cstring) (line : Int) (m : Nat)
    (hparent : parent < h.length) :
    node_location (node_new h parent key options location file line).1 m =
      if m = h.length then location else node_location h m := by
  obtain ⟨-, hlen, hnew, hold⟩ := node_new_cells h parent key options location file line hparent
  by_cases hm : m = h.length
  · rw [if_pos hm, hm]
    simp only [node_location, hnew]
  · rw [if_neg hm]
    rcases Nat.lt_or_ge m h.length with hlt | hge
    · have := hold m _ (List.getElem?_eq_getElem hlt)
      simp only [node_location, this, List.getElem?_eq_getElem hlt]
      by_cases hmp : m = parent
      · simp [hmp]
      · simp [hmp]
    · simp only [node_location]
      rw [List.getElem?_eq_none (by omega), List.getElem?_eq_none hge]

theorem map_grown_new (flat : Bool) (base : Nat) (h h2 : node_heap) (hbase : base < h.length)
    (hg : map_grown flat base h.length h h2) :
    ∀ m, h.length ≤ m → m < h2.length →
      node_parent h2 m ≠ none ∧
      (node_parent h2 m = some base → flat = false → node_location h2 m = none) ∧
      ∀ x ∈ node_children h2 m, h.length ≤ x ∧ node_parent h2 x = some m ∧
        node_children h2 x = [] ∧ flat = false := by
  induction hg with
  | refl => exact fun m h1 h2 => absurd h1 (by omega)
  | first h4 key options location file line hg4 hloc ih =>
    intro m hm1 hm2
    have hl := map_grown_length flat base h.length h h4 hg4
    have hb4 : base < h4.length := by omega
    rw [node_new_length] at hm2
    rw [node_parent_node_new, node_location_node_new _ _ _ _ _ _ _ _ hb4,
      node_children_node_new _ _ _ _ _ _ _ _ hb4, if_neg (show ¬ m = base by omega)]
    by_cases hmn : m = h4.length
    · rw [if_pos hmn, if_pos hmn]
      refine ⟨by simp, fun _ hf => hloc hf, fun x hx => ?_⟩
      rw [hmn, node_children_out _ _ (Nat.le_refl _)] at hx
      cases hx
    · rw [if_neg hmn, if_neg hmn]
      obtain ⟨i1, i2, i3⟩ := ih m hm1 (by omega)
      refine ⟨i1, i2, fun x hx => ?_⟩
      obtain ⟨j1, j2, j3, j4⟩ := i3 x hx
      have hxl : x ≠ h4.length := by
        intro hxe
        rw [hxe, node_parent_out _ _ (Nat.le_refl _)] at j2
        cases j2
      rw [node_parent_node_new, node_children_node_new _ _ _ _ _ _ _ _ hb4, if_neg hxl,
        if_neg (by omega)]
      exact ⟨j1, j2, j3, j4⟩
  | second h4 node key options location file line hg4 hflat hn hlt hp ih =>
    intro m hm1 hm2
    have hl := map_grown_length flat base h.length h h4 hg4
    rw [node_new_length] at hm2
    rw [node_parent_node_new, node_location_node_new _ _ _ _ _ _ _ _ hlt,
      node_children_node_new _ _ _ _ _ _ _ _ hlt]
    have hnb : node ≠ base := by omega
    have hkids : ∀ x, h.length ≤ x → x ≠ node →
        (x < h4.length → node_children h4 x = []) →
        node_children (node_new h4 node key options location file line).1 x = [] := by
      intro x hx1 hx2 hx3
      rw [node_children_node_new _ _ _ _ _ _ _ _ hlt, if_neg hx2]
      rcases Nat.lt_or_ge x h4.length with h1 | h1
      · exact hx3 h1
      · exact node_children_out _ _ h1
    by_cases hmn : m = h4.length
    · rw [if_pos hmn, if_pos hmn, if_neg (by omega)]
      refine ⟨by simp, fun hx => absurd (Option.some.inj hx) hnb, fun x hx => ?_⟩
      rw [hmn, node_children_out _ _ (Nat.le_refl _)] at hx
      cases hx
    · rw [if_neg hmn, if_neg hmn]
      obtain ⟨i1, i2, i3⟩ := ih m hm1 (by omega)
      refine ⟨i1, i2, fun x hx => ?_⟩
      by_cases hmnode : m = node
      · rw [if_pos hmnode] at hx
        rcases List.mem_append.1 hx with h1 | h1
        · obtain ⟨j1, j2, j3, j4⟩ := i3 x (by rw [hmnode]; exact h1)
          have hxl : x ≠ h4.length := by
            intro hxe
            rw [hxe, node_parent_out _ _ (Nat.le_refl _)] at j2
            cases j2
          have hxn : x ≠ node := by
            intro hxe
            rw [hxe, hp] at j2
            have := Option.some.inj j2
            omega
          rw [node_parent_node_new, if_neg hxl]
          exact ⟨j1, j2, hkids x j1 hxn (fun _ => j3), j4⟩
        · have hxe : x = h4.length := by simpa using h1
          rw [hxe, node_parent_node_new, if_pos rfl]
          exact ⟨hl, by rw [hmnode], hkids _ hl (by omega)
            (fun hx2 => absurd hx2 (Nat.lt_irrefl _)), hflat⟩
      · rw [if_neg hmnode] at hx
        obtain ⟨j1, j2, j3, j4⟩ := i3 x hx
        have hxl : x ≠ h4.length := by
          intro hxe
          rw [hxe, node_parent_out _ _ (Nat.le_refl _)] at j2
          cases j2
        have hxn : x ≠ node := by
          intro hxe
          rw [hxe, hp] at j2
          have := Option.some.inj j2
          omega
        rw [node_parent_node_new, if_neg hxl]
        exact ⟨j1, j2, hkids x j1 hxn (fun _ => j3), j4⟩

theorem parse_master_loop_map_grown (master : cstring) (root len : Nat) :
    ∀ (ts : List lexeme) (lineno : Int) (v : master_vars) (h h2 : node_heap),
      parse_master_loop master root ts lineno v h = .ok h2 →
      map_grown true root len h h2 := by
  have hnew : ∀ (h : node_heap) (key : cstring) (options location : Option cstring)
      (line : Int),
      map_grown true root len h (node_new h root key options location master line).1 :=
    fun h key options location line =>
      map_grown.first h key options location master line map_grown.refl
        (fun hf => by cases hf)
  intro ts
  induction ts with
  | nil =>
    intro lineno v h h2 hp
    simp only [parse_master_loop] at hp
    split at hp
    · cases hp
      exact hnew _ _ _ _ _
    · cases hp
      exact map_grown.refl
  | cons t ts ih =>
    intro lineno v h h2 hp
    simp only [parse_master_loop] at hp
    split at hp
    · split at hp
      · exact map_grown_trans true root len h _ h2 (hnew _ _ _ _ _) (ih _ _ _ _ hp)
      · exact ih _ _ _ _ hp
    · split at hp
      · exact ih _ _ _ _ hp
      · split at hp
        · exact ih _ _ _ _ hp
        · split at hp
          · exact ih _ _ _ _ hp
          · cases hp

theorem parse_map_word_map_grown (map : cstring) (parent len node : Nat) (yytext : cstring)
    (lineno : Int) (v v2 : map_vars) (h h2 : node_heap) (hb : len ≤ node)
    (hn : node < h.length) (hpn : node_parent h node = some parent)
    (hp : parse_map_word map node yytext lineno v h = .ok (v2, h2)) :
    map_grown false parent len h h2 ∧ node_parent h2 node = some parent := by
  simp only [parse_map_word] at hp
  split at hp
  · split at hp
    · cases hp
    · split at hp
      · cases hp
      · cases hp
        exact ⟨map_grown.refl, hpn⟩
  · split at hp
    · split at hp
      · cases hp
      · split at hp
        · cases hp
        · cases hp
          exact ⟨map_grown.refl, hpn⟩
    · split at hp
      · cases hp
      · cases hp
        refine ⟨map_grown.second h node _ _ _ _ _ map_grown.refl rfl hb hn hpn, ?_⟩
        rw [node_parent_node_new, if_neg (Nat.ne_of_lt hn)]
        exact hpn

theorem parse_map_eof_map_grown (map : cstring) (parent len : Nat) (lineno : Int)
    (v : map_vars) (h h2 : node_heap) (hp : parse_map_eof map lineno v h = .ok h2) :
    map_grown false parent len h h2 := by
  simp only [parse_map_eof] at hp
  split at hp
  · cases hp
  · cases hp
    exact map_grown.refl

theorem parse_map_map_grown (map : cstring) (parent len : Nat) :
    ∀ (ts : List lexeme),
      (∀ (lineno : Int) (v : map_vars) (h h2 : node_heap), len ≤ h.length →
        parse_map_outer map parent ts lineno v h = .ok h2 →
        map_grown false parent len h h2) ∧
      (∀ (node : Nat) (yytext : cstring) (lineno : Int) (v : map_vars) (h h2 : node_heap),
        len ≤ node → node < h.length → node_parent h node = some parent →
        parse_map_inner map parent node yytext ts lineno v h = .ok h2 →
        map_grown false parent len h h2) := by
  have hnew : ∀ (h : node_heap) (key : cstring) (options : Option cstring) (line : Int),
      map_grown false parent len h (node_new h parent key options none map line).1 :=
    fun h key options line =>
      map_grown.first h key options none map line map_grown.refl (fun _ => rfl)
  intro ts
  induction ts with
  | nil =>
    refine ⟨fun lineno v h h2 _ hp => ?_, fun node yytext lineno v h h2 hb hn hpn hp => ?_⟩
    · simp only [parse_map_outer] at hp
      exact parse_map_eof_map_grown map parent len lineno v h h2 hp
    · simp only [parse_map_inner] at hp
      split at hp
      · cases hp
      · rename_i v2 h3 hw
        split at hp
        · cases hp
        · exact map_grown_trans false parent len h h3 h2
            (parse_map_word_map_grown map parent len node yytext lineno v v2 h h3 hb hn hpn hw).1
            (parse_map_eof_map_grown map parent len lineno v2 h3 h2 hp)
  | cons t ts ih =>
    obtain ⟨iho, ihi⟩ := ih
    refine ⟨fun lineno v h h2 hr hp => ?_, fun node yytext lineno v h h2 hb hn hpn hp => ?_⟩
    · simp only [parse_map_outer] at hp
      split at hp
      · split at hp
        · cases hp
        · exact iho _ _ _ _ hr hp
      · split at hp
        · split at hp
          · exact map_grown_trans false parent len h _ h2 (hnew _ _ _ _)
              (iho _ _ _ _ (by rw [node_new_length]; omega) hp)
          · exact iho _ _ _ _ hr hp
        · split at hp
          · split at hp
            · cases hp
            · exact iho _ _ _ _ hr hp
          · exact map_grown_trans false parent len h _ h2 (hnew _ _ _ _)
              (ihi _ _ _ _ _ _ (by simp only [node_new]; omega)
                (by rw [node_new_length]; simp only [node_new]; omega)
                (by rw [node_parent_node_new]; simp [node_new]) hp)
    · simp only [parse_map_inner] at hp
      split at hp
      · cases hp
      · rename_i v2 h3 hw
        obtain ⟨hg, hpn3⟩ :=
          parse_map_word_map_grown map parent len node yytext lineno v v2 h h3 hb hn hpn hw
        have hl := map_grown_length false parent len h h3 hg
        split at hp
        · split at hp
          · cases hp
          · exact map_grown_trans false parent len h h3 h2 hg (iho _ _ _ _ (by omega) hp)
        · exact map_grown_trans false parent len h h3 h2 hg
            (ihi _ _ _ _ _ _ hb (by omega) hpn3 hp)

theorem parse_map_read_map_grown (env : map_env) (h h2 : node_heap) (parent : Nat)
    (map : cstring) (hp : parse_map_read env h parent map = .ok h2) :
    map_grown false parent h.length h h2 := by
  simp only [parse_map_read] at hp
  split at hp
  · cases hp
  · split at hp
    · cases hp
    · split at hp
      · cases hp
      · split at hp
        · cases hp
        · split at hp
          · cases hp
          · rename_i h3 hy
            split at hp
            · cases hp
            · cases hp
              exact (parse_map_map_grown map parent h.length _).1 _ _ _ _ (Nat.le_refl _) hy
      · split at hp
        · cases hp
        · split at hp
          · cases hp
          · rename_i h3 hy
            cases hp
            exact (parse_map_map_grown map parent h.length _).1 _ _ _ _ (Nat.le_refl _) hy

theorem node_expand_includes_parse_map_grown (env : include_env) (is_master : Bool)
    (h h2 : node_heap) (key : cstring)
    (hparse : node_expand_includes_parse env is_master h key = .ok h2) :
    map_grown is_master h.length (h.length + 1) (node_new_root h).1 h2 := by
  simp only [node_expand_includes_parse] at hparse
  split at hparse
  · cases hparse
  · split at hparse
    · cases hparse
    · split at hparse
      · cases hparse
      · rename_i h3 hy
        split at hparse
        · cases hparse
        · cases hparse
          cases is_master with
          | true =>
            simp only [if_true, parse_master_yyin] at hy
            exact parse_master_loop_map_grown _ _ _ _ _ _ _ _ hy
          | false =>
            simp only [Bool.false_eq_true, if_false, parse_map_yyin] at hy
            exact (parse_map_map_grown _ _ _ _).1 _ _ _ _
              (by simp [node_new_root]) hy

/-! ### What include expansion keeps -/

theorem node_move_after_kept (h h2 : node_heap) (n previous : Nat)
    (hmv : node_move_after h n previous = some h2) :
    ∀ (m : Nat) (nd : node), m ≠ n → h[m]? = some nd →
      ∃ nd2 : node, h2[m]? = some nd2 ∧ { nd2 with n_children := nd.n_children } = nd := by
  intro m nd hmn hnd
  simp only [node_move_after] at hmv
  split at hmv
  · cases hmv
  · split at hmv
    · cases hmv
    · rename_i pn _
      split at hmv
      · cases hmv
      · split at hmv
        · cases hmv
        · rename_i pv _
          split at hmv
          · cases hmv
          · rename_i pp _
            split at hmv
            · cases hmv
            · cases hmv
              have e1 := getElem?_modify_some
                (fun p : node => { p with n_children := tailq_remove p.n_children n }) h pn m nd hnd
              have e2 := getElem?_modify_some
                (fun x : node => { x with n_parent := pv.n_parent }) _ n m _ e1
              rw [if_neg (fun hx => hmn hx.symm)] at e2
              have e3 := getElem?_modify_some
                (fun p : node => { p with n_children := tailq_insert_after p.n_children previous n })
                _ pp m _ e2
              refine ⟨_, e3, ?_⟩
              by_cases h1 : pn = m <;> by_cases h3 : pp = m <;> simp [h1, h3]

theorem node_move_children_after_kept (n : Nat) :
    ∀ (rev : List Nat) (h h2 : node_heap), node_move_children_after n rev h = some h2 →
      ∀ (m : Nat) (nd : node), m ∉ rev → h[m]? = some nd →
        ∃ nd2 : node, h2[m]? = some nd2 ∧ { nd2 with n_children := nd.n_children } = nd := by
  intro rev
  induction rev with
  | nil =>
    intro h h2 hmv m nd _ hnd
    simp only [node_move_children_after] at hmv
    cases hmv
    exact ⟨nd, hnd, rfl⟩
  | cons x rev ih =>
    intro h h2 hmv m nd hm hnd
    simp only [node_move_children_after] at hmv
    split at hmv
    · cases hmv
    · rename_i h1 hh1
      obtain ⟨nd1, hnd1, he1⟩ := node_move_after_kept h h1 x n hh1 m nd
        (fun hx => hm (by rw [hx]; exact List.mem_cons_self _ _)) hnd
      obtain ⟨nd2, hnd2, he2⟩ := ih h1 h2 hmv m nd1
        (fun hx => hm (List.mem_cons_of_mem _ hx)) hnd1
      refine ⟨nd2, hnd2, ?_⟩
      rw [← he1, ← he2]

theorem node_delete_children_kept (delete : node_store → Nat → Option node_store)
    (hdel : ∀ (s : node_store) (n : Nat) (t : node_store), delete s n = some t →
      heap_kept s.heap t.heap) :
    ∀ (cs : List Nat) (s t : node_store), node_delete_children delete cs s = some t →
      heap_kept s.heap t.heap := by
  intro cs
  induction cs with
  | nil =>
    intro s t hd
    simp only [node_delete_children] at hd
    cases hd
    exact heap_kept_refl _
  | cons c cs ih =>
    intro s t hd
    simp only [node_delete_children] at hd
    split at hd
    · cases hd
    · rename_i s1 hs1
      exact heap_kept_trans _ _ _ (hdel s c s1 hs1) (ih s1 t hd)

theorem heap_kept_modify_children (h : node_heap) (g : List Nat → List Nat) (p : Nat) :
    heap_kept h (h.modify (fun pn => { pn with n_children := g pn.n_children }) p) := by
  intro m nd hnd
  rw [getElem?_modify_some _ h p m nd hnd]
  by_cases hpm : p = m
  · exact ⟨{ nd with n_children := g nd.n_children }, by rw [if_pos hpm], rfl⟩
  · exact ⟨nd, by rw [if_neg hpm], rfl⟩

theorem node_delete_kept :
    ∀ (fuel : Nat) (s : node_store) (n : Nat) (t : node_store),
      node_delete fuel s n = some t → heap_kept s.heap t.heap := by
  intro fuel
  induction fuel with
  | zero => intro s n t hd; simp [node_delete] at hd
  | succ f ih =>
    intro s n t hd
    simp only [node_delete] at hd
    split at hd
    · cases hd
    · split at hd
      · cases hd
      · rename_i s1 hs1
        have hk1 := node_delete_children_kept (node_delete f) (fun a b c => ih a b c) _ _ _ hs1
        split at hd
        · cases hd
        · split at hd
          · cases hd
            exact hk1
          · split at hd
            · cases hd
            · cases hd
              exact heap_kept_trans _ _ _ hk1
                (heap_kept_modify_children s1.heap (fun l => tailq_remove l n) _)

theorem node_expand_includes_body_kept (env : include_env) (is_master : Bool) (dfuel : Nat)
    (t t2 : node_store) (n : Nat)
    (hb : node_expand_includes_body env is_master dfuel t n = .ok t2) :
    heap_kept t.heap t2.heap := by
  simp only [node_expand_includes_body] at hb
  split at hb
  · cases hb
  · split at hb
    · cases hb
    · split at hb
      · cases hb
        exact heap_kept_refl _
      · split at hb
        · cases hb
        · rename_i h2 hparse
          split at hb
          · cases hb
          · rename_i h3 hmv
            split at hb
            · cases hb
            · rename_i s4 hd4
              split at hb
              · cases hb
              · rename_i s5 hd5
                cases hb
                have hg := node_expand_includes_parse_grown env is_master t.heap h2 _ hparse
                have hk2 : heap_kept t.heap h2 :=
                  heap_kept_trans _ _ _ (heap_kept_new_root t.heap) (heap_kept_grown _ _ _ hg)
                have hk3 : heap_kept t.heap h3 := by
                  intro m nd hnd
                  obtain ⟨nd2, hnd2, he2⟩ := hk2 m nd hnd
                  have hm : m < t.heap.length := by
                    rcases Nat.lt_or_ge m t.heap.length with hlt | hge
                    · exact hlt
                    · rw [List.getElem?_eq_none hge] at hnd
                      cases hnd
                  obtain ⟨nd3, hnd3, he3⟩ := node_move_children_after_kept n _ h2 h3 hmv m nd2
                    (fun hx => by
                      rw [List.mem_reverse] at hx
                      rcases heap_grown_children _ _ _ hg _ m hx with h1 | h1
                      · simp [node_new_root, node_children_append] at h1
                      · simp [node_new_root] at h1
                        omega) hnd2
                  refine ⟨nd3, hnd3, ?_⟩
                  rw [← he2, ← he3]
                exact heap_kept_trans _ _ _ hk3
                  (heap_kept_trans _ _ _ (node_delete_kept dfuel _ n s4 hd4)
                    (node_delete_kept dfuel s4 _ _ hd5))

theorem node_expand_includes_loop_kept (env : include_env) (is_master : Bool) (dfuel : Nat) :
    ∀ (cs : List Nat) (t t2 : node_store),
      node_expand_includes_loop env is_master dfuel cs t = .ok t2 →
      heap_kept t.heap t2.heap := by
  intro cs
  induction cs with
  | nil =>
    intro t t2 hl
    simp only [node_expand_includes_loop] at hl
    cases hl
    exact heap_kept_refl _
  | cons c cs ih =>
    intro t t2 hl
    simp only [node_expand_includes_loop] at hl
    split at hl
    · cases hl
    · rename_i t1 ht1
      exact heap_kept_trans _ _ _ (node_expand_includes_body_kept env is_master dfuel t t1 c ht1)
        (ih t1 t2 hl)

theorem node_expand_includes_kept (env : include_env) (is_master : Bool) (dfuel : Nat)
    (s s2 : node_store) (root : Nat)
    (he : node_expand_includes env is_master dfuel s root = .ok s2) :
    heap_kept s.heap s2.heap := by
  simp only [node_expand_includes] at he
  split at he
  · cases he
  · exact node_expand_includes_loop_kept env is_master dfuel _ s s2 he

theorem node_expand_includes_loop_frame (env : include_env) (is_master : Bool) (dfuel : Nat)
    (s : node_store) (root : Nat) (hwf : tree_wf s) (hroot : node_live s root)
    (hsd : subtree_depth s.heap root (dfuel + 1)) :
    ∀ (rest done : List Nat) (pieces : List (List Nat)) (t : node_store),
      node_children s.heap root = done ++ rest → tree_wf t → node_live t root →
      s.heap.length ≤ t.heap.length →
      List.Forall₂ (node_expand_includes_piece env is_master root s t) done pieces →
      node_children t.heap root = pieces.flatten ++ rest →
      (∀ c ∈ rest, ∀ m, node_reach s.heap c m → t.heap[m]? = s.heap[m]? ∧ node_live t m) →
      (∀ m, node_live s m → ¬ node_under s.heap root m →
        t.heap[m]? = s.heap[m]? ∧ node_live t m) →
      ∀ s2, node_expand_includes_loop env is_master dfuel rest t = .ok s2 →
        tree_wf s2 ∧ node_live s2 root ∧
        (∃ pieces2,
          List.Forall₂ (node_expand_includes_piece env is_master root s s2) (done ++ rest)
            pieces2 ∧
          node_children s2.heap root = pieces2.flatten) ∧
        (∀ m, node_live s m → ¬ node_under s.heap root m →
          s2.heap[m]? = s.heap[m]? ∧ node_live s2 m) := by
  have ws := (tree_wf_iff s).1 hwf
  have hcycs : ∀ c ∈ node_children s.heap root, ¬ node_under s.heap c root :=
    fun c hc hu => node_not_under_child s hwf root c hroot hc hu (dfuel + 1) hsd
  have hsdc : ∀ c ∈ node_children s.heap root, subtree_depth s.heap c dfuel :=
    fun c hc => ((subtree_depth_iff _ _ _).1 hsd).2 c hc
  intro rest
  induction rest with
  | nil =>
    intro done pieces t hsplit hwft hroott hlen hpieces hch hrest hout s2 hs2
    simp only [node_expand_includes_loop] at hs2
    cases hs2
    exact ⟨hwft, hroott, ⟨pieces, by simpa using hpieces, by simpa using hch⟩, hout⟩
  | cons n rest ih =>
    intro done pieces t hsplit hwft hroott hlen hpieces hch hrest hout s2 hs2
    have wt := (tree_wf_iff t).1 hwft
    have hnmem : n ∈ node_children s.heap root := by
      rw [hsplit]
      simp
    obtain ⟨hnl, hnp⟩ := ws.2.2 root hroot n hnmem
    obtain ⟨hcelln, hnt⟩ := hrest n (List.mem_cons_self _ _) n node_reach.self
    obtain ⟨nd, hnd⟩ : ∃ nd, s.heap[n]? = some nd := ⟨_, List.getElem?_eq_getElem hnl.1⟩
    have hndt : t.heap[n]? = some nd := hcelln.trans hnd
    have hsplit2 : node_children s.heap root = (done ++ [n]) ++ rest := by
      rw [hsplit]
      simp
    have hrest2 : ∀ c ∈ rest, ∀ m, node_reach s.heap c m →
        t.heap[m]? = s.heap[m]? ∧ node_live t m :=
      fun c hc => hrest c (List.mem_cons_of_mem _ hc)
    have hpnt : node_parent t.heap n = some root := by
      simp only [node_parent, hcelln] at hnp ⊢
      exact hnp
    cases hinc : node_is_include nd with
    | false =>
      have hbody : node_expand_includes_body env is_master dfuel t n = .ok t := by
        simp [node_expand_includes_body, hndt, hnt.2, hinc]
      have hloop : node_expand_includes_loop env is_master dfuel (n :: rest) t =
          node_expand_includes_loop env is_master dfuel rest t := by
        simp only [node_expand_includes_loop, hbody]
      rw [hloop] at hs2
      have hpiece : node_expand_includes_piece env is_master root s t n [n] :=
        ⟨nd, hnd, fun _ => ⟨rfl, hnt, hcelln, hpnt⟩, fun h => by rw [hinc] at h; cases h⟩
      have := ih (done ++ [n]) (pieces ++ [[n]]) t hsplit2 hwft hroott hlen
        (List.rel_append hpieces (List.Forall₂.cons hpiece List.Forall₂.nil))
        (by rw [hch]; simp) hrest2 hout s2 hs2
      simpa using this
    | true =>
      cases hparse : node_expand_includes_parse env is_master t.heap nd.n_key with
      | error e0 =>
        have hbody : node_expand_includes_body env is_master dfuel t n = .error e0 := by
          simp [node_expand_includes_body, hndt, hnt.2, hinc, hparse]
        simp only [node_expand_includes_loop, hbody] at hs2
        cases hs2
      | ok h2 =>
        have hsdt : ∀ c ∈ n :: rest, subtree_depth t.heap c dfuel := by
          intro c hc
          have hcm : c ∈ node_children s.heap root := by
            rw [hsplit]
            exact List.mem_append_right _ hc
          exact subtree_depth_transfer s.heap t.heap dfuel c
            (fun m hm => ⟨(hrest c hc m hm).2.1, by
              simp only [node_children, (hrest c hc m hm).1]⟩) (hsdc c hcm)
        have hpar : nd.n_parent = some root := by
          simpa [node_parent, hnd] using hnp
        obtain ⟨t2, hbody, hch2, q1, q2, q3, q4, q5, q6, q7⟩ :=
          node_expand_includes_body_spec env is_master dfuel t root n nd h2 pieces.flatten rest
            hwft hroott hnt hndt hpar hinc (hsdt n (List.mem_cons_self _ _)) hch hparse
        have hloop : node_expand_includes_loop env is_master dfuel (n :: rest) t =
            node_expand_includes_loop env is_master dfuel rest t2 := by
          simp only [node_expand_includes_loop, hbody]
        rw [hloop] at hs2
        have hlen2 : s.heap.length ≤ t2.heap.length :=
          Nat.le_trans hlen (Nat.le_of_lt (((tree_wf_iff t2).1 q1).1 _ q4))
        have hnmemt : n ∈ node_children t.heap root := by
          rw [hch]
          simp
        have hcyct : ¬ node_under t.heap n root := fun hu =>
          node_no_cycle t hwft root n hroott hnmemt hu dfuel (hsdt n (List.mem_cons_self _ _))
        have hframe : ∀ x, node_live t x → node_parent t.heap x = some root → x ≠ n →
            x ≠ root → t2.heap[x]? = t.heap[x]? ∧ node_live t2 x := by
          intro x hx hxp hxn hxr
          refine q7 x hx hxr (fun hu => ?_)
          cases hu with
          | self => exact hxn rfl
          | step _ p hp hu2 =>
            rw [hxp] at hp
            cases hp
            exact hcyct hu2
        have hnrest : n ∉ rest := by
          intro hc
          have h1 := (ws.2.1 n hnl root hnp).2
          rw [hsplit, List.count_append, List.count_cons_self] at h1
          have := List.count_pos_iff.2 hc
          omega
        have hpieces2 : List.Forall₂ (node_expand_includes_piece env is_master root s t2)
            done pieces := by
          refine hpieces.imp (fun c piece hp => ?_)
          refine node_expand_includes_piece_stable env is_master root s t t2 c piece hp q5
            (fun x hx => ?_)
          obtain ⟨ndc, hndc, h1, h2c⟩ := hp
          cases hincc : node_is_include ndc with
          | false =>
            obtain ⟨e1, e2, e3, e4⟩ := h1 hincc
            rw [e1] at hx
            have hxc : x = c := by simpa using hx
            subst hxc
            refine hframe x e2 e4 (fun hc => ?_) (fun hc => ?_)
            · rw [hc, hnd] at hndc
              cases hndc
              rw [hinc] at hincc
              cases hincc
            · subst hc
              have h3 : node_parent s.heap x = some x := by
                simp only [node_parent, e3] at e4 ⊢
                exact e4
              have h4 := (ws.2.1 x hroot x h3).2
              exact hcycs x (List.count_pos_iff.1 (by omega)) node_under.self
          | true =>
            obtain ⟨-, h, h2h, -, -, -, -, e6⟩ := h2c hincc
            obtain ⟨f1, f2, f3, -⟩ := e6 x hx
            exact hframe x f2 f3 (by have := hnl.1; omega) (by have := hroot.1; omega)
        have hpiece : node_expand_includes_piece env is_master root s t2 n
            (node_children h2 t.heap.length) :=
          ⟨nd, hnd, fun h => (by rw [hinc] at h; cases h),
            fun _ => ⟨q3, t.heap, h2, hlen, hparse, q4, rfl,
              fun x hx => ⟨by have := (q6 x hx).1; omega, (q6 x hx).2⟩⟩⟩
        have hrest3 : ∀ c ∈ rest, ∀ m, node_reach s.heap c m →
            t2.heap[m]? = s.heap[m]? ∧ node_live t2 m := by
          intro c hc m hm
          have hc2 : c ∈ n :: rest := List.mem_cons_of_mem _ hc
          obtain ⟨hcm, hml⟩ := hrest c hc2 m hm
          have hcmem : c ∈ node_children s.heap root := by
            rw [hsplit]
            exact List.mem_append_right _ hc2
          obtain ⟨hcl, hcp⟩ := ws.2.2 root hroot c hcmem
          have hcn : c ≠ n := fun h => hnrest (h ▸ hc)
          obtain ⟨hccell, hclt⟩ := hrest c hc2 c node_reach.self
          have hcpt : node_parent t.heap c = some root := by
            simp only [node_parent, hccell] at hcp ⊢
            exact hcp
          have hmr : m ≠ root := by
            intro h
            rw [h] at hm
            exact hcycs c hcmem (node_reach_live s hwf c root hcl hm).2
          have hrt : node_reach t.heap c m :=
            node_reach_transfer s.heap t.heap c
              (fun x hx => by simp only [node_children, (hrest c hc2 x hx).1]) m hm
          have huc := (node_reach_live t hwft c m hclt hrt).2
          have hcmemt : c ∈ node_children t.heap root := by
            rw [hch]
            exact List.mem_append_right _ hc2
          have hnu : ¬ node_under t.heap n m := by
            intro hun
            rcases node_under_linear t.heap n c m hun huc with h1 | h1
            · cases h1 with
              | self => exact hcn rfl
              | step _ p hp hu =>
                rw [hcpt] at hp
                cases hp
                exact hcyct hu
            · cases h1 with
              | self => exact hcn rfl
              | step _ p hp hu =>
                rw [hpnt] at hp
                cases hp
                exact node_no_cycle t hwft root c hroott hcmemt hu dfuel (hsdt c hc2)
          obtain ⟨g1, g2⟩ := q7 m hml hmr hnu
          exact ⟨g1.trans hcm, g2⟩
        have hout2 : ∀ m, node_live s m → ¬ node_under s.heap root m →
            t2.heap[m]? = s.heap[m]? ∧ node_live t2 m := by
          intro m hm hnu
          obtain ⟨o1, o2⟩ := hout m hm hnu
          have hno : ∀ y, node_under t.heap n y → node_live s y →
              ¬ node_under s.heap root y → False := by
            intro y hy
            induction hy with
            | self => exact fun _ hc => hc (node_under.step n root hnp node_under.self)
            | step y p hp _ ihy =>
              intro hyl hyu
              have hps : node_parent s.heap y = some p := by
                simp only [node_parent, (hout y hyl hyu).1] at hp ⊢
                exact hp
              exact ihy (ws.2.1 y hyl p hps).1
                (fun hc => hyu (node_under.step y p hps hc))
          obtain ⟨g1, g2⟩ := q7 m o2 (fun hc => hnu (by rw [hc]; exact node_under.self))
            (fun hc => hno m hc hm hnu)
          exact ⟨g1.trans o1, g2⟩
        have := ih (done ++ [n]) (pieces ++ [node_children h2 t.heap.length]) t2
          hsplit2 q1 q2 hlen2
          (List.rel_append hpieces2 (List.Forall₂.cons hpiece List.Forall₂.nil))
          (by rw [hch2]; simp) hrest3 hout2 s2 hs2
        simpa using this

/-! ### Loading a map under a leaf -/

theorem subtree_depth_mono (h : node_heap) (n d : Nat) (hsd : subtree_depth h n d) :
    ∀ e, d ≤ e → subtree_depth h n e := by
  intro e he
  induction he with
  | refl => exact hsd
  | step _ ih => exact subtree_depth_succ h _ n ih

theorem map_grown_children_parent (flat : Bool) (base len : Nat) (h h2 : node_heap)
    (hbase : base < len) (hlen : len ≤ h.length) (hg : map_grown flat base len h h2) :
    ∀ c ∈ node_children h2 base,
      c ∈ node_children h base ∨ (h.length ≤ c ∧ node_parent h2 c = some base) := by
  induction hg with
  | refl => exact fun _ hc => Or.inl hc
  | first h4 key options location file line hg4 _ ih =>
    intro c hc
    have hl := map_grown_length flat base len h h4 hg4
    rw [node_children_node_new _ _ _ _ _ _ _ _ (by omega), if_pos rfl] at hc
    rw [node_parent_node_new]
    rcases List.mem_append.1 hc with h1 | h1
    · rcases ih c h1 with h2 | ⟨h2, h3⟩
      · exact Or.inl h2
      · have hcl : c ≠ h4.length := by
          intro hce
          rw [hce, node_parent_out _ _ (Nat.le_refl _)] at h3
          cases h3
        exact Or.inr ⟨h2, by rw [if_neg hcl]; exact h3⟩
    · have : c = h4.length := by simpa using h1
      exact Or.inr ⟨by rw [this]; exact hl, by rw [if_pos this]⟩
  | second h4 node key options location file line hg4 _ hn hlt hp ih =>
    intro c hc
    rw [node_children_node_new _ _ _ _ _ _ _ _ hlt, if_neg (show ¬ base = node by omega)] at hc
    rw [node_parent_node_new]
    rcases ih c hc with h2 | ⟨h2, h3⟩
    · exact Or.inl h2
    · have hcl : c ≠ h4.length := by
        intro hce
        rw [hce, node_parent_out _ _ (Nat.le_refl _)] at h3
        cases h3
      exact Or.inr ⟨h2, by rw [if_neg hcl]; exact h3⟩

theorem map_grown_leaf_children (flat : Bool) (base : Nat) (h h2 : node_heap)
    (hbase : base < h.length) (hleaf : node_children h base = [])
    (hg : map_grown flat base h.length h h2) :
    ∀ c ∈ node_children h2 base, c < h2.length →
      (flat = false → node_location h2 c = none) ∧
      (flat = true → node_children h2 c = []) ∧
      ∀ x ∈ node_children h2 c, node_children h2 x = [] := by
  intro c hc hlt
  rcases map_grown_children_parent flat base h.length h h2 hbase (Nat.le_refl _) hg c hc
    with h1 | ⟨h1, h3⟩
  · rw [hleaf] at h1
    cases h1
  · obtain ⟨-, i2, i3⟩ := map_grown_new flat base h h2 hbase hg c h1 hlt
    refine ⟨fun hf => i2 h3 hf, fun hf => ?_, fun x hx => (i3 x hx).2.2.1⟩
    rw [List.eq_nil_iff_forall_not_mem]
    intro x hx
    have := (i3 x hx).2.2.2
    rw [hf] at this
    cases this

theorem node_expand_includes_parse_children (env : include_env) (is_master : Bool)
    (h h2 : node_heap) (key : cstring)
    (hparse : node_expand_includes_parse env is_master h key = .ok h2) :
    ∀ x ∈ node_children h2 h.length, x < h2.length →
      (is_master = false → node_location h2 x = none) ∧
      (is_master = true → node_children h2 x = []) := by
  intro x hx hlt
  have hg := node_expand_includes_parse_map_grown env is_master h h2 key hparse
  have hlen : (node_new_root h).1.length = h.length + 1 := by simp [node_new_root]
  rw [← hlen] at hg
  have := map_grown_leaf_children is_master h.length (node_new_root h).1 h2
    (by rw [hlen]; omega) (by simp [node_new_root, node_children_append]) hg x hx hlt
  exact ⟨this.1, this.2.1⟩

theorem forall2_mem_right {α β : Type} (R : α → β → Prop) :
    ∀ (l1 : List α) (l2 : List β), List.Forall₂ R l1 l2 → ∀ y ∈ l2, ∃ x ∈ l1, R x y := by
  intro l1 l2 hf
  induction hf with
  | nil => intro y hy; cases hy
  | cons hr _ ih =>
    intro y hy
    rcases List.mem_cons.1 hy with h1 | h1
    · exact ⟨_, List.mem_cons_self _ _, h1 ▸ hr⟩
    · obtain ⟨x, hx, hxr⟩ := ih y h1
      exact ⟨x, List.mem_cons_of_mem _ hx, hxr⟩

theorem node_expand_includes_children (env : include_env) (is_master : Bool) (root : Nat)
    (s s2 : node_store) (pieces : List (List Nat))
    (hp : List.Forall₂ (node_expand_includes_piece env is_master root s s2)
      (node_children s.heap root) pieces)
    (hch : node_children s2.heap root = pieces.flatten)
    (hloc : is_master = false → ∀ c ∈ node_children s.heap root, node_location s.heap c = none)
    (hleaf : is_master = true → ∀ c ∈ node_children s.heap root, node_children s.heap c = []) :
    ∀ x ∈ node_children s2.heap root,
      (is_master = false → node_location s2.heap x = none) ∧
      (is_master = true → node_children s2.heap x = []) := by
  intro x hx
  rw [hch, List.mem_flatten] at hx
  obtain ⟨piece, hpiece, hxp⟩ := hx
  obtain ⟨c, hc, nd, hnd, p1, p2⟩ := forall2_mem_right _ _ _ hp piece hpiece
  cases hinc : node_is_include nd with
  | false =>
    obtain ⟨e1, e2, e3, e4⟩ := p1 hinc
    rw [e1] at hxp
    have hxc : x = c := by simpa using hxp
    rw [hxc]
    refine ⟨fun hf => ?_, fun hf => ?_⟩
    · have := hloc hf c hc
      simp only [node_location, e3] at this ⊢
      exact this
    · have := hleaf hf c hc
      simp only [node_children, e3] at this ⊢
      exact this
  | true =>
    obtain ⟨-, h, h2, -, hparse, -, e5, e6⟩ := p2 hinc
    obtain ⟨-, -, -, f4, ndx, nd2, f5, f6, f7⟩ := e6 x hxp
    have hlt : x < h2.length := by
      rcases Nat.lt_or_ge x h2.length with h1 | h1
      · exact h1
      · rw [List.getElem?_eq_none h1] at f5
        cases f5
    rw [e5] at hxp
    obtain ⟨g1, g2⟩ := node_expand_includes_parse_children env is_master h h2 nd.n_key hparse
      x hxp hlt
    refine ⟨fun hf => ?_, fun hf => ?_⟩
    · have := g1 hf
      simp only [node_location, f5, f6] at this ⊢
      rw [f7.2.2.1]
      exact this
    · rw [f4]
      exact g2 hf

theorem node_leaf_not_under (t : node_store) (u : node_heap) (p : Nat) (hwf : tree_wf t)
    (hleaf : node_children t.heap p = [])
    (hpar : ∀ y, node_live t y → y ≠ p → node_parent u y = node_parent t.heap y) :
    ∀ y, node_under u p y → node_live t y → y = p := by
  have w := (tree_wf_iff t).1 hwf
  intro y hy
  induction hy with
  | self => exact fun _ => rfl
  | step y q hq _ ih =>
    intro hyl
    by_cases hyp : y = p
    · exact hyp
    · rw [hpar y hyl hyp] at hq
      obtain ⟨hql, hcnt⟩ := w.2.1 y hyl q hq
      have hmem : y ∈ node_children t.heap q := List.count_pos_iff.1 (by omega)
      rw [ih hql, hleaf] at hmem
      cases hmem

theorem node_eq_of_relocated (nd nd2 : node)
    (he : { nd2 with n_location := nd.n_location } = nd)
    (hl : nd2.n_location = nd.n_location) : nd2 = nd := by
  cases nd2
  cases nd
  simp only [node.mk.injEq] at he hl ⊢
  exact ⟨he.1, he.2.1, hl, he.2.2.2⟩

theorem node_expand_defined_post (defined_expand : cstring → cstring) (efuel : Nat)
    (t s1 t2 : node_store) (p : Nat) (hwf : tree_wf t)
    (hleaf : node_children t.heap p = []) (hwf1 : tree_wf s1) (hp1 : node_live s1 p)
    (hk : heap_kept t.heap s1.heap)
    (hfr : ∀ m, node_live t m → m ≠ p → s1.heap[m]? = t.heap[m]? ∧ node_live s1 m)
    (hdef : node_expand_defined defined_expand efuel s1.heap p = some t2.heap)
    (hfreed : t2.freed = s1.freed) :
    tree_wf t2 ∧ node_live t2 p ∧
    (∀ m, node_live t m → m ≠ p → t2.heap[m]? = t.heap[m]? ∧ node_live t2 m) ∧
    (∀ nd : node, t.heap[p]? = some nd →
      ∃ nd2 : node, t2.heap[p]? = some nd2 ∧ { nd2 with n_children := nd.n_children } = nd) ∧
    (∀ x, node_live s1 x → node_under s1.heap p x → x ≠ p →
      node_live t2 x ∧ node_under t2.heap p x ∧
      node_location t2.heap x = (node_location s1.heap x).map defined_expand) := by
  obtain ⟨h4, f4⟩ := t2
  simp only at hfreed hdef
  subst hfreed
  simp only
  have hrel := node_expand_defined_shape defined_expand efuel s1.heap p h4 hdef
  have hspec := node_expand_defined_spec defined_expand efuel s1.heap s1.freed p h4 hwf1 hp1 hdef
  have hlive : ∀ m, node_live s1 m → node_live ⟨h4, s1.freed⟩ m :=
    fun m hm => ⟨by simp only [hrel.1]; exact hm.1, hm.2⟩
  have hsame : ∀ m, node_live s1 m → ¬ (node_under s1.heap p m ∧ m ≠ p) →
      h4[m]? = s1.heap[m]? := by
    intro m hm hnu
    obtain ⟨nd2, hnd2, he2⟩ := hrel.2 m _ (List.getElem?_eq_getElem hm.1)
    have hloc := (hspec m hm).2 hnu
    simp only [node_location, hnd2, List.getElem?_eq_getElem hm.1] at hloc
    rw [hnd2, List.getElem?_eq_getElem hm.1, node_eq_of_relocated _ nd2 he2 hloc]
  refine ⟨heap_relocated_wf s1.heap h4 s1.freed hrel hwf1, hlive p hp1,
    fun m hm hmp => ?_, fun nd hnd => ?_, fun x hx hu hxp => ?_⟩
  · obtain ⟨g1, g2⟩ := hfr m hm hmp
    refine ⟨(hsame m g2 (fun hu => hmp ?_)).trans g1, hlive m g2⟩
    exact node_leaf_not_under t s1.heap p hwf hleaf
      (fun y hy hyp => by simp only [node_parent, (hfr y hy hyp).1]) m hu.1 hm
  · obtain ⟨nd1, hnd1, he1⟩ := hk p nd hnd
    exact ⟨nd1, (hsame p hp1 (fun hu => hu.2 rfl)).trans hnd1, he1⟩
  · exact ⟨hlive x hx, (heap_relocated_under s1.heap h4 hrel p x).2 hu, (hspec x hx).1 ⟨hu, hxp⟩⟩

theorem node_is_direct_map_cells (h h2 : node_heap) (n root : Nat) (hn : h2[n]? = h[n]?)
    (hr : h2[root]? = h[root]?) (hp : node_parent h n = some root)
    (hpr : node_parent h root = none) (ifuel : Nat) :
    node_is_direct_map h2 ifuel n = node_is_direct_map h ifuel n := by
  cases ifuel with
  | zero => rfl
  | succ f =>
    simp only [node_is_direct_map, hn]
    cases hnd : h[n]? with
    | none => rfl
    | some nd =>
      have hp2 : nd.n_parent = some root := by simpa [node_parent, hnd] using hp
      simp only [hp2, hr]
      cases hrd : h[root]? with
      | none => rfl
      | some rd =>
        have hpr2 : rd.n_parent = none := by simpa [node_parent, hrd] using hpr
        simp only [hpr2, if_true]

theorem node_under_root (h : node_heap) (c root : Nat) (hpr : node_parent h root = none)
    (hu : node_under h c root) : c = root := by
  cases hu with
  | self => rfl
  | step _ p hp _ =>
    rw [hpr] at hp
    cases hp

theorem node_under_frame (u u2 : node_store) (n2 root c : Nat) (hwf : tree_wf u)
    (hfr : ∀ m, node_live u m → m ≠ n2 → u2.heap[m]? = u.heap[m]? ∧ node_live u2 m)
    (hn2 : node_parent u.heap n2 = some root) (hroot : node_parent u.heap root = none)
    (hc : c ≠ root) :
    ∀ x, node_under u.heap c x → node_live u x → x ≠ c →
      x ≠ n2 ∧ node_under u2.heap c x := by
  have w := (tree_wf_iff u).1 hwf
  intro x hx
  induction hx with
  | self => exact fun _ hcc => absurd rfl hcc
  | step x q hq hu ih =>
    intro hxl _
    have hxn : x ≠ n2 := by
      intro hxe
      rw [hxe, hn2] at hq
      cases hq
      exact hc (node_under_root u.heap c root hroot hu)
    refine ⟨hxn, ?_⟩
    have hq2 : node_parent u2.heap x = some q := by
      simp only [node_parent, (hfr x hxl hxn).1] at hq ⊢
      exact hq
    by_cases hqc : q = c
    · rw [hqc] at hq2
      exact node_under.step x c hq2 node_under.self
    · exact node_under.step x q hq2 (ih (w.2.1 x hxl q hq).1 hqc).2

theorem loaded_store_ok (r : Except map_error node_store) (s : node_store)
    (h : loaded_store r = some s) : r = .ok s := by
  cases r with
  | error e => cases h
  | ok t =>
    simp only [loaded_store, Option.some.injEq] at h
    rw [h]

theorem parse_master_direct_example :
    (store_of (node_expand_includes example_map_env.includes true 2
        ⟨heap_of (parse_master_yyin (node_new_root []).1 0 "/etc/auto_master".toList 0
          [lex_word "/-" 1, lex_word "auto_direct" 1, lex_newline 2,
           lex_word "/home" 2, lex_word "auto_home" 2, lex_newline 3]), []⟩ 0)).map
      (fun s2 => (node_children s2.heap 0,
        (node_children s2.heap 0).map (node_is_direct_map s2.heap 2),
        (node_children s2.heap 0).map (node_location s2.heap))) =
    some ([1, 2], [some true, some false],
      [some "auto_direct".toList, some "auto_home".toList]) ∧
    example_master_store.heap.map (·.n_location) =
      [none, some "auto_direct!".toList, some "auto_home!".toList, none,
       some "hostA:/a!!".toList, some "hostB:/b!!".toList] := by
  decide

/-! ### Truncated entries -/

theorem store_of_ok (r : Except expand_error node_store) (s : node_store)
    (h : store_of r = some s) : r = .ok s := by
  cases r with
  | error e => cases h
  | ok t =>
    simp only [store_of, Option.some.injEq] at h
    rw [h]

/-! ### Enough fuel for `node_expand_defined` -/

theorem subtree_depth_lt (h : node_heap) (n d : Nat) (hsd : subtree_depth h n d) :
    n < h.length := by
  cases d with
  | zero => exact absurd hsd (subtree_depth_zero h n)
  | succ d => exact ((subtree_depth_iff h n d).1 hsd).1

theorem heap_relocated_depth_to (h h2 : node_heap) (hr : heap_relocated h h2) (n d : Nat)
    (hsd : subtree_depth h n d) : subtree_depth h2 n d :=
  subtree_depth_shrink h h2 hr.1
    (fun m c hc => by rw [heap_relocated_children h h2 hr] at hc; exact hc) d n hsd

theorem node_expand_defined_total (defined_expand : cstring → cstring) :
    ∀ (fuel : Nat) (h : node_heap) (root : Nat), subtree_depth h root fuel →
      ∃ h2, node_expand_defined defined_expand fuel h root = some h2 := by
  intro fuel
  induction fuel with
  | zero => intro h root hsd; exact absurd hsd (subtree_depth_zero h root)
  | succ f ih =>
    intro h root hsd
    cases hsd with
    | mk _ _ rd hrd hch =>
      simp only [node_expand_defined, hrd]
      have hloop : ∀ (cs : List Nat) (g : node_heap), heap_relocated h g →
          (∀ c ∈ cs, subtree_depth h c f) →
          ∃ g2, node_expand_defined_children defined_expand
            (node_expand_defined defined_expand f) cs g = some g2 := by
        intro cs
        induction cs with
        | nil => intro g _ _; exact ⟨g, rfl⟩
        | cons n rest ihc =>
          intro g hrel hcs
          have hn := hcs n (List.mem_cons_self _ _)
          have hnl : n < g.length := by
            rw [hrel.1]
            exact subtree_depth_lt h n f hn
          have hrelm := heap_relocated_trans _ _ _ hrel
            (heap_relocated_modify defined_expand g n)
          obtain ⟨g1, hg1⟩ := ih _ n (heap_relocated_depth_to _ _ hrelm n f hn)
          obtain ⟨g2, hg2⟩ := ihc g1
            (heap_relocated_trans _ _ _ hrelm
              (node_expand_defined_shape defined_expand f _ _ _ hg1))
            (fun c hc => hcs c (List.mem_cons_of_mem _ hc))
          refine ⟨g2, ?_⟩
          simp only [node_expand_defined_children, List.getElem?_eq_getElem hnl, hg1]
          exact hg2
      exact hloop rd.n_children h (heap_relocated_refl h) hch

/-! ### The levels of the nodes that include expansion adds -/

theorem map_grown_parents (flat : Bool) (base : Nat) (h h2 : node_heap)
    (hbase : base < h.length) (hg : map_grown flat base h.length h h2) :
    ∀ m, h.length ≤ m → m < h2.length →
      node_parent h2 m = some base ∨
      ∃ q, h.length ≤ q ∧ q < h2.length ∧ node_parent h2 m = some q ∧
        node_parent h2 q = some base := by
  induction hg with
  | refl => exact fun m h1 h2 => absurd h1 (by omega)
  | first h4 key options location file line hg4 _ ih =>
    intro m hm1 hm2
    rw [node_new_length] at hm2
    rw [node_parent_node_new]
    by_cases hmn : m = h4.length
    · rw [if_pos hmn]
      exact Or.inl rfl
    · rw [if_neg hmn]
      rcases ih m hm1 (by omega) with h1 | ⟨q, q1, q2, q3, q4⟩
      · exact Or.inl h1
      · refine Or.inr ⟨q, q1, by rw [node_new_length]; omega, q3, ?_⟩
        rw [node_parent_node_new, if_neg (by omega)]
        exact q4
  | second h4 node key options location file line hg4 _ hn hlt hp ih =>
    intro m hm1 hm2
    rw [node_new_length] at hm2
    rw [node_parent_node_new]
    by_cases hmn : m = h4.length
    · rw [if_pos hmn]
      refine Or.inr ⟨node, hn, by rw [node_new_length]; omega, rfl, ?_⟩
      rw [node_parent_node_new, if_neg (by omega)]
      exact hp
    · rw [if_neg hmn]
      rcases ih m hm1 (by omega) with h1 | ⟨q, q1, q2, q3, q4⟩
      · exact Or.inl h1
      · refine Or.inr ⟨q, q1, by rw [node_new_length]; omega, q3, ?_⟩
        rw [node_parent_node_new, if_neg (by omega)]
        exact q4

theorem new_top_mono (c len0 : Nat) (h h2 : node_heap) (hlen : h.length ≤ h2.length)
    (hpar : ∀ m, m < h.length → node_parent h2 m = node_parent h m) (p : Nat)
    (hp : new_top c len0 h p) : new_top c len0 h2 p := by
  rcases hp with h1 | ⟨h1, h2l, h3⟩
  · exact Or.inl h1
  · exact Or.inr ⟨h1, by omega, by rw [hpar p h2l]; exact h3⟩

theorem node_parent_lt (h : node_heap) (m p : Nat) (hp : node_parent h m = some p) :
    m < h.length := by
  rcases Nat.lt_or_ge m h.length with h1 | h1
  · exact h1
  · rw [node_parent_out h m h1] at hp
    cases hp

theorem new_level_mono (c len0 : Nat) (h h2 : node_heap) (hlen : h.length ≤ h2.length)
    (hpar : ∀ m, m < h.length → node_parent h2 m = node_parent h m) (m : Nat)
    (hm : m < h.length) (hl : new_level c len0 h m) : new_level c len0 h2 m := by
  rcases hl with h1 | ⟨p, h1, h2t⟩ | ⟨p, p2, h1, h2l, h3, h4⟩
  · exact Or.inl (by rw [hpar m hm]; exact h1)
  · exact Or.inr (Or.inl ⟨p, by rw [hpar m hm]; exact h1,
      new_top_mono c len0 h h2 hlen hpar p h2t⟩)
  · exact Or.inr (Or.inr ⟨p, p2, by rw [hpar m hm]; exact h1, h2l,
      by rw [hpar p (node_parent_lt h p p2 h3)]; exact h3,
      new_top_mono c len0 h h2 hlen hpar p2 h4⟩)

theorem node_move_after_parent (h h2 : node_heap) (n previous : Nat)
    (hmv : node_move_after h n previous = some h2) :
    h2.length = h.length ∧
    ∀ m, node_parent h2 m = if m = n then node_parent h previous else node_parent h m := by
  simp only [node_move_after] at hmv
  split at hmv
  · cases hmv
  · rename_i nd hnd
    have hnl : n < h.length := by
      rcases Nat.lt_or_ge n h.length with h1 | h1
      · exact h1
      · rw [List.getElem?_eq_none h1] at hnd
        cases hnd
    split at hmv
    · cases hmv
    · rename_i pn _
      split at hmv
      · cases hmv
      · split at hmv
        · cases hmv
        · rename_i pv hpv
          split at hmv
          · cases hmv
          · rename_i pp hpp
            split at hmv
            · cases hmv
            · cases hmv
              refine ⟨by simp, fun m => ?_⟩
              rw [node_parent_modify_children _ (fun l => tailq_insert_after l previous n),
                node_parent_modify_parent _ _ _ _ (by simpa using hnl),
                node_parent_modify_children h (fun l => tailq_remove l n)]
              by_cases hmn : m = n
              · rw [if_pos hmn, if_pos hmn]
                have : node_parent (h.modify
                    (fun p => { p with n_children := tailq_remove p.n_children n }) pn)
                    previous = pv.n_parent := by
                  simp only [node_parent, hpv]
                rw [← this, node_parent_modify_children h (fun l => tailq_remove l n)]
              · rw [if_neg hmn, if_neg hmn]

theorem node_move_children_after_parent (n : Nat) :
    ∀ (rev : List Nat) (h h2 : node_heap), n ∉ rev →
      node_move_children_after n rev h = some h2 →
      h2.length = h.length ∧
      ∀ m, node_parent h2 m = if m ∈ rev then node_parent h n else node_parent h m := by
  intro rev
  induction rev with
  | nil =>
    intro h h2 _ hmv
    simp only [node_move_children_after] at hmv
    cases hmv
    exact ⟨rfl, fun m => by simp⟩
  | cons x rev ih =>
    intro h h2 hn hmv
    simp only [node_move_children_after] at hmv
    split at hmv
    · cases hmv
    · rename_i h1 hh1
      obtain ⟨l1, p1⟩ := node_move_after_parent h h1 x n hh1
      obtain ⟨l2, p2⟩ := ih h1 h2 (fun hc => hn (List.mem_cons_of_mem _ hc)) hmv
      have hnx : n ≠ x := fun hc => hn (by rw [hc]; exact List.mem_cons_self _ _)
      refine ⟨l2.trans l1, fun m => ?_⟩
      rw [p2 m, p1 n, if_neg hnx, p1 m]
      by_cases hmr : m ∈ rev
      · rw [if_pos hmr, if_pos (List.mem_cons_of_mem _ hmr)]
      · rw [if_neg hmr]
        by_cases hmx : m = x
        · rw [if_pos hmx, if_pos (by rw [hmx]; exact List.mem_cons_self _ _)]
        · rw [if_neg hmx, if_neg (fun hc => by
            rcases List.mem_cons.1 hc with h3 | h3
            · exact hmx h3
            · exact hmr h3)]

theorem node_delete_children_length (delete : node_store → Nat → Option node_store)
    (hdel : ∀ (s : node_store) (n : Nat) (t : node_store), delete s n = some t →
      t.heap.length = s.heap.length ∧ ∀ f ∈ s.freed, f ∈ t.freed) :
    ∀ (cs : List Nat) (s t : node_store), node_delete_children delete cs s = some t →
      t.heap.length = s.heap.length ∧ ∀ f ∈ s.freed, f ∈ t.freed := by
  intro cs
  induction cs with
  | nil =>
    intro s t hd
    simp only [node_delete_children] at hd
    cases hd
    exact ⟨rfl, fun _ hf => hf⟩
  | cons c cs ih =>
    intro s t hd
    simp only [node_delete_children] at hd
    split at hd
    · cases hd
    · rename_i s1 hs1
      obtain ⟨a1, a2⟩ := hdel s c s1 hs1
      obtain ⟨b1, b2⟩ := ih s1 t hd
      exact ⟨b1.trans a1, fun f hf => b2 f (a2 f hf)⟩

theorem node_delete_length :
    ∀ (fuel : Nat) (s : node_store) (n : Nat) (t : node_store),
      node_delete fuel s n = some t →
      t.heap.length = s.heap.length ∧ ∀ f ∈ s.freed, f ∈ t.freed := by
  intro fuel
  induction fuel with
  | zero => intro s n t hd; simp [node_delete] at hd
  | succ f ih =>
    intro s n t hd
    simp only [node_delete] at hd
    split at hd
    · cases hd
    · split at hd
      · cases hd
      · rename_i s1 hs1
        obtain ⟨a1, a2⟩ := node_delete_children_length (node_delete f)
          (fun a b c => ih a b c) _ _ _ hs1
        split at hd
        · cases hd
        · split at hd
          · cases hd
            exact ⟨a1, fun f hf => List.mem_cons_of_mem _ (a2 f hf)⟩
          · split at hd
            · cases hd
            · cases hd
              exact ⟨by simpa using a1, fun f hf => List.mem_cons_of_mem _ (a2 f hf)⟩

theorem node_delete_parent (fuel : Nat) (s : node_store) (n : Nat) (t : node_store)
    (hd : node_delete fuel s n = some t) (m : Nat) :
    node_parent t.heap m = node_parent s.heap m := by
  have hl := (node_delete_length fuel s n t hd).1
  rcases Nat.lt_or_ge m s.heap.length with h1 | h1
  · exact heap_kept_parent _ _ (node_delete_kept fuel s n t hd) m h1
  · rw [node_parent_out _ _ h1, node_parent_out _ _ (by rw [hl]; exact h1)]

theorem new_levels_congr (c len0 : Nat) (h h2 : node_heap) (hlen : h2.length = h.length)
    (hpar : ∀ m, node_parent h2 m = node_parent h m) (hlv : new_levels c len0 h) :
    new_levels c len0 h2 := by
  intro m hm1 hm2
  rw [hlen] at hm2
  exact new_level_mono c len0 h h2 (Nat.le_of_eq hlen.symm) (fun x _ => hpar x) m hm2
    (hlv m hm1 hm2)

theorem node_expand_includes_body_levels (env : include_env) (is_master : Bool) (dfuel : Nat)
    (t t2 : node_store) (n c len0 : Nat)
    (hb : node_expand_includes_body env is_master dfuel t n = .ok t2)
    (hlv : new_levels c len0 t.heap) (hlen : len0 ≤ t.heap.length) (hnl : n < len0)
    (hn : node_parent t.heap n = some c) :
    new_levels c len0 t2.heap ∧ ∀ f ∈ t.freed, f ∈ t2.freed := by
  simp only [node_expand_includes_body] at hb
  split at hb
  · cases hb
  · split at hb
    · cases hb
    · split at hb
      · cases hb
        exact ⟨hlv, fun _ hf => hf⟩
      · split at hb
        · cases hb
        · rename_i h2 hparse
          split at hb
          · cases hb
          · rename_i h3 hmv
            split at hb
            · cases hb
            · rename_i s4 hd4
              split at hb
              · cases hb
              · rename_i s5 hd5
                cases hb
                have hlena : (node_new_root t.heap).1.length = t.heap.length + 1 := by
                  simp [node_new_root]
                have hpa : ∀ m, node_parent (node_new_root t.heap).1 m =
                    if m = t.heap.length then none else node_parent t.heap m := by
                  intro m
                  simp only [node_new_root]
                  rw [node_parent_append]
                have hg := node_expand_includes_parse_map_grown env is_master t.heap h2 _ hparse
                rw [← hlena] at hg
                have hTa : t.heap.length < (node_new_root t.heap).1.length := by
                  rw [hlena]; omega
                have hl2 := map_grown_length _ _ _ _ _ hg
                have hp2 : ∀ m, m < (node_new_root t.heap).1.length →
                    node_parent h2 m = node_parent (node_new_root t.heap).1 m :=
                  fun m hm => heap_kept_parent _ _ (map_grown_kept _ _ _ _ _ hTa hg) m hm
                have hT2 : node_parent h2 t.heap.length = none := by
                  rw [hp2 _ hTa, hpa, if_pos rfl]
                have hn2 : node_parent h2 n = some c := by
                  rw [hp2 n (by omega), hpa, if_neg (by omega)]
                  exact hn
                have hlva : new_levels c len0 (node_new_root t.heap).1 := by
                  intro m hm1 hm2
                  by_cases hmT : m = t.heap.length
                  · exact Or.inl (by rw [hpa, if_pos hmT])
                  · exact new_level_mono c len0 t.heap _ (by omega)
                      (fun x hx => by rw [hpa, if_neg (by omega)]) m (by omega)
                      (hlv m hm1 (by omega))
                have htop2 : new_top c len0 h2 t.heap.length :=
                  Or.inr ⟨hlen, by omega, hT2⟩
                have hlv2 : new_levels c len0 h2 := by
                  intro m hm1 hm2
                  rcases Nat.lt_or_ge m (node_new_root t.heap).1.length with h1 | h1
                  · exact new_level_mono c len0 _ h2 hl2 hp2 m h1 (hlva m hm1 h1)
                  · rcases map_grown_parents is_master _ _ h2 hTa hg m h1 hm2 with
                      h5 | ⟨q, q1, q2, q3, q4⟩
                    · exact Or.inr (Or.inl ⟨_, h5, htop2⟩)
                    · exact Or.inr (Or.inr ⟨q, _, q3, by omega, q4, htop2⟩)
                have hrev : ∀ x ∈ (node_children h2 (node_new_root t.heap).2).reverse,
                    t.heap.length < x ∧ node_parent h2 x = some t.heap.length := by
                  intro x hx
                  rw [List.mem_reverse] at hx
                  rcases map_grown_children_parent is_master _ _ _ h2 hTa (Nat.le_refl _) hg
                    x hx with h5 | ⟨h5, h6⟩
                  · simp [node_new_root, node_children_append] at h5
                  · exact ⟨by omega, h6⟩
                obtain ⟨l3, p3⟩ := node_move_children_after_parent n _ h2 h3
                  (fun hx => by have := (hrev n hx).1; omega) hmv
                have htop3 : ∀ p, new_top c len0 h2 p → new_top c len0 h3 p := by
                  intro p hp
                  rcases hp with h5 | ⟨h5, h6, h7⟩
                  · exact Or.inl h5
                  · refine Or.inr ⟨h5, by omega, ?_⟩
                    rw [p3 p, if_neg (fun hx => by
                      rw [(hrev p hx).2] at h7
                      cases h7)]
                    exact h7
                have hlv3 : new_levels c len0 h3 := by
                  intro m hm1 hm2
                  rw [l3] at hm2
                  by_cases hmr : m ∈ (node_children h2 (node_new_root t.heap).2).reverse
                  · exact Or.inr (Or.inl ⟨c, by rw [p3 m, if_pos hmr]; exact hn2, Or.inl rfl⟩)
                  · rcases hlv2 m hm1 hm2 with h5 | ⟨p, h5, h6⟩ | ⟨p, p2, h5, h6, h7, h8⟩
                    · exact Or.inl (by rw [p3 m, if_neg hmr]; exact h5)
                    · exact Or.inr (Or.inl ⟨p, by rw [p3 m, if_neg hmr]; exact h5, htop3 p h6⟩)
                    · by_cases hpr : p ∈ (node_children h2 (node_new_root t.heap).2).reverse
                      · exact Or.inr (Or.inr ⟨p, c, by rw [p3 m, if_neg hmr]; exact h5, h6,
                          by rw [p3 p, if_pos hpr]; exact hn2, Or.inl rfl⟩)
                      · exact Or.inr (Or.inr ⟨p, p2, by rw [p3 m, if_neg hmr]; exact h5, h6,
                          by rw [p3 p, if_neg hpr]; exact h7, htop3 p2 h8⟩)
                obtain ⟨l4, f4⟩ := node_delete_length dfuel _ n s4 hd4
                obtain ⟨l5, f5⟩ := node_delete_length dfuel s4 _ _ hd5
                have hlv4 : new_levels c len0 s4.heap :=
                  new_levels_congr c len0 h3 s4.heap l4
                    (fun m => node_delete_parent dfuel _ n s4 hd4 m) hlv3
                exact ⟨new_levels_congr c len0 s4.heap _ l5
                  (fun m => node_delete_parent dfuel s4 _ _ hd5 m) hlv4,
                  fun f hf => f5 f (f4 f hf)⟩

theorem node_expand_includes_loop_levels (env : include_env) (is_master : Bool) (dfuel : Nat)
    (c len0 : Nat) :
    ∀ (cs : List Nat) (t t2 : node_store),
      node_expand_includes_loop env is_master dfuel cs t = .ok t2 →
      new_levels c len0 t.heap → len0 ≤ t.heap.length →
      (∀ n ∈ cs, n < len0 ∧ node_parent t.heap n = some c) →
      new_levels c len0 t2.heap ∧ ∀ f ∈ t.freed, f ∈ t2.freed := by
  intro cs
  induction cs with
  | nil =>
    intro t t2 hl hlv _ _
    simp only [node_expand_includes_loop] at hl
    cases hl
    exact ⟨hlv, fun _ hf => hf⟩
  | cons n cs ih =>
    intro t t2 hl hlv hlen hcs
    simp only [node_expand_includes_loop] at hl
    split at hl
    · cases hl
    · rename_i t1 ht1
      obtain ⟨hn1, hn2⟩ := hcs n (List.mem_cons_self _ _)
      obtain ⟨a1, a2⟩ := node_expand_includes_body_levels env is_master dfuel t t1 n c len0 ht1
        hlv hlen hn1 hn2
      have hk := node_expand_includes_body_kept env is_master dfuel t t1 n ht1
      have hl1 := heap_kept_length _ _ hk
      obtain ⟨b1, b2⟩ := ih t1 t2 hl a1 (by omega) (fun x hx => by
        obtain ⟨x1, x2⟩ := hcs x (List.mem_cons_of_mem _ hx)
        exact ⟨x1, by rw [heap_kept_parent _ _ hk x (by omega)]; exact x2⟩)
      exact ⟨b1, fun f hf => b2 f (a2 f hf)⟩

theorem node_expand_includes_depth (env : include_env) (is_master : Bool) (dfuel : Nat)
    (s s2 : node_store) (c : Nat) (hwf : tree_wf s) (hc : node_live s c)
    (hsd : subtree_depth s.heap c 3) (hwf2 : tree_wf s2) (hc2 : node_live s2 c)
    (he : node_expand_includes env is_master dfuel s c = .ok s2) :
    subtree_depth s2.heap c 3 ∧ ∀ f ∈ s.freed, f ∈ s2.freed := by
  have ws := (tree_wf_iff s).1 hwf
  have ws2 := (tree_wf_iff s2).1 hwf2
  have hk := node_expand_includes_kept env is_master dfuel s s2 c he
  simp only [node_expand_includes] at he
  split at he
  · cases he
  · obtain ⟨hlv, hfr⟩ := node_expand_includes_loop_levels env is_master dfuel c s.heap.length
      _ s s2 he (fun m h1 h2 => absurd h1 (by omega)) (Nat.le_refl _)
      (fun n hn => ⟨(ws.2.2 c hc n hn).1.1, (ws.2.2 c hc n hn).2⟩)
    refine ⟨?_, hfr⟩
    have hpar : ∀ m, m < s.heap.length → node_parent s2.heap m = node_parent s.heap m :=
      fun m hm => heap_kept_parent _ _ hk m hm
    have hmem : ∀ a b, node_live s a → node_parent s.heap a = some b →
        node_live s b ∧ a ∈ node_children s.heap b := by
      intro a b ha hab
      obtain ⟨h1, h2⟩ := ws.2.1 a ha b hab
      exact ⟨h1, List.count_pos_iff.1 (by omega)⟩
    have hcyc1 : node_parent s.heap c ≠ some c := by
      intro hx
      exact node_not_under_child s hwf c c hc (hmem c c hc hx).2 node_under.self 3 hsd
    have hcyc2 : ∀ x, node_parent s.heap c = some x → node_parent s.heap x = some c →
        False := by
      intro x h1 h2
      obtain ⟨hxl, -⟩ := hmem c x hc h1
      exact node_not_under_child s hwf c x hc (hmem x c hxl h2).2
        (node_under.step c x h1 node_under.self) 3 hsd
    have hK : ∀ z y x, node_live s2 z → node_parent s2.heap z = some y →
        node_parent s2.heap y = some x → node_parent s2.heap x = some c → False := by
      intro z y x hz hzy hyx hxc
      rcases Nat.lt_or_ge z s.heap.length with hzo | hzn
      · have hzl : node_live s z := ⟨hzo, fun hf => hz.2 (hfr z hf)⟩
        rw [hpar z hzo] at hzy
        obtain ⟨hyl, hzm⟩ := hmem z y hzl hzy
        rw [hpar y hyl.1] at hyx
        obtain ⟨hxl, hym⟩ := hmem y x hyl hyx
        rw [hpar x hxl.1] at hxc
        obtain ⟨-, hxm⟩ := hmem x c hxl hxc
        have h2 := ((subtree_depth_iff _ _ _).1 hsd).2 x hxm
        have h1 := ((subtree_depth_iff _ _ _).1 h2).2 y hym
        have h0 := ((subtree_depth_iff _ _ _).1 h1).2 z hzm
        exact subtree_depth_zero _ _ h0
      · rcases hlv z hzn hz.1 with h5 | ⟨p, h5, h6⟩ | ⟨p, p2, h5, h6, h7, h8⟩
        · rw [hzy] at h5
          cases h5
        · rw [hzy] at h5
          cases h5
          rcases h6 with h6 | ⟨h6, h7, h8⟩
          · rw [h6] at hyx
            rw [hpar c hc.1] at hyx
            have hxl := (hmem c x hc hyx).1
            rw [hpar x hxl.1] at hxc
            exact hcyc2 x hyx hxc
          · rw [hyx] at h8
            cases h8
        · rw [hzy] at h5
          cases h5
          rw [hyx] at h7
          cases h7
          rcases h8 with h8 | ⟨h8, h9, h10⟩
          · rw [h8, hpar c hc.1] at hxc
            exact hcyc1 hxc
          · rw [hxc] at h10
            cases h10
    rw [subtree_depth_iff]
    refine ⟨hc2.1, fun x hx => ?_⟩
    obtain ⟨hxl, hxp⟩ := ws2.2.2 c hc2 x hx
    rw [subtree_depth_iff]
    refine ⟨hxl.1, fun y hy => ?_⟩
    obtain ⟨hyl, hyp⟩ := ws2.2.2 x hxl y hy
    rw [subtree_depth_iff]
    refine ⟨hyl.1, fun z hz => ?_⟩
    obtain ⟨hzl, hzp⟩ := ws2.2.2 y hyl z hz
    exact absurd (hK z y x hzl hzp hyp hxp) id

/-! ### Loading maps: enough fuel gives a result -/

theorem parse_map_read_defined (env : map_env) (h : node_heap) (parent : Nat) (map : cstring)
    (e : map_error) (hp : parse_map_read env h parent map = .error e) :
    e ≠ .undefined ∧ e ≠ .expand .undefined := by
  simp only [parse_map_read] at hp
  split at hp
  · cases hp
    exact ⟨by simp, by simp⟩
  · split at hp
    · rename_i e0 hpath
      cases hp
      simp only [parse_map_path] at hpath
      split at hpath
      · cases hpath
      · split at hpath
        · cases hpath
        · split at hpath
          · split at hpath
            · cases hpath
              exact ⟨by simp, by simp⟩
            · cases hpath
          · cases hpath
    · split at hp
      · cases hp
        exact ⟨by simp, by simp⟩
      · split at hp
        · cases hp
          exact ⟨by simp, by simp⟩
        · split at hp
          · cases hp
            exact ⟨by simp, by simp⟩
          · split at hp
            · cases hp
              exact ⟨by simp, by simp⟩
            · cases hp
      · split at hp
        · cases hp
          exact ⟨by simp, by simp⟩
        · split at hp
          · cases hp
            exact ⟨by simp, by simp⟩
          · cases hp

theorem node_is_direct_map_first (h : node_heap) (ifuel n root : Nat) (hn : n < h.length)
    (hp : node_parent h n = some root) (hr : root < h.length)
    (hpr : node_parent h root = none) :
    ∃ d, node_is_direct_map h (ifuel + 1) n = some d := by
  obtain ⟨nd, hnd⟩ : ∃ nd, h[n]? = some nd := ⟨_, List.getElem?_eq_getElem hn⟩
  obtain ⟨rd, hrd⟩ : ∃ rd, h[root]? = some rd := ⟨_, List.getElem?_eq_getElem hr⟩
  have hp2 : nd.n_parent = some root := by simpa [node_parent, hnd] using hp
  have hpr2 : rd.n_parent = none := by simpa [node_parent, hrd] using hpr
  exact ⟨decide (nd.n_key = ['/', '-']),
    by simp only [node_is_direct_map, hnd, hp2, hrd, hpr2, if_true]⟩

theorem node_is_direct_map_second (h : node_heap) (ifuel x p root : Nat) (hx : x < h.length)
    (hxp : node_parent h x = some p) (hp : node_parent h p = some root)
    (hr : root < h.length) (hpr : node_parent h root = none) :
    ∃ d, node_is_direct_map h (ifuel + 2) x = some d := by
  obtain ⟨xd, hxd⟩ : ∃ xd, h[x]? = some xd := ⟨_, List.getElem?_eq_getElem hx⟩
  have hpl := node_parent_lt h p root hp
  obtain ⟨pd, hpd⟩ : ∃ pd, h[p]? = some pd := ⟨_, List.getElem?_eq_getElem hpl⟩
  have hxp2 : xd.n_parent = some p := by simpa [node_parent, hxd] using hxp
  have hp2 : pd.n_parent = some root := by simpa [node_parent, hpd] using hp
  obtain ⟨d, hd⟩ := node_is_direct_map_first h ifuel p root hpl hp hr hpr
  refine ⟨d, ?_⟩
  rw [← hd]
  simp only [node_is_direct_map, hxd, hxp2, hpd, hp2]
  simp

theorem node_expand_maps_loop_skip
    (parse : node_store → Nat → cstring → Except map_error node_store) (ifuel : Nat)
    (indirect : Bool) (s : node_store) :
    ∀ (cs : List Nat),
      (∀ c ∈ cs, node_live s c ∧ (∃ d, node_is_direct_map s.heap ifuel c = some d) ∧
        node_location s.heap c = none) →
      node_expand_maps_loop parse ifuel indirect cs s = .ok s := by
  intro cs
  induction cs with
  | nil => intro _; rfl
  | cons c cs ih =>
    intro hcs
    obtain ⟨hl, ⟨d, hd⟩, hloc⟩ := hcs c (List.mem_cons_self _ _)
    have hrest := ih (fun x hx => hcs x (List.mem_cons_of_mem _ hx))
    obtain ⟨nd, hnd⟩ : ∃ nd, s.heap[c]? = some nd := ⟨_, List.getElem?_eq_getElem hl.1⟩
    have hloc2 : nd.n_location = none := by simpa [node_location, hnd] using hloc
    simp only [node_expand_maps_loop, hl.2, if_false, hd, hnd, hloc2, hrest]
    split <;> rfl

theorem parse_map_leaf (env : map_env) (dfuel ifuel efuel fuel : Nat) (t : node_store)
    (p r : Nat) (map : cstring) (hwf : tree_wf t) (hp : node_live t p)
    (hleaf : node_children t.heap p = []) (hpr : node_parent t.heap p = some r)
    (hrr : node_parent t.heap r = none) (hd : 2 ≤ dfuel) (hi : 2 ≤ ifuel) (he : 3 ≤ efuel) :
    (∀ e, parse_map env dfuel ifuel efuel (fuel + 1) t p map = .error e →
      e ≠ .undefined ∧ e ≠ .expand .undefined) ∧
    (∀ t2, parse_map env dfuel ifuel efuel (fuel + 1) t p map = .ok t2 →
      ∃ (h1 : node_heap) (s1 : node_store),
        parse_map_read env t.heap p map = .ok h1 ∧
        node_expand_includes env.includes false dfuel ⟨h1, t.freed⟩ p = .ok s1 ∧
        node_expand_defined env.defined_expand efuel s1.heap p = some t2.heap ∧
        t2.freed = s1.freed ∧ tree_wf s1 ∧ node_live s1 p ∧ heap_kept t.heap s1.heap ∧
        (∀ c ∈ node_children s1.heap p, node_location s1.heap c = none) ∧
        (∀ m, node_live t m → m ≠ p → s1.heap[m]? = t.heap[m]? ∧ node_live s1 m) ∧
        subtree_depth s1.heap p 3 ∧
        (∀ x, t.heap.length ≤ x → x < h1.length → x ∉ s1.freed →
          node_live s1 x ∧ node_under s1.heap p x ∧ x ≠ p ∧
          node_location s1.heap x = node_location h1 x)) := by
  have w := (tree_wf_iff t).1 hwf
  cases hread : parse_map_read env t.heap p map with
  | error e0 =>
    have hres : parse_map env dfuel ifuel efuel (fuel + 1) t p map = .error e0 := by
      simp only [parse_map, hread]
    rw [hres]
    refine ⟨fun e he => ?_, fun t2 ht2 => by cases ht2⟩
    cases he
    exact parse_map_read_defined env t.heap p map _ hread
  | ok h1 =>
    have hg := parse_map_read_map_grown env t.heap h1 p map hread
    have hl := map_grown_length _ _ _ _ _ hg
    have hp1 : node_live ⟨h1, t.freed⟩ p := ⟨Nat.lt_of_lt_of_le hp.1 hl, hp.2⟩
    have hwf1 : tree_wf ⟨h1, t.freed⟩ :=
      map_grown_wf false p t.heap.length t.heap h1 t.freed hg w.1 hp hwf
    have w1 := (tree_wf_iff _).1 hwf1
    have hkids := map_grown_leaf_children false p t.heap h1 hp.1 hleaf hg
    have hsd3 : subtree_depth h1 p 3 := by
      rw [subtree_depth_iff]
      refine ⟨hp1.1, fun c hc => ?_⟩
      have hcl := (w1.2.2 p hp1 c hc).1
      rw [subtree_depth_iff]
      refine ⟨hcl.1, fun x hx => ?_⟩
      have hxl := (w1.2.2 c hcl x hx).1
      rw [subtree_depth_iff]
      refine ⟨hxl.1, fun y hy => ?_⟩
      rw [(hkids c hc hcl.1).2.2 x hx] at hy
      cases hy
    have hsd := subtree_depth_mono h1 p 3 hsd3 (dfuel + 1) (by omega)
    have hstart : ∀ c ∈ node_children h1 p, ∀ m, node_reach h1 c m →
        h1[m]? = h1[m]? ∧ node_live ⟨h1, t.freed⟩ m :=
      fun c hc m hm => ⟨rfl, (node_reach_live _ hwf1 c m (w1.2.2 p hp1 c hc).1 hm).1⟩
    cases hinc : node_expand_includes env.includes false dfuel ⟨h1, t.freed⟩ p with
    | error e1 =>
      have hres : parse_map env dfuel ifuel efuel (fuel + 1) t p map = .error (.expand e1) := by
        simp only [parse_map, hread, hinc]
      rw [hres]
      refine ⟨fun e he => ?_, fun t2 ht2 => by cases ht2⟩
      cases he
      have hinc2 : node_expand_includes_loop env.includes false dfuel (node_children h1 p)
          ⟨h1, t.freed⟩ = .error e1 := by
        simpa [node_expand_includes, hp1.2] using hinc
      have := ((node_expand_includes_loop_spec env.includes false dfuel ⟨h1, t.freed⟩ p
        hwf1 hp1 hsd (node_children h1 p) [] [] ⟨h1, t.freed⟩ rfl hwf1 hp1
        (Nat.le_refl _) List.Forall₂.nil (by simp) hstart).1 e1 hinc2).1
      exact ⟨by simp, fun hc => this (by cases hc; rfl)⟩
    | ok s2 =>
      have hinc2 : node_expand_includes_loop env.includes false dfuel (node_children h1 p)
          ⟨h1, t.freed⟩ = .ok s2 := by
        simpa [node_expand_includes, hp1.2] using hinc
      obtain ⟨hwf2, hp2, ⟨pieces, hpieces, hch⟩, hframe⟩ :=
        node_expand_includes_loop_frame env.includes false dfuel ⟨h1, t.freed⟩ p
          hwf1 hp1 hsd (node_children h1 p) [] [] ⟨h1, t.freed⟩ rfl hwf1 hp1
          (Nat.le_refl _) List.Forall₂.nil (by simp) hstart (fun m hm _ => ⟨rfl, hm⟩) s2 hinc2
      rw [List.nil_append] at hpieces
      have ws2 := (tree_wf_iff s2).1 hwf2
      have hloc2 := node_expand_includes_children env.includes false p ⟨h1, t.freed⟩
        s2 pieces hpieces hch
        (fun _ c hc => (hkids c hc (w1.2.2 p hp1 c hc).1.1).1 rfl)
        (fun hf => by cases hf)
      have hcells : ∀ m, node_live t m → m ≠ p → h1[m]? = t.heap[m]? :=
        fun m hm hmp =>
          map_grown_cells false p t.heap.length t.heap h1 (Nat.le_refl _) hg m hm.1 hmp
      have hki := node_expand_includes_kept _ _ _ _ _ _ hinc
      have hk : heap_kept t.heap s2.heap :=
        heap_kept_trans _ _ _ (map_grown_kept false p _ t.heap h1 hp.1 hg) hki
      have hfr : ∀ m, node_live t m → m ≠ p → s2.heap[m]? = t.heap[m]? ∧ node_live s2 m := by
        intro m hm hmp
        have hm1 : node_live ⟨h1, t.freed⟩ m := ⟨Nat.lt_of_lt_of_le hm.1 hl, hm.2⟩
        obtain ⟨g1, g2⟩ := hframe m hm1 (fun hu => hmp
          (node_leaf_not_under t h1 p hwf hleaf
            (fun y hy hyp => by simp only [node_parent, hcells y hy hyp]) m hu hm))
        exact ⟨g1.trans (hcells m hm hmp), g2⟩
      have hrl : node_live t r := (w.2.1 p hp r hpr).1
      have hrp : r ≠ p := by
        intro hx
        rw [hx, hpr] at hrr
        cases hrr
      have hpr2 : node_parent s2.heap p = some r := by
        rw [heap_kept_parent _ _ hk p hp.1]
        exact hpr
      have hrr2 : node_parent s2.heap r = none := by
        simp only [node_parent, (hfr r hrl hrp).1] at hrr ⊢
        exact hrr
      obtain ⟨k, hk2⟩ : ∃ k, ifuel = k + 2 := ⟨ifuel - 2, by omega⟩
      have hloop : node_expand_maps_loop (parse_map env dfuel ifuel efuel fuel) ifuel false
          (node_children s2.heap p) s2 = .ok s2 := by
        refine node_expand_maps_loop_skip _ ifuel false s2 _ (fun x hx => ?_)
        obtain ⟨hxl, hxp⟩ := ws2.2.2 p hp2 x hx
        refine ⟨hxl, ?_, (hloc2 x hx).1 rfl⟩
        rw [hk2]
        exact node_is_direct_map_second s2.heap k x p r hxl.1 hxp hpr2 (hfr r hrl hrp).2.1 hrr2
      obtain ⟨hsd2, hfreed⟩ := node_expand_includes_depth env.includes false dfuel
        ⟨h1, t.freed⟩ s2 p hwf1 hp1 hsd3 hwf2 hp2 hinc
      obtain ⟨h4, hdef⟩ := node_expand_defined_total env.defined_expand efuel s2.heap p
        (subtree_depth_mono s2.heap p 3 hsd2 efuel he)
      have hres : parse_map env dfuel ifuel efuel (fuel + 1) t p map =
          .ok ⟨h4, s2.freed⟩ := by
        simp only [parse_map, hread, hinc, hloop, hdef]
      rw [hres]
      refine ⟨fun e he => (by cases he), fun t2 ht2 => ?_⟩
      cases ht2
      refine ⟨h1, s2, rfl, hinc, hdef, rfl, hwf2, hp2, hk, fun c hc => (hloc2 c hc).1 rfl, hfr,
        hsd2, fun x hx1 hx2 hx3 => ?_⟩
      have hl2 := heap_kept_length _ _ hki
      have hxp : x ≠ p := by have := hp.1; omega
      refine ⟨⟨by simp only at hl2; omega, hx3⟩, ?_, hxp, heap_kept_location _ _ hki x hx2⟩
      rcases map_grown_parents false p t.heap h1 hp.1 hg x hx1 hx2 with
        h5 | ⟨q, q1, q2, q3, q4⟩
      · exact node_under.step x p (by rw [heap_kept_parent _ _ hki x hx2]; exact h5)
          node_under.self
      · exact node_under.step x q (by rw [heap_kept_parent _ _ hki x hx2]; exact q3)
          (node_under.step q p (by rw [heap_kept_parent _ _ hki q q2]; exact q4)
            node_under.self)

/-! ### Loading maps: the claim -/

theorem node_expand_maps_loop_root (env : map_env) (dfuel ifuel efuel fuel : Nat)
    (s2 : node_store) (root : Nat) (hwf2 : tree_wf s2) (hroot : node_live s2 root)
    (hpar : node_parent s2.heap root = none)
    (hleaves : ∀ c ∈ node_children s2.heap root, node_children s2.heap c = [])
    (hd : 2 ≤ dfuel) (hi : 2 ≤ ifuel) (he : 3 ≤ efuel)
    (hsrc : ∀ (h : node_heap) (c : Nat) (L : cstring) (h1 : node_heap),
      parse_map_read env h c L = .ok h1 → map_file_read env L h c h1) :
    ∀ (rest done : List Nat) (u : node_store),
      node_children s2.heap root = done ++ rest → tree_wf u →
      (∀ m, node_live s2 m → m ∉ done → u.heap[m]? = s2.heap[m]? ∧ node_live u m) →
      (∀ c ∈ done, node_live u c ∧ node_parent u.heap c = some root ∧
        node_location u.heap c = node_location s2.heap c) →
      (∀ c ∈ done, ∀ L, node_is_direct_map s2.heap ifuel c = some true →
        node_location s2.heap c = some L →
        direct_map_loaded env dfuel ifuel efuel (fuel + 1) c L env.defined_expand u) →
      (∀ c ∈ done, subtree_depth u.heap c 3) →
      (∀ e, node_expand_maps_loop (parse_map env dfuel ifuel efuel (fuel + 1)) ifuel false
          rest u = .error e → e ≠ .undefined ∧ e ≠ .expand .undefined) ∧
      (∀ s3, node_expand_maps_loop (parse_map env dfuel ifuel efuel (fuel + 1)) ifuel false
          rest u = .ok s3 →
        tree_wf s3 ∧
        (∀ m, node_live s2 m → m ∉ node_children s2.heap root →
          s3.heap[m]? = s2.heap[m]? ∧ node_live s3 m) ∧
        (∀ c ∈ node_children s2.heap root, node_live s3 c ∧
          node_parent s3.heap c = some root ∧
          node_location s3.heap c = node_location s2.heap c) ∧
        (∀ c ∈ node_children s2.heap root, ∀ L,
          node_is_direct_map s2.heap ifuel c = some true →
          node_location s2.heap c = some L →
          direct_map_loaded env dfuel ifuel efuel (fuel + 1) c L env.defined_expand s3) ∧
        (∀ c ∈ node_children s2.heap root, subtree_depth s3.heap c 3)) := by
  have ws2 := (tree_wf_iff s2).1 hwf2
  have hnodup := node_children_nodup s2 hwf2 root hroot
  have hrootout : root ∉ node_children s2.heap root := by
    intro hc
    have := (ws2.2.2 root hroot root hc).2
    rw [hpar] at this
    cases this
  intro rest
  induction rest with
  | nil =>
    intro done u hsplit hwfu hfix hdone hloaded hdepth
    rw [List.append_nil] at hsplit
    rw [hsplit]
    refine ⟨fun e he => ?_, fun s3 hs3 => ?_⟩
    · simp [node_expand_maps_loop] at he
    · simp only [node_expand_maps_loop] at hs3
      cases hs3
      exact ⟨hwfu, hfix, hdone, hloaded, hdepth⟩
  | cons n2 tmp ih =>
    intro done u hsplit hwfu hfix hdone hloaded hdepth
    have hn2mem : n2 ∈ node_children s2.heap root := by rw [hsplit]; simp
    obtain ⟨hn2l, hn2p⟩ := ws2.2.2 root hroot n2 hn2mem
    have hn2done : n2 ∉ done := by
      intro hc
      rw [hsplit] at hnodup
      exact (List.nodup_append.1 hnodup).2.2 hc (List.mem_cons_self _ _)
    have hdonemem : ∀ c ∈ done, c ∈ node_children s2.heap root := by
      intro c hc; rw [hsplit]; simp [hc]
    obtain ⟨hcelln, hn2u⟩ := hfix n2 hn2l hn2done
    obtain ⟨hcellr, hrootu⟩ := hfix root hroot (fun hc => hrootout (hdonemem root hc))
    have hn2pu : node_parent u.heap n2 = some root := by
      simp only [node_parent, hcelln] at hn2p ⊢
      exact hn2p
    have hparu : node_parent u.heap root = none := by
      simp only [node_parent, hcellr] at hpar ⊢
      exact hpar
    have hlocu : node_location u.heap n2 = node_location s2.heap n2 := by
      simp only [node_location, hcelln]
    have hleafu : node_children u.heap n2 = [] := by
      have := hleaves n2 hn2mem
      simp only [node_children, hcelln] at this ⊢
      exact this
    have hsplit2 : node_children s2.heap root = (done ++ [n2]) ++ tmp := by
      rw [hsplit]; simp
    have hdir := node_is_direct_map_cells s2.heap u.heap n2 root hcelln hcellr hn2p hpar ifuel
    obtain ⟨k, hk⟩ : ∃ k, ifuel = k + 1 := ⟨ifuel - 1, by omega⟩
    obtain ⟨direct, hdirect⟩ : ∃ d, node_is_direct_map u.heap ifuel n2 = some d := by
      rw [hk]
      exact node_is_direct_map_first u.heap k n2 root hn2u.1 hn2pu hrootu.1 hparu
    obtain ⟨nd, hnd⟩ : ∃ nd, u.heap[n2]? = some nd := ⟨_, List.getElem?_eq_getElem hn2u.1⟩
    have hskip : (∀ L, node_is_direct_map s2.heap ifuel n2 = some true →
        node_location s2.heap n2 = some L → False) →
        (∀ e, node_expand_maps_loop (parse_map env dfuel ifuel efuel (fuel + 1)) ifuel false
            tmp u = .error e → e ≠ .undefined ∧ e ≠ .expand .undefined) ∧
        (∀ s3, node_expand_maps_loop (parse_map env dfuel ifuel efuel (fuel + 1)) ifuel false
            tmp u = .ok s3 →
          tree_wf s3 ∧
          (∀ m, node_live s2 m → m ∉ node_children s2.heap root →
            s3.heap[m]? = s2.heap[m]? ∧ node_live s3 m) ∧
          (∀ c ∈ node_children s2.heap root, node_live s3 c ∧
            node_parent s3.heap c = some root ∧
            node_location s3.heap c = node_location s2.heap c) ∧
          (∀ c ∈ node_children s2.heap root, ∀ L,
            node_is_direct_map s2.heap ifuel c = some true →
            node_location s2.heap c = some L →
            direct_map_loaded env dfuel ifuel efuel (fuel + 1) c L env.defined_expand s3) ∧
          (∀ c ∈ node_children s2.heap root, subtree_depth s3.heap c 3)) := by
      intro hno
      refine ih (done ++ [n2]) u hsplit2 hwfu
        (fun m hm hmd => hfix m hm (fun hc => hmd (List.mem_append_left _ hc)))
        (fun c hc => ?_) (fun c hc L h1 h2 => ?_) (fun c hc => ?_)
      · rcases List.mem_append.1 hc with h1 | h1
        · exact hdone c h1
        · rw [List.mem_singleton] at h1
          rw [h1]
          exact ⟨hn2u, hn2pu, hlocu⟩
      · rcases List.mem_append.1 hc with h3 | h3
        · exact hloaded c h3 L h1 h2
        · rw [List.mem_singleton] at h3
          rw [h3] at h1 h2
          exact absurd (hno L h1 h2) id
      · rcases List.mem_append.1 hc with h3 | h3
        · exact hdepth c h3
        · rw [List.mem_singleton] at h3
          rw [h3]
          refine subtree_depth_mono u.heap n2 1 ?_ 3 (by omega)
          rw [subtree_depth_iff]
          refine ⟨hn2u.1, fun x hx => ?_⟩
          rw [hleafu] at hx
          cases hx
    cases hdv : direct with
    | false =>
      rw [hdv] at hdirect
      have hstep : node_expand_maps_loop (parse_map env dfuel ifuel efuel (fuel + 1)) ifuel
          false (n2 :: tmp) u =
          node_expand_maps_loop (parse_map env dfuel ifuel efuel (fuel + 1)) ifuel false
            tmp u := by
        simp only [node_expand_maps_loop, hn2u.2, if_false, hdirect, if_true]
      rw [hstep]
      refine hskip (fun L h1 _ => ?_)
      rw [← hdir, hdirect] at h1
      cases h1
    | true =>
      rw [hdv] at hdirect
      cases hlo : nd.n_location with
      | none =>
        have hstep : node_expand_maps_loop (parse_map env dfuel ifuel efuel (fuel + 1)) ifuel
            false (n2 :: tmp) u =
            node_expand_maps_loop (parse_map env dfuel ifuel efuel (fuel + 1)) ifuel false
              tmp u := by
          simp [node_expand_maps_loop, hn2u.2, hdirect, hnd, hlo]
        rw [hstep]
        refine hskip (fun L _ h2 => ?_)
        rw [← hlocu] at h2
        simp only [node_location, hnd, hlo] at h2
        cases h2
      | some L =>
        have hLu : node_location u.heap n2 = some L := by
          simp only [node_location, hnd, hlo]
        obtain ⟨hE, hO⟩ := parse_map_leaf env dfuel ifuel efuel fuel u n2 root L hwfu hn2u
          hleafu hn2pu hparu hd hi he
        cases hparse : parse_map env dfuel ifuel efuel (fuel + 1) u n2 L with
        | error e0 =>
          have hstep : node_expand_maps_loop (parse_map env dfuel ifuel efuel (fuel + 1))
              ifuel false (n2 :: tmp) u = .error e0 := by
            simp [node_expand_maps_loop, hn2u.2, hdirect, hnd, hlo, hparse]
          rw [hstep]
          refine ⟨fun e he2 => ?_, fun s3 hs3 => by cases hs3⟩
          cases he2
          exact hE e0 hparse
        | ok u2 =>
          have hstep : node_expand_maps_loop (parse_map env dfuel ifuel efuel (fuel + 1))
              ifuel false (n2 :: tmp) u =
              node_expand_maps_loop (parse_map env dfuel ifuel efuel (fuel + 1)) ifuel false
                tmp u2 := by
            simp [node_expand_maps_loop, hn2u.2, hdirect, hnd, hlo, hparse]
          rw [hstep]
          obtain ⟨h1, s1, hread, hinc, hdef, hfreed, hwf1, hp1, hkp, hnone, hfr, hsd1, htie⟩ :=
            hO u2 hparse
          have hsr := hsrc u.heap n2 L h1 hread
          obtain ⟨hwfu2, hn2u2, hframe, hkept, hsub⟩ :=
            node_expand_defined_post env.defined_expand efuel u s1 u2 n2 hwfu hleafu hwf1
              hp1 hkp hfr hdef hfreed
          have hrel := node_expand_defined_shape env.defined_expand efuel s1.heap n2 u2.heap
            hdef
          refine ih (done ++ [n2]) u2 hsplit2 hwfu2 (fun m hm hmd => ?_)
            (fun c hc => ?_) (fun c hc L2 d1 d2 => ?_) (fun c hc => ?_)
          · obtain ⟨g1, g2⟩ := hfix m hm (fun hc => hmd (List.mem_append_left _ hc))
            obtain ⟨g3, g4⟩ := hframe m g2
              (fun hc => hmd (List.mem_append_right _ (by rw [hc]; simp)))
            exact ⟨g3.trans g1, g4⟩
          · rcases List.mem_append.1 hc with h3 | h3
            · obtain ⟨g1, g2, g3⟩ := hdone c h3
              obtain ⟨g4, g5⟩ := hframe c g1 (fun hx => hn2done (hx ▸ h3))
              refine ⟨g5, ?_, ?_⟩
              · simp only [node_parent, g4] at g2 ⊢
                exact g2
              · simp only [node_location, g4] at g3 ⊢
                exact g3
            · rw [List.mem_singleton] at h3
              rw [h3]
              obtain ⟨nd2, hnd2, he2⟩ := hkept nd hnd
              refine ⟨hn2u2, ?_, ?_⟩
              · have : nd2.n_parent = nd.n_parent := by rw [← he2]
                simp only [node_parent, hnd, hnd2, this] at hn2pu ⊢
                exact hn2pu
              · have : nd2.n_location = nd.n_location := by rw [← he2]
                rw [← hlocu]
                simp only [node_location, hnd, hnd2, this]
          · rcases List.mem_append.1 hc with h3 | h3
            · obtain ⟨t, t2, s1c, h1c, e1, e2, e3, e6, e7, e8, e9, e10⟩ :=
                hloaded c h3 L2 d1 d2
              refine ⟨t, t2, s1c, h1c, e1, e2, e3, e6, e7, e8, e9, fun x hx hu hxc => ?_⟩
              obtain ⟨g1, g2, g3⟩ := e10 x hx hu hxc
              obtain ⟨g4, g5⟩ := node_under_frame u u2 n2 root c hwfu hframe hn2pu hparu
                (fun hx2 => hrootout (hx2 ▸ hdonemem c h3)) x g2 g1 hxc
              obtain ⟨g6, g7⟩ := hframe x g1 g4
              refine ⟨g7, g5, ?_⟩
              simp only [node_location, g6] at g3 ⊢
              exact g3
            · rw [List.mem_singleton] at h3
              rw [h3] at d2 ⊢
              rw [← hlocu, hLu] at d2
              cases d2
              exact ⟨u, u2, s1, h1, hLu, hparse, hsr, hinc, hnone, htie, hdef, hsub⟩
          · rcases List.mem_append.1 hc with h3 | h3
            · have hcl := (hdone c h3).1
              have hcn : c ≠ n2 := fun hx => hn2done (hx ▸ h3)
              refine subtree_depth_transfer u.heap u2.heap 3 c (fun m hm => ?_) (hdepth c h3)
              obtain ⟨hml, hmu⟩ := node_reach_live u hwfu c m hcl hm
              have hmn : m ≠ n2 := by
                by_cases hmc : m = c
                · rw [hmc]
                  exact hcn
                · exact (node_under_frame u u2 n2 root c hwfu hframe hn2pu hparu
                    (fun hx2 => hrootout (hx2 ▸ hdonemem c h3)) m hmu hml hmc).1
              obtain ⟨g6, g7⟩ := hframe m hml hmn
              exact ⟨g7.1, by simp only [node_children, g6]⟩
            · rw [List.mem_singleton] at h3
              rw [h3]
              exact heap_relocated_depth_to s1.heap u2.heap hrel n2 3 hsd1

/-- C23: `parse_master`, run on a root that is a leaf of a well formed tree,
with bounds of at least 2 for `node_delete` and for `node_is_direct_map`, 4 for
`node_expand_defined` and 1 for the nesting of `parse_map`, never runs out of
a bound or uses a bad pointer: it returns, or stops with a fatal error of the
program.  When it returns, every child `c` that the root has after the master
file is parsed and its includes are expanded is a first-level entry: in the
end its location is `defined_expand` applied once to the location it had then.
If moreover `c` is classified as a direct map and has a location, `parse_map`
was called for `c` with that location as it was, not yet substituted, as the
name of the map, and every node that this call put below `c` ends with
`defined_expand` applied twice to the location it had before the pass
`node_expand_defined` of that call, which for a node made by the parse of the
map is the location the parse gave it: once by that pass and once by the pass
of `parse_master` over the whole tree.  No child of `c` has a location, so
that the call of `parse_map` loads no map of its own. -/
theorem parse_master_expands_twice (env : map_env) (dfuel ifuel efuel fuel : Nat)
    (s : node_store) (root : Nat) (master : cstring) (hwf : tree_wf s)
    (hroot : node_live s root) (hpar : node_parent s.heap root = none)
    (hleaf : node_children s.heap root = []) (hd : 2 ≤ dfuel) (hi : 2 ≤ ifuel)
    (he : 4 ≤ efuel) (hf : 1 ≤ fuel) :
    (∀ e, parse_master env dfuel ifuel efuel fuel s root master = .error e →
      e ≠ .undefined ∧ e ≠ .expand .undefined) ∧
    (∀ s4, parse_master env dfuel ifuel efuel fuel s root master = .ok s4 →
      ∃ (input : List lexeme) (h1 : node_heap) (s2 : node_store),
        env.fopen master = some input ∧
        parse_master_yyin s.heap root master 0 input = .ok h1 ∧
        node_expand_includes env.includes true dfuel ⟨h1, s.freed⟩ root = .ok s2 ∧
        ∀ c ∈ node_children s2.heap root,
          node_live s4 c ∧ node_parent s4.heap c = some root ∧
          node_location s4.heap c = (node_location s2.heap c).map env.defined_expand ∧
          ∀ L, node_is_direct_map s2.heap ifuel c = some true →
            node_location s2.heap c = some L →
            direct_map_loaded env dfuel ifuel efuel fuel c L
              (fun location => env.defined_expand (env.defined_expand location)) s4) := by
  obtain ⟨f, hfe⟩ : ∃ f, fuel = f + 1 := ⟨fuel - 1, by omega⟩
  subst hfe
  have hsrc : ∀ (h : node_heap) (parent : Nat) (map : cstring) (h2 : node_heap),
      parse_map_read env h parent map = .ok h2 → map_file_read env map h parent h2 := by
    intro h parent map h2 hp
    simp only [parse_map_read] at hp
    split at hp
    · cases hp
    · split at hp
      · cases hp
      · rename_i path executable hpath
        split at hp
        · cases hp
        · rename_i hexe
          split at hp
          · cases hp
          · rename_i input status hpopen
            split at hp
            · cases hp
            · rename_i h3 hy
              split at hp
              · cases hp
              · rename_i hst
                cases hp
                have hs0 : status = 0 := by
                  by_contra hc
                  exact hst hc
                rw [hs0] at hpopen
                refine ⟨path, executable, input, hpath, Or.inl ⟨?_, hpopen⟩, hy⟩
                cases executable with
                | true => exact Or.inl rfl
                | false =>
                  simp only [Bool.false_eq_true, if_false] at hexe
                  exact Or.inr hexe
        · rename_i hexe
          split at hp
          · cases hp
          · rename_i input hopen
            split at hp
            · cases hp
            · rename_i h3 hy
              cases hp
              refine ⟨path, executable, input, hpath, Or.inr ?_, hy⟩
              cases executable with
              | true => simp at hexe
              | false =>
                simp only [Bool.false_eq_true, if_false] at hexe
                exact ⟨rfl, hexe, hopen⟩
  have w := (tree_wf_iff s).1 hwf
  cases hopen : env.fopen master with
  | none =>
    have hres : parse_master env dfuel ifuel efuel (f + 1) s root master =
        .error (.unable_to_open master) := by
      simp only [parse_master, hopen]
    rw [hres]
    refine ⟨fun e he2 => ?_, fun s4 hs4 => by cases hs4⟩
    cases he2
    exact ⟨by simp, by simp⟩
  | some input =>
    cases hread : parse_master_yyin s.heap root master 0 input with
    | error pe =>
      have hres : parse_master env dfuel ifuel efuel (f + 1) s root master =
          .error (.parse pe) := by
        simp only [parse_master, hopen, hread]
      rw [hres]
      refine ⟨fun e he2 => ?_, fun s4 hs4 => by cases hs4⟩
      cases he2
      exact ⟨by simp, by simp⟩
    | ok h1 =>
      have hg : map_grown true root s.heap.length s.heap h1 :=
        parse_master_loop_map_grown master root s.heap.length _ _ _ _ _ hread
      have hl := map_grown_length _ _ _ _ _ hg
      have hp1 : node_live ⟨h1, s.freed⟩ root := ⟨Nat.lt_of_lt_of_le hroot.1 hl, hroot.2⟩
      have hwf1 : tree_wf ⟨h1, s.freed⟩ :=
        map_grown_wf true root s.heap.length s.heap h1 s.freed hg w.1 hroot hwf
      have w1 := (tree_wf_iff _).1 hwf1
      have hkids := map_grown_leaf_children true root s.heap h1 hroot.1 hleaf hg
      have hsd2 : subtree_depth h1 root 2 := by
        rw [subtree_depth_iff]
        refine ⟨hp1.1, fun c hc => ?_⟩
        have hcl := (w1.2.2 root hp1 c hc).1
        rw [subtree_depth_iff]
        refine ⟨hcl.1, fun x hx => ?_⟩
        rw [(hkids c hc hcl.1).2.1 rfl] at hx
        cases hx
      have hsd := subtree_depth_mono h1 root 2 hsd2 (dfuel + 1) (by omega)
      have hstart : ∀ c ∈ node_children h1 root, ∀ m, node_reach h1 c m →
          h1[m]? = h1[m]? ∧ node_live ⟨h1, s.freed⟩ m :=
        fun c hc m hm => ⟨rfl, (node_reach_live _ hwf1 c m (w1.2.2 root hp1 c hc).1 hm).1⟩
      cases hinc : node_expand_includes env.includes true dfuel ⟨h1, s.freed⟩ root with
      | error e1 =>
        have hres : parse_master env dfuel ifuel efuel (f + 1) s root master =
            .error (.expand e1) := by
          simp only [parse_master, hopen, hread, hinc]
        rw [hres]
        refine ⟨fun e he2 => ?_, fun s4 hs4 => by cases hs4⟩
        cases he2
        have hinc2 : node_expand_includes_loop env.includes true dfuel (node_children h1 root)
            ⟨h1, s.freed⟩ = .error e1 := by
          simpa [node_expand_includes, hp1.2] using hinc
        have := ((node_expand_includes_loop_spec env.includes true dfuel ⟨h1, s.freed⟩ root
          hwf1 hp1 hsd (node_children h1 root) [] [] ⟨h1, s.freed⟩ rfl hwf1 hp1
          (Nat.le_refl _) List.Forall₂.nil (by simp) hstart).1 e1 hinc2).1
        exact ⟨by simp, fun hc => this (by cases hc; rfl)⟩
      | ok s2 =>
        have hinc2 : node_expand_includes_loop env.includes true dfuel (node_children h1 root)
            ⟨h1, s.freed⟩ = .ok s2 := by
          simpa [node_expand_includes, hp1.2] using hinc
        have hk2 : heap_kept s.heap s2.heap :=
          heap_kept_trans _ _ _ (map_grown_kept true root _ s.heap h1 hroot.1 hg)
            (node_expand_includes_kept _ _ _ _ _ _ hinc)
        have hpar2 : node_parent s2.heap root = none := by
          rw [heap_kept_parent s.heap s2.heap hk2 root hroot.1]
          exact hpar
        obtain ⟨hwf2, hroot2, ⟨pieces, hpieces, hch⟩, -⟩ :=
          node_expand_includes_loop_frame env.includes true dfuel ⟨h1, s.freed⟩ root
            hwf1 hp1 hsd (node_children h1 root) [] [] ⟨h1, s.freed⟩ rfl hwf1 hp1
            (Nat.le_refl _) List.Forall₂.nil (by simp) hstart (fun m hm _ => ⟨rfl, hm⟩) s2 hinc2
        rw [List.nil_append] at hpieces
        have hleaves := node_expand_includes_children env.includes true root
          ⟨h1, s.freed⟩ s2 pieces hpieces hch (fun hf => by cases hf)
          (fun _ c hc => (hkids c hc (w1.2.2 root hp1 c hc).1.1).2.1 rfl)
        obtain ⟨hE, hO⟩ := node_expand_maps_loop_root env dfuel ifuel efuel f s2 root hwf2
          hroot2 hpar2 (fun c hc => (hleaves c hc).2 rfl) hd hi (by omega) hsrc
          (node_children s2.heap root) [] s2 rfl hwf2 (fun m hm _ => ⟨rfl, hm⟩)
          (fun c hc => by cases hc) (fun c hc => by cases hc) (fun c hc => by cases hc)
        cases hmaps : node_expand_maps_loop (parse_map env dfuel ifuel efuel (f + 1)) ifuel
            false (node_children s2.heap root) s2 with
        | error e2 =>
          have hres : parse_master env dfuel ifuel efuel (f + 1) s root master =
              .error e2 := by
            simp only [parse_master, hopen, hread, hinc, node_expand_direct_maps,
              node_expand_maps, hroot2.2, if_false, hmaps]
          rw [hres]
          refine ⟨fun e he2 => ?_, fun s4 hs4 => by cases hs4⟩
          cases he2
          exact hE e2 hmaps
        | ok s3 =>
          obtain ⟨hwf3, hfix, hfirst, hloaded, hdepth⟩ := hO s3 hmaps
          have ws2 := (tree_wf_iff s2).1 hwf2
          have hrootout : root ∉ node_children s2.heap root := by
            intro hc
            have := (ws2.2.2 root hroot2 root hc).2
            rw [hpar2] at this
            cases this
          obtain ⟨hcellr, hroot3⟩ := hfix root hroot2 hrootout
          have hpar3 : node_parent s3.heap root = none := by
            simp only [node_parent, hcellr] at hpar2 ⊢
            exact hpar2
          have hsd4 : subtree_depth s3.heap root 4 := by
            rw [subtree_depth_iff]
            refine ⟨hroot3.1, fun c hc => ?_⟩
            have hc2 : c ∈ node_children s2.heap root := by
              simp only [node_children, hcellr] at hc ⊢
              exact hc
            exact hdepth c hc2
          obtain ⟨h4, hdef⟩ := node_expand_defined_total env.defined_expand efuel s3.heap root
            (subtree_depth_mono s3.heap root 4 hsd4 efuel he)
          have hres : parse_master env dfuel ifuel efuel (f + 1) s root master =
              .ok ⟨h4, s3.freed⟩ := by
            simp only [parse_master, hopen, hread, hinc, node_expand_direct_maps,
              node_expand_maps, hroot2.2, if_false, hmaps, hdef]
          rw [hres]
          refine ⟨fun e he2 => (by cases he2), fun s4 hs4 => ?_⟩
          cases hs4
          refine ⟨input, h1, s2, rfl, hread, hinc, ?_⟩
          have hrel := node_expand_defined_shape env.defined_expand efuel s3.heap root h4
            hdef
          have hspec := node_expand_defined_spec env.defined_expand efuel s3.heap s3.freed
            root h4 hwf3 hroot3 hdef
          have hlive : ∀ m, node_live s3 m → node_live ⟨h4, s3.freed⟩ m :=
            fun m hm => ⟨by simp only [hrel.1]; exact hm.1, hm.2⟩
          intro c hc
          obtain ⟨f1, f2, f3⟩ := hfirst c hc
          have hcr : c ≠ root := fun hx => hrootout (hx ▸ hc)
          refine ⟨hlive c f1, by rw [heap_relocated_parent _ _ hrel]; exact f2, ?_,
            fun L d1 d2 => ?_⟩
          · rw [← f3]
            exact (hspec c f1).1 ⟨node_under.step c root f2 node_under.self, hcr⟩
          · obtain ⟨t, t2, s1c, h1c, e1, e2, e3, e6, e7, e8, e9, e10⟩ := hloaded c hc L d1 d2
            refine ⟨t, t2, s1c, h1c, e1, e2, e3, e6, e7, e8, e9, fun x hx hu hxc => ?_⟩
            obtain ⟨g1, g2, g3⟩ := e10 x hx hu hxc
            refine ⟨hlive x g1, (heap_relocated_under _ _ hrel c x).2 g2, ?_⟩
            have hxr : x ≠ root := by
              intro hx2
              rw [hx2] at g2
              exact hcr (node_under_root s3.heap c root hpar3 g2)
            rw [(hspec x g1).1 ⟨node_under_top s3.heap c root x f2 g2, hxr⟩, g3]
            cases node_location s1c.heap x <;> rfl

/-- Witness of C23: the master file with the lines of a direct map
`auto_direct` and of `/home auto_home`, where the map `auto_direct` holds the
line `k /a hostA:/a /b hostB:/b` and `defined_expand` appends a `!`.  The run
returns; the locations of the two master entries end with one `!`, those of
the two entries of the loaded map with two. -/
theorem parse_master_expands_twice_witness :
    tree_wf ⟨(node_new_root []).1, []⟩ ∧ node_live ⟨(node_new_root []).1, []⟩ 0 ∧
    node_parent (node_new_root []).1 0 = none ∧ node_children (node_new_root []).1 0 = [] ∧
    2 ≤ 2 ∧ 2 ≤ 2 ∧ 4 ≤ 4 ∧ 1 ≤ 2 ∧
    parse_master example_map_env 2 2 4 2 ⟨(node_new_root []).1, []⟩ 0
      "/etc/auto_master".toList = .ok example_master_store ∧
    example_master_store.heap.map (·.n_location) =
      [none, some "auto_direct!".toList, some "auto_home!".toList, none,
       some "hostA:/a!!".toList, some "hostB:/b!!".toList] ∧
    ∃ (input : List lexeme) (h1 : node_heap) (s2 : node_store),
      example_map_env.fopen "/etc/auto_master".toList = some input ∧
      parse_master_yyin (node_new_root []).1 0 "/etc/auto_master".toList 0 input = .ok h1 ∧
      node_expand_includes example_map_env.includes true 2 ⟨h1, []⟩ 0 = .ok s2 ∧
      ∀ c ∈ node_children s2.heap 0,
        node_live example_master_store c ∧
        node_parent example_master_store.heap c = some 0 ∧
        node_location example_master_store.heap c =
          (node_location s2.heap c).map example_map_env.defined_expand ∧
        ∀ L, node_is_direct_map s2.heap 2 c = some true →
          node_location s2.heap c = some L →
          direct_map_loaded example_map_env 2 2 4 2 c L
            (fun location =>
              example_map_env.defined_expand (example_map_env.defined_expand location))
            example_master_store :=
  ⟨tree_wf_of_check _ (by decide), by decide, by decide, by decide, by decide, by decide,
    by decide, by decide, loaded_store_ok _ _ (by decide), by decide,
    (parse_master_expands_twice example_map_env 2 2 4 2 ⟨(node_new_root []).1, []⟩
      0 "/etc/auto_master".toList (tree_wf_of_check _ (by decide))
      (by decide) (by decide) (by decide) (by decide) (by decide) (by decide)
      (by decide)).2 example_master_store (loaded_store_ok _ _ (by decide))⟩

/-! ### Include expansion: the claim -/

/-- C13: `node_expand_includes`, run on a well formed tree whose part under
`root` is finite, with a bound for `node_delete` at least its depth, never
uses a bad pointer: it stops only with the fatal error of the step that runs
and parses the command of one of the include markers.  When it returns, the
tree is well formed and the queue of `root` is the concatenation, over the
children `root` had, in order, of the child itself when its key does not begin
with `+`, and otherwise of the children that the parse of the lexemes read
from the command of the marker put under the temporary root, in the order the
parse made them, whatever their keys; these have `root` as parent and keep
their entry and children, and the marker and the temporary root are
freed. -/
theorem node_expand_includes_spec (env : include_env) (is_master : Bool) (dfuel : Nat)
    (s : node_store) (root : Nat) (hwf : tree_wf s) (hroot : node_live s root)
    (hsd : subtree_depth s.heap root (dfuel + 1)) :
    (∀ e, node_expand_includes env is_master dfuel s root = .error e →
      e ≠ .undefined ∧ ∃ c ∈ node_children s.heap root, ∃ (nd : node) (h : node_heap),
        s.heap[c]? = some nd ∧ node_is_include nd = true ∧
        node_expand_includes_failure env is_master h nd.n_key e) ∧
    (∀ s2, node_expand_includes env is_master dfuel s root = .ok s2 →
      tree_wf s2 ∧ node_live s2 root ∧ ∃ pieces,
        List.Forall₂ (node_expand_includes_splice env is_master root s s2)
          (node_children s.heap root) pieces ∧
        node_children s2.heap root = pieces.flatten) := by
  have hok : ∀ (h h2 : node_heap) (key : cstring),
      node_expand_includes_parse env is_master h key = .ok h2 →
      env.access = 0 ∧ ∃ input : List lexeme,
        env.popen (env.AUTO_INCLUDE_PATH ++ ' ' :: key.tail) = some (input, 0) ∧
        (if is_master then
            parse_master_yyin (node_new_root h).1 h.length
              (env.AUTO_INCLUDE_PATH ++ ' ' :: key.tail) 0 input
          else
            parse_map_yyin (node_new_root h).1 h.length
              (env.AUTO_INCLUDE_PATH ++ ' ' :: key.tail) 0 input) = .ok h2 := by
    intro h h2 key hparse
    simp only [node_expand_includes_parse] at hparse
    split at hparse
    · cases hparse
    · rename_i hacc
      split at hparse
      · cases hparse
      · rename_i input status hpopen
        split at hparse
        · cases hparse
        · rename_i h3 hy
          split at hparse
          · cases hparse
          · rename_i hst
            cases hparse
            have hs0 : status = 0 := by
              by_contra hc
              exact hst hc
            rw [hs0] at hpopen
            exact ⟨by simpa using hacc, input, hpopen, hy⟩
  have hfail : ∀ (h : node_heap) (key : cstring) (e : expand_error),
      node_expand_includes_parse env is_master h key = .error e →
      node_expand_includes_failure env is_master h key e := by
    intro h key e hparse
    simp only [node_expand_includes_parse] at hparse
    split at hparse
    · rename_i hacc
      cases hparse
      exact Or.inl ⟨hacc, rfl⟩
    · rename_i hacc
      have hacc0 : env.access = 0 := by simpa using hacc
      split at hparse
      · rename_i hpopen
        cases hparse
        exact Or.inr (Or.inl ⟨hacc0, hpopen, rfl⟩)
      · rename_i input status hpopen
        refine Or.inr (Or.inr ⟨hacc0, input, status, hpopen, ?_⟩)
        split at hparse
        · rename_i pe hy
          cases hparse
          exact Or.inl ⟨pe, hy, rfl⟩
        · rename_i h3 hy
          split at hparse
          · rename_i hst
            cases hparse
            exact Or.inr ⟨h3, hy, hst, rfl⟩
          · cases hparse
  have h := node_expand_includes_loop_spec env is_master dfuel s root hwf hroot hsd
    (node_children s.heap root) [] [] s rfl hwf hroot (Nat.le_refl _) List.Forall₂.nil
    (by simp) (fun c hc m hm =>
      ⟨rfl, (node_reach_live s hwf c m (((tree_wf_iff s).1 hwf).2.2 root hroot c hc).1 hm).1⟩)
  simp only [node_expand_includes, hroot.2, if_false]
  refine ⟨fun e he => ?_, fun s2 hs2 => ?_⟩
  · obtain ⟨e1, c, hc, nd, h0, e2, e3, e4⟩ := h.1 e he
    exact ⟨e1, c, hc, nd, h0, e2, e3, hfail h0 nd.n_key e e4⟩
  obtain ⟨g1, g2, pieces, g3, g4⟩ := h.2 s2 hs2
  rw [List.nil_append] at g3
  refine ⟨g1, g2, pieces, g3.imp (fun c piece hp => ?_), g4⟩
  obtain ⟨nd, hnd, p1, p2⟩ := hp
  refine ⟨nd, hnd, p1, fun hinc => ?_⟩
  obtain ⟨e1, h0, h2h, e2, e3, e4, e5, e6⟩ := p2 hinc
  obtain ⟨a1, input, a2, a3⟩ := hok h0 h2h nd.n_key e3
  exact ⟨e1, h0, h2h, input, e2, a1, a2, a3, e4, e5, e6⟩

/-- Witness of C13: the master tree with children `A`, `+inc`, `B`, where the
command of `+inc` prints the lines `X mapX` and `Y mapY`; the run returns, and
the children of the root are then `A`, `X`, `Y`, `B`. -/
theorem node_expand_includes_spec_witness :
    tree_wf example_include_store ∧ node_live example_include_store 0 ∧
    subtree_depth example_include_store.heap 0 2 ∧
    node_expand_includes example_include_env true 1 example_include_store 0 =
      .ok example_include_result ∧
    node_child_keys example_include_store 0 = ["A".toList, "+inc".toList, "B".toList] ∧
    node_child_keys example_include_result 0 =
      ["A".toList, "X".toList, "Y".toList, "B".toList] ∧
    tree_wf example_include_result ∧ node_live example_include_result 0 ∧ ∃ pieces,
      List.Forall₂ (node_expand_includes_splice example_include_env true 0
        example_include_store example_include_result)
        (node_children example_include_store.heap 0) pieces ∧
      node_children example_include_result.heap 0 = pieces.flatten :=
  ⟨tree_wf_of_check _ (by decide), by decide, subtree_depth_of_within _ 2 0 (by decide),
    store_of_ok _ _ (by decide), by decide, by decide,
    (node_expand_includes_spec example_include_env true 1 example_include_store 0
      (tree_wf_of_check _ (by decide)) (by decide)
      (subtree_depth_of_within _ 2 0 (by decide))).2 example_include_result
      (store_of_ok _ _ (by decide))⟩

/-! ### Complete entries -/

end Autofs
